import Mathlib

/-!
# The SEGA coalescing cache (`CoalesceEngine`)

A shallow embedding of `src/accl/graph/sega/coalesce_engine_bak.cc`.

* The engine's member variables are the fields of `State`; every member function is a
  function from a state (and the current tick `now`, the value of `curTick()`) to a new state.
* A failed `assert` aborts the simulator.  Member functions therefore return
  `Except Fault _`; the fault records the source line of the assertion that fired, or of an
  access outside an array.
* `Addr` and `Tick` are `uint64_t`: they are natural numbers, and arithmetic that can leave
  the 64-bit range is reduced modulo `2 ^ 64` where it happens.  Values of C++ type `int`
  are integers.
* Statistics counters and debug printing have no effect on the engine and are left out.
* Calls into the memory port and into the owning MPU are recorded in output traces.
-/

namespace gem5

/-! ## Data model -/

/-- The four `uint32_t` fields of a work-list item (`accl/graph/base`). -/
structure WorkListItem where
  tempProp : Nat := 0
  prop : Nat := 0
  degree : Nat := 0
  edgeIndex : Nat := 0
deriving DecidableEq, Repr

/-- The value of `sizeof(WorkListItem)`: four 32-bit fields. -/
def sizeofWorkListItem : Nat := 16

/-- Modelled from the spec: the line descriptor `Block`.  Its declaration (in
`coalesce_engine.hh`) is not among the sources; the fields are the ones the engine reads and
writes, and the spec lists them in its data model.  `items` is the array of
`numElementsPerLine` slots, `busyMask` a `uint64_t`. -/
structure Block where
  addr : Nat := 0
  items : List WorkListItem := []
  busyMask : Nat := 0
  valid : Bool := false
  needsWB : Bool := false
  needsApply : Bool := false
  pendingData : Bool := false
  pendingApply : Bool := false
  pendingWB : Bool := false
  lastChangedTick : Nat := 0
deriving DecidableEq, Repr

/-- The deferred operations that are pushed on `memoryFunctionQueue` (the lambdas of the
source, named after the member function each one calls). -/
inductive MemoryFunction where
  | nextRead
  | nextWriteBack
  | nextPostPushWB
  | nextVertexPull
deriving DecidableEq, Repr

/-- One entry of `memoryFunctionQueue`: the function, its `int` input and the tick at which
it was scheduled. -/
structure MemoryFunctionEntry where
  fn : MemoryFunction
  input : Int
  tick : Nat
deriving DecidableEq, Repr

/-- A request handed to the memory port by `memPort.sendPacket`. -/
inductive MemPacket where
  | read (addr : Nat) (size : Nat) (pull : Bool)
  | write (addr : Nat) (size : Nat) (data : List WorkListItem)
deriving DecidableEq, Repr

/-- A call into the owning MPU. -/
inductive OwnerCall where
  | handleIncomingWL (addr : Nat) (wl : WorkListItem)
  | recvVertexPush (addr : Nat) (delta : Nat) (edgeIndex : Nat) (degree : Nat)
  | recvPrevPullCorrection
  | start
  | recvDoneSignal
deriving DecidableEq, Repr

/-- Why a member function did not return: an `assert` failed, or an array or container was
accessed where it has no element.  The number is the line of `coalesce_engine_bak.cc`. -/
inductive Fault where
  | assertion (line : Nat)
  | undefined (line : Nat)
deriving DecidableEq, Repr

/-- The parameters of the engine, the properties of its peer memory and of its clock, and
the workload it is given.  The workload's functions are virtual functions whose
implementations are not among the sources, so they are parameters.  `preWBApply` and
`prePushApply` receive the item as an lvalue of the line and may change it; they return the
item they leave behind.  `workloadInit` is `GraphWorkload::init`, which may change the
work bitvector, the active list and the work count that it is handed by reference.
`removeIntlvBits` and `addIntlvBits` belong to the peer's address range and
`ticksToCycles` to the clock: `divCeil(t, clockPeriod)` unless said otherwise. -/
structure Config where
  cacheSize : Nat
  peerMemoryAtomSize : Nat
  numMSHREntries : Nat
  numTgtsPerMSHR : Nat
  maxRespPerCycle : Nat := 1
  postPushWBQueueSize : Nat := 0
  clockPeriod : Nat := 1000
  maxBitvectorSize : Nat := 0
  removeIntlvBits : Nat → Nat := id
  addIntlvBits : Nat → Nat := id
  applyCondition : WorkListItem → Bool := fun _ => false
  preWBApply : WorkListItem → Bool × WorkListItem := fun wl => (false, wl)
  prePushApply : WorkListItem → (Nat × Bool × Bool) × WorkListItem :=
    fun wl => ((0, false, false), wl)
  workloadInit : Nat → List WorkListItem → Int → List Bool × List Int × Int →
      List Bool × List Int × Int :=
    fun _ _ _ x => x
  ticksToCycles : Nat → Nat := fun t => (t + (clockPeriod - 1)) / clockPeriod

/-- The constructor's `numLines = (int) (cache_size / peerMemoryAtomSize)`. -/
def Config.numLines (c : Config) : Nat := c.cacheSize / c.peerMemoryAtomSize

/-- The constructor's `numElementsPerLine = (int) (peerMemoryAtomSize / sizeof(WorkListItem))`. -/
def Config.numElementsPerLine (c : Config) : Nat := c.peerMemoryAtomSize / sizeofWorkListItem

/-- The member variables of `CoalesceEngine`.  `MSHR` is the `unordered_map` from block index
to target list, kept as an association list with at most one pair per key;
`pendingVertexPullReads` likewise.  The four booleans about events tell whether the event is
scheduled (and, for the memory event, asleep waiting for a retry).  `ownerRunning` is the
answer of `owner->running()` and `memPortBlocked` that of `memPort.blocked()`; the last three
fields record what has been sent to the memory port (timing and functional) and the calls
made into the owner. -/
structure State where
  cacheBlocks : List Block := []
  MSHR : List (Int × List Nat) := []
  responseQueue : List (Nat × WorkListItem × Nat) := []
  applyQueue : List Int := []
  memoryFunctionQueue : List MemoryFunctionEntry := []
  postPushWBQueue : List (MemPacket × Nat) := []
  pendingVertexPullReads : List (Nat × Nat) := []
  needsPush : List Bool := []
  activeBits : List Int := []
  workCount : Int := 0
  numPullsReceived : Int := 0
  maxPotentialPostPushWB : Int := 0
  onTheFlyReqs : Int := 0
  nextMemoryEventScheduled : Bool := false
  nextMemoryEventPending : Bool := false
  nextResponseEventScheduled : Bool := false
  nextPreWBApplyEventScheduled : Bool := false
  ownerRunning : Bool := false
  memPortBlocked : Bool := false
  memPortSent : List MemPacket := []
  memPortFunctional : List MemPacket := []
  ownerCalls : List OwnerCall := []
deriving DecidableEq, Repr

/-! ## Helpers -/

/-- The check `assert(b)` on line `line`. -/
def assert (b : Bool) (line : Nat) : Except Fault Unit :=
  if b then .ok () else .error (.assertion line)

/-- The conversion `(int) x` of an unsigned 64-bit value: the low 32 bits, read as two's
complement. -/
def toInt32 (x : Nat) : Int :=
  if x % 2 ^ 32 < 2 ^ 31 then (x % 2 ^ 32 : Nat) else ((x % 2 ^ 32 : Nat) : Int) - 2 ^ 32

/-- The library function `roundDown(val, align)` for `align` a power of two. -/
def roundDown (val align : Nat) : Nat := val - val % align

/-- The result of `CoalesceEngine::getBlockIndex` when its assertion holds: C++ `%` on `int`
truncates towards zero. -/
def blockIndexOf (c : Config) (addr : Nat) : Int :=
  Int.tmod (toInt32 (c.removeIntlvBits addr / c.peerMemoryAtomSize)) (c.numLines : Int)

/-- The member function `CoalesceEngine::getBlockIndex`. -/
def getBlockIndex (c : Config) (addr : Nat) : Except Fault Int := do
  assert (addr % c.peerMemoryAtomSize == 0) 121
  pure (blockIndexOf c addr)

/-- The local `wl_offset = (addr - aligned_addr) / sizeof(WorkListItem)`. -/
def wlOffsetOf (c : Config) (addr : Nat) : Nat :=
  (addr - roundDown addr c.peerMemoryAtomSize) / sizeofWorkListItem

/-- The element `cacheBlocks[i]`, when there is one. -/
def State.block? (s : State) (i : Int) : Option Block :=
  if i < 0 then none else s.cacheBlocks[i.toNat]?

/-- The element `cacheBlocks[i]`; reading outside the array is a fault. -/
def State.block (s : State) (i : Int) (line : Nat) : Except Fault Block :=
  match s.block? i with
  | some b => .ok b
  | none => .error (.undefined line)

/-- The state in which `cacheBlocks[i]` has been overwritten by `b`. -/
def State.setBlock (s : State) (i : Int) (b : Block) : State :=
  { s with cacheBlocks := s.cacheBlocks.set i.toNat b }

/-- The lookup `MSHR.find(k)`. -/
def mshrFind (m : List (Int × List Nat)) (k : Int) : Option (List Nat) :=
  match m with
  | [] => none
  | (k', ts) :: rest => if k' = k then some ts else mshrFind rest k

/-- The statement `MSHR[k].push_back(a)`: `operator[]` creates an empty target list when the
key is absent. -/
def mshrPushBack (m : List (Int × List Nat)) (k : Int) (a : Nat) : List (Int × List Nat) :=
  match m with
  | [] => [(k, [a])]
  | (k', ts) :: rest =>
    if k' = k then (k', ts ++ [a]) :: rest else (k', ts) :: mshrPushBack rest k a

/-- The size `MSHR[k].size()`, which is zero when the key is absent (`operator[]` then
creates the entry; every caller goes on to push a target on it). -/
def mshrTargets (m : List (Int × List Nat)) (k : Int) : List Nat :=
  (mshrFind m k).getD []

/-- The value `1 << i` as it enters the 64-bit `busyMask`, for a slot `i < 31`, where the
`int` shift is the power of two.  The slot `i` is below `numElementsPerLine`, so this is
the value of the source for lines of fewer than 32 slots.  (At `i = 31` the `int` result is
negative and its conversion sets the bits 31 to 63, and from 32 on the shift is undefined.) -/
def bit (i : Nat) : Nat := 1 <<< i

/-- The update `mask &= ~(1 << i)` on a `uint64_t`, for a slot `i < 31`: the `int` value
`~(1 << i)` converts to the 64-bit mask with the single bit `i` clear. -/
def clearBit (mask i : Nat) : Nat := mask &&& (2 ^ 64 - 1 - bit i)

/-- A sum of two ticks in the 64-bit type `Tick`. -/
def tickAdd (a b : Nat) : Nat := (a + b) % 2 ^ 64

/-- The line descriptor written by every path that claims a line for `aligned_addr`: the
nine assignments `addr = aligned_addr; valid = false; busyMask = 0; ...;
pendingData = true; ...; lastChangedTick = curTick()`.  The items are not touched. -/
def Block.claim (b : Block) (aligned_addr now : Nat) : Block :=
  { b with addr := aligned_addr, valid := false, busyMask := 0, needsWB := false,
           needsApply := false, pendingData := true, pendingApply := false,
           pendingWB := false, lastChangedTick := now }

/-- The lines `if ((!nextMemoryEvent.pending()) && (!nextMemoryEvent.scheduled()))
schedule(nextMemoryEvent, nextCycle());`. -/
def State.scheduleMemoryEvent (s : State) : State :=
  if !s.nextMemoryEventPending && !s.nextMemoryEventScheduled then
    { s with nextMemoryEventScheduled := true }
  else s

/-- The statement `memoryFunctionQueue.emplace_back(fn, input, curTick())`. -/
def State.pushMemoryFunction (s : State) (fn : MemoryFunction) (input : Int) (now : Nat) :
    State :=
  { s with memoryFunctionQueue := s.memoryFunctionQueue ++ [⟨fn, input, now⟩] }

/-! ## `CoalesceEngine::recvWLRead` -/

/-- The member function `CoalesceEngine::recvWLRead` (lines 146-439). -/
def recvWLRead (c : Config) (now : Nat) (s : State) (addr : Nat) :
    Except Fault (Bool × State) := do
  let aligned_addr := roundDown addr c.peerMemoryAtomSize
  assert (aligned_addr % c.peerMemoryAtomSize == 0) 150
  let block_index ← getBlockIndex c aligned_addr
  assert (block_index < c.numLines) 152
  let wl_offset := (addr - aligned_addr) / sizeofWorkListItem
  assert (wl_offset < c.numElementsPerLine) 154
  let blk ← s.block block_index 162
  if blk.addr == aligned_addr && blk.valid then
    -- hit
    assert (!blk.pendingData) 166
    assert (!(blk.pendingApply && blk.pendingWB)) 169
    match blk.items[wl_offset]? with
    | none => .error (.undefined 176)
    | some item =>
      let s1 := { s with responseQueue := s.responseQueue ++ [(addr, item, now)] }
      let blk1 := { blk with busyMask := blk.busyMask ||| bit wl_offset,
                             pendingApply := false, pendingWB := false,
                             lastChangedTick := tickAdd now (c.clockPeriod / 2) }
      let s2 := s1.setBlock block_index blk1
      pure (true, { s2 with nextResponseEventScheduled := true })
  else if blk.addr == aligned_addr && blk.pendingData then
    -- hit under miss
    assert (!blk.valid) 218
    assert (blk.busyMask == 0) 219
    assert (!blk.needsWB) 220
    assert (!blk.needsApply) 221
    assert (!blk.pendingApply) 222
    assert (!blk.pendingWB) 223
    assert (s.MSHR.length ≤ c.numMSHREntries) 225
    assert ((mshrFind s.MSHR block_index).isSome) 226
    assert ((mshrTargets s.MSHR block_index).length ≤ c.numTgtsPerMSHR) 227
    if (mshrTargets s.MSHR block_index).length == c.numTgtsPerMSHR then
      pure (false, s)
    else
      pure (true, { s with MSHR := mshrPushBack s.MSHR block_index addr })
  else
    -- miss
    assert (blk.addr != aligned_addr) 252
    assert (s.MSHR.length ≤ c.numMSHREntries) 253
    if (mshrFind s.MSHR block_index).isNone then
      if s.MSHR.length == c.numMSHREntries then
        pure (false, s)
      else if blk.valid || blk.pendingData then
        -- conflict
        if blk.valid && blk.busyMask == 0 && !blk.pendingApply && !blk.pendingWB then
          -- idle
          assert (!blk.needsApply) 300
          assert (!blk.pendingData) 301
          assert ((mshrFind s.MSHR block_index).isNone) 303
          if blk.needsWB then
            let blk1 := { blk with pendingWB := true, lastChangedTick := now }
            let s1 := (s.setBlock block_index blk1).pushMemoryFunction .nextWriteBack
                        block_index now
            let s2 := s1.scheduleMemoryEvent
            pure (true, { s2 with MSHR := mshrPushBack s2.MSHR block_index addr })
          else
            let blk1 := blk.claim aligned_addr now
            let s1 := (s.setBlock block_index blk1).pushMemoryFunction .nextRead
                        block_index now
            let s2 := s1.scheduleMemoryEvent
            pure (true, { s2 with MSHR := mshrPushBack s2.MSHR block_index addr })
        else
          pure (true, { s with MSHR := mshrPushBack s.MSHR block_index addr })
      else
        -- no conflict: allocate the line
        assert (!blk.valid) 368
        assert (blk.busyMask == 0) 369
        assert (!blk.needsWB) 370
        assert (!blk.needsApply) 371
        assert (!blk.pendingData) 372
        assert (!blk.pendingApply) 373
        assert (!blk.pendingWB) 374
        assert ((mshrTargets s.MSHR block_index).length == 0) 375
        let blk1 := blk.claim aligned_addr now
        let s1 := s.setBlock block_index blk1
        let s2 := { s1 with MSHR := mshrPushBack s1.MSHR block_index addr }
        let s3 := s2.pushMemoryFunction .nextRead block_index now
        pure (true, s3.scheduleMemoryEvent)
    else
      assert ((mshrTargets s.MSHR block_index).length ≤ c.numTgtsPerMSHR) 416
      assert ((mshrTargets s.MSHR block_index).length > 0) 417
      if (mshrTargets s.MSHR block_index).length == c.numTgtsPerMSHR then
        pure (false, s)
      else
        pure (true, { s with MSHR := mshrPushBack s.MSHR block_index addr })

/-! ## `CoalesceEngine::recvWLWrite` -/

/-- The member function `CoalesceEngine::recvWLWrite` (lines 648-769). -/
def recvWLWrite (c : Config) (now : Nat) (s : State) (addr : Nat) (wl : WorkListItem) :
    Except Fault State := do
  let aligned_addr := roundDown addr c.peerMemoryAtomSize
  let block_index ← getBlockIndex c aligned_addr
  let wl_offset := (addr - aligned_addr) / sizeofWorkListItem
  let blk ← s.block block_index 665
  assert (blk.addr == aligned_addr) 665
  assert blk.valid 667
  assert (blk.busyMask != 0) 668
  assert (!blk.pendingData) 669
  assert (!blk.pendingApply) 670
  assert (!blk.pendingWB) 671
  assert ((blk.busyMask &&& bit wl_offset) == bit wl_offset) 674
  match blk.items[wl_offset]? with
  | none => .error (.undefined 677)
  | some old =>
    -- `if (wl.tempProp != old.tempProp) needsWB |= true;`
    let blk1 := { blk with needsWB := blk.needsWB || (wl.tempProp != old.tempProp) }
    let blk2 := { blk1 with items := blk1.items.set wl_offset wl }
    -- `if (applyCondition(wl)) { needsApply |= true; needsWB |= true; }`
    let blk3 := { blk2 with needsApply := blk2.needsApply || c.applyCondition wl,
                            needsWB := blk2.needsWB || c.applyCondition wl }
    let blk4 := { blk3 with busyMask := clearBit blk3.busyMask wl_offset,
                            lastChangedTick := now }
    if blk4.busyMask == 0 then
      if blk4.needsApply then
        let blk5 := { blk4 with pendingApply := true, lastChangedTick := now }
        let s1 := s.setBlock block_index blk5
        pure { s1 with applyQueue := s1.applyQueue ++ [block_index],
                       nextPreWBApplyEventScheduled := true }
      else
        assert (s.MSHR.length ≤ c.numMSHREntries) 709
        match mshrFind s.MSHR block_index with
        | some tgts =>
          -- the line has a pending conflict
          if blk4.needsWB then
            let blk5 := { blk4 with pendingWB := true, lastChangedTick := now }
            let s1 := (s.setBlock block_index blk5).pushMemoryFunction .nextWriteBack
                        block_index now
            pure s1.scheduleMemoryEvent
          else
            match tgts.head? with
            | none => .error (.undefined 733)
            | some miss_addr =>
              let aligned_miss_addr := roundDown miss_addr c.peerMemoryAtomSize
              let blk5 := blk4.claim aligned_miss_addr now
              let s1 := (s.setBlock block_index blk5).pushMemoryFunction .nextRead
                          block_index now
              pure s1.scheduleMemoryEvent
        | none => pure (s.setBlock block_index blk4)
    else
      pure (s.setBlock block_index blk4)

/-! ## Construction and well-formedness -/

/-- The library predicate `isPowerOf2(n)`: `n && !(n & (n - 1))`. -/
def isPowerOf2 (n : Nat) : Bool := n != 0 && (n &&& (n - 1)) == 0

/-- Modelled from the spec: the value `Block(num_elements)` that the constructor stores in
every line.  The constructor of `Block` is not among the sources.  All flags are clear and
the mask is zero (the line is Empty); the address is 0, as the comment on lines 248-251 of
`coalesce_engine_bak.cc` records ("cache block addr field is initialized to 0"). -/
def Block.init (num_elements : Nat) : Block :=
  { addr := 0, items := List.replicate num_elements {}, busyMask := 0, valid := false,
    needsWB := false, needsApply := false, pendingData := false, pendingApply := false,
    pendingWB := false, lastChangedTick := 0 }

/-- The constructor `CoalesceEngine::CoalesceEngine` (lines 44-70). -/
def CoalesceEngine (c : Config) : Except Fault State := do
  assert (isPowerOf2 c.numLines && isPowerOf2 c.numElementsPerLine) 64
  pure { cacheBlocks := List.replicate c.numLines (Block.init c.numElementsPerLine),
         needsPush := List.replicate c.maxBitvectorSize false }

/-- The configurations the constructor accepts, with a line that is a whole number of
work-list items (the peer memory's atom is a power of two of at least one item). -/
def Config.wf (c : Config) : Prop :=
  isPowerOf2 c.numLines = true ∧ isPowerOf2 c.numElementsPerLine = true ∧
  sizeofWorkListItem ∣ c.peerMemoryAtomSize

instance (c : Config) : Decidable c.wf := by unfold Config.wf; infer_instance

/-- The arrays of a state have the sizes the constructor gave them, `numLines` lines of
`numElementsPerLine` items each, and every `busyMask` is a 64-bit value. -/
def State.wf (c : Config) (s : State) : Prop :=
  s.cacheBlocks.length = c.numLines ∧
  ∀ b ∈ s.cacheBlocks, b.items.length = c.numElementsPerLine ∧ b.busyMask < 2 ^ 64

instance (c : Config) (s : State) : Decidable (s.wf c) := by unfold State.wf; infer_instance

/-- The bounds that the engine asserts on its MSHR table whenever it looks at it: at most
`numMSHREntries` entries, each with at least one and at most `numTgtsPerMSHR` targets. -/
def State.mshrBounded (c : Config) (s : State) : Prop :=
  s.MSHR.length ≤ c.numMSHREntries ∧
  ∀ e ∈ s.MSHR, e.2 ≠ [] ∧ e.2.length ≤ c.numTgtsPerMSHR

instance (c : Config) (s : State) : Decidable (s.mshrBounded c) := by
  unfold State.mshrBounded; infer_instance

/-! ## The rest of the engine -/

/-- A response handed to `handleMemResp` by the memory port: a write acknowledgement, or a
read response with the items of one line; `pull` tells whether the packet carries the
`SenderState` of a pull read. -/
inductive MemResponse where
  | write (addr : Nat)
  | read (addr : Nat) (items : List WorkListItem) (pull : Bool)
deriving DecidableEq, Repr

/-- The enumeration `WorkLocation`. -/
inductive WorkLocation where
  | PENDING_READ
  | IN_CACHE
  | IN_MEMORY
  | GARBAGE
deriving DecidableEq, Repr

/-- The member function `CoalesceEngine::getBitIndexBase`. -/
def getBitIndexBase (c : Config) (addr : Nat) : Except Fault Int := do
  assert (addr % c.peerMemoryAtomSize == 0) 130
  let atom_index := toInt32 (c.removeIntlvBits addr / c.peerMemoryAtomSize)
  let block_bits := toInt32 (c.peerMemoryAtomSize / sizeofWorkListItem)
  pure (atom_index * block_bits)

/-- The member function `CoalesceEngine::getBlockAddrFromBitIndex`; the product
`index * sizeof(WorkListItem)` is taken in the unsigned 64-bit type. -/
def getBlockAddrFromBitIndex (c : Config) (index : Int) : Except Fault Nat := do
  assert (Int.tmod index (toInt32 (c.peerMemoryAtomSize / sizeofWorkListItem)) == 0) 141
  let trimmed_addr := ((index * (sizeofWorkListItem : Int)) % (2 ^ 64 : Int)).toNat
  pure (c.addIntlvBits trimmed_addr)

/-- The element `needsPush[i]` of the bitset; outside the bitset it is a fault. -/
def needsPushGet (np : List Bool) (i : Int) (line : Nat) : Except Fault Bool :=
  if i < 0 then .error (.undefined line)
  else match np[i.toNat]? with
    | some b => .ok b
    | none => .error (.undefined line)

/-- The lookup `pendingVertexPullReads.find(addr)`. -/
def pullFind (m : List (Nat × Nat)) (addr : Nat) : Option Nat :=
  match m with
  | [] => none
  | (a, mask) :: rest => if a = addr then some mask else pullFind rest addr

/-- The assignment `pendingVertexPullReads[addr] = mask`. -/
def pullSet (m : List (Nat × Nat)) (addr mask : Nat) : List (Nat × Nat) :=
  match m with
  | [] => [(addr, mask)]
  | (a, old) :: rest => if a = addr then (a, mask) :: rest else (a, old) :: pullSet rest addr mask

/-- The member function `CoalesceEngine::done`. -/
def done (s : State) : Bool :=
  s.applyQueue.isEmpty && s.needsPush.all (fun b => !b) &&
    s.memoryFunctionQueue.isEmpty && s.onTheFlyReqs == 0

/-- The lines `if ((!nextResponseEvent.scheduled()) && (!responseQueue.empty()))
schedule(nextResponseEvent, nextCycle());`. -/
def State.scheduleResponseEvent (s : State) : State :=
  if !s.nextResponseEventScheduled && !s.responseQueue.isEmpty then
    { s with nextResponseEventScheduled := true }
  else s

/-- The call `memPort.sendPacket(pkt)`. -/
def State.sendPacket (s : State) (pkt : MemPacket) : State :=
  { s with memPortSent := s.memPortSent ++ [pkt] }

/-- The loop of lines 470-493 of `handleMemResp` over the slots `i, i + 1, ...` of a
pull-read response (`n` slots remain): the vertices named by the send mask are taken off the
work bitvector and handed to the push engine.  The packet's items and `do_wb` are threaded
through. -/
def pullRespLoop (c : Config) (addr : Nat) (it : Int) (send_mask : Nat) :
    Nat → Nat → State → List WorkListItem → Bool →
    Except Fault (State × List WorkListItem × Bool)
  | 0, _, s, items, do_wb => pure (s, items, do_wb)
  | n + 1, i, s, items, do_wb => do
    let vertex_addr := addr + i * sizeofWorkListItem
    if send_mask &&& bit i != 0 then
      let b ← needsPushGet s.needsPush (it + i) 474
      assert (b == true) 474
      let s1 := { s with needsPush := s.needsPush.set (it + i).toNat false,
                         workCount := s.workCount - 1 }
      match items[i]? with
      | none => .error (.undefined 481)
      | some item =>
        let ((delta, do_push, do_wb_v), item1) := c.prePushApply item
        let call :=
          if do_push then OwnerCall.recvVertexPush vertex_addr delta item1.edgeIndex
            item1.degree
          else OwnerCall.recvPrevPullCorrection
        let s2 := { s1 with ownerCalls := s1.ownerCalls ++ [call] }
        pullRespLoop c addr it send_mask n (i + 1) s2 (items.set i item1) (do_wb || do_wb_v)
    else
      pullRespLoop c addr it send_mask n (i + 1) s items do_wb

/-- The walk over the MSHR targets of a line that has just been filled (lines 546-580 of
`handleMemResp`): every target of the line's address gets a response and a busy bit and is
erased; the others stay, in order.  The result is the line, the response queue and the
targets that remain. -/
def fillTargets (c : Config) (now addr : Nat) :
    List Nat → Block → List (Nat × WorkListItem × Nat) →
    Except Fault (Block × List (Nat × WorkListItem × Nat) × List Nat)
  | [], blk, rq => pure (blk, rq, [])
  | miss_addr :: rest, blk, rq => do
    let aligned_miss_addr := roundDown miss_addr c.peerMemoryAtomSize
    if aligned_miss_addr == addr then
      let wl_offset := (miss_addr - aligned_miss_addr) / sizeofWorkListItem
      match blk.items[wl_offset]? with
      | none => .error (.undefined 558)
      | some item =>
        fillTargets c now addr rest
          { blk with busyMask := blk.busyMask ||| bit wl_offset }
          (rq ++ [(miss_addr, item, now)])
    else do
      let (blk1, rq1, left) ← fillTargets c now addr rest blk rq
      pure (blk1, rq1, miss_addr :: left)

/-- The table in which the target list of the existing key `k` has been replaced by
`targets` (the effect of erasing from `MSHR[k]` in place). -/
def mshrReplace (m : List (Int × List Nat)) (k : Int) (targets : List Nat) :
    List (Int × List Nat) :=
  match m with
  | [] => []
  | (k', ts) :: rest =>
    if k' = k then (k', targets) :: rest else (k', ts) :: mshrReplace rest k targets

/-- The statement `MSHR.erase(k)`. -/
def mshrErase (m : List (Int × List Nat)) (k : Int) : List (Int × List Nat) :=
  m.filter (fun e => e.1 != k)

/-- The lines `if (MSHR[k].empty()) MSHR.erase(k);`: an entry without targets is removed
(and an absent one is created by `operator[]` and removed again). -/
def mshrCleanup (m : List (Int × List Nat)) (k : Int) : List (Int × List Nat) :=
  if (mshrTargets m k).isEmpty then mshrErase m k else m

/-- The pull part of `handleMemResp` (lines 459-496), for a response that carries the
`SenderState` of a pull read; `blk` is `cacheBlocks[block_index]`.  The result is the state,
the packet's items as `prePushApply` leaves them, and `do_wb`. -/
def handlePullResp (c : Config) (s : State) (addr : Nat) (blk : Block)
    (pkt_items : List WorkListItem) : Except Fault (State × List WorkListItem × Bool) := do
  assert (!(blk.addr == addr && blk.valid)) 460
  let it ← getBitIndexBase c addr
  let send_mask := (pullFind s.pendingVertexPullReads addr).getD 0
  let (s1, items, do_wb) ←
    pullRespLoop c addr it send_mask c.numElementsPerLine 0 s pkt_items false
  pure ({ s1 with
          pendingVertexPullReads := s1.pendingVertexPullReads.filter (fun e => e.1 != addr),
          maxPotentialPostPushWB := s1.maxPotentialPostPushWB - 1 },
        items, do_wb)

/-- The cache-fill part of `handleMemResp` (lines 499-525 and 545-581), for a response whose
address is the address of `blk`, the line `cacheBlocks[block_index]`. -/
def handleFill (c : Config) (now : Nat) (s : State) (block_index : Int) (blk : Block)
    (addr : Nat) (items : List WorkListItem) (do_wb : Bool) : Except Fault State := do
  assert (!blk.valid) 504
  assert (blk.busyMask == 0) 505
  assert (!blk.needsWB) 506
  assert (!blk.needsApply) 507
  assert blk.pendingData 508
  assert (!blk.pendingApply) 509
  assert (!blk.pendingWB) 510
  assert ((mshrFind s.MSHR block_index).isSome) 511
  let blk1 := { blk with items := items, valid := true,
                         needsWB := blk.needsWB || do_wb, pendingData := false,
                         lastChangedTick :=
                           (now + 2 ^ 64 - (c.clockPeriod / 2) % 2 ^ 64) % 2 ^ 64 }
  let (blk2, rq, left) ←
    fillTargets c now addr (mshrTargets s.MSHR block_index) blk1 s.responseQueue
  pure { (s.setBlock block_index blk2) with
         responseQueue := rq, MSHR := mshrReplace s.MSHR block_index left }

/-- The lines 526-537 of `handleMemResp`: the items of a pull read that need a writeback and
are not being cached are queued as a post-push writeback. -/
def queuePostPushWB (c : Config) (now : Nat) (s : State) (addr : Nat)
    (items : List WorkListItem) : State :=
  let s1 := { s with postPushWBQueue :=
                s.postPushWBQueue ++ [(MemPacket.write addr c.peerMemoryAtomSize items, now)] }
  (s1.pushMemoryFunction .nextPostPushWB 0 now).scheduleMemoryEvent

/-- The member function `CoalesceEngine::handleMemResp` (lines 441-596). -/
def handleMemResp (c : Config) (now : Nat) (s : State) (pkt : MemResponse) :
    Except Fault (Bool × State) :=
  match pkt with
  | .write _ => pure (true, s)
  | .read addr pkt_items pull => do
    let s0 := { s with onTheFlyReqs := s.onTheFlyReqs - 1 }
    let block_index ← getBlockIndex c addr
    let blk ← s0.block block_index 460
    let r ← (if pull then handlePullResp c s0 addr blk pkt_items
             else pure (s0, pkt_items, false))
    let s2 ←
      (if blk.addr == addr then handleFill c now r.1 block_index blk addr r.2.1 r.2.2
       else if r.2.2 then pure (queuePostPushWB c now r.1 addr r.2.1)
       else pure r.1)
    let s3 := { s2 with MSHR := mshrCleanup s2.MSHR block_index }
    pure (true, s3.scheduleResponseEvent)

/-- The loop of `processNextResponseEvent` (lines 607-640) once the queue is known to be
non-empty: `sent` responses have been handed over so far. -/
def responseLoop (c : Config) (now : Nat) :
    List (Nat × WorkListItem × Nat) → Nat → List OwnerCall →
    List (Nat × WorkListItem × Nat) × List OwnerCall
  | [], _, calls => ([], calls)
  | (addr_response, worklist_response, response_queueing_tick) :: rest, sent, calls =>
    let waiting_ticks := (now + 2 ^ 64 - response_queueing_tick % 2 ^ 64) % 2 ^ 64
    if c.ticksToCycles waiting_ticks < 1 then
      ((addr_response, worklist_response, response_queueing_tick) :: rest, calls)
    else
      let calls1 := calls ++ [OwnerCall.handleIncomingWL addr_response worklist_response]
      if sent + 1 ≥ c.maxRespPerCycle then (rest, calls1)
      else responseLoop c now rest (sent + 1) calls1

/-- The member function `CoalesceEngine::processNextResponseEvent` (lines 599-646), run when
`nextResponseEvent` fires.  Reading the front of an empty queue is a fault. -/
def processNextResponseEvent (c : Config) (now : Nat) (s : State) : Except Fault State := do
  let s := { s with nextResponseEventScheduled := false }
  if s.responseQueue.isEmpty then .error (.undefined 609)
  else
    let (rq, calls) := responseLoop c now s.responseQueue 0 s.ownerCalls
    pure ({ s with responseQueue := rq, ownerCalls := calls }).scheduleResponseEvent

/-- The loop of lines 786-799 of `processNextPreWBApplyEvent` over the slots
`index, index + 1, ...` of line `block_index` (`n` slots remain). -/
def applyLoop (c : Config) (block_index : Int) : Nat → Nat → State → Except Fault State
  | 0, _, s => pure s
  | n + 1, index, s => do
    let blk ← s.block block_index 787
    match blk.items[index]? with
    | none => .error (.undefined 787)
    | some item =>
      let (do_push, item1) := c.preWBApply item
      let s1 := s.setBlock block_index { blk with items := blk.items.set index item1 }
      if do_push then
        let bit_index_base ← getBitIndexBase c blk.addr
        let b ← needsPushGet s1.needsPush (bit_index_base + index) 790
        if b == false then
          let s2 := { s1 with
                      needsPush := s1.needsPush.set (bit_index_base + index).toNat true,
                      workCount := s1.workCount + 1,
                      activeBits := s1.activeBits ++ [bit_index_base + index] }
          let s3 :=
            if !s2.ownerRunning then
              { s2 with ownerRunning := true, ownerCalls := s2.ownerCalls ++ [.start] }
            else s2
          applyLoop c block_index n (index + 1) s3
        else applyLoop c block_index n (index + 1) s1
      else applyLoop c block_index n (index + 1) s1

/-- The lines 785-828 of `processNextPreWBApplyEvent`: the apply of line `block_index`, whose
`pendingApply` is still set. -/
def applyLine (c : Config) (now : Nat) (s : State) (block_index : Int) (blk : Block) :
    Except Fault State := do
  assert (blk.busyMask == 0) 785
  let s1 ← applyLoop c block_index c.numElementsPerLine 0 s
  let blk1 ← s1.block block_index 802
  assert blk1.needsWB 802
  let blk2 := { blk1 with needsApply := false, pendingApply := false, lastChangedTick := now }
  assert (s1.MSHR.length ≤ c.numMSHREntries) 807
  if (mshrFind s1.MSHR block_index).isSome then
    let blk3 := { blk2 with pendingWB := true, lastChangedTick := now }
    pure ((s1.setBlock block_index blk3).pushMemoryFunction .nextWriteBack
            block_index now).scheduleMemoryEvent
  else pure (s1.setBlock block_index blk2)

/-- The lines 833-841 of `processNextPreWBApplyEvent`: the head of the apply queue is
removed, the event is scheduled again when there is more to apply, and the owner is told
when the engine is done. -/
def applyDequeue (s : State) : State :=
  let s1 := { s with applyQueue := s.applyQueue.tail }
  let s2 :=
    if !s1.applyQueue.isEmpty && !s1.nextPreWBApplyEventScheduled then
      { s1 with nextPreWBApplyEventScheduled := true }
    else s1
  if done s2 then { s2 with ownerCalls := s2.ownerCalls ++ [.recvDoneSignal] } else s2

/-- The member function `CoalesceEngine::processNextPreWBApplyEvent` (lines 771-842), run
when `nextPreWBApplyEvent` fires. -/
def processNextPreWBApplyEvent (c : Config) (now : Nat) (s : State) : Except Fault State := do
  let s0 := { s with nextPreWBApplyEventScheduled := false }
  match s0.applyQueue.head? with
  | none => .error (.undefined 774)
  | some block_index =>
    let blk ← s0.block block_index 779
    assert blk.valid 779
    assert blk.needsApply 780
    assert (!blk.pendingData) 781
    assert (!blk.pendingWB) 782
    let s1 ← (if blk.pendingApply then applyLine c now s0 block_index blk else pure s0)
    pure (applyDequeue s1)

/-- The address carried by a packet. -/
def MemPacket.addr : MemPacket → Nat
  | .read a _ _ => a
  | .write a _ _ => a

/-- The data carried by a packet; a read request carries none. -/
def MemPacket.data : MemPacket → List WorkListItem
  | .read _ _ _ => []
  | .write _ _ d => d

/-- The walk over the MSHR targets of a line inside `processNextRead` (lines 907-941), for a
line that is being filled from a queued post-push writeback: every target of the line's
address gets a response and a busy bit, stamps `lastChangedTick` and is erased; the others
stay, in order.  The result is the line, the response queue and the targets that remain. -/
def foldTargets (c : Config) (now addr : Nat) :
    List Nat → Block → List (Nat × WorkListItem × Nat) →
    Except Fault (Block × List (Nat × WorkListItem × Nat) × List Nat)
  | [], blk, rq => pure (blk, rq, [])
  | miss_addr :: rest, blk, rq => do
    let aligned_miss_addr := roundDown miss_addr c.peerMemoryAtomSize
    if aligned_miss_addr == addr then
      let wl_offset := (miss_addr - aligned_miss_addr) / sizeofWorkListItem
      match blk.items[wl_offset]? with
      | none => .error (.undefined 919)
      | some item =>
        foldTargets c now addr rest
          { blk with busyMask := blk.busyMask ||| bit wl_offset, lastChangedTick := now }
          (rq ++ [(miss_addr, item, now)])
    else do
      let (blk1, rq1, left) ← foldTargets c now addr rest blk rq
      pure (blk1, rq1, miss_addr :: left)

/-- The lines 904-949 of `processNextRead`, run for a packet of `postPushWBQueue` that has
the address of `blk`, the line `cacheBlocks[block_index]`: the packet's data is written to
the line, `needsWB` is set, and the targets of that address are served.  Neither `valid` nor
`pendingData` is assigned. -/
def foldPostPushWB (c : Config) (now : Nat) (s : State) (block_index : Int) (blk : Block)
    (data : List WorkListItem) : Except Fault State := do
  let blk1 := { blk with items := data, needsWB := true }
  let r ← foldTargets c now blk1.addr (mshrTargets s.MSHR block_index) blk1 s.responseQueue
  let s1 := { (s.setBlock block_index r.1) with
              responseQueue := r.2.1, MSHR := mshrReplace s.MSHR block_index r.2.2 }
  let s2 := { s1 with MSHR := mshrCleanup s1.MSHR block_index }
  pure s2.scheduleResponseEvent

/-- The loop of lines 900-953 of `processNextRead` over `postPushWBQueue`.  The list holds
the packets still to be visited and the boolean is `need_send_pkt`.  A packet with the
line's address is folded into the line and erased from the queue (line 950); the loop
header then increments the iterator that `erase` has just invalidated (`wb++`, line 900),
which C++ leaves undefined, so the walk does not return from such a packet. -/
def postPushWBLoop (c : Config) (now : Nat) (block_index : Int) :
    List (MemPacket × Nat) → State → Bool → Except Fault (State × Bool)
  | [], s, need_send_pkt => pure (s, need_send_pkt)
  | wb :: rest, s, need_send_pkt => do
    let blk ← s.block block_index 903
    if blk.addr == wb.1.addr then
      let _ ← foldPostPushWB c now s block_index blk wb.1.data
      .error (.undefined 900)
    else
      postPushWBLoop c now block_index rest s need_send_pkt

/-- The member function `CoalesceEngine::processNextRead` (lines 877-973). -/
def processNextRead (c : Config) (now : Nat) (s : State) (block_index : Int)
    (schedule_tick : Nat) : Except Fault State := do
  let blk ← s.block block_index 887
  if blk.lastChangedTick != schedule_tick then pure s
  else
    assert (!blk.valid) 891
    assert (blk.busyMask == 0) 892
    assert (!blk.needsWB) 893
    assert (!blk.needsApply) 894
    assert blk.pendingData 895
    assert (!blk.pendingApply) 896
    assert (!blk.pendingWB) 897
    let r ← postPushWBLoop c now block_index s.postPushWBQueue s true
    let blk1 ← r.1.block block_index 955
    let need_send_pkt := r.2 && (pullFind r.1.pendingVertexPullReads blk1.addr).isNone
    if need_send_pkt then
      let s1 := r.1.sendPacket (.read blk1.addr c.peerMemoryAtomSize false)
      pure { s1 with onTheFlyReqs := s1.onTheFlyReqs + 1 }
    else pure r.1

/-- The member function `CoalesceEngine::processNextWriteBack` (lines 975-1038). -/
def processNextWriteBack (c : Config) (now : Nat) (s : State) (block_index : Int)
    (schedule_tick : Nat) : Except Fault State := do
  let blk ← s.block block_index 982
  if schedule_tick == blk.lastChangedTick then
    assert blk.valid 983
    assert (blk.busyMask == 0) 984
    assert blk.needsWB 985
    assert (!blk.needsApply) 986
    assert (!blk.pendingData) 987
    assert (!blk.pendingApply) 988
    assert blk.pendingWB 989
    assert (s.MSHR.length ≤ c.numMSHREntries) 992
    assert ((mshrFind s.MSHR block_index).isSome) 993
    let s1 := s.sendPacket (.write blk.addr c.peerMemoryAtomSize blk.items)
    let blk1 := { blk with needsWB := false, pendingWB := false }
    match (mshrTargets s1.MSHR block_index).head? with
    | none => .error (.undefined 1006)
    | some miss_addr =>
      let aligned_miss_addr := roundDown miss_addr c.peerMemoryAtomSize
      let blk2 := blk1.claim aligned_miss_addr now
      pure ((s1.setBlock block_index blk2).pushMemoryFunction .nextRead block_index now)
  else pure s

/-- The member function `CoalesceEngine::processNextPostPushWB` (lines 1040-1050). -/
def processNextPostPushWB (_c : Config) (_now : Nat) (s : State) (_ignore : Int)
    (schedule_tick : Nat) : Except Fault State :=
  match s.postPushWBQueue with
  | [] => .error (.undefined 1045)
  | (wb_pkt, pkt_tick) :: rest =>
    if schedule_tick == pkt_tick then
      pure { (s.sendPacket wb_pkt) with postPushWBQueue := rest }
    else pure s

/-- The loop of `CoalesceEngine::getOptimalPullAddr` (lines 1057-1096): `n` entries of the
active list remain to be visited.  The result is the returned tuple and the active list. -/
def getOptimalPullAddrLoop (c : Config) (s : State) :
    Nat → List Int → Except Fault ((WorkLocation × Nat × Int) × List Int)
  | 0, active => pure ((.GARBAGE, 0, 0), active)
  | n + 1, active =>
    match active with
    | [] => .error (.undefined 1058)
    | index :: rest => do
      let base_index := index - Int.tmod index (c.numElementsPerLine : Int)
      let index_offset := index - base_index
      let b ← needsPushGet s.needsPush index 1061
      assert (b == true) 1061
      assert (index_offset < c.numElementsPerLine) 1062
      let addr ← getBlockAddrFromBitIndex c base_index
      let block_index ← getBlockIndex c addr
      match pullFind s.pendingVertexPullReads addr with
      | some send_mask =>
        assert (send_mask &&& bit index_offset.toNat == 0) 1070
        pure ((.PENDING_READ, addr, index_offset), rest)
      | none =>
        let blk ← s.block block_index 1076
        if blk.addr == addr && blk.valid && blk.busyMask == 0 && !blk.pendingApply
            && !blk.pendingWB then
          assert (!blk.needsApply) 1081
          assert (!blk.pendingData) 1082
          pure ((.IN_CACHE, (block_index % (2 ^ 64 : Int)).toNat, index_offset), rest)
        else if blk.addr != addr then
          pure ((.IN_MEMORY, addr, index_offset), rest)
        else
          getOptimalPullAddrLoop c s n (rest ++ [index])

/-- The member function `CoalesceEngine::getOptimalPullAddr` (lines 1052-1099). -/
def getOptimalPullAddr (c : Config) (s : State) :
    Except Fault ((WorkLocation × Nat × Int) × State) := do
  let (r, active) ← getOptimalPullAddrLoop c s s.activeBits.length s.activeBits
  pure (r, { s with activeBits := active })

/-- The `PENDING_READ` case of `processNextVertexPull` (lines 1111-1122). -/
def pullPendingRead (s : State) (addr : Nat) (index_offset : Int) : Except Fault State := do
  let send_mask := (pullFind s.pendingVertexPullReads addr).getD 0
  assert (send_mask &&& bit index_offset.toNat == 0) 1118
  pure { s with
         pendingVertexPullReads :=
           pullSet s.pendingVertexPullReads addr (send_mask ||| bit index_offset.toNat),
         numPullsReceived := s.numPullsReceived - 1 }

/-- The `IN_CACHE` case of `processNextVertexPull` (lines 1123-1151). -/
def pullInCache (c : Config) (s : State) (location : Nat) (wl_offset : Int) :
    Except Fault State := do
  let block_index := toInt32 location
  let blk ← s.block block_index 1128
  let vertex_addr := (blk.addr + wl_offset.toNat * sizeofWorkListItem) % 2 ^ 64
  let slice_base_index ← getBitIndexBase c blk.addr
  let _ ← needsPushGet s.needsPush (slice_base_index + wl_offset) 1132
  let s1 := { s with needsPush := s.needsPush.set (slice_base_index + wl_offset).toNat false,
                     workCount := s.workCount - 1 }
  match blk.items[wl_offset.toNat]? with
  | none => .error (.undefined 1138)
  | some item =>
    let r := c.prePushApply item
    let blk1 := { blk with items := blk.items.set wl_offset.toNat r.2,
                           needsWB := blk.needsWB || r.1.2.2 }
    let call :=
      if r.1.2.1 then OwnerCall.recvVertexPush vertex_addr r.1.1 r.2.edgeIndex r.2.degree
      else OwnerCall.recvPrevPullCorrection
    let s2 := s1.setBlock block_index blk1
    pure { s2 with ownerCalls := s2.ownerCalls ++ [call],
                   numPullsReceived := s2.numPullsReceived - 1 }

/-- The `IN_MEMORY` case of `processNextVertexPull` (lines 1152-1167); the bound
`postPushWBQueueSize - maxPotentialPostPushWB` is compared as an unsigned 64-bit value. -/
def pullInMemory (c : Config) (s : State) (addr : Nat) (index_offset : Int) :
    Except Fault State := do
  let room := ((c.postPushWBQueueSize : Int) - s.maxPotentialPostPushWB) % (2 ^ 64 : Int)
  if (s.postPushWBQueue.length : Int) < room then
    assert ((pullFind s.pendingVertexPullReads addr).isNone) 1157
    let s1 := s.sendPacket (.read addr c.peerMemoryAtomSize true)
    pure { s1 with
           onTheFlyReqs := s1.onTheFlyReqs + 1,
           maxPotentialPostPushWB := s1.maxPotentialPostPushWB + 1,
           pendingVertexPullReads :=
             pullSet s1.pendingVertexPullReads addr (bit index_offset.toNat),
           numPullsReceived := s1.numPullsReceived - 1 }
  else pure s

/-- The member function `CoalesceEngine::processNextVertexPull` (lines 1101-1180). -/
def processNextVertexPull (c : Config) (now : Nat) (s : State) (_ignore : Int)
    (_schedule_tick : Nat) : Except Fault State := do
  let r ← getOptimalPullAddr c s
  let s1 ←
    (match r.1.1 with
     | .PENDING_READ => pullPendingRead r.2 r.1.2.1 r.1.2.2
     | .IN_CACHE => pullInCache c r.2 r.1.2.1 r.1.2.2
     | .IN_MEMORY => pullInMemory c r.2 r.1.2.1 r.1.2.2
     | .GARBAGE => pure r.2)
  if s1.numPullsReceived > 0 then pure (s1.pushMemoryFunction .nextVertexPull 0 now)
  else pure s1

/-- The call of an entry of `memoryFunctionQueue`. -/
def callMemoryFunction (c : Config) (now : Nat) (s : State) (e : MemoryFunctionEntry) :
    Except Fault State :=
  match e.fn with
  | .nextRead => processNextRead c now s e.input e.tick
  | .nextWriteBack => processNextWriteBack c now s e.input e.tick
  | .nextPostPushWB => processNextPostPushWB c now s e.input e.tick
  | .nextVertexPull => processNextVertexPull c now s e.input e.tick

/-- The member function `CoalesceEngine::processNextMemoryEvent` (lines 844-875), run when
`nextMemoryEvent` fires.  `sleep()` makes the event pending. -/
def processNextMemoryEvent (c : Config) (now : Nat) (s : State) : Except Fault State := do
  let s := { s with nextMemoryEventScheduled := false }
  if s.memPortBlocked then pure { s with nextMemoryEventPending := true }
  else
    match s.memoryFunctionQueue with
    | [] => .error (.undefined 861)
    | e :: _ =>
      let s1 ← callMemoryFunction c now s e
      let s2 := { s1 with memoryFunctionQueue := s1.memoryFunctionQueue.tail }
      assert (!s2.nextMemoryEventPending) 870
      assert (!s2.nextMemoryEventScheduled) 871
      if !s2.memoryFunctionQueue.isEmpty then pure { s2 with nextMemoryEventScheduled := true }
      else pure s2

/-- The member function `CoalesceEngine::recvMemRetry` (lines 1182-1194). -/
def recvMemRetry (s : State) : Except Fault State := do
  if !s.nextMemoryEventPending then pure s
  else
    assert (!s.nextMemoryEventScheduled) 1191
    pure { s with nextMemoryEventPending := false, nextMemoryEventScheduled := true }

/-- The member function `CoalesceEngine::recvVertexPull` (lines 1196-1214). -/
def recvVertexPull (now : Nat) (s : State) : State :=
  let should_schedule := s.numPullsReceived == 0
  let s1 := { s with numPullsReceived := s.numPullsReceived + 1 }
  if should_schedule then (s1.pushMemoryFunction .nextVertexPull 0 now).scheduleMemoryEvent
  else s1

/-- The member function `CoalesceEngine::recvFunctional` (lines 78-108); `is_read` and
`size` describe the packet.  A read that hits a valid line is answered from the line, any
other packet is passed on to the memory port. -/
def recvFunctional (c : Config) (s : State) (is_read : Bool) (addr size : Nat)
    (data : List WorkListItem) : Except Fault State := do
  if is_read then
    assert (size == c.peerMemoryAtomSize) 82
    let block_index ← getBlockIndex c addr
    let blk ← s.block block_index 86
    if blk.addr == addr && blk.valid then
      assert (blk.busyMask == 0) 88
      assert (!blk.needsApply) 89
      assert (!blk.pendingApply) 93
      assert (!blk.pendingWB) 94
      pure s
    else
      pure { s with memPortFunctional := s.memPortFunctional ++ [.read addr size false] }
  else
    let bit_index_base ← getBitIndexBase c addr
    let (np, active, wc) :=
      c.workloadInit addr data bit_index_base (s.needsPush, s.activeBits, s.workCount)
    pure { s with needsPush := np, activeBits := active, workCount := wc,
                  memPortFunctional := s.memPortFunctional ++ [.write addr size data] }

/-! ## Runs of the engine -/

/-- The entry points of the engine: the calls of the work-list engine, of the memory port
and of the push engine, and the three events.  The last two are the environment: the memory
port becomes blocked or free, the owner starts or stops running. -/
inductive Op where
  | recvWLRead (addr : Nat)
  | recvWLWrite (addr : Nat) (wl : WorkListItem)
  | handleMemResp (pkt : MemResponse)
  | processNextResponseEvent
  | processNextPreWBApplyEvent
  | processNextMemoryEvent
  | recvMemRetry
  | recvVertexPull
  | recvFunctional (is_read : Bool) (addr size : Nat) (data : List WorkListItem)
  | portBlocked (b : Bool)
  | ownerRuns (b : Bool)
deriving DecidableEq, Repr

/-- One entry point, called at tick `now`. -/
def step (c : Config) (now : Nat) (s : State) : Op → Except Fault State
  | .recvWLRead addr => (recvWLRead c now s addr).map (fun r => r.2)
  | .recvWLWrite addr wl => recvWLWrite c now s addr wl
  | .handleMemResp pkt => (handleMemResp c now s pkt).map (fun r => r.2)
  | .processNextResponseEvent => processNextResponseEvent c now s
  | .processNextPreWBApplyEvent => processNextPreWBApplyEvent c now s
  | .processNextMemoryEvent => processNextMemoryEvent c now s
  | .recvMemRetry => recvMemRetry s
  | .recvVertexPull => pure (recvVertexPull now s)
  | .recvFunctional is_read addr size data => recvFunctional c s is_read addr size data
  | .portBlocked b => pure { s with memPortBlocked := b }
  | .ownerRuns b => pure { s with ownerRunning := b }

/-- A sequence of entry points, each with the tick at which it is called. -/
def run (c : Config) (s : State) : List (Nat × Op) → Except Fault State
  | [] => pure s
  | (now, op) :: rest => do
    let s1 ← step c now s op
    run c s1 rest

/-- Line `bi` holds the aligned address `a` and is valid: a read of `a` hits. -/
def State.resident (s : State) (bi : Int) (a : Nat) : Prop :=
  ∃ blk, s.block? bi = some blk ∧ blk.addr = a ∧ blk.valid = true

/-- The operation is a `recvWLWrite` to slot `off` of line `bi`. -/
def Op.writesSlot (c : Config) (bi : Int) (off : Nat) : Op → Prop
  | .recvWLWrite addr _ =>
    blockIndexOf c (roundDown addr c.peerMemoryAtomSize) = bi ∧ wlOffsetOf c addr = off
  | _ => False

instance (c : Config) (bi : Int) (off : Nat) (op : Op) : Decidable (op.writesSlot c bi off) := by
  cases op <;> unfold Op.writesSlot <;> infer_instance

/-- A run in which line `bi` stays resident for `a` (it is not evicted) and no operation is a
write to slot `off` of that line. -/
inductive QuietRun (c : Config) (bi : Int) (a off : Nat) : State → List (Nat × Op) → State → Prop
  | nil (s : State) : QuietRun c bi a off s [] s
  | cons (s s1 s2 : State) (now : Nat) (op : Op) (ops : List (Nat × Op))
      (hstep : step c now s op = .ok s1) (hquiet : ¬ op.writesSlot c bi off)
      (hres : s1.resident bi a) (hrest : QuietRun c bi a off s1 ops s2) :
      QuietRun c bi a off s ((now, op) :: ops) s2

/-- A workload whose apply is the reduction of the sibling implementation
(`coalesce_engine.cc`, lines 417-424): `prop` becomes the minimum of `prop` and `tempProp`,
and the vertex is to be pushed when that changed `prop`.  An item needs an apply when its
`tempProp` is below its `prop`. -/
def cfgMin : Config :=
  { cacheSize := 128, peerMemoryAtomSize := 64, numMSHREntries := 1, numTgtsPerMSHR := 2,
    maxBitvectorSize := 8,
    applyCondition := fun wl => decide (wl.tempProp < wl.prop),
    preWBApply := fun wl =>
      (min wl.prop wl.tempProp != wl.prop, { wl with prop := min wl.prop wl.tempProp }) }

/-- An item whose `tempProp` has been reduced below its `prop`. -/
def itemX : WorkListItem := { tempProp := 5, prop := 21 }

/-- The items of the line at address 64 in memory; none needs an apply. -/
def itemsMem : List WorkListItem :=
  [{ tempProp := 11, prop := 11 }, { tempProp := 21, prop := 21 },
   { tempProp := 31, prop := 31 }, { tempProp := 41, prop := 41 }]

/-- From construction: the read of address 80 misses, the fill is requested and arrives, and
the response is delivered to the work-list engine. -/
def opsFill : List (Nat × Op) :=
  [(1000, .recvWLRead 80), (2000, .processNextMemoryEvent),
   (3000, .handleMemResp (.read 64 itemsMem false)), (4000, .processNextResponseEvent)]

/-- The item `itemX` after the apply of `cfgMin`. -/
def itemXApplied : WorkListItem := { tempProp := 5, prop := 5 }

/-- A read of another slot of the line and the delivery of its response. -/
def opsQuiet : List (Nat × Op) :=
  [(4000, .recvWLRead 32), (5000, .processNextResponseEvent)]

/-- A workload whose `prePushApply` changes the item it is handed (it reports `do_wb`):
`prop` takes the value of `tempProp`.  Its `preWBApply` leaves the item alone and asks for a
push when `tempProp` is below `prop`. -/
def cfgPull : Config :=
  { cacheSize := 128, peerMemoryAtomSize := 64, numMSHREntries := 1, numTgtsPerMSHR := 2,
    maxBitvectorSize := 8,
    applyCondition := fun wl => decide (wl.tempProp < wl.prop),
    preWBApply := fun wl => (decide (wl.tempProp < wl.prop), wl),
    prePushApply := fun wl => ((wl.tempProp, true, true), { wl with prop := wl.tempProp }) }

/-- After the write: the line is applied, the push engine asks for a vertex, and the memory
event serves the pull from the cached line. -/
def opsPull : List (Nat × Op) :=
  [(6000, .processNextPreWBApplyEvent), (7000, .recvVertexPull),
   (8000, .processNextMemoryEvent)]

/-! ## Concrete configurations and states -/

/-- A cache of two lines of four items (64-byte atoms), one MSHR entry, two targets each. -/
def cfgA : Config :=
  { cacheSize := 128, peerMemoryAtomSize := 64, numMSHREntries := 1, numTgtsPerMSHR := 2 }

/-- Four distinguishable items. -/
def itemsA : List WorkListItem :=
  [{ tempProp := 10, prop := 11 }, { tempProp := 20, prop := 21 },
   { tempProp := 30, prop := 31 }, { tempProp := 40, prop := 41 }]

/-- Line 0 holds address 0 and is valid and idle; line 1 is empty. -/
def stHit : State :=
  { cacheBlocks := [{ addr := 0, items := itemsA, valid := true },
                    Block.init 4] }

/-- The freshly constructed cache of `cfgA`: two empty lines. -/
def stFresh : State :=
  { cacheBlocks := [Block.init 4, Block.init 4] }

/-- The state after the read of address 64 at tick 1000 on `stFresh`: line 1 waits for the
data of address 64 and the only MSHR entry is taken. -/
def stFull : State :=
  { cacheBlocks := [Block.init 4,
                    { (Block.init 4) with addr := 64, pendingData := true,
                                          lastChangedTick := 1000 }],
    MSHR := [(1, [64])],
    memoryFunctionQueue := [⟨.nextRead, 1, 1000⟩],
    nextMemoryEventScheduled := true }

/-- The idle state of a line, as the conflict path of `recvWLRead` tests it (lines 274-277):
valid, no busy slot, and neither an apply nor a writeback pending. -/
def Block.idle (b : Block) : Prop :=
  b.valid = true ∧ b.busyMask = 0 ∧ b.pendingApply = false ∧ b.pendingWB = false

instance (b : Block) : Decidable b.idle := by unfold Block.idle; infer_instance

/-- A line that holds address 0 and is valid, idle and dirty. -/
def blkDirty : Block :=
  { addr := 0, items := itemsA, valid := true, needsWB := true }

/-- Line 0 is `blkDirty`; line 1 is empty. -/
def stDirty : State :=
  { cacheBlocks := [blkDirty, Block.init 4] }

/-- A valid line holding address 0 with slots 0 and 1 handed out (busy mask `0b0011`). -/
def blkBusy : Block :=
  { addr := 0, items := itemsA, valid := true, busyMask := 3 }

/-- Line 0 is `blkBusy`; line 1 is empty. -/
def stBusy : State :=
  { cacheBlocks := [blkBusy, Block.init 4] }

/-- The item written in the examples. -/
def itemW : WorkListItem := { tempProp := 99, prop := 21 }

/-- A valid line holding address 0 with only slot 1 handed out (busy mask `0b0010`). -/
def blkLast : Block :=
  { addr := 0, items := itemsA, valid := true, busyMask := 2 }

/-- Line 0 is `blkLast` and a read of address 128 waits for the line in the MSHR; line 1 is
empty. -/
def stLast : State :=
  { cacheBlocks := [blkLast, Block.init 4], MSHR := [(0, [128])] }

/-- The line `blkBusy` after `itemW` has been written to slot 1 at tick 3000. -/
def blkWritten : Block :=
  { blkBusy with items := itemsA.set 1 itemW, busyMask := 1, needsWB := true,
                 lastChangedTick := 3000 }

/-- The state `stBusy` after `itemW` has been written to address 16 at tick 3000. -/
def stW1 : State :=
  { cacheBlocks := [blkWritten, Block.init 4] }

/-- The state `stW1` after the read of address 32 (slot 2) at tick 4000. -/
def stW2 : State :=
  { cacheBlocks := [{ blkWritten with busyMask := 5, lastChangedTick := 4500 }, Block.init 4],
    responseQueue := [(32, { tempProp := 30, prop := 31 }, 4000)],
    nextResponseEventScheduled := true }

/-- The state `stW2` after the response event at tick 5000. -/
def stW3 : State :=
  { cacheBlocks := [{ blkWritten with busyMask := 5, lastChangedTick := 4500 }, Block.init 4],
    ownerCalls := [.handleIncomingWL 32 { tempProp := 30, prop := 31 }] }

/-- Slot `off` of line `bi` is kept from `s` to `s1`: when the line is valid in `s` and its
slot holds `wl`, the slot still holds `wl` in `s1`. -/
def SlotKept (bi : Int) (off : Nat) (wl : WorkListItem) (s s1 : State) : Prop :=
  ∀ blk, s.block? bi = some blk → blk.valid = true → blk.items[off]? = some wl →
    ∃ blk1, s1.block? bi = some blk1 ∧ blk1.items[off]? = some wl

/-! ## Lines and their transitions -/

/-- A line of the cache as the engine treats it: the descriptor together with the line's
MSHR target list, when the table has an entry for the line. -/
abbrev Line := Block × Option (List Nat)

/-- The line `bi` of a state. -/
def State.line? (s : State) (bi : Int) : Option Line :=
  (s.block? bi).map (fun b => (b, mshrFind s.MSHR bi))

/-- The descriptor after the merge of lines 677-688 of `recvWLWrite`: the slot is stored,
`needsWB` and `needsApply` are raised by the two tests (`wb`, `ap`), and the busy mask and
the tick are written. -/
def Block.written (b : Block) (items : List WorkListItem) (wb ap : Bool) (mask now : Nat) :
    Block :=
  { b with items := items, needsWB := b.needsWB || wb || ap,
           needsApply := b.needsApply || ap, busyMask := mask, lastChangedTick := now }

/-- What the source asserts of a line before it is written by `recvWLWrite`
(lines 667-671). -/
def Block.handedOut (b : Block) : Prop :=
  b.valid = true ∧ b.busyMask ≠ 0 ∧ b.pendingData = false ∧ b.pendingApply = false ∧
  b.pendingWB = false

/-- What the source asserts of a line that waits for its data (lines 218-223, 504-510 and
891-897). -/
def Block.awaitsData (b : Block) : Prop :=
  b.valid = false ∧ b.busyMask = 0 ∧ b.needsWB = false ∧ b.needsApply = false ∧
  b.pendingData = true ∧ b.pendingApply = false ∧ b.pendingWB = false

/-- A line no path of the engine has work on: no flag but `valid` is set and no slot is
busy.  An empty line and a clean idle line are of this kind. -/
def Block.quiet (b : Block) : Prop :=
  b.busyMask = 0 ∧ b.needsWB = false ∧ b.needsApply = false ∧ b.pendingData = false ∧
  b.pendingApply = false ∧ b.pendingWB = false

/-- The targets that a fill of address `addr` leaves in the list. -/
def otherTargets (c : Config) (addr : Nat) (ts : List Nat) : List Nat :=
  ts.filter (fun t => roundDown t c.peerMemoryAtomSize != addr)

/-- The MSHR entry of a line whose target list has become `ts`: an empty list is erased
(lines 583-585 and 942-944). -/
def entryOf (ts : List Nat) : Option (List Nat) :=
  if ts.isEmpty then none else some ts

/-- What one entry point of the engine can do to one line.  Each constructor is a path of
the source; its hypotheses are the branch conditions and assertions of that path, and the
fields it does not mention are kept. -/
inductive LineStep (c : Config) : Line → Line → Prop
  /-- the line is not touched -/
  | same (l : Line) : LineStep c l l
  /-- `recvWLRead`, hit (lines 162-211) -/
  | hit (blk : Block) (tg : Option (List Nat)) (off lct : Nat)
      (hv : blk.valid = true) (hpd : blk.pendingData = false) :
      LineStep c (blk, tg)
        ({ blk with busyMask := blk.busyMask ||| bit off, pendingApply := false,
                    pendingWB := false, lastChangedTick := lct }, tg)
  /-- `recvWLRead`, a target is appended to an existing entry (lines 238 and 431) -/
  | target (blk : Block) (ts : List Nat) (addr : Nat) :
      LineStep c (blk, some ts) (blk, some (ts ++ [addr]))
  /-- `recvWLRead`, conflict with a line that is not idle (line 355) -/
  | conflict (blk : Block) (addr : Nat) (hocc : (blk.valid || blk.pendingData) = true)
      (hbusy : ¬ blk.idle) :
      LineStep c (blk, none) (blk, some [addr])
  /-- `recvWLRead`, conflict with an idle dirty line (lines 304-323 and 355) -/
  | missWB (blk : Block) (addr now : Nat) (hidle : blk.idle)
      (hna : blk.needsApply = false) (hpd : blk.pendingData = false)
      (hwb : blk.needsWB = true) :
      LineStep c (blk, none) ({ blk with pendingWB := true, lastChangedTick := now }, some [addr])
  /-- `recvWLRead`, the line is claimed: conflict with an idle clean line (lines 324-355) or
  allocation of an empty line (lines 363-408) -/
  | claimNew (blk : Block) (addr now : Nat) (hq : blk.quiet) :
      LineStep c (blk, none) (blk.claim (roundDown addr c.peerMemoryAtomSize) now, some [addr])
  /-- `recvWLWrite`, other slots are still busy -/
  | writeBusy (blk : Block) (tg : Option (List Nat)) (items : List WorkListItem)
      (wb ap : Bool) (mask now : Nat) (hpre : blk.handedOut) (hm : mask ≠ 0) :
      LineStep c (blk, tg) (blk.written items wb ap mask now, tg)
  /-- `recvWLWrite`, last busy slot, the line needs an apply (lines 698-707) -/
  | writeApply (blk : Block) (tg : Option (List Nat)) (items : List WorkListItem)
      (wb ap : Bool) (mask now : Nat) (hpre : blk.handedOut) (hm : mask = 0)
      (hna : (blk.needsApply || ap) = true) :
      LineStep c (blk, tg)
        ({ (blk.written items wb ap mask now) with
           pendingApply := true, lastChangedTick := now }, tg)
  /-- `recvWLWrite`, last busy slot, conflict, the line is dirty (lines 714-729) -/
  | writeWB (blk : Block) (ts : List Nat) (items : List WorkListItem)
      (wb ap : Bool) (mask now : Nat) (hpre : blk.handedOut) (hm : mask = 0)
      (hna : (blk.needsApply || ap) = false) (hwb : (blk.needsWB || wb || ap) = true) :
      LineStep c (blk, some ts)
        ({ (blk.written items wb ap mask now) with
           pendingWB := true, lastChangedTick := now }, some ts)
  /-- `recvWLWrite`, last busy slot, conflict, the line is clean (lines 730-758) -/
  | writeEvict (blk : Block) (t : Nat) (ts : List Nat) (items : List WorkListItem)
      (wb ap : Bool) (mask now : Nat) (hpre : blk.handedOut) (hm : mask = 0)
      (hna : (blk.needsApply || ap) = false) (hwb : (blk.needsWB || wb || ap) = false) :
      LineStep c (blk, some (t :: ts))
        ((blk.written items wb ap mask now).claim (roundDown t c.peerMemoryAtomSize) now,
         some (t :: ts))
  /-- `recvWLWrite`, last busy slot, no conflict: the line is idle (lines 760-763) -/
  | writeIdle (blk : Block) (items : List WorkListItem) (wb ap : Bool) (mask now : Nat)
      (hpre : blk.handedOut) (hm : mask = 0) (hna : (blk.needsApply || ap) = false) :
      LineStep c (blk, none) (blk.written items wb ap mask now, none)
  /-- `handleMemResp`, a response that does not fill the line (lines 583-585) -/
  | cleanup (blk : Block) (tg : Option (List Nat)) :
      LineStep c (blk, tg) (blk, entryOf (tg.getD []))
  /-- `handleMemResp`, the line is filled (lines 499-525 and 545-585) -/
  | fill (blk : Block) (ts : List Nat) (items : List WorkListItem) (do_wb : Bool)
      (lct mask : Nat) (hpre : blk.awaitsData)
      (hmask : (∃ t ∈ ts, roundDown t c.peerMemoryAtomSize = blk.addr) → mask ≠ 0) :
      LineStep c (blk, some ts)
        ({ blk with items := items, valid := true, needsWB := blk.needsWB || do_wb,
                    pendingData := false, lastChangedTick := lct, busyMask := mask },
         entryOf (otherTargets c blk.addr ts))
  /-- `processNextPreWBApplyEvent`, the line is applied and has a conflict (lines 785-822) -/
  | appliedWB (blk : Block) (ts : List Nat) (items : List WorkListItem) (now : Nat)
      (hv : blk.valid = true) (hna : blk.needsApply = true) (hpd : blk.pendingData = false)
      (hpw : blk.pendingWB = false) (hb : blk.busyMask = 0) (hwb : blk.needsWB = true) :
      LineStep c (blk, some ts)
        ({ blk with items := items, needsApply := false, pendingApply := false,
                    pendingWB := true, lastChangedTick := now }, some ts)
  /-- `processNextPreWBApplyEvent`, the line is applied and is idle (lines 785-807, 823) -/
  | appliedIdle (blk : Block) (items : List WorkListItem) (now : Nat)
      (hv : blk.valid = true) (hna : blk.needsApply = true) (hpd : blk.pendingData = false)
      (hpw : blk.pendingWB = false) (hb : blk.busyMask = 0) (hwb : blk.needsWB = true) :
      LineStep c (blk, none)
        ({ blk with items := items, needsApply := false, pendingApply := false,
                    lastChangedTick := now }, none)
  /-- `processNextWriteBack`, the line is written back and claimed for its first target
  (lines 982-1029) -/
  | wbClaim (blk : Block) (t : Nat) (ts : List Nat) (now : Nat)
      (hv : blk.valid = true) (hb : blk.busyMask = 0) (hwb : blk.needsWB = true)
      (hna : blk.needsApply = false) (hpd : blk.pendingData = false)
      (hpa : blk.pendingApply = false) (hpw : blk.pendingWB = true) :
      LineStep c (blk, some (t :: ts))
        (blk.claim (roundDown t c.peerMemoryAtomSize) now, some (t :: ts))
  /-- `processNextVertexPull`, the vertex is served from the line (lines 1123-1151) -/
  | pulled (blk : Block) (tg : Option (List Nat)) (items : List WorkListItem) (wb : Bool)
      (hidle : blk.idle) (hna : blk.needsApply = false) (hpd : blk.pendingData = false) :
      LineStep c (blk, tg) ({ blk with items := items, needsWB := blk.needsWB || wb }, tg)

/-- What an entry point does to the cache: the number of lines stays, and every line makes
one transition. -/
def Effect (c : Config) (s s1 : State) : Prop :=
  s1.cacheBlocks.length = s.cacheBlocks.length ∧
  ∀ bi l, s.line? bi = some l → ∃ l1, s1.line? bi = some l1 ∧ LineStep c l l1

/-- The properties of a line that every entry point keeps.  The first seven are about the
descriptor: I1; a line that waits for data has nothing pending; I4; a line pending an apply
needs it and has no busy slot and no writeback pending (so I2); a line pending a writeback
is valid, dirty, without busy slot and applied; a valid line without busy slot that needs
an apply is pending apply; a line with a busy slot is valid (I3).  The next two tie the
descriptor to the MSHR: an entry is never empty and its line is never idle (I5), and a line
that waits for data has an entry whose first target is an address of the line.  The last
one: a line that waits for data is not marked dirty (I6). -/
structure LineInv (c : Config) (l : Line) : Prop where
  i1 : l.1.valid = true → l.1.pendingData = false
  pd : l.1.pendingData = true →
    l.1.needsApply = false ∧ l.1.pendingApply = false ∧ l.1.pendingWB = false
  i4 : l.1.needsApply = true → l.1.valid = true
  pa : l.1.pendingApply = true →
    l.1.needsApply = true ∧ l.1.busyMask = 0 ∧ l.1.pendingWB = false
  pw : l.1.pendingWB = true →
    l.1.valid = true ∧ l.1.busyMask = 0 ∧ l.1.needsApply = false ∧ l.1.needsWB = true
  ap : l.1.valid = true → l.1.busyMask = 0 → l.1.needsApply = true → l.1.pendingApply = true
  bv : l.1.busyMask ≠ 0 → l.1.valid = true
  i5 : ∀ ts, l.2 = some ts → ts ≠ [] ∧
    (l.1.pendingData = true ∨ l.1.pendingWB = true ∨ l.1.pendingApply = true ∨
      l.1.busyMask ≠ 0)
  hd : l.1.pendingData = true →
    ∃ t ts, l.2 = some (t :: ts) ∧ roundDown t c.peerMemoryAtomSize = l.1.addr
  pc : l.1.pendingData = true → l.1.needsWB = false

/-- Every line of the state has the properties `LineInv`. -/
def State.inv (c : Config) (s : State) : Prop :=
  ∀ bi l, s.line? bi = some l → LineInv c l

/-- The targets that a fill of address `addr` serves: those of that line, in list order. -/
def servedTargets (c : Config) (addr : Nat) (ts : List Nat) : List Nat :=
  ts.filter (fun t => roundDown t c.peerMemoryAtomSize == addr)

/-- The busy mask after the slots of the targets `ts` have been added to `mask`. -/
def maskOfTargets (c : Config) (mask : Nat) (ts : List Nat) : Nat :=
  ts.foldl (fun m t => m ||| bit (wlOffsetOf c t)) mask

/-- The responses queued at tick `now` for the targets `ts` out of the items of a line. -/
def responsesOf (c : Config) (items : List WorkListItem) (now : Nat) (ts : List Nat) :
    List (Nat × WorkListItem × Nat) :=
  ts.map (fun t => (t, (items[wlOffsetOf c t]?).getD {}, now))

/-- After `opsFill`, a read of address 208, which maps to the line that now holds address
64 and has a busy slot: a conflict. -/
def opsConflict : List (Nat × Op) := opsFill ++ [(5000, .recvWLRead 208)]

/-- A workload for the pull path.  `prePushApply` settles the vertex (`prop` takes the value
of `tempProp`), always asks for a push, and asks for a writeback when that changed the
item.  `init` marks the first vertex of the line it is given as active.  The post-push
writeback queue has room for two packets. -/
def cfgFold : Config :=
  { cacheSize := 128, peerMemoryAtomSize := 64, numMSHREntries := 1, numTgtsPerMSHR := 2,
    maxBitvectorSize := 16, postPushWBQueueSize := 2,
    applyCondition := fun wl => decide (wl.tempProp < wl.prop),
    preWBApply := fun wl => (decide (wl.tempProp < wl.prop), wl),
    prePushApply := fun wl =>
      ((wl.tempProp, true, wl.tempProp != wl.prop), { wl with prop := wl.tempProp }),
    workloadInit := fun _ _ base x => (x.1.set base.toNat true, x.2.1 ++ [base], x.2.2 + 1) }

/-- The items of the line at address 192 in memory; the first one is not settled. -/
def itemsFar : List WorkListItem :=
  [{ tempProp := 5, prop := 21 }, { tempProp := 21, prop := 21 },
   { tempProp := 31, prop := 31 }, { tempProp := 41, prop := 41 }]

/-- The first vertices of the lines 64 and 192 are made active, the push engine asks for two
vertices, and the two memory events send a pull read for each line. -/
def opsPullReads : List (Nat × Op) :=
  [(0, .recvFunctional false 64 64 itemsMem), (0, .recvFunctional false 192 64 itemsFar),
   (1000, .recvVertexPull), (1000, .recvVertexPull),
   (2000, .processNextMemoryEvent), (3000, .processNextMemoryEvent)]

/-- The cache of `cfgA` on a clock whose period is one tick. -/
def cfgTick1 : Config :=
  { cacheSize := 128, peerMemoryAtomSize := 64, numMSHREntries := 1, numTgtsPerMSHR := 2,
    clockPeriod := 1 }

/-- From construction, on any clock: address 64 is read, filled and delivered, and written
back with a changed `tempProp`; line 1 is then valid, idle and dirty. -/
def opsDirty : List (Nat × Op) :=
  [(10, .recvWLRead 64), (11, .processNextMemoryEvent),
   (20, .handleMemResp (.read 64 itemsA false)), (21, .processNextResponseEvent),
   (30, .recvWLWrite 64 { tempProp := 77, prop := 11 })]

/-- At tick 40 a read of address 192 conflicts with the dirty line and schedules its
writeback; in the same tick a read of address 64 hits the line; the memory event of the next
tick executes the writeback entry. -/
def opsHitSameTick : List (Nat × Op) :=
  opsDirty ++ [(40, .recvWLRead 192), (40, .recvWLRead 64), (41, .processNextMemoryEvent)]

/-- The same with the writeback scheduled by `recvWLWrite`: address 192 is read while the
slot of address 64 is still handed out, the write of tick 40 clears the last busy slot and
schedules the writeback, and the read of address 64 hits in that tick. -/
def opsHitSameTickWrite : List (Nat × Op) :=
  [(10, .recvWLRead 64), (11, .processNextMemoryEvent),
   (20, .handleMemResp (.read 64 itemsA false)), (21, .processNextResponseEvent),
   (30, .recvWLRead 192), (40, .recvWLWrite 64 { tempProp := 77, prop := 11 }),
   (40, .recvWLRead 64), (41, .processNextMemoryEvent)]

/-- A valid dirty line holding address 64 whose writeback was scheduled at tick 40. -/
def blkPendingWB : Block :=
  { addr := 64, items := itemsA, valid := true, needsWB := true, pendingWB := true,
    lastChangedTick := 40 }

/-- Line 1 is `blkPendingWB`, a read of address 192 waits for the line, and the writeback
entry is queued. -/
def stPendingWB : State :=
  { cacheBlocks := [Block.init 4, blkPendingWB], MSHR := [(1, [192])],
    memoryFunctionQueue := [⟨.nextWriteBack, 1, 40⟩], nextMemoryEventScheduled := true }

/-! ## Definitions for the response event -/

/-- The local `waiting_ticks = curTick() - response_queueing_tick` of
`processNextResponseEvent` (line 610), a difference of 64-bit ticks. -/
def waitingTicks (now response_queueing_tick : Nat) : Nat :=
  (now + 2 ^ 64 - response_queueing_tick % 2 ^ 64) % 2 ^ 64

/-- The call `owner->handleIncomingWL(addr_response, worklist_response)` made for an entry
of the response queue (line 614). -/
def incomingWL (e : Nat × WorkListItem × Nat) : OwnerCall :=
  .handleIncomingWL e.1 e.2.1

/-- The cache of `cfgA` with `max_resp_per_cycle = 0`. -/
def cfgCap0 : Config :=
  { cacheSize := 128, peerMemoryAtomSize := 64, numMSHREntries := 1, numTgtsPerMSHR := 2,
    maxRespPerCycle := 0 }

/-- From construction: address 64 is read and misses, the fill is requested and arrives at
tick 2000, and the response event runs one cycle later. -/
def opsOneResponse : List (Nat × Op) :=
  [(0, .recvWLRead 64), (1000, .processNextMemoryEvent),
   (2000, .handleMemResp (.read 64 itemsA false)), (3000, .processNextResponseEvent)]

/-- From construction: the read of address 80 misses, the fill is requested at tick 2000 and
arrives at tick 2999, one tick before the clock edge 3000. -/
def opsLateFill : List (Nat × Op) :=
  [(1000, .recvWLRead 80), (2000, .processNextMemoryEvent),
   (2999, .handleMemResp (.read 64 itemsMem false))]

/-- An address whose line number, `2 ^ 31 + 1`, does not fit the non-negative range of a
32-bit `int` (lines of 64 bytes). -/
def addrFar : Nat := 2 ^ 37 + 64

/-- The memory-function queue and the two flags of `nextMemoryEvent`. -/
def State.memCtl (s : State) : List MemoryFunctionEntry × Bool × Bool :=
  (s.memoryFunctionQueue, s.nextMemoryEventPending, s.nextMemoryEventScheduled)

/-- The state of `s1` differs from `s` in the memory-function queue by entries appended at
the back; the flags of `nextMemoryEvent` are the same. -/
def Appended (s s1 : State) (app : List MemoryFunctionEntry) : Prop :=
  s1.memoryFunctionQueue = s.memoryFunctionQueue ++ app ∧
  s1.nextMemoryEventPending = s.nextMemoryEventPending ∧
  s1.nextMemoryEventScheduled = s.nextMemoryEventScheduled

/-- The port is blocked in `stFull`. -/
def stBlocked : State := { stFull with memPortBlocked := true }

/-! ## Definitions for the pull path -/

/-- The body of the loop of `getOptimalPullAddr` for the entry `index` at the head of the
active list (lines 1058-1092): the tuple that is returned when the entry can be served, or
`none` when the entry is rotated to the tail. -/
def examinePull (c : Config) (s : State) (index : Int) :
    Except Fault (Option (WorkLocation × Nat × Int)) := do
  let base_index := index - Int.tmod index (c.numElementsPerLine : Int)
  let index_offset := index - base_index
  let b ← needsPushGet s.needsPush index 1061
  assert (b == true) 1061
  assert (index_offset < c.numElementsPerLine) 1062
  let addr ← getBlockAddrFromBitIndex c base_index
  let block_index ← getBlockIndex c addr
  match pullFind s.pendingVertexPullReads addr with
  | some send_mask =>
    assert (send_mask &&& bit index_offset.toNat == 0) 1070
    pure (some (.PENDING_READ, addr, index_offset))
  | none =>
    let blk ← s.block block_index 1076
    if blk.addr == addr && blk.valid && blk.busyMask == 0 && !blk.pendingApply
        && !blk.pendingWB then
      assert (!blk.needsApply) 1081
      assert (!blk.pendingData) 1082
      pure (some (.IN_CACHE, (block_index % (2 ^ 64 : Int)).toNat, index_offset))
    else if blk.addr != addr then
      pure (some (.IN_MEMORY, addr, index_offset))
    else
      pure none

/-- The first vertex of the line at address 0 is made active on the freshly constructed
cache (a functional write with the workload of `cfgFold`). -/
def opsActiveZero : List (Nat × Op) :=
  [(0, .recvFunctional false 0 64 itemsMem)]

/-- The freshly constructed cache of `cfgFold` after `opsActiveZero`. -/
def stActiveZero : State :=
  { cacheBlocks := [Block.init 4, Block.init 4],
    needsPush := (List.replicate 16 false).set 0 true,
    activeBits := [0], workCount := 1,
    memPortFunctional := [.write 0 64 itemsMem] }

/-- The first vertex of the line at address 64 (vertex 4) is made active on the freshly
constructed cache. -/
def opsActiveFour : List (Nat × Op) :=
  [(0, .recvFunctional false 64 64 itemsMem)]

/-- The call into the push engine made for an item after `prePushApply` (lines 484-490 and
1141-1147): `recvVertexPush` with the delta and the item's `edgeIndex` and `degree` as
`prePushApply` left them, when it asks for a push; `recvPrevPullCorrection` otherwise. -/
def pushCall (c : Config) (vertex_addr : Nat) (item : WorkListItem) : OwnerCall :=
  if (c.prePushApply item).1.2.1 then
    .recvVertexPush vertex_addr (c.prePushApply item).1.1 (c.prePushApply item).2.edgeIndex
      (c.prePushApply item).2.degree
  else .recvPrevPullCorrection

/-- Line 1 holds address 64 and is valid and idle; vertex 4, the first of that line, is
active, and the push engine has asked for one vertex (configuration `cfgPull`). -/
def stPullReady : State :=
  { cacheBlocks := [Block.init 4, { addr := 64, items := itemsMem, valid := true }],
    needsPush := [false, false, false, false, true, false, false, false],
    activeBits := [4], workCount := 1, numPullsReceived := 1,
    memoryFunctionQueue := [⟨.nextVertexPull, 0, 7000⟩] }

/-- The slots `j` with `i ≤ j < i + n` whose bit is set in the send mask of a pull read, in
increasing order: the slots for which the loop of lines 470-493 does its work. -/
def maskedSlots (send_mask i n : Nat) : List Nat :=
  (List.range' i n).filter (fun j => send_mask &&& bit j != 0)

/-- The result of `CoalesceEngine::getBitIndexBase` when its assertion holds. -/
def bitIndexBaseOf (c : Config) (addr : Nat) : Int :=
  toInt32 (c.removeIntlvBits addr / c.peerMemoryAtomSize) *
    toInt32 (c.peerMemoryAtomSize / sizeofWorkListItem)

/-- The local `send_mask = pendingVertexPullReads[addr]` of `handleMemResp` (line 467);
`operator[]` gives 0 for an address without entry. -/
def pullMask (s : State) (addr : Nat) : Nat :=
  (pullFind s.pendingVertexPullReads addr).getD 0

/-- The slots of the line at `addr` that the pull read in flight was sent for. -/
def pullSlots (c : Config) (s : State) (addr : Nat) : List Nat :=
  maskedSlots (pullMask s addr) 0 c.numElementsPerLine

/-- The value of `do_wb` after the loop of lines 470-493: some slot of the send mask has
`prePushApply` ask for a writeback. -/
def pullDoWB (c : Config) (s : State) (addr : Nat) (items : List WorkListItem) : Bool :=
  (pullSlots c s addr).any (fun (j : Nat) => (c.prePushApply (items.getD j {})).1.2.2)

/-- The items of the packet after the loop of lines 470-493: `prePushApply` has been
applied to the slots of the send mask. -/
def pullItems (c : Config) (s : State) (addr : Nat) (items : List WorkListItem) :
    List WorkListItem :=
  (pullSlots c s addr).foldl
    (fun (its : List WorkListItem) (j : Nat) =>
      its.set j (c.prePushApply (its.getD j {})).2) items

/-- A pull read of the line at address 192 is in flight for its first vertex (send mask 1,
bit 12 of the work bitvector); line 1, the slot of that address, is empty (configuration
`cfgFold`). -/
def stPullInFlight : State :=
  { cacheBlocks := [Block.init 4, Block.init 4],
    needsPush := (List.replicate 16 false).set 12 true,
    pendingVertexPullReads := [(192, 1)], maxPotentialPostPushWB := 1,
    workCount := 1, onTheFlyReqs := 1, memPortSent := [.read 192 64 true] }

/-! ## Definitions for the capacity invariants -/

/-- The MSHR table and the bookkeeping of pull reads and post-push writebacks. -/
def State.tables (s : State) :
    List (Int × List Nat) × Int × List (Nat × Nat) × List (MemPacket × Nat) :=
  (s.MSHR, s.maxPotentialPostPushWB, s.pendingVertexPullReads, s.postPushWBQueue)

/-- The capacity of the MSHR table: at most `numMSHREntries` entries, each with at most
`numTgtsPerMSHR` targets. -/
def MSHRWithin (c : Config) (m : List (Int × List Nat)) : Prop :=
  m.length ≤ c.numMSHREntries ∧ ∀ e ∈ m, e.2.length ≤ c.numTgtsPerMSHR

instance (c : Config) (m : List (Int × List Nat)) : Decidable (MSHRWithin c m) := by
  unfold MSHRWithin; infer_instance

/-- The table `m1` has no more entries than `m`, and none longer than some entry of `m`:
targets or entries have been removed. -/
def MSHRShrunk (m m1 : List (Int × List Nat)) : Prop :=
  m1.length ≤ m.length ∧ ∀ e1 ∈ m1, ∃ e ∈ m, e1.2.length ≤ e.2.length

/-- The cache of `cfgA` with `num_tgts_per_mshr = 0`. -/
def cfgNoTargets : Config :=
  { cacheSize := 128, peerMemoryAtomSize := 64, numMSHREntries := 1, numTgtsPerMSHR := 0 }

/-- The bookkeeping of pull reads: `maxPotentialPostPushWB` counts the entries of
`pendingVertexPullReads` (the pull reads in flight, one per line address), and the queued
post-push writebacks together with the pull reads in flight fit `postPushWBQueueSize`. -/
def PullInv (c : Config) (s : State) : Prop :=
  s.maxPotentialPostPushWB = (s.pendingVertexPullReads.length : Int) ∧
  (s.pendingVertexPullReads.map Prod.fst).Nodup ∧
  s.postPushWBQueue.length + s.pendingVertexPullReads.length ≤ c.postPushWBQueueSize

/-- A response handed to `handleMemResp` with the tag of a pull read answers a pull read
that is in flight; any other call is unconstrained. -/
def Op.solicited (s : State) : Op → Prop
  | .handleMemResp (.read a _ true) => (pullFind s.pendingVertexPullReads a).isSome = true
  | _ => True

/-- A run in which the memory answers only pull reads that are in flight. -/
def Solicited (c : Config) : State → List (Nat × Op) → Prop
  | _, [] => True
  | s, (now, op) :: rest =>
    op.solicited s ∧ ∀ s1, step c now s op = .ok s1 → Solicited c s1 rest

/-- The freshly constructed cache of `cfgFold`. -/
def stFoldFresh : State :=
  { cacheBlocks := [Block.init 4, Block.init 4], needsPush := List.replicate 16 false }

/-- From construction: the first vertex of the line at address 192 is made active, the push
engine asks for a vertex, the memory event sends the pull read, and the memory answers
it. -/
def opsPullOne : List (Nat × Op) :=
  [(0, .recvFunctional false 192 64 itemsFar), (1000, .recvVertexPull),
   (2000, .processNextMemoryEvent), (4000, .handleMemResp (.read 192 itemsFar true))]

/-! ## Runs for the invariants of the work lists and of the queues -/

/-- The workload of `cfgMin` with a work bitvector of 16 bits. -/
def cfgApply : Config :=
  { cacheSize := 128, peerMemoryAtomSize := 64, numMSHREntries := 1, numTgtsPerMSHR := 2,
    maxBitvectorSize := 16,
    applyCondition := fun wl => decide (wl.tempProp < wl.prop),
    preWBApply := fun wl =>
      (min wl.prop wl.tempProp != wl.prop, { wl with prop := min wl.prop wl.tempProp }) }

/-- Address 144 (line 0) and address 80 (line 1) are read, filled and delivered, one after
the other; both lines then have one slot handed out. -/
def opsTwoLines : List (Nat × Op) :=
  [(0, .recvWLRead 144), (1000, .processNextMemoryEvent),
   (2000, .handleMemResp (.read 128 itemsMem false)), (3000, .processNextResponseEvent),
   (4000, .recvWLRead 80), (5000, .processNextMemoryEvent),
   (6000, .handleMemResp (.read 64 itemsMem false)), (7000, .processNextResponseEvent)]

/-- At tick 8000 both slots are written back with an item that needs an apply, so both
lines are queued for apply (`applyQueue = [0, 1]`), and address 80 is read again.  One cycle
later the apply event serves line 0, the response event delivers the item of address 80,
and it is written back: line 1 is queued a second time while its first entry is still
waiting (`applyQueue = [1, 1]`).  The apply event of the next cycle applies line 1. -/
def opsRequeued : List (Nat × Op) :=
  opsTwoLines ++
  [(8000, .recvWLWrite 144 itemX), (8000, .recvWLWrite 80 itemX), (8000, .recvWLRead 80),
   (9000, .processNextPreWBApplyEvent), (9000, .processNextResponseEvent),
   (9000, .recvWLWrite 80 itemX),
   (10000, .processNextPreWBApplyEvent)]

/-- The apply event of the cycle after `opsRequeued` finds the second entry of line 1. -/
def opsStaleApply : List (Nat × Op) :=
  opsRequeued ++ [(11000, .processNextPreWBApplyEvent)]

/-- The workload of `cfgFold` with room for one post-push writeback. -/
def cfgOneWB : Config :=
  { cacheSize := 128, peerMemoryAtomSize := 64, numMSHREntries := 1, numTgtsPerMSHR := 2,
    maxBitvectorSize := 16, postPushWBQueueSize := 1,
    applyCondition := fun wl => decide (wl.tempProp < wl.prop),
    preWBApply := fun wl => (decide (wl.tempProp < wl.prop), wl),
    prePushApply := fun wl =>
      ((wl.tempProp, true, wl.tempProp != wl.prop), { wl with prop := wl.tempProp }),
    workloadInit := fun _ _ base x => (x.1.set base.toNat true, x.2.1 ++ [base], x.2.2 + 1) }

/-- Line 1 holds address 64, valid with a slot handed out again, and still needs the apply
it was queued for: the read of tick 6000 has cleared `pendingApply` (configuration
`cfgMin`). -/
def stReadAgain : State :=
  { cacheBlocks := [Block.init 4,
                    { addr := 64, items := itemsMem.set 1 itemX, valid := true,
                      busyMask := 2, needsWB := true, needsApply := true,
                      lastChangedTick := 6500 }],
    applyQueue := [1], needsPush := List.replicate 8 false,
    nextPreWBApplyEventScheduled := true }

/-- The work bitvector and the work count. -/
def State.work (s : State) : List Bool × Int := (s.needsPush, s.workCount)

/-- The work count is the number of set bits of the work bitvector, which has the size the
constructor gave it. -/
def WorkInv (c : Config) (s : State) : Prop :=
  s.workCount = (s.needsPush.count true : Int) ∧ s.needsPush.length = c.maxBitvectorSize

/-- The workload's `init` keeps the work count equal to the number of set bits of the
bitvector it is handed, and does not resize the bitvector. -/
def InitKeepsCount (c : Config) : Prop :=
  ∀ (addr : Nat) (data : List WorkListItem) (base : Int) (np : List Bool)
    (active : List Int) (wc : Int), wc = (np.count true : Int) →
    (c.workloadInit addr data base (np, active, wc)).2.2 =
      ((c.workloadInit addr data base (np, active, wc)).1.count true : Int) ∧
    (c.workloadInit addr data base (np, active, wc)).1.length = np.length

/-! ## Definitions for the apply loop -/

/-- The slots `j` with `i ≤ j < i + n` of a line for which `preWBApply` asks for a push and
whose bit `base + j` of the work bitvector `np` is clear, in increasing order: the slots for
which the loop of lines 786-799 sets the bit. -/
def applySlots (c : Config) (items : List WorkListItem) (np : List Bool) (base : Int)
    (i n : Nat) : List Nat :=
  (List.range' i n).filter (fun (j : Nat) =>
    (c.preWBApply (items.getD j {})).1 && (np.getD (base + (j : Int)).toNat true == false))

/-- The items of a line after the loop of lines 786-799 has visited the slots `i ≤ j < i + n`:
each one is as `preWBApply` left it. -/
def appliedItems (c : Config) (items : List WorkListItem) (i n : Nat) : List WorkListItem :=
  (List.range' i n).foldl
    (fun (its : List WorkListItem) (j : Nat) => its.set j (c.preWBApply (its.getD j {})).2)
    items

/-- The work bitvector with the bits `base + j` set for the slots `j` of `slots`. -/
def setBits (np : List Bool) (base : Int) (slots : List Nat) : List Bool :=
  slots.foldl (fun (np : List Bool) (j : Nat) => np.set (base + (j : Int)).toNat true) np

/-- The state after the loop of lines 786-799 over the slots `i ≤ j < i + n` of line
`block_index`, which is `blk` and whose bit index base is `base`. -/
def appliedState (c : Config) (s : State) (block_index : Int) (blk : Block) (base : Int)
    (i n : Nat) : State :=
  { (s.setBlock block_index { blk with items := appliedItems c blk.items i n }) with
    needsPush := setBits s.needsPush base (applySlots c blk.items s.needsPush base i n),
    workCount := s.workCount + ((applySlots c blk.items s.needsPush base i n).length : Int),
    activeBits := s.activeBits ++
      (applySlots c blk.items s.needsPush base i n).map (fun (j : Nat) => base + (j : Int)),
    ownerRunning := s.ownerRunning || !(applySlots c blk.items s.needsPush base i n).isEmpty,
    ownerCalls := s.ownerCalls ++
      (if s.ownerRunning || (applySlots c blk.items s.needsPush base i n).isEmpty then []
       else [OwnerCall.start]) }

/-- Line 1 holds address 64 and is valid, with no slot handed out and the apply pending
that it is queued for: slot 1 was written with `itemX` at tick 5000 (configuration
`cfgMin`, whose work bitvector has 8 bits; bit 5 is the bit of the slot). -/
def stApplyReady : State :=
  { cacheBlocks := [Block.init 4,
                    { addr := 64, items := itemsMem.set 1 itemX, valid := true,
                      needsWB := true, needsApply := true, pendingApply := true,
                      lastChangedTick := 5000 }],
    applyQueue := [1], needsPush := List.replicate 8 false,
    nextPreWBApplyEventScheduled := true }

/-- The state `stApplyReady` with a read of address 208 waiting for line 1 in the MSHR. -/
def stApplyConflict : State :=
  { stApplyReady with MSHR := [(1, [208])] }

/-! ## The hand-off of MSHR targets in `coalesce_engine.cc`

The other implementation of `CoalesceEngine::handleMemResp` (file `coalesce_engine.cc`,
lines 257-301) walks the target list of the filled line by index, collects the indices
of the targets it serves, and erases them afterwards. -/

/-- The number of low bits that an unsigned value below `2 ^ 65` loses when it is converted
to `double`, whose significand has 53 bits. -/
def lostBits (n : Nat) : Nat :=
  ((List.range 12).filter (fun (k : Nat) => decide (2 ^ (53 + k) ≤ n))).length

/-- The value of an unsigned integer after conversion to `double`: it keeps its 53 leading
bits and is rounded to the nearest such value, a tie going to the even one. -/
def toDouble (n : Nat) : Nat :=
  let e := lostBits n
  let q := n / 2 ^ e
  let r := n % 2 ^ e
  if 2 ^ e < 2 * r ∨ (2 * r = 2 ^ e ∧ q % 2 = 1) then (q + 1) * 2 ^ e else q * 2 ^ e

/-- The local `aligned_miss_addr` of line 261,
`std::floor(miss_addr / peerMemoryAtomSize) * peerMemoryAtomSize`: the integer quotient is
converted to `double` by `std::floor`, the product is taken in `double`, and the result is
converted back to `Addr`, which is undefined for a value that `Addr` cannot hold. -/
def alignedMissAddr (c : Config) (miss_addr : Nat) : Except Fault Nat :=
  let d := toDouble (toDouble (miss_addr / c.peerMemoryAtomSize) *
    toDouble c.peerMemoryAtomSize)
  if d < 2 ^ 64 then pure d else .error (.undefined 261)

/-- The first loop (lines 259-283) from index `i` on: every target whose
`aligned_miss_addr` is the fill address gets a response with its item, and its index is
recorded.  The result is the response queue and `servicedIndices`. -/
def serviceTargets (c : Config) (addr : Nat) (items : List WorkListItem) :
    List Nat → Nat → List (Nat × WorkListItem) → List Nat →
    Except Fault (List (Nat × WorkListItem) × List Nat)
  | [], _, rq, serviced => pure (rq, serviced)
  | miss_addr :: rest, i, rq, serviced => do
    let aligned_miss_addr ← alignedMissAddr c miss_addr
    if aligned_miss_addr == addr then
      let wl_offset := ((miss_addr + 2 ^ 64 - aligned_miss_addr) % 2 ^ 64) / sizeofWorkListItem
      match items[wl_offset]? with
      | none => .error (.undefined 269)
      | some item =>
        serviceTargets c addr items rest (i + 1) (rq ++ [(miss_addr, item)]) (serviced ++ [i])
    else serviceTargets c addr items rest (i + 1) rq serviced

/-- The second loop (lines 286-294): the element at `servicedIndices[i] - bias` is erased
from the target list and `bias` is incremented. -/
def eraseServiced : List Nat → Nat → List Nat → Except Fault (List Nat)
  | [], _, targets => pure targets
  | index :: rest, bias, targets =>
    if index < bias ∨ targets.length ≤ index - bias then .error (.undefined 288)
    else eraseServiced rest (bias + 1) (targets.eraseIdx (index - bias))

/-- The hand-off of lines 257-294: the result is the response queue and the targets that
remain. -/
def handOff (c : Config) (addr : Nat) (items : List WorkListItem) (targets : List Nat)
    (rq : List (Nat × WorkListItem)) : Except Fault (List (Nat × WorkListItem) × List Nat) := do
  let (rq1, serviced) ← serviceTargets c addr items targets 0 rq []
  let left ← eraseServiced serviced 0 targets
  pure (rq1, left)

/-- A response of `coalesce_engine_bak.cc` without its tick. -/
def untimed (r : Nat × WorkListItem × Nat) : Nat × WorkListItem := (r.1, r.2.1)

/-- The indices, counted from `i`, of the targets that a fill of address `addr` serves. -/
def servedIndices (c : Config) (addr : Nat) : List Nat → Nat → List Nat
  | [], _ => []
  | t :: rest, i =>
    if roundDown t c.peerMemoryAtomSize == addr then i :: servedIndices c addr rest (i + 1)
    else servedIndices c addr rest (i + 1)

/-- A target whose line number `2 ^ 53 + 1` is not a `double`; its line is at `addrOdd`. -/
def addrOdd : Nat := (2 ^ 53 + 1) * 64

/-! ## `PushEngine::EdgeReadInfoGen` (`push_engine.hh`, lines 45-83) -/

/-- The class `PushEngine::EdgeReadInfoGen`: the edges of one vertex lie in `[_start, _end)`,
`_step` bytes each, and are read in packets of `_atom` bytes.  The fields of type `Addr`
and `size_t` are unsigned 64-bit values. -/
structure EdgeReadInfoGen where
  _start : Nat
  _end : Nat
  _step : Nat
  _atom : Nat
  _value : Nat := 0
  _src : Nat := 0
deriving DecidableEq, Repr

/-- The member function `EdgeReadInfoGen::done` (line 79). -/
def EdgeReadInfoGen.done (g : EdgeReadInfoGen) : Bool := decide (g._end ≤ g._start)

/-- The member function `EdgeReadInfoGen::nextReadPacketInfo` (lines 62-77).  The sum
`aligned_addr + _atom` and the difference `_atom - offset` are taken in the unsigned 64-bit
type, the quotients are converted to `int`, and a division by a zero `_step` is undefined.
The result is the returned tuple and the generator after the call. -/
def EdgeReadInfoGen.nextReadPacketInfo (g : EdgeReadInfoGen) :
    Except Fault ((Nat × Nat × Int) × EdgeReadInfoGen) := do
  assert (!g.done) 64
  let aligned_addr := roundDown g._start g._atom
  let offset := g._start - aligned_addr
  let num_items ←
    (if g._end > (aligned_addr + g._atom) % 2 ^ 64 then
      (if g._step = 0 then .error (.undefined 70)
       else pure (toInt32 (((g._atom + 2 ^ 64 - offset) % 2 ^ 64) / g._step)))
     else
      (if g._step = 0 then .error (.undefined 72)
       else pure (toInt32 ((g._end - g._start) / g._step))))
  pure ((aligned_addr, offset, num_items),
        { g with _start := (aligned_addr + g._atom) % 2 ^ 64 })

/-- The first `n` calls of `nextReadPacketInfo` on a generator: each returned tuple with the
generator as the call left it. -/
def nextReadPacketInfos :
    Nat → EdgeReadInfoGen → Except Fault (List ((Nat × Nat × Int) × EdgeReadInfoGen))
  | 0, _ => pure []
  | n + 1, g => do
    let r ← g.nextReadPacketInfo
    let rest ← nextReadPacketInfos n r.2
    pure (r :: rest)

/-- A generator whose packets are a power of two of bytes, a whole number of edges each,
whose range starts and ends on an edge, whose packets hold fewer than `2 ^ 31` edges, and
whose range ends at least one packet below the top of the address space. -/
def EdgeReadInfoGen.wellFormed (g : EdgeReadInfoGen) : Prop :=
  isPowerOf2 g._atom = true ∧ 0 < g._step ∧ g._step ∣ g._atom ∧ g._step ∣ g._start ∧
  g._step ∣ g._end ∧ g._atom / g._step < 2 ^ 31 ∧ g._end + g._atom ≤ 2 ^ 64

/-- Three edges of 16 bytes in the last 64-byte packet of the address space. -/
def genTop : EdgeReadInfoGen :=
  { _start := 2 ^ 64 - 64, _end := 2 ^ 64 - 16, _step := 16, _atom := 64 }

/-- Nine edges of 16 bytes from address 96 to address 240, in packets of 64 bytes. -/
def genNine : EdgeReadInfoGen :=
  { _start := 96, _end := 240, _step := 16, _atom := 64 }

/-! ## Definitions for the post-push writeback queue -/

/-- The number of `processNextPostPushWB` entries of the memory-function queue, and the
number of packets of the post-push writeback queue. -/
def State.wb (s : State) : Nat × Nat :=
  ((s.memoryFunctionQueue.filter (fun e => decide (e.fn = .nextPostPushWB))).length,
    s.postPushWBQueue.length)

theorem assert_true (l : Nat) : assert true l = .ok () := rfl

theorem isPowerOf2_pos {n : Nat} (h : isPowerOf2 n = true) : 0 < n := by
  unfold isPowerOf2 at h
  simp at h
  omega

theorem roundDown_mod (a L : Nat) : roundDown a L % L = 0 := by
  unfold roundDown
  rcases Nat.eq_zero_or_pos L with h | h
  · subst h; simp
  · have := Nat.mod_add_div a L
    have h2 : a - a % L = L * (a / L) := by omega
    rw [h2]; simp

theorem wlOffsetOf_lt {c : Config} (hc : c.wf) (addr : Nat) :
    wlOffsetOf c addr < c.numElementsPerLine := by
  obtain ⟨_, hK, hdvd⟩ := hc
  have hKpos := isPowerOf2_pos hK
  unfold wlOffsetOf roundDown Config.numElementsPerLine at *
  unfold sizeofWorkListItem at *
  have hL : 0 < c.peerMemoryAtomSize := by
    rcases Nat.eq_zero_or_pos c.peerMemoryAtomSize with h | h
    · rw [h] at hKpos; simp at hKpos
    · exact h
  have hlt := Nat.mod_lt addr hL
  have hle := Nat.mod_le addr c.peerMemoryAtomSize
  have : addr - (addr - addr % c.peerMemoryAtomSize) = addr % c.peerMemoryAtomSize := by omega
  rw [this]
  obtain ⟨k, hk⟩ := hdvd
  rw [hk] at hlt ⊢
  rw [Nat.mul_div_cancel_left _ (by norm_num : 0 < 16)]
  exact Nat.div_lt_of_lt_mul hlt

theorem State.block?_some {s : State} {i : Int} {b : Block} (h : s.block? i = some b) :
    0 ≤ i ∧ i.toNat < s.cacheBlocks.length ∧ s.cacheBlocks[i.toNat]? = some b := by
  unfold State.block? at h
  split at h
  · cases h
  · refine ⟨by omega, ?_, h⟩
    exact (List.getElem?_eq_some_iff.mp h).1

theorem State.block?_mem {s : State} {i : Int} {b : Block} (h : s.block? i = some b) :
    b ∈ s.cacheBlocks := by
  obtain ⟨_, _, hget⟩ := State.block?_some h
  obtain ⟨hlt, heq⟩ := List.getElem?_eq_some_iff.mp hget
  exact heq ▸ List.getElem_mem hlt

theorem State.block?_setBlock {s : State} {i : Int} {b d : Block} (h : s.block? i = some b) :
    (s.setBlock i d).block? i = some d := by
  obtain ⟨h0, hlt, _⟩ := State.block?_some h
  unfold State.block? State.setBlock
  have : ¬ i < 0 := by omega
  simp [this, hlt]

theorem State.block?_setBlock_ne {s : State} {i j : Int} {b : Block} (hi : 0 ≤ i)
    (h : j ≠ i) : (s.setBlock i b).block? j = s.block? j := by
  unfold State.block? State.setBlock
  by_cases hj : j < 0
  · simp [hj]
  · have : i.toNat ≠ j.toNat := by omega
    simp [hj, List.getElem?_set, this]

theorem testBit_bit (i j : Nat) : (bit i).testBit j = decide (i = j) := by
  unfold bit
  rw [Nat.one_shiftLeft, Nat.testBit_two_pow]

/-- The state and line that the hit path of `recvWLRead` produces. -/
theorem hitPath_eq (c : Config) (now : Nat) (s : State) (addr : Nat) (blk : Block)
    (hc : c.wf) (hs : s.wf c)
    (hblk : s.block? (blockIndexOf c (roundDown addr c.peerMemoryAtomSize)) = some blk)
    (haddr : blk.addr = roundDown addr c.peerMemoryAtomSize) (hvalid : blk.valid = true)
    (hI1 : blk.pendingData = false)
    (hI2 : ¬ (blk.pendingApply = true ∧ blk.pendingWB = true)) :
    ∃ item, blk.items[wlOffsetOf c addr]? = some item ∧
      recvWLRead c now s addr = .ok (true,
        { (s.setBlock (blockIndexOf c (roundDown addr c.peerMemoryAtomSize))
            { blk with busyMask := blk.busyMask ||| bit (wlOffsetOf c addr),
                       pendingApply := false, pendingWB := false,
                       lastChangedTick := tickAdd now (c.clockPeriod / 2) }) with
          responseQueue := s.responseQueue ++ [(addr, item, now)],
          nextResponseEventScheduled := true }) := by
  have hoff := wlOffsetOf_lt hc addr
  obtain ⟨h0, hlt, hget⟩ := State.block?_some hblk
  have hlen := (hs.2 blk (State.block?_mem hblk)).1
  have hitem : (wlOffsetOf c addr) < blk.items.length := by omega
  refine ⟨blk.items[wlOffsetOf c addr], List.getElem?_eq_getElem hitem, ?_⟩
  have hbi : blockIndexOf c (roundDown addr c.peerMemoryAtomSize) < (c.numLines : Int) := by
    rw [← hs.1]; omega
  have hI2' : blk.pendingApply = false ∨ blk.pendingWB = false := by
    cases hA : blk.pendingApply <;> cases hB : blk.pendingWB <;> simp_all
  unfold wlOffsetOf at hoff hitem ⊢
  simp [recvWLRead, getBlockIndex, roundDown_mod, assert, State.block, hblk, haddr, hvalid,
    hI1, hI2', hbi, hoff, hitem, bind, Except.bind, pure, Except.pure, State.setBlock]

/-- C1 (read hit).  Let `a` be the line-aligned address of `addr`, `bi` its block index and
`off` its slot, in a cache whose lines have fewer than 32 slots (the range in which the
`int` shift `1 << wl_offset` of line 191 is the single bit of the slot).  When line `bi`
holds `a` and is valid (a line of the data model: not also pending data, not pending both
apply and writeback), `recvWLRead` returns true, appends
exactly the entry `(addr, items[off], now)` to the response queue, sets the busy bit of slot
`off` (the mask is unchanged when the bit was set), clears `pendingApply` and `pendingWB`,
sets `lastChangedTick` to `now + clockPeriod / 2` (in 64-bit tick arithmetic), and leaves the
line's other fields, every other line, the MSHR table, the apply queue and the
memory-function queue unchanged and sends nothing to memory. -/
theorem recvWLRead_hit (c : Config) (now : Nat) (s : State) (addr a : Nat) (bi : Int)
    (off : Nat) (blk : Block) (hc : c.wf) (hs : s.wf c) (hK : c.numElementsPerLine < 32)
    (ha : a = roundDown addr c.peerMemoryAtomSize) (hbi : bi = blockIndexOf c a)
    (ho : off = wlOffsetOf c addr)
    (hblk : s.block? bi = some blk) (haddr : blk.addr = a) (hvalid : blk.valid = true)
    (hI1 : blk.pendingData = false)
    (hI2 : ¬ (blk.pendingApply = true ∧ blk.pendingWB = true)) :
    ∃ s1 blk1 item,
      recvWLRead c now s addr = .ok (true, s1) ∧
      blk.items[off]? = some item ∧
      s1.responseQueue = s.responseQueue ++ [(addr, item, now)] ∧
      s1.block? bi = some blk1 ∧
      (∀ i, blk1.busyMask.testBit i = (blk.busyMask.testBit i || decide (i = off))) ∧
      (blk.busyMask.testBit off = true → blk1.busyMask = blk.busyMask) ∧
      blk1.pendingApply = false ∧ blk1.pendingWB = false ∧
      blk1.lastChangedTick = (now + c.clockPeriod / 2) % 2 ^ 64 ∧
      (now + c.clockPeriod / 2 < 2 ^ 64 → blk1.lastChangedTick = now + c.clockPeriod / 2) ∧
      blk1.items = blk.items ∧ blk1.addr = blk.addr ∧ blk1.valid = true ∧
      blk1.pendingData = false ∧ blk1.needsWB = blk.needsWB ∧
      blk1.needsApply = blk.needsApply ∧
      (∀ j, j ≠ bi → s1.block? j = s.block? j) ∧
      s1.MSHR = s.MSHR ∧ s1.applyQueue = s.applyQueue ∧
      s1.memoryFunctionQueue = s.memoryFunctionQueue ∧ s1.memPortSent = s.memPortSent := by
  subst ha hbi ho
  have _hshift : wlOffsetOf c addr < 31 := Nat.lt_of_lt_of_le (wlOffsetOf_lt hc addr) (by omega)
  obtain ⟨item, hitem, heq⟩ := hitPath_eq c now s addr blk hc hs hblk haddr hvalid hI1 hI2
  obtain ⟨h0, _, _⟩ := State.block?_some hblk
  have hset := State.block?_setBlock (d :=
    { blk with busyMask := blk.busyMask ||| bit (wlOffsetOf c addr),
               pendingApply := false, pendingWB := false,
               lastChangedTick := tickAdd now (c.clockPeriod / 2) }) hblk
  have hbits : ∀ i, (blk.busyMask ||| bit (wlOffsetOf c addr)).testBit i =
      (blk.busyMask.testBit i || decide (i = wlOffsetOf c addr)) := by
    intro i
    rw [Nat.testBit_or, testBit_bit]
    congr 1
    exact decide_eq_decide.mpr eq_comm
  refine ⟨_, _, item, heq, hitem, rfl, hset, hbits, ?_, rfl, rfl, rfl, ?_, rfl, rfl, hvalid,
    hI1, rfl, rfl, ?_, rfl, rfl, rfl, rfl⟩
  · intro hset
    apply Nat.eq_of_testBit_eq
    intro i
    rw [hbits i]
    by_cases hi : i = wlOffsetOf c addr
    · subst hi; simp [hset]
    · simp [hi]
  · intro hlt
    show tickAdd now (c.clockPeriod / 2) = _
    unfold tickAdd
    exact Nat.mod_eq_of_lt hlt
  · intro j hj
    exact State.block?_setBlock_ne h0 hj

/-- Witness for C1: a read of address 16 (slot 1 of line 0) hits in `stHit`. -/
theorem recvWLRead_hit_witness :
    ∃ s1 blk1 item,
      recvWLRead cfgA 7 stHit 16 = .ok (true, s1) ∧
      itemsA[1]? = some item ∧
      s1.responseQueue = stHit.responseQueue ++ [(16, item, 7)] ∧
      s1.block? 0 = some blk1 ∧
      (∀ i, blk1.busyMask.testBit i = (Nat.testBit 0 i || decide (i = 1))) ∧
      (Nat.testBit 0 1 = true → blk1.busyMask = 0) ∧
      blk1.pendingApply = false ∧ blk1.pendingWB = false ∧
      blk1.lastChangedTick = (7 + cfgA.clockPeriod / 2) % 2 ^ 64 ∧
      (7 + cfgA.clockPeriod / 2 < 2 ^ 64 → blk1.lastChangedTick = 7 + cfgA.clockPeriod / 2) ∧
      blk1.items = itemsA ∧ blk1.addr = 0 ∧ blk1.valid = true ∧
      blk1.pendingData = false ∧ blk1.needsWB = false ∧
      blk1.needsApply = false ∧
      (∀ j, j ≠ 0 → s1.block? j = stHit.block? j) ∧
      s1.MSHR = stHit.MSHR ∧ s1.applyQueue = stHit.applyQueue ∧
      s1.memoryFunctionQueue = stHit.memoryFunctionQueue ∧
      s1.memPortSent = stHit.memPortSent :=
  recvWLRead_hit cfgA 7 stHit 16 0 0 1 { addr := 0, items := itemsA, valid := true }
    (by decide) (by decide) (by decide) (by decide) (by decide) (by decide) (by decide)
    (by decide) (by decide) (by decide) (by decide)

theorem mshrFind_pushBack_self (m : List (Int × List Nat)) (k : Int) (a : Nat) :
    mshrFind (mshrPushBack m k a) k = some (mshrTargets m k ++ [a]) := by
  induction m with
  | nil => simp [mshrPushBack, mshrFind, mshrTargets]
  | cons e rest ih =>
    obtain ⟨k1, ts⟩ := e
    by_cases h : k1 = k
    · simp [mshrPushBack, mshrFind, mshrTargets, h]
    · simp only [mshrTargets, mshrFind, h, if_false] at ih ⊢
      simp [mshrPushBack, mshrFind, h, ih]

theorem mshrFind_pushBack_ne (m : List (Int × List Nat)) (k j : Int) (a : Nat) (h : j ≠ k) :
    mshrFind (mshrPushBack m k a) j = mshrFind m j := by
  induction m with
  | nil => simp [mshrPushBack, mshrFind, Ne.symm h]
  | cons e rest ih =>
    obtain ⟨k1, ts⟩ := e
    by_cases h1 : k1 = k
    · subst h1
      simp [mshrPushBack, mshrFind, Ne.symm h]
    · by_cases h2 : k1 = j
      · subst h2
        simp [mshrPushBack, mshrFind, h1]
      · simp [mshrPushBack, mshrFind, h1, h2, ih]

theorem mshrPushBack_length (m : List (Int × List Nat)) (k : Int) (a : Nat) :
    (mshrPushBack m k a).length =
      if (mshrFind m k).isSome then m.length else m.length + 1 := by
  induction m with
  | nil => simp [mshrPushBack, mshrFind]
  | cons e rest ih =>
    obtain ⟨k1, ts⟩ := e
    by_cases h : k1 = k
    · simp [mshrPushBack, mshrFind, h]
    · simp only [mshrPushBack, mshrFind, h, if_false, List.length_cons, ih]
      split <;> rfl

/-- C3 (cold read of address 0).  On the freshly constructed cache of `cfgA`, whose lines
are all empty and whose MSHR table is empty, `recvWLRead(0)` does not return: the assertion
on line 252 (`cacheBlocks[block_index].addr != aligned_addr`) fails, because the empty line's
address field still has its initial value 0.  Neither a line nor a queue is changed. -/
theorem recvWLRead_fresh_zero_asserts :
    CoalesceEngine cfgA = .ok stFresh ∧ stFresh.MSHR = [] ∧
      ∀ now, recvWLRead cfgA now stFresh 0 = .error (.assertion 252) :=
  ⟨rfl, rfl, fun _ => rfl⟩

/-- C2 (cold miss).  On the freshly constructed cache of `cfgA`, address 16 maps to line 0,
which is empty (neither valid nor pending data) and has no MSHR entry, and the MSHR table
has a free entry; yet `recvWLRead(16)` does not return true: the assertion on line 252
fails, because the aligned address 0 equals the initial value of the line's address
field. -/
theorem recvWLRead_cold_miss_asserts :
    ∃ blk, CoalesceEngine cfgA = .ok stFresh ∧
      stFresh.block? (blockIndexOf cfgA (roundDown 16 cfgA.peerMemoryAtomSize)) = some blk ∧
      blk.valid = false ∧ blk.pendingData = false ∧
      mshrFind stFresh.MSHR (blockIndexOf cfgA (roundDown 16 cfgA.peerMemoryAtomSize)) = none ∧
      stFresh.MSHR.length < cfgA.numMSHREntries ∧
      ∀ now, recvWLRead cfgA now stFresh 16 = .error (.assertion 252) :=
  ⟨_, rfl, rfl, rfl, rfl, rfl, by decide, fun _ => rfl⟩

/-- C6 (rejection is exactly resource exhaustion).  From the freshly constructed cache of
`cfgA` (one MSHR entry), the read of address 64 is accepted and takes the only MSHR entry,
which gives `stFull`.  There a read of address 0 is not a hit, its block has no MSHR entry
and the table holds `numMSHREntries` entries; `recvWLRead(0)` nevertheless does not return
false: the assertion on line 252 fails. -/
theorem recvWLRead_full_table_asserts :
    ∃ blk, CoalesceEngine cfgA = .ok stFresh ∧
      recvWLRead cfgA 1000 stFresh 64 = .ok (true, stFull) ∧
      stFull.block? (blockIndexOf cfgA (roundDown 0 cfgA.peerMemoryAtomSize)) = some blk ∧
      blk.valid = false ∧
      mshrFind stFull.MSHR (blockIndexOf cfgA (roundDown 0 cfgA.peerMemoryAtomSize)) = none ∧
      stFull.MSHR.length = cfgA.numMSHREntries ∧
      recvWLRead cfgA 2000 stFull 0 = .error (.assertion 252) :=
  ⟨_, rfl, rfl, rfl, rfl, rfl, rfl, rfl⟩

/-- C7 (rejection is atomic).  Whenever `recvWLRead` returns false, the state it returns is
the state it was given: every line, the MSHR table, the response queue, the apply queue, the
memory-function queue and everything else are unchanged. -/
theorem recvWLRead_reject_unchanged (c : Config) (now : Nat) (s : State) (addr : Nat)
    (r : Bool × State) (h : recvWLRead c now s addr = .ok r) (hr : r.1 = false) : r.2 = s := by
  obtain ⟨b, s1⟩ := r
  simp only at hr
  subst hr
  show s1 = s
  unfold recvWLRead at h
  simp only [bind, Except.bind, pure, Except.pure, getBlockIndex, assert, State.block] at h
  repeat' split at h
  all_goals first
    | (cases h; done)
    | (cases h; rfl)

/-- Witness for C7: with the only MSHR entry of `cfgA` taken, the read of address 128 (a
miss in line 0) is rejected and the state is unchanged. -/
theorem recvWLRead_reject_unchanged_witness :
    ∃ r, recvWLRead cfgA 2000 stFull 128 = .ok r ∧ r.1 = false ∧ r.2 = stFull :=
  ⟨(false, stFull), rfl, rfl,
    recvWLRead_reject_unchanged cfgA 2000 stFull 128 (false, stFull) rfl rfl⟩

/-- C5 (hit under miss).  Let `a` be the line-aligned address of `addr` and `bi` its block
index.  When line `bi` holds `a` and is pending data (a PendingData line of the lifecycle:
not valid, nothing busy, no other flag set) and `ts` is the block's MSHR target list (within
the bounds the engine asserts), then: if `ts` has fewer than `numTgtsPerMSHR` targets,
`recvWLRead` returns true and the block's target list becomes `ts ++ [addr]`; otherwise it
returns false and the whole state is unchanged.  In both cases every line descriptor, the
memory-function queue and the response queue are unchanged and nothing is sent to memory. -/
theorem recvWLRead_hitUnderMiss (c : Config) (now : Nat) (s : State) (addr a : Nat)
    (bi : Int) (blk : Block) (ts : List Nat) (hc : c.wf) (hs : s.wf c)
    (ha : a = roundDown addr c.peerMemoryAtomSize) (hbi : bi = blockIndexOf c a)
    (hblk : s.block? bi = some blk) (haddr : blk.addr = a)
    (hpd : blk.pendingData = true) (hI1 : blk.valid = false)
    (hI6 : blk.busyMask = 0 ∧ blk.needsWB = false ∧ blk.needsApply = false)
    (hpend : blk.pendingApply = false ∧ blk.pendingWB = false)
    (hmshr : mshrFind s.MSHR bi = some ts)
    (hsize : s.MSHR.length ≤ c.numMSHREntries) (htg : ts.length ≤ c.numTgtsPerMSHR) :
    (ts.length < c.numTgtsPerMSHR →
      ∃ s1, recvWLRead c now s addr = .ok (true, s1) ∧
        mshrFind s1.MSHR bi = some (ts ++ [addr]) ∧
        (∀ j, j ≠ bi → mshrFind s1.MSHR j = mshrFind s.MSHR j) ∧
        s1.MSHR.length = s.MSHR.length ∧
        s1.cacheBlocks = s.cacheBlocks ∧
        s1.memoryFunctionQueue = s.memoryFunctionQueue ∧
        s1.responseQueue = s.responseQueue ∧ s1.applyQueue = s.applyQueue ∧
        s1.memPortSent = s.memPortSent) ∧
    (¬ ts.length < c.numTgtsPerMSHR → recvWLRead c now s addr = .ok (false, s)) := by
  have hoff := wlOffsetOf_lt hc addr
  obtain ⟨h0, hlt, hget⟩ := State.block?_some hblk
  have hbi2 : bi < (c.numLines : Int) := by
    rw [← hs.1]; omega
  obtain ⟨hb, hwb, hna⟩ := hI6
  obtain ⟨hpa, hpw⟩ := hpend
  unfold wlOffsetOf at hoff
  rw [ha] at hbi haddr
  rw [hbi] at hblk hmshr hbi2
  constructor
  · intro hlt2
    have hne : ¬ ts.length = c.numTgtsPerMSHR := by omega
    refine ⟨{ s with MSHR := mshrPushBack s.MSHR bi addr }, ?_, ?_, ?_, ?_,
              rfl, rfl, rfl, rfl, rfl⟩
    · simp [recvWLRead, getBlockIndex, roundDown_mod, assert, State.block, hblk, haddr, hpd,
        hI1, hb, hwb, hna, hpa, hpw, hbi, hbi2, hoff, hmshr, mshrTargets, hsize, htg, hne,
        bind, Except.bind, pure, Except.pure]
    · show mshrFind (mshrPushBack _ _ _) _ = _
      rw [mshrFind_pushBack_self]
      simp [mshrTargets, hbi, hmshr]
    · intro j hj
      exact mshrFind_pushBack_ne _ _ _ _ hj
    · show (mshrPushBack _ _ _).length = _
      rw [mshrPushBack_length]
      simp [hbi, hmshr]
  · intro hge
    have heq : ts.length = c.numTgtsPerMSHR := by omega
    simp [recvWLRead, getBlockIndex, roundDown_mod, assert, State.block, hblk, haddr, hpd,
      hI1, hb, hwb, hna, hpa, hpw, hbi2, hoff, hmshr, mshrTargets, hsize, heq,
      bind, Except.bind, pure, Except.pure]

/-- Witness for C5: in `stFull` line 1 waits for address 64 with one target; the read of
address 80 (the same line) is a hit under miss. -/
theorem recvWLRead_hitUnderMiss_witness :
    (([64] : List Nat).length < cfgA.numTgtsPerMSHR →
      ∃ s1, recvWLRead cfgA 2000 stFull 80 = .ok (true, s1) ∧
        mshrFind s1.MSHR 1 = some ([64] ++ [80]) ∧
        (∀ j, j ≠ 1 → mshrFind s1.MSHR j = mshrFind stFull.MSHR j) ∧
        s1.MSHR.length = stFull.MSHR.length ∧
        s1.cacheBlocks = stFull.cacheBlocks ∧
        s1.memoryFunctionQueue = stFull.memoryFunctionQueue ∧
        s1.responseQueue = stFull.responseQueue ∧ s1.applyQueue = stFull.applyQueue ∧
        s1.memPortSent = stFull.memPortSent) ∧
    (¬ ([64] : List Nat).length < cfgA.numTgtsPerMSHR →
      recvWLRead cfgA 2000 stFull 80 = .ok (false, stFull)) :=
  recvWLRead_hitUnderMiss cfgA 2000 stFull 80 64 1
    { (Block.init 4) with addr := 64, pendingData := true, lastChangedTick := 1000 } [64]
    (by decide) (by decide) (by decide) (by decide) (by decide) (by decide) (by decide)
    (by decide) (by decide) (by decide) (by decide) (by decide) (by decide)

/-- C4 (conflict miss).  Let `a` be the line-aligned address of `addr` and `bi` its block
index.  When line `bi` is occupied (valid or pending data) by an address other than `a`, the
block has no MSHR entry and the MSHR table has a free entry, `recvWLRead` returns true and
the block's MSHR target list becomes `[addr]`.  If the occupant is idle and needs a
writeback, the line only gets `pendingWB` set (and is stamped `now`) and exactly one
writeback entry stamped `now` is appended to the memory-function queue; if it is idle and
clean, the line is retargeted to `a` in PendingData (every other flag clear, stamped `now`)
and exactly one fill entry stamped `now` is appended; if it is not idle, the line is
unchanged and nothing is appended.  The line is taken from the data model: not both valid
and pending data, and with `needsApply` clear when idle. -/
theorem recvWLRead_conflict_miss (c : Config) (now : Nat) (s : State) (addr a : Nat)
    (bi : Int) (blk : Block) (hc : c.wf) (hs : s.wf c)
    (ha : a = roundDown addr c.peerMemoryAtomSize) (hbi : bi = blockIndexOf c a)
    (hblk : s.block? bi = some blk)
    (hocc : blk.valid = true ∨ blk.pendingData = true) (hne : blk.addr ≠ a)
    (hmshr : mshrFind s.MSHR bi = none) (hfree : s.MSHR.length < c.numMSHREntries)
    (hI1 : ¬ (blk.valid = true ∧ blk.pendingData = true))
    (hNA : blk.idle → blk.needsApply = false) :
    ∃ s1 blk1,
      recvWLRead c now s addr = .ok (true, s1) ∧
      mshrFind s1.MSHR bi = some [addr] ∧
      (∀ j, j ≠ bi → mshrFind s1.MSHR j = mshrFind s.MSHR j) ∧
      s1.block? bi = some blk1 ∧
      (blk.idle → blk.needsWB = true →
        blk1 = { blk with pendingWB := true, lastChangedTick := now } ∧
        s1.memoryFunctionQueue = s.memoryFunctionQueue ++ [⟨.nextWriteBack, bi, now⟩]) ∧
      (blk.idle → blk.needsWB = false →
        blk1.addr = a ∧ blk1.pendingData = true ∧ blk1.valid = false ∧ blk1.busyMask = 0 ∧
        blk1.needsWB = false ∧ blk1.needsApply = false ∧ blk1.pendingApply = false ∧
        blk1.pendingWB = false ∧ blk1.lastChangedTick = now ∧ blk1.items = blk.items ∧
        s1.memoryFunctionQueue = s.memoryFunctionQueue ++ [⟨.nextRead, bi, now⟩]) ∧
      (¬ blk.idle → blk1 = blk ∧ s1.memoryFunctionQueue = s.memoryFunctionQueue) ∧
      (∀ j, j ≠ bi → s1.block? j = s.block? j) ∧
      s1.responseQueue = s.responseQueue ∧ s1.applyQueue = s.applyQueue ∧
      s1.memPortSent = s.memPortSent := by
  have hoff := wlOffsetOf_lt hc addr
  obtain ⟨h0, hlt, hget⟩ := State.block?_some hblk
  have hbi2 : bi < (c.numLines : Int) := by
    rw [← hs.1]; omega
  unfold wlOffsetOf at hoff
  rw [ha] at hbi hne
  rw [hbi] at hblk hmshr hbi2 h0
  have hsz : s.MSHR.length ≤ c.numMSHREntries := by omega
  have hsz2 : ¬ s.MSHR.length = c.numMSHREntries := by omega
  have hocc2 : (blk.valid || blk.pendingData) = true := by
    rcases hocc with h | h <;> simp [h]
  have hmiss1 : (blk.addr == roundDown addr c.peerMemoryAtomSize && blk.valid) = false := by
    simp [hne]
  have hmiss2 :
      (blk.addr == roundDown addr c.peerMemoryAtomSize && blk.pendingData) = false := by
    simp [hne]
  have hpush : ∀ m : List (Int × List Nat), mshrFind m bi = none →
      mshrFind (mshrPushBack m bi addr) bi = some [addr] := by
    intro m hm
    rw [mshrFind_pushBack_self]
    simp [mshrTargets, hm]
  rw [← hbi] at hblk hmshr hbi2 h0
  by_cases hidle : blk.idle
  · have hna := hNA hidle
    obtain ⟨hv, hb, hpa, hpw⟩ := hidle
    have hpd : blk.pendingData = false := by
      cases h : blk.pendingData
      · rfl
      · exact absurd ⟨hv, h⟩ hI1
    have hidle2 : blk.idle := ⟨hv, hb, hpa, hpw⟩
    rcases Bool.eq_false_or_eq_true blk.needsWB with hwb | hwb
    swap
    · refine ⟨
        { ((s.setBlock bi (blk.claim a now)).pushMemoryFunction .nextRead
            bi now).scheduleMemoryEvent with MSHR := mshrPushBack s.MSHR bi addr },
        blk.claim a now, ?_, hpush _ hmshr,
        fun j hj => mshrFind_pushBack_ne _ _ _ _ hj, ?_, ?_, ?_, ?_, ?_, ?_, ?_, ?_⟩
      · subst hbi ha
        simp [recvWLRead, getBlockIndex, roundDown_mod, assert, State.block, hblk, hmiss1,
          hmiss2, hne, hv, hb, hpa, hpw, hna, hpd, hwb, hbi2, hoff, hmshr, hsz, hsz2,
          bind, Except.bind, pure, Except.pure, State.scheduleMemoryEvent,
          State.pushMemoryFunction, State.setBlock]
        split <;> rfl
      · have := State.block?_setBlock (d := blk.claim a now) hblk
        simpa [State.block?, State.scheduleMemoryEvent, State.pushMemoryFunction,
          State.setBlock, apply_ite] using this
      · intro _ h; simp [hwb] at h
      · intro _ _
        refine ⟨rfl, rfl, rfl, rfl, rfl, rfl, rfl, rfl, rfl, rfl, ?_⟩
        simp [State.scheduleMemoryEvent, State.pushMemoryFunction, State.setBlock, apply_ite]
      · intro h; exact absurd hidle2 h
      · intro j hj
        have := State.block?_setBlock_ne (s := s) (b := blk.claim a now) h0 hj
        simpa [State.block?, State.scheduleMemoryEvent, State.pushMemoryFunction,
          State.setBlock, apply_ite] using this
      · simp [State.scheduleMemoryEvent, State.pushMemoryFunction, State.setBlock, apply_ite]
      · simp [State.scheduleMemoryEvent, State.pushMemoryFunction, State.setBlock, apply_ite]
      · simp [State.scheduleMemoryEvent, State.pushMemoryFunction, State.setBlock, apply_ite]
    · refine ⟨
        { ((s.setBlock bi { blk with pendingWB := true, lastChangedTick := now }
            ).pushMemoryFunction .nextWriteBack
            bi now).scheduleMemoryEvent with MSHR := mshrPushBack s.MSHR bi addr },
        { blk with pendingWB := true, lastChangedTick := now }, ?_, hpush _ hmshr,
        fun j hj => mshrFind_pushBack_ne _ _ _ _ hj, ?_, ?_, ?_, ?_, ?_, ?_, ?_, ?_⟩
      · subst hbi ha
        simp [recvWLRead, getBlockIndex, roundDown_mod, assert, State.block, hblk, hmiss1,
          hmiss2, hne, hv, hb, hpa, hpw, hna, hpd, hwb, hbi2, hoff, hmshr, hsz, hsz2,
          bind, Except.bind, pure, Except.pure, State.scheduleMemoryEvent,
          State.pushMemoryFunction, State.setBlock]
        split <;> rfl
      · have := State.block?_setBlock
          (d := { blk with pendingWB := true, lastChangedTick := now }) hblk
        simpa [State.block?, State.scheduleMemoryEvent, State.pushMemoryFunction,
          State.setBlock, apply_ite] using this
      · intro _ _
        refine ⟨rfl, ?_⟩
        simp [State.scheduleMemoryEvent, State.pushMemoryFunction, State.setBlock, apply_ite]
      · intro _ h; simp [hwb] at h
      · intro h; exact absurd hidle2 h
      · intro j hj
        have := State.block?_setBlock_ne (s := s)
          (b := { blk with pendingWB := true, lastChangedTick := now }) h0 hj
        simpa [State.block?, State.scheduleMemoryEvent, State.pushMemoryFunction,
          State.setBlock, apply_ite] using this
      · simp [State.scheduleMemoryEvent, State.pushMemoryFunction, State.setBlock, apply_ite]
      · simp [State.scheduleMemoryEvent, State.pushMemoryFunction, State.setBlock, apply_ite]
      · simp [State.scheduleMemoryEvent, State.pushMemoryFunction, State.setBlock, apply_ite]
  · have hidle3 :
        (blk.valid && blk.busyMask == 0 && !blk.pendingApply && !blk.pendingWB) = false := by
      unfold Block.idle at hidle
      cases hv : blk.valid <;> cases hpa : blk.pendingApply <;> cases hpw : blk.pendingWB <;>
        simp_all
    refine ⟨{ s with MSHR := mshrPushBack s.MSHR bi addr }, blk, ?_, hpush _ hmshr,
              fun j hj => mshrFind_pushBack_ne _ _ _ _ hj, hblk,
              fun h => absurd h hidle, fun h => absurd h hidle, fun _ => ⟨rfl, rfl⟩,
              fun _ _ => rfl, rfl, rfl, rfl⟩
    subst hbi ha
    simp [recvWLRead, getBlockIndex, roundDown_mod, assert, State.block, hblk, hmiss1,
      hmiss2, hne, hocc2, hidle3, hbi2, hoff, hmshr, hsz, hsz2,
      bind, Except.bind, pure, Except.pure]

/-- Witness for C4: in `stDirty` line 0 holds address 0, idle and dirty; the read of address
128 maps to line 0 and conflicts. -/
theorem recvWLRead_conflict_miss_witness :
    ∃ s1 blk1,
      recvWLRead cfgA 5000 stDirty 128 = .ok (true, s1) ∧
      mshrFind s1.MSHR 0 = some [128] ∧
      (∀ j, j ≠ 0 → mshrFind s1.MSHR j = mshrFind stDirty.MSHR j) ∧
      s1.block? 0 = some blk1 ∧
      (blkDirty.idle → blkDirty.needsWB = true →
        blk1 = { blkDirty with pendingWB := true, lastChangedTick := 5000 } ∧
        s1.memoryFunctionQueue =
          stDirty.memoryFunctionQueue ++ [⟨.nextWriteBack, 0, 5000⟩]) ∧
      (blkDirty.idle → blkDirty.needsWB = false →
        blk1.addr = 128 ∧ blk1.pendingData = true ∧ blk1.valid = false ∧ blk1.busyMask = 0 ∧
        blk1.needsWB = false ∧ blk1.needsApply = false ∧ blk1.pendingApply = false ∧
        blk1.pendingWB = false ∧ blk1.lastChangedTick = 5000 ∧ blk1.items = blkDirty.items ∧
        s1.memoryFunctionQueue = stDirty.memoryFunctionQueue ++ [⟨.nextRead, 0, 5000⟩]) ∧
      (¬ blkDirty.idle →
        blk1 = blkDirty ∧ s1.memoryFunctionQueue = stDirty.memoryFunctionQueue) ∧
      (∀ j, j ≠ 0 → s1.block? j = stDirty.block? j) ∧
      s1.responseQueue = stDirty.responseQueue ∧ s1.applyQueue = stDirty.applyQueue ∧
      s1.memPortSent = stDirty.memPortSent :=
  recvWLRead_conflict_miss cfgA 5000 stDirty 128 128 0 blkDirty
    (by decide) (by decide) (by decide) (by decide) (by decide) (by decide) (by decide)
    (by decide) (by decide) (by decide) (by decide)

theorem clearBit_testBit (m i j : Nat) (hi : i < 64) :
    (clearBit m i).testBit j = (m.testBit j && (decide (j < 64) && !decide (i = j))) := by
  unfold clearBit
  have h1 : bit i < 2 ^ 64 := by
    unfold bit
    rw [Nat.one_shiftLeft]
    exact Nat.pow_lt_pow_right (by norm_num) hi
  have h2 : 2 ^ 64 - 1 - bit i = 2 ^ 64 - (bit i + 1) := by omega
  rw [h2, Nat.testBit_and, Nat.testBit_two_pow_sub_succ h1, testBit_bit]

theorem testBit_lt_64 {m off : Nat} (hm : m < 2 ^ 64) (h : m.testBit off = true) :
    off < 64 := by
  by_contra hge
  have h64 : 64 ≤ off := by omega
  have : m < 2 ^ off := lt_of_lt_of_le hm (Nat.pow_le_pow_right (by norm_num) h64)
  rw [Nat.testBit_lt_two_pow this] at h
  cases h

theorem and_bit_of_testBit {m off : Nat} (h : m.testBit off = true) :
    m &&& bit off = bit off := by
  apply Nat.eq_of_testBit_eq
  intro j
  rw [Nat.testBit_and, testBit_bit]
  by_cases hj : off = j
  · subst hj; simp [h]
  · simp [hj]

theorem ne_zero_of_testBit {m off : Nat} (h : m.testBit off = true) : m ≠ 0 := by
  intro h0
  rw [h0] at h
  simp at h

theorem mshrFind_mem {m : List (Int × List Nat)} {k : Int} {ts : List Nat}
    (h : mshrFind m k = some ts) : (k, ts) ∈ m := by
  induction m with
  | nil => simp [mshrFind] at h
  | cons e rest ih =>
    obtain ⟨k1, ts1⟩ := e
    by_cases hk : k1 = k
    · simp [mshrFind, hk] at h
      simp [hk, h]
    · simp [mshrFind, hk] at h
      exact List.mem_cons_of_mem _ (ih h)

/-- The line after the merge of lines 677-688 of `recvWLWrite`, before the test on the busy
mask. -/
theorem recvWLWrite_eval (c : Config) (now : Nat) (s : State) (addr a : Nat) (bi : Int)
    (off : Nat) (blk : Block) (wl : WorkListItem) (hc : c.wf) (hs : s.wf c)
    (ha : a = roundDown addr c.peerMemoryAtomSize) (hbi : bi = blockIndexOf c a)
    (ho : off = wlOffsetOf c addr)
    (hblk : s.block? bi = some blk) (haddr : blk.addr = a) (hvalid : blk.valid = true)
    (hbusy : blk.busyMask.testBit off = true)
    (hI1 : blk.pendingData = false)
    (hI3 : blk.pendingApply = false ∧ blk.pendingWB = false)
    (hM : s.mshrBounded c) :
    ∃ old blk4, blk.items[off]? = some old ∧
      blk4 = { blk with
               items := blk.items.set off wl,
               needsWB := blk.needsWB || (wl.tempProp != old.tempProp) || c.applyCondition wl,
               needsApply := blk.needsApply || c.applyCondition wl,
               busyMask := clearBit blk.busyMask off,
               lastChangedTick := now } ∧
      (blk4.busyMask ≠ 0 → recvWLWrite c now s addr wl = .ok (s.setBlock bi blk4)) ∧
      (blk4.busyMask = 0 → blk4.needsApply = true →
        recvWLWrite c now s addr wl = .ok
          { s.setBlock bi { blk4 with pendingApply := true } with
            applyQueue := s.applyQueue ++ [bi],
            nextPreWBApplyEventScheduled := true }) ∧
      (blk4.busyMask = 0 → blk4.needsApply = false → mshrFind s.MSHR bi = none →
        recvWLWrite c now s addr wl = .ok (s.setBlock bi blk4)) ∧
      (blk4.busyMask = 0 → blk4.needsApply = false → (mshrFind s.MSHR bi).isSome = true →
        blk4.needsWB = true →
        recvWLWrite c now s addr wl = .ok
          ((s.setBlock bi { blk4 with pendingWB := true }).pushMemoryFunction .nextWriteBack
            bi now).scheduleMemoryEvent) ∧
      (blk4.busyMask = 0 → blk4.needsApply = false → (mshrFind s.MSHR bi).isSome = true →
        blk4.needsWB = false →
        ∃ ts t, mshrFind s.MSHR bi = some ts ∧ ts.head? = some t ∧
          recvWLWrite c now s addr wl = .ok
            ((s.setBlock bi (blk4.claim (roundDown t c.peerMemoryAtomSize)
              now)).pushMemoryFunction .nextRead bi now).scheduleMemoryEvent) := by
  have hoff := wlOffsetOf_lt hc addr
  obtain ⟨h0, hlt, hget⟩ := State.block?_some hblk
  obtain ⟨hlen, hmask⟩ := hs.2 blk (State.block?_mem hblk)
  rw [← ho] at hoff
  have hitem : off < blk.items.length := by omega
  have h64 := testBit_lt_64 hmask hbusy
  have hand := and_bit_of_testBit hbusy
  have hnz := ne_zero_of_testBit hbusy
  obtain ⟨hpa, hpw⟩ := hI3
  have hget2 : blk.items[off]? = some blk.items[off] := List.getElem?_eq_getElem hitem
  have hsz := hM.1
  have hfront : ∀ ts, mshrFind s.MSHR bi = some ts → ∃ t, ts.head? = some t := by
    intro ts hts
    have hmem : (bi, ts) ∈ s.MSHR := mshrFind_mem hts
    have hne := (hM.2 _ hmem).1
    cases ts with
    | nil => exact absurd rfl hne
    | cons t _ => exact ⟨t, rfl⟩
  refine ⟨blk.items[off], _, hget2, rfl, ?_, ?_, ?_, ?_, ?_⟩
  all_goals simp only
  all_goals subst ha hbi ho
  all_goals unfold wlOffsetOf at *
  all_goals rcases Bool.eq_false_or_eq_true (wl.tempProp != blk.items[(addr -
      roundDown addr c.peerMemoryAtomSize) / sizeofWorkListItem].tempProp) with h1 | h1
  all_goals rcases Bool.eq_false_or_eq_true (c.applyCondition wl) with h2 | h2
  all_goals rcases Bool.eq_false_or_eq_true blk.needsWB with h3 | h3
  all_goals rcases Bool.eq_false_or_eq_true blk.needsApply with h4 | h4
  all_goals simp only [h1, h2, h3, h4, Bool.or_true, Bool.or_false, Bool.true_or,
    Bool.false_or]
  all_goals intros
  all_goals try contradiction
  all_goals try
    (simp [recvWLWrite, getBlockIndex, roundDown_mod, assert, State.block, hblk, haddr, hvalid,
      hI1, hpa, hpw, hand, hnz, hget2, h1, h2, h3, h4, hsz, *, State.setBlock,
      State.pushMemoryFunction, State.scheduleMemoryEvent, Block.claim,
      bind, Except.bind, pure, Except.pure]; done)
  all_goals
    have hsome : (mshrFind s.MSHR
      (blockIndexOf c (roundDown addr c.peerMemoryAtomSize))).isSome = true := by assumption
    obtain ⟨ts, hts⟩ := Option.isSome_iff_exists.mp hsome
    obtain ⟨t, ht⟩ := hfront ts hts
    first
    | (refine ⟨ts, t, hts, ht, ?_⟩
       simp [recvWLWrite, getBlockIndex, roundDown_mod, assert, State.block, hblk, haddr,
         hvalid, hI1, hpa, hpw, hand, hnz, hget2, h1, h2, h3, h4, hsz, hts, ht, *,
         State.setBlock, State.pushMemoryFunction, State.scheduleMemoryEvent, Block.claim,
         bind, Except.bind, pure, Except.pure])
    | (simp [recvWLWrite, getBlockIndex, roundDown_mod, assert, State.block, hblk, haddr,
         hvalid, hI1, hpa, hpw, hand, hnz, hget2, h1, h2, h3, h4, hsz, hts, ht, *,
         State.setBlock, State.pushMemoryFunction, State.scheduleMemoryEvent, Block.claim,
         bind, Except.bind, pure, Except.pure])

theorem State.block?_pushMemoryFunction (s : State) (fn : MemoryFunction) (i : Int)
    (now : Nat) (j : Int) : (s.pushMemoryFunction fn i now).block? j = s.block? j := rfl

theorem State.block?_scheduleMemoryEvent (s : State) (j : Int) :
    s.scheduleMemoryEvent.block? j = s.block? j := by
  unfold State.scheduleMemoryEvent
  split <;> rfl

theorem State.memoryFunctionQueue_scheduleMemoryEvent (s : State) :
    s.scheduleMemoryEvent.memoryFunctionQueue = s.memoryFunctionQueue := by
  unfold State.scheduleMemoryEvent
  split <;> rfl

theorem State.applyQueue_scheduleMemoryEvent (s : State) :
    s.scheduleMemoryEvent.applyQueue = s.applyQueue := by
  unfold State.scheduleMemoryEvent
  split <;> rfl

theorem State.MSHR_scheduleMemoryEvent (s : State) :
    s.scheduleMemoryEvent.MSHR = s.MSHR := by
  unfold State.scheduleMemoryEvent
  split <;> rfl

theorem State.memPortSent_scheduleMemoryEvent (s : State) :
    s.scheduleMemoryEvent.memPortSent = s.memPortSent := by
  unfold State.scheduleMemoryEvent
  split <;> rfl

theorem State.responseQueue_scheduleMemoryEvent (s : State) :
    s.scheduleMemoryEvent.responseQueue = s.responseQueue := by
  unfold State.scheduleMemoryEvent
  split <;> rfl

/-- C8 (write merge).  Let `a` be the line-aligned address of `addr`, `bi` its block index
and `off` its slot, in a cache whose lines have fewer than 32 slots (the range in which the
`int` mask `~(1 << wl_offset)` of line 687 clears the single bit of the slot).  For a write to a valid line holding `a` whose busy bit `off` is set (a
line of the data model: not pending data, apply or writeback; the MSHR table within its
bounds), `recvWLWrite` returns, and afterwards slot `off` of the line holds `wl` and the
other slots are unchanged, busy bit `off` is clear and every other busy bit is unchanged,
`needsWB` is its old value or-ed with "`wl.tempProp` differs from the stored one" and with
`applyCondition wl`, `needsApply` is its old value or-ed with `applyCondition wl`, and
`lastChangedTick` is `now`.  Every other line is unchanged. -/
theorem recvWLWrite_merge (c : Config) (now : Nat) (s : State) (addr a : Nat) (bi : Int)
    (off : Nat) (blk : Block) (wl : WorkListItem) (hc : c.wf) (hs : s.wf c)
    (hK : c.numElementsPerLine < 32)
    (ha : a = roundDown addr c.peerMemoryAtomSize) (hbi : bi = blockIndexOf c a)
    (ho : off = wlOffsetOf c addr)
    (hblk : s.block? bi = some blk) (haddr : blk.addr = a) (hvalid : blk.valid = true)
    (hbusy : blk.busyMask.testBit off = true)
    (hI1 : blk.pendingData = false)
    (hI3 : blk.pendingApply = false ∧ blk.pendingWB = false)
    (hM : s.mshrBounded c) :
    ∃ s1 blk1 old,
      recvWLWrite c now s addr wl = .ok s1 ∧
      blk.items[off]? = some old ∧
      s1.block? bi = some blk1 ∧
      blk1.items[off]? = some wl ∧
      (∀ j, j ≠ off → blk1.items[j]? = blk.items[j]?) ∧
      blk1.busyMask.testBit off = false ∧
      (∀ i, i ≠ off → blk1.busyMask.testBit i = blk.busyMask.testBit i) ∧
      blk1.needsWB =
        (blk.needsWB || (wl.tempProp != old.tempProp) || c.applyCondition wl) ∧
      blk1.needsApply = (blk.needsApply || c.applyCondition wl) ∧
      blk1.lastChangedTick = now ∧
      (∀ j, j ≠ bi → s1.block? j = s.block? j) := by
  have _hshift : off < 31 := by
    rw [ho]
    exact Nat.lt_of_lt_of_le (wlOffsetOf_lt hc addr) (by omega)
  obtain ⟨old, blk4, hold, h4, hA, hB, hC, hD, hE⟩ :=
    recvWLWrite_eval c now s addr a bi off blk wl hc hs ha hbi ho hblk haddr hvalid hbusy hI1
      hI3 hM
  obtain ⟨h0, _, _⟩ := State.block?_some hblk
  obtain ⟨hlen, hmask⟩ := hs.2 blk (State.block?_mem hblk)
  have h64 := testBit_lt_64 hmask hbusy
  have hitem : off < blk.items.length := (List.getElem?_eq_some_iff.mp hold).1
  -- the facts about any line that agrees with the merged line on the five merged fields
  have key : ∀ s1 blk1, recvWLWrite c now s addr wl = .ok s1 → s1.block? bi = some blk1 →
      (∀ j, j ≠ bi → s1.block? j = s.block? j) →
      blk1.items = blk4.items → blk1.busyMask = blk4.busyMask →
      blk1.needsWB = blk4.needsWB → blk1.needsApply = blk4.needsApply →
      blk1.lastChangedTick = blk4.lastChangedTick →
      ∃ s1 blk1 old,
        recvWLWrite c now s addr wl = .ok s1 ∧
        blk.items[off]? = some old ∧
        s1.block? bi = some blk1 ∧
        blk1.items[off]? = some wl ∧
        (∀ j, j ≠ off → blk1.items[j]? = blk.items[j]?) ∧
        blk1.busyMask.testBit off = false ∧
        (∀ i, i ≠ off → blk1.busyMask.testBit i = blk.busyMask.testBit i) ∧
        blk1.needsWB =
          (blk.needsWB || (wl.tempProp != old.tempProp) || c.applyCondition wl) ∧
        blk1.needsApply = (blk.needsApply || c.applyCondition wl) ∧
        blk1.lastChangedTick = now ∧
        (∀ j, j ≠ bi → s1.block? j = s.block? j) := by
    intro s1 blk1 hr hb hothers e1 e2 e3 e4 e5
    refine ⟨s1, blk1, old, hr, hold, hb, ?_, ?_, ?_, ?_, ?_, ?_, ?_, hothers⟩
    · rw [e1, h4]; simp [List.getElem?_set, hitem]
    · intro j hj
      rw [e1, h4]; simp [List.getElem?_set, Ne.symm hj]
    · rw [e2, h4]; simp [clearBit_testBit _ _ _ h64]
    · intro i hi
      rw [e2, h4]
      simp only [clearBit_testBit _ _ _ h64]
      by_cases hi64 : i < 64
      · simp [hi64, Ne.symm hi]
      · have : blk.busyMask < 2 ^ i :=
          lt_of_lt_of_le hmask (Nat.pow_le_pow_right (by norm_num) (by omega))
        simp [Nat.testBit_lt_two_pow this]
    · rw [e3, h4]
    · rw [e4, h4]
    · rw [e5, h4]
  by_cases hz : blk4.busyMask = 0
  · rcases Bool.eq_false_or_eq_true blk4.needsApply with hna | hna
    · refine key _ { blk4 with pendingApply := true } (hB hz hna) ?_ ?_ rfl rfl rfl rfl rfl
      · exact State.block?_setBlock (s := s) hblk
      · intro j hj
        exact State.block?_setBlock_ne (s := s) h0 hj
    · cases hfind : mshrFind s.MSHR bi with
      | none =>
        exact key _ blk4 (hC hz hna hfind) (State.block?_setBlock hblk)
          (fun j hj => State.block?_setBlock_ne h0 hj) rfl rfl rfl rfl rfl
      | some ts =>
        have hsome : (mshrFind s.MSHR bi).isSome = true := by simp [hfind]
        rcases Bool.eq_false_or_eq_true blk4.needsWB with hwb | hwb
        · refine key _ { blk4 with pendingWB := true } (hD hz hna hsome hwb) ?_ ?_
            rfl rfl rfl rfl rfl
          · rw [State.block?_scheduleMemoryEvent, State.block?_pushMemoryFunction]
            exact State.block?_setBlock hblk
          · intro j hj
            rw [State.block?_scheduleMemoryEvent, State.block?_pushMemoryFunction]
            exact State.block?_setBlock_ne h0 hj
        · obtain ⟨ts1, t, _, _, hr⟩ := hE hz hna hsome hwb
          refine key _ (blk4.claim (roundDown t c.peerMemoryAtomSize) now) hr ?_ ?_
            rfl hz.symm hwb.symm hna.symm (by rw [h4]; rfl)
          · rw [State.block?_scheduleMemoryEvent, State.block?_pushMemoryFunction]
            exact State.block?_setBlock hblk
          · intro j hj
            rw [State.block?_scheduleMemoryEvent, State.block?_pushMemoryFunction]
            exact State.block?_setBlock_ne h0 hj
  · exact key _ blk4 (hA hz) (State.block?_setBlock hblk)
      (fun j hj => State.block?_setBlock_ne h0 hj) rfl rfl rfl rfl rfl

/-- Witness for C8: in `stBusy` slots 0 and 1 of line 0 are busy; the write of `itemW` to
address 16 (slot 1) is merged. -/
theorem recvWLWrite_merge_witness :
    ∃ s1 blk1 old,
      recvWLWrite cfgA 3000 stBusy 16 itemW = .ok s1 ∧
      blkBusy.items[1]? = some old ∧
      s1.block? 0 = some blk1 ∧
      blk1.items[1]? = some itemW ∧
      (∀ j, j ≠ 1 → blk1.items[j]? = blkBusy.items[j]?) ∧
      blk1.busyMask.testBit 1 = false ∧
      (∀ i, i ≠ 1 → blk1.busyMask.testBit i = blkBusy.busyMask.testBit i) ∧
      blk1.needsWB =
        (blkBusy.needsWB || (itemW.tempProp != old.tempProp) || cfgA.applyCondition itemW) ∧
      blk1.needsApply = (blkBusy.needsApply || cfgA.applyCondition itemW) ∧
      blk1.lastChangedTick = 3000 ∧
      (∀ j, j ≠ 0 → s1.block? j = stBusy.block? j) :=
  recvWLWrite_merge cfgA 3000 stBusy 16 0 0 1 blkBusy itemW
    (by decide) (by decide) (by decide) (by decide) (by decide) (by decide) (by decide)
    (by decide) (by decide) (by decide) (by decide) (by decide) (by decide)

/-- C9 (write quiescence transition).  In the setting of C8 (lines of fewer than 32 slots,
the range in which the `int` mask `~(1 << wl_offset)` of line 687 clears the single bit of
the slot), let `na` and `nwb` be the values of `needsApply` and `needsWB` after the merge.  `recvWLWrite` returns, leaves the MSHR
table alone and sends nothing to memory, and:
when the write clears the last busy bit, (1) if `na`, the line gets `pendingApply`, the block
index is appended to the apply queue and no memory function is enqueued; (2) if not `na`, the
block has an MSHR entry and `nwb`, the line gets `pendingWB` and exactly one writeback entry
stamped `now` is enqueued; (3) if neither `na` nor `nwb` and the block has an MSHR entry, the
line is overwritten with the aligned address of the first MSHR target, pending data with
every other flag clear, and exactly one fill entry stamped `now` is enqueued; (4) otherwise
(not `na`, no MSHR entry) the line stays valid with no pending flag and nothing is enqueued.
When other busy bits remain set, the line stays valid with no pending flag and nothing is
enqueued. -/
theorem recvWLWrite_quiesce (c : Config) (now : Nat) (s : State) (addr a : Nat) (bi : Int)
    (off : Nat) (blk : Block) (wl old : WorkListItem) (na nwb : Bool)
    (hc : c.wf) (hs : s.wf c) (hK : c.numElementsPerLine < 32)
    (ha : a = roundDown addr c.peerMemoryAtomSize) (hbi : bi = blockIndexOf c a)
    (ho : off = wlOffsetOf c addr)
    (hblk : s.block? bi = some blk) (haddr : blk.addr = a) (hvalid : blk.valid = true)
    (hbusy : blk.busyMask.testBit off = true)
    (hI1 : blk.pendingData = false)
    (hI3 : blk.pendingApply = false ∧ blk.pendingWB = false)
    (hM : s.mshrBounded c)
    (hold : blk.items[off]? = some old)
    (hna : na = (blk.needsApply || c.applyCondition wl))
    (hnwb : nwb = (blk.needsWB || (wl.tempProp != old.tempProp) || c.applyCondition wl)) :
    ∃ s1 blk1,
      recvWLWrite c now s addr wl = .ok s1 ∧ s1.block? bi = some blk1 ∧
      s1.MSHR = s.MSHR ∧ s1.memPortSent = s.memPortSent ∧
      (clearBit blk.busyMask off = 0 → na = true →
        blk1.pendingApply = true ∧ blk1.pendingWB = false ∧ blk1.pendingData = false ∧
        blk1.valid = true ∧ blk1.addr = blk.addr ∧
        s1.applyQueue = s.applyQueue ++ [bi] ∧
        s1.memoryFunctionQueue = s.memoryFunctionQueue) ∧
      (clearBit blk.busyMask off = 0 → na = false → (mshrFind s.MSHR bi).isSome = true →
        nwb = true →
        blk1.pendingWB = true ∧ blk1.pendingApply = false ∧ blk1.pendingData = false ∧
        blk1.valid = true ∧ blk1.addr = blk.addr ∧
        s1.memoryFunctionQueue = s.memoryFunctionQueue ++ [⟨.nextWriteBack, bi, now⟩] ∧
        s1.applyQueue = s.applyQueue) ∧
      (clearBit blk.busyMask off = 0 → na = false → (mshrFind s.MSHR bi).isSome = true →
        nwb = false →
        ∃ ts t, mshrFind s.MSHR bi = some ts ∧ ts.head? = some t ∧
          blk1.addr = roundDown t c.peerMemoryAtomSize ∧ blk1.pendingData = true ∧
          blk1.valid = false ∧ blk1.busyMask = 0 ∧ blk1.needsWB = false ∧
          blk1.needsApply = false ∧ blk1.pendingApply = false ∧ blk1.pendingWB = false ∧
          s1.memoryFunctionQueue = s.memoryFunctionQueue ++ [⟨.nextRead, bi, now⟩] ∧
          s1.applyQueue = s.applyQueue) ∧
      (clearBit blk.busyMask off = 0 → na = false → mshrFind s.MSHR bi = none →
        blk1.valid = true ∧ blk1.addr = blk.addr ∧ blk1.pendingApply = false ∧
        blk1.pendingWB = false ∧ blk1.pendingData = false ∧
        s1.memoryFunctionQueue = s.memoryFunctionQueue ∧ s1.applyQueue = s.applyQueue) ∧
      (clearBit blk.busyMask off ≠ 0 →
        blk1.valid = true ∧ blk1.addr = blk.addr ∧ blk1.pendingApply = false ∧
        blk1.pendingWB = false ∧ blk1.pendingData = false ∧
        s1.memoryFunctionQueue = s.memoryFunctionQueue ∧ s1.applyQueue = s.applyQueue) := by
  have _hshift : off < 31 := by
    rw [ho]
    exact Nat.lt_of_lt_of_le (wlOffsetOf_lt hc addr) (by omega)
  obtain ⟨old1, blk4, hold1, h4, hA, hB, hC, hD, hE⟩ :=
    recvWLWrite_eval c now s addr a bi off blk wl hc hs ha hbi ho hblk haddr hvalid hbusy hI1
      hI3 hM
  have hoe : old1 = old := Option.some.inj (hold1.symm.trans hold)
  subst hoe
  obtain ⟨h0, _, _⟩ := State.block?_some hblk
  obtain ⟨hpa, hpw⟩ := hI3
  have e2 : blk4.busyMask = clearBit blk.busyMask off := by rw [h4]
  have e3 : blk4.needsWB = nwb := by rw [h4, hnwb]
  have e4 : blk4.needsApply = na := by rw [h4, hna]
  have ev : blk4.valid = true := by rw [h4]; exact hvalid
  have ea : blk4.addr = blk.addr := by rw [h4]
  have epa : blk4.pendingApply = false := by rw [h4]; exact hpa
  have epw : blk4.pendingWB = false := by rw [h4]; exact hpw
  have epd : blk4.pendingData = false := by rw [h4]; exact hI1
  by_cases hz : clearBit blk.busyMask off = 0
  · rcases Bool.eq_false_or_eq_true na with hn | hn
    · -- (1)
      refine ⟨_, { blk4 with pendingApply := true }, hB (e2.trans hz) (e4.trans hn),
        State.block?_setBlock (s := s) hblk, rfl, rfl, ?_, ?_, ?_, ?_, ?_⟩
      · intro _ _
        exact ⟨rfl, epw, epd, ev, ea, rfl, rfl⟩
      · intro _ h; rw [hn] at h; cases h
      · intro _ h; rw [hn] at h; cases h
      · intro _ h; rw [hn] at h; cases h
      · intro h; exact absurd hz h
    · cases hfind : mshrFind s.MSHR bi with
      | none =>
        -- (4)
        refine ⟨_, blk4, hC (e2.trans hz) (e4.trans hn) hfind, State.block?_setBlock hblk,
          rfl, rfl, ?_, ?_, ?_, ?_, ?_⟩
        · intro _ h; rw [hn] at h; cases h
        · intro _ _ h; simp at h
        · intro _ _ h; simp at h
        · intro _ _ _
          exact ⟨ev, ea, epa, epw, epd, rfl, rfl⟩
        · intro h; exact absurd hz h
      | some ts =>
        have hsome : (mshrFind s.MSHR bi).isSome = true := by simp [hfind]
        rcases Bool.eq_false_or_eq_true nwb with hw | hw
        · -- (2)
          refine ⟨_, { blk4 with pendingWB := true },
            hD (e2.trans hz) (e4.trans hn) hsome (e3.trans hw), ?_, ?_, ?_, ?_, ?_, ?_, ?_, ?_⟩
          · rw [State.block?_scheduleMemoryEvent, State.block?_pushMemoryFunction]
            exact State.block?_setBlock hblk
          · rw [State.MSHR_scheduleMemoryEvent]; rfl
          · rw [State.memPortSent_scheduleMemoryEvent]; rfl
          · intro _ h; rw [hn] at h; cases h
          · intro _ _ _ _
            refine ⟨rfl, epa, epd, ev, ea, ?_, ?_⟩
            · rw [State.memoryFunctionQueue_scheduleMemoryEvent]; rfl
            · rw [State.applyQueue_scheduleMemoryEvent]; rfl
          · intro _ _ _ h; rw [hw] at h; cases h
          · intro _ _ h; simp at h
          · intro h; exact absurd hz h
        · -- (3)
          obtain ⟨ts1, t, hts1, ht, hr⟩ := hE (e2.trans hz) (e4.trans hn) hsome (e3.trans hw)
          refine ⟨_, blk4.claim (roundDown t c.peerMemoryAtomSize) now, hr,
            ?_, ?_, ?_, ?_, ?_, ?_, ?_, ?_⟩
          · rw [State.block?_scheduleMemoryEvent, State.block?_pushMemoryFunction]
            exact State.block?_setBlock hblk
          · rw [State.MSHR_scheduleMemoryEvent]; rfl
          · rw [State.memPortSent_scheduleMemoryEvent]; rfl
          · intro _ h; rw [hn] at h; cases h
          · intro _ _ _ h; rw [hw] at h; cases h
          · intro _ _ _ _
            refine ⟨ts1, t, hts1.symm ▸ hfind ▸ rfl, ht, rfl, rfl, rfl, rfl, rfl, rfl, rfl, rfl,
              ?_, ?_⟩
            · rw [State.memoryFunctionQueue_scheduleMemoryEvent]; rfl
            · rw [State.applyQueue_scheduleMemoryEvent]; rfl
          · intro _ _ h; simp at h
          · intro h; exact absurd hz h
  · refine ⟨_, blk4, hA (by rw [e2]; exact hz), State.block?_setBlock hblk, rfl, rfl,
      ?_, ?_, ?_, ?_, ?_⟩
    · intro h; exact absurd h hz
    · intro h; exact absurd h hz
    · intro h; exact absurd h hz
    · intro h; exact absurd h hz
    · intro _
      exact ⟨ev, ea, epa, epw, epd, rfl, rfl⟩

/-- Witness for C9: in `stLast` slot 1 is the last busy slot of line 0 and address 128 waits
for the line; the write of `itemW` to address 16 changes `tempProp`, so case (2) applies. -/
theorem recvWLWrite_quiesce_witness :
    ∃ s1 blk1,
      recvWLWrite cfgA 3000 stLast 16 itemW = .ok s1 ∧ s1.block? 0 = some blk1 ∧
      s1.MSHR = stLast.MSHR ∧ s1.memPortSent = stLast.memPortSent ∧
      (clearBit blkLast.busyMask 1 = 0 → false = true →
        blk1.pendingApply = true ∧ blk1.pendingWB = false ∧ blk1.pendingData = false ∧
        blk1.valid = true ∧ blk1.addr = blkLast.addr ∧
        s1.applyQueue = stLast.applyQueue ++ [0] ∧
        s1.memoryFunctionQueue = stLast.memoryFunctionQueue) ∧
      (clearBit blkLast.busyMask 1 = 0 → false = false →
        (mshrFind stLast.MSHR 0).isSome = true → true = true →
        blk1.pendingWB = true ∧ blk1.pendingApply = false ∧ blk1.pendingData = false ∧
        blk1.valid = true ∧ blk1.addr = blkLast.addr ∧
        s1.memoryFunctionQueue = stLast.memoryFunctionQueue ++ [⟨.nextWriteBack, 0, 3000⟩] ∧
        s1.applyQueue = stLast.applyQueue) ∧
      (clearBit blkLast.busyMask 1 = 0 → false = false →
        (mshrFind stLast.MSHR 0).isSome = true → true = false →
        ∃ ts t, mshrFind stLast.MSHR 0 = some ts ∧ ts.head? = some t ∧
          blk1.addr = roundDown t cfgA.peerMemoryAtomSize ∧ blk1.pendingData = true ∧
          blk1.valid = false ∧ blk1.busyMask = 0 ∧ blk1.needsWB = false ∧
          blk1.needsApply = false ∧ blk1.pendingApply = false ∧ blk1.pendingWB = false ∧
          s1.memoryFunctionQueue = stLast.memoryFunctionQueue ++ [⟨.nextRead, 0, 3000⟩] ∧
          s1.applyQueue = stLast.applyQueue) ∧
      (clearBit blkLast.busyMask 1 = 0 → false = false → mshrFind stLast.MSHR 0 = none →
        blk1.valid = true ∧ blk1.addr = blkLast.addr ∧ blk1.pendingApply = false ∧
        blk1.pendingWB = false ∧ blk1.pendingData = false ∧
        s1.memoryFunctionQueue = stLast.memoryFunctionQueue ∧
        s1.applyQueue = stLast.applyQueue) ∧
      (clearBit blkLast.busyMask 1 ≠ 0 →
        blk1.valid = true ∧ blk1.addr = blkLast.addr ∧ blk1.pendingApply = false ∧
        blk1.pendingWB = false ∧ blk1.pendingData = false ∧
        s1.memoryFunctionQueue = stLast.memoryFunctionQueue ∧
        s1.applyQueue = stLast.applyQueue) :=
  recvWLWrite_quiesce cfgA 3000 stLast 16 0 0 1 blkLast itemW { tempProp := 20, prop := 21 }
    false true
    (by decide) (by decide) (by decide) (by decide) (by decide) (by decide) (by decide)
    (by decide) (by decide) (by decide) (by decide) (by decide) (by decide) (by decide)
    (by decide) (by decide)

/-! ### What an operation does to a cached slot -/

theorem SlotKept.of_eq {bi : Int} {off : Nat} {wl : WorkListItem} {s s1 : State}
    (h : s1.cacheBlocks = s.cacheBlocks) : SlotKept bi off wl s s1 := by
  intro blk hb _ hi
  refine ⟨blk, ?_, hi⟩
  unfold State.block? at hb ⊢
  rw [h]
  exact hb

theorem SlotKept.trans {bi : Int} {off : Nat} {wl : WorkListItem} {s s1 s2 : State}
    (h1 : SlotKept bi off wl s s1) (h2 : ∀ blk, s1.block? bi = some blk → blk.valid = true)
    (h3 : SlotKept bi off wl s1 s2) : SlotKept bi off wl s s2 := by
  intro blk hb hv hi
  obtain ⟨blk1, hb1, hi1⟩ := h1 blk hb hv hi
  exact h3 blk1 hb1 (h2 blk1 hb1) hi1

theorem State.block_ok {s : State} {i : Int} {l : Nat} {b : Block}
    (h : s.block i l = .ok b) : s.block? i = some b := by
  unfold State.block at h
  split at h
  · rename_i b1 hb
    cases h
    exact hb
  · cases h

theorem SlotKept.setBlock {bi : Int} {off : Nat} {wl : WorkListItem} {s s1 : State}
    {i : Int} {old b : Block} (hold : s.block? i = some old)
    (hcb : s1.cacheBlocks = (s.setBlock i b).cacheBlocks)
    (hitems : i = bi → old.valid = true → old.items[off]? = some wl →
      b.items[off]? = some wl) : SlotKept bi off wl s s1 := by
  intro blk hb hv hi
  obtain ⟨h0, _, _⟩ := State.block?_some hold
  have hcb2 : ∀ j, s1.block? j = (s.setBlock i b).block? j := by
    intro j
    unfold State.block?
    rw [hcb]
  by_cases hij : i = bi
  · subst hij
    have hob : old = blk := Option.some.inj (hold.symm.trans hb)
    subst hob
    exact ⟨b, by rw [hcb2]; exact State.block?_setBlock hold, hitems rfl hv hi⟩
  · refine ⟨blk, ?_, hi⟩
    rw [hcb2, State.block?_setBlock_ne h0 (Ne.symm hij)]
    exact hb

theorem State.cacheBlocks_scheduleMemoryEvent (s : State) :
    s.scheduleMemoryEvent.cacheBlocks = s.cacheBlocks := by
  unfold State.scheduleMemoryEvent
  split <;> rfl

theorem State.cacheBlocks_scheduleResponseEvent (s : State) :
    s.scheduleResponseEvent.cacheBlocks = s.cacheBlocks := by
  unfold State.scheduleResponseEvent
  split <;> rfl

theorem Except.bind_ok_iff {α β : Type} {x : Except Fault α} {f : α → Except Fault β}
    {b : β} : (x >>= f) = .ok b ↔ ∃ a, x = .ok a ∧ f a = .ok b := by
  cases x with
  | error e => simp [bind, Except.bind]
  | ok a => simp [bind, Except.bind]

theorem assert_ok_iff {b : Bool} {l : Nat} {u : Unit} : assert b l = .ok u ↔ b = true := by
  unfold assert
  cases b <;> simp

/-- `recvWLRead` changes no item of any line. -/
theorem recvWLRead_slotKept (c : Config) (now : Nat) (s : State) (addr : Nat)
    (r : Bool × State) (bi : Int) (off : Nat) (wl : WorkListItem)
    (h : recvWLRead c now s addr = .ok r) : SlotKept bi off wl s r.2 := by
  unfold recvWLRead at h
  simp only [Except.bind_ok_iff, assert_ok_iff, exists_and_left, exists_const] at h
  obtain ⟨_, bi1, _, _, _, blk, hblk, h⟩ := h
  have hb := State.block_ok hblk
  split at h
  · simp only [Except.bind_ok_iff, assert_ok_iff, exists_and_left, exists_const] at h
    obtain ⟨_, _, h⟩ := h
    split at h
    · cases h
    · cases h
      apply SlotKept.setBlock hb
      · rfl
      · exact fun _ _ hi => hi
  · split at h
    · simp only [Except.bind_ok_iff, assert_ok_iff, exists_and_left, exists_const] at h
      obtain ⟨_, _, _, _, _, _, _, _, _, h⟩ := h
      split at h <;> cases h <;> exact SlotKept.of_eq rfl
    · simp only [Except.bind_ok_iff, assert_ok_iff, exists_and_left, exists_const] at h
      obtain ⟨_, _, h⟩ := h
      split at h
      · split at h
        · cases h; exact SlotKept.of_eq rfl
        · split at h
          · split at h
            · simp only [Except.bind_ok_iff, assert_ok_iff, exists_and_left,
                exists_const] at h
              obtain ⟨_, _, _, h⟩ := h
              split at h
              · cases h
                apply SlotKept.setBlock hb
                · rw [State.cacheBlocks_scheduleMemoryEvent]; rfl
                · exact fun _ _ hi => hi
              · cases h
                apply SlotKept.setBlock hb
                · rw [State.cacheBlocks_scheduleMemoryEvent]; rfl
                · exact fun _ _ hi => hi
            · cases h; exact SlotKept.of_eq rfl
          · simp only [Except.bind_ok_iff, assert_ok_iff, exists_and_left,
              exists_const] at h
            obtain ⟨_, _, _, _, _, _, _, _, h⟩ := h
            cases h
            apply SlotKept.setBlock hb
            · rw [State.cacheBlocks_scheduleMemoryEvent]; rfl
            · exact fun _ _ hi => hi
      · simp only [Except.bind_ok_iff, assert_ok_iff, exists_and_left, exists_const] at h
        obtain ⟨_, _, h⟩ := h
        split at h <;> cases h <;> exact SlotKept.of_eq rfl

theorem getBlockIndex_ok {c : Config} {addr : Nat} {i : Int}
    (h : getBlockIndex c addr = .ok i) : i = blockIndexOf c addr := by
  unfold getBlockIndex at h
  simp only [Except.bind_ok_iff, assert_ok_iff, exists_and_left, exists_const] at h
  obtain ⟨_, h⟩ := h
  cases h
  rfl

/-- `recvWLWrite` changes one slot: slot `wl_offset` of the line that `addr` maps to. -/
theorem recvWLWrite_slotKept (c : Config) (now : Nat) (s s1 : State) (addr : Nat)
    (w : WorkListItem) (bi : Int) (off : Nat) (wl : WorkListItem)
    (h : recvWLWrite c now s addr w = .ok s1)
    (hq : ¬ (blockIndexOf c (roundDown addr c.peerMemoryAtomSize) = bi ∧
              wlOffsetOf c addr = off)) : SlotKept bi off wl s s1 := by
  unfold recvWLWrite at h
  simp only [Except.bind_ok_iff, assert_ok_iff, exists_and_left, exists_const] at h
  obtain ⟨bi1, hbi1, blk, hblk, _, _, _, _, _, _, _, h⟩ := h
  have hb := State.block_ok hblk
  have hbi2 := getBlockIndex_ok hbi1
  have hset : ∀ its : List WorkListItem, bi1 = bi → its[off]? = some wl →
      (its.set ((addr - roundDown addr c.peerMemoryAtomSize) / sizeofWorkListItem) w)[off]? =
        some wl := by
    intro its hi hget
    have hne : (addr - roundDown addr c.peerMemoryAtomSize) / sizeofWorkListItem ≠ off := by
      intro he
      exact hq ⟨by rw [← hbi2]; exact hi, he⟩
    rw [List.getElem?_set_ne hne]
    exact hget
  split at h
  · cases h
  · split at h
    · split at h
      · cases h
        apply SlotKept.setBlock hb
        · rfl
        · intro hi _ hget
          exact hset _ hi hget
      · simp only [Except.bind_ok_iff, assert_ok_iff, exists_and_left, exists_const] at h
        obtain ⟨_, h⟩ := h
        split at h
        · split at h
          · cases h
            apply SlotKept.setBlock hb
            · rw [State.cacheBlocks_scheduleMemoryEvent]; rfl
            · intro hi _ hget
              exact hset _ hi hget
          · split at h
            · cases h
            · cases h
              apply SlotKept.setBlock hb
              · rw [State.cacheBlocks_scheduleMemoryEvent]; rfl
              · intro hi _ hget
                exact hset _ hi hget
        · cases h
          apply SlotKept.setBlock hb
          · rfl
          · intro hi _ hget
            exact hset _ hi hget
    · cases h
      apply SlotKept.setBlock hb
      · rfl
      · intro hi _ hget
        exact hset _ hi hget

theorem pullRespLoop_cacheBlocks (c : Config) (addr : Nat) (it : Int) (send_mask : Nat) :
    ∀ (n i : Nat) (s : State) (items : List WorkListItem) (d : Bool)
      (r : State × List WorkListItem × Bool),
      pullRespLoop c addr it send_mask n i s items d = .ok r →
      r.1.cacheBlocks = s.cacheBlocks := by
  intro n
  induction n with
  | zero =>
    intro i s items d r h
    simp only [pullRespLoop, pure, Except.pure] at h
    cases h
    rfl
  | succ n ih =>
    intro i s items d r h
    unfold pullRespLoop at h
    split at h
    · simp only [Except.bind_ok_iff, assert_ok_iff, exists_and_left, exists_const] at h
      obtain ⟨b, _, _, h⟩ := h
      split at h
      · cases h
      · have := ih _ _ _ _ _ h
        exact this
    · exact ih _ _ _ _ _ h

theorem fillTargets_items (c : Config) (now addr : Nat) :
    ∀ (ts : List Nat) (blk : Block) (rq : List (Nat × WorkListItem × Nat))
      (r : Block × List (Nat × WorkListItem × Nat) × List Nat),
      fillTargets c now addr ts blk rq = .ok r → r.1.items = blk.items := by
  intro ts
  induction ts with
  | nil =>
    intro blk rq r h
    simp only [fillTargets, pure, Except.pure] at h
    cases h
    rfl
  | cons t ts ih =>
    intro blk rq r h
    unfold fillTargets at h
    simp only [] at h
    split at h
    · split at h
      · cases h
      · have := ih _ _ _ h
        exact this
    · simp only [Except.bind_ok_iff] at h
      obtain ⟨r1, h1, h2⟩ := h
      simp only [pure, Except.pure] at h2
      cases h2
      have := ih _ _ _ h1
      exact this

theorem handleMemResp_slotKept (c : Config) (now : Nat) (s : State) (pkt : MemResponse)
    (r : Bool × State) (bi : Int) (off : Nat) (wl : WorkListItem)
    (h : handleMemResp c now s pkt = .ok r) : SlotKept bi off wl s r.2 := by
  unfold handleMemResp at h
  split at h
  · cases h
    exact SlotKept.of_eq rfl
  · simp only [Except.bind_ok_iff, assert_ok_iff, exists_and_left, exists_const] at h
    obtain ⟨bi1, _, blk, hblk, r1, hr1, s2, hs2, h⟩ := h
    simp only [pure, Except.pure] at h
    cases h
    have hb : s.block? bi1 = some blk := State.block_ok hblk
    have hr1c : r1.1.cacheBlocks = s.cacheBlocks := by
      split at hr1
      · unfold handlePullResp at hr1
        simp only [Except.bind_ok_iff, assert_ok_iff, exists_and_left, exists_const] at hr1
        obtain ⟨_, it, _, r0, hr0, hr1⟩ := hr1
        simp only [pure, Except.pure] at hr1
        cases hr1
        have := pullRespLoop_cacheBlocks _ _ _ _ _ _ _ _ _ _ hr0
        exact this
      · simp only [pure, Except.pure] at hr1
        cases hr1
        rfl
    have hb1 : r1.1.block? bi1 = some blk := by
      unfold State.block? at hb ⊢
      rw [hr1c]; exact hb
    have hk1 : SlotKept bi off wl s r1.1 := SlotKept.of_eq hr1c
    have hk2 : SlotKept bi off wl r1.1 s2 := by
      split at hs2
      · unfold handleFill at hs2
        simp only [Except.bind_ok_iff, assert_ok_iff, exists_and_left, exists_const] at hs2
        obtain ⟨hnv, _, _, _, _, _, _, _, r2, hr2, hs2⟩ := hs2
        simp only [pure, Except.pure] at hs2
        cases hs2
        apply SlotKept.setBlock hb1
        · rfl
        · intro _ hv _
          rw [hv] at hnv
          cases hnv
      · split at hs2
        · simp only [pure, Except.pure] at hs2
          cases hs2
          apply SlotKept.of_eq
          unfold queuePostPushWB
          rw [State.cacheBlocks_scheduleMemoryEvent]
          rfl
        · simp only [pure, Except.pure] at hs2
          cases hs2
          exact SlotKept.of_eq rfl
    have hk3 : SlotKept bi off wl s2
        ({ s2 with MSHR := mshrCleanup s2.MSHR bi1 }).scheduleResponseEvent :=
      SlotKept.of_eq (by rw [State.cacheBlocks_scheduleResponseEvent])
    intro b hbb hv hi
    obtain ⟨b1, hb1', hi1⟩ := hk1 b hbb hv hi
    have hbe : b1 = b := by
      have : r1.1.block? bi = s.block? bi := by
        unfold State.block?
        rw [hr1c]
      rw [this, hbb] at hb1'
      exact (Option.some.inj hb1').symm
    subst hbe
    obtain ⟨b2, hb2, hi2⟩ := hk2 b1 hb1' hv hi1
    refine ⟨b2, ?_, hi2⟩
    have : (({ s2 with MSHR := mshrCleanup s2.MSHR bi1 }).scheduleResponseEvent).block? bi =
        s2.block? bi := by
      unfold State.block?
      rw [State.cacheBlocks_scheduleResponseEvent]
    rw [this]
    exact hb2

theorem processNextResponseEvent_cacheBlocks (c : Config) (now : Nat) (s s1 : State)
    (h : processNextResponseEvent c now s = .ok s1) : s1.cacheBlocks = s.cacheBlocks := by
  unfold processNextResponseEvent at h
  simp only [] at h
  split at h
  · cases h
  · simp only [pure, Except.pure] at h
    cases h
    rw [State.cacheBlocks_scheduleResponseEvent]

/-- The apply loop keeps a slot whose item the workload's `preWBApply` leaves as it is. -/
theorem applyLoop_keeps (c : Config) (bi1 bi : Int) (off : Nat) (wl : WorkListItem)
    (hpure : (c.preWBApply wl).2 = wl) :
    ∀ (n index : Nat) (s s1 : State), applyLoop c bi1 n index s = .ok s1 →
      ∀ blk, s.block? bi = some blk → blk.items[off]? = some wl →
        ∃ blk1, s1.block? bi = some blk1 ∧ blk1.items[off]? = some wl := by
  intro n
  induction n with
  | zero =>
    intro index s s1 h blk hb hi
    simp only [applyLoop, pure, Except.pure] at h
    cases h
    exact ⟨blk, hb, hi⟩
  | succ n ih =>
    intro index s s1 h blk hb hi
    unfold applyLoop at h
    simp only [Except.bind_ok_iff, assert_ok_iff, exists_and_left, exists_const] at h
    obtain ⟨blk0, hblk0, h⟩ := h
    have hb0 := State.block_ok hblk0
    obtain ⟨h0, _, _⟩ := State.block?_some hb0
    split at h
    · cases h
    · rename_i item hitem
      -- the line after `preWBApply` on slot `index`
      have hkeep : ∃ blk1,
          (s.setBlock bi1 { blk0 with
            items := blk0.items.set index (c.preWBApply item).2 }).block? bi = some blk1 ∧
          blk1.items[off]? = some wl := by
        by_cases hbb : bi = bi1
        · subst hbb
          have hbe : blk0 = blk := Option.some.inj (hb0.symm.trans hb)
          subst hbe
          refine ⟨_, State.block?_setBlock hb0, ?_⟩
          by_cases hio : index = off
          · subst hio
            have hw : item = wl := Option.some.inj (hitem.symm.trans hi)
            subst hw
            have hlt : index < blk0.items.length := (List.getElem?_eq_some_iff.mp hitem).1
            simp [List.getElem?_set, hlt, hpure]
          · simp only
            rw [List.getElem?_set_ne hio]
            exact hi
        · refine ⟨blk, ?_, hi⟩
          rw [State.block?_setBlock_ne h0 hbb]
          exact hb
      obtain ⟨blk1, hb1, hi1⟩ := hkeep
      split at h
      · simp only [Except.bind_ok_iff, assert_ok_iff, exists_and_left, exists_const] at h
        obtain ⟨_, _, b, _, h⟩ := h
        split at h
        · exact ih _ _ _ h blk1 (by split <;> exact hb1) hi1
        · exact ih _ _ _ h blk1 hb1 hi1
      · exact ih _ _ _ h blk1 hb1 hi1

theorem applyDequeue_cacheBlocks (s : State) : (applyDequeue s).cacheBlocks = s.cacheBlocks := by
  unfold applyDequeue
  simp only []
  split <;> split <;> rfl

theorem processNextPreWBApplyEvent_slotKept (c : Config) (now : Nat) (s s1 : State)
    (bi : Int) (off : Nat) (wl : WorkListItem) (hpure : (c.preWBApply wl).2 = wl)
    (h : processNextPreWBApplyEvent c now s = .ok s1) : SlotKept bi off wl s s1 := by
  unfold processNextPreWBApplyEvent at h
  simp only [] at h
  split at h
  · cases h
  · rename_i bi1 _
    simp only [Except.bind_ok_iff, assert_ok_iff, exists_and_left, exists_const] at h
    obtain ⟨blk, hblk, _, _, _, _, s2, hs2, h⟩ := h
    simp only [pure, Except.pure] at h
    cases h
    intro b hb hv hi
    have key : ∃ blk1, s2.block? bi = some blk1 ∧ blk1.items[off]? = some wl := by
      split at hs2
      · unfold applyLine at hs2
        simp only [Except.bind_ok_iff, assert_ok_iff, exists_and_left, exists_const] at hs2
        obtain ⟨_, s3, hs3, blk3, hblk3, _, _, hs2⟩ := hs2
        obtain ⟨b3, hb3, hi3⟩ := applyLoop_keeps c bi1 bi off wl hpure _ _ _ _ hs3 b hb hi
        have hb3' := State.block_ok hblk3
        obtain ⟨h0, _, _⟩ := State.block?_some hb3'
        have fin : ∀ (d : Block) (sx : State),
            sx.cacheBlocks = (s3.setBlock bi1 d).cacheBlocks → d.items = blk3.items →
            ∃ blk1, sx.block? bi = some blk1 ∧ blk1.items[off]? = some wl := by
          intro d sx hsx hd
          have hsx2 : ∀ j, sx.block? j = (s3.setBlock bi1 d).block? j := by
            intro j
            unfold State.block?
            rw [hsx]
          by_cases hbb : bi = bi1
          · subst hbb
            have hbe : blk3 = b3 := Option.some.inj (hb3'.symm.trans hb3)
            subst hbe
            refine ⟨d, ?_, ?_⟩
            · rw [hsx2]; exact State.block?_setBlock hb3'
            · rw [hd]; exact hi3
          · refine ⟨b3, ?_, hi3⟩
            rw [hsx2, State.block?_setBlock_ne h0 hbb]
            exact hb3
        split at hs2
        · simp only [pure, Except.pure] at hs2
          cases hs2
          apply fin
          · rw [State.cacheBlocks_scheduleMemoryEvent]
            rfl
          · rfl
        · simp only [pure, Except.pure] at hs2
          cases hs2
          apply fin
          · rfl
          · rfl
      · simp only [pure, Except.pure] at hs2
        cases hs2
        exact ⟨b, hb, hi⟩
    obtain ⟨blk1, hb1, hi1⟩ := key
    refine ⟨blk1, ?_, hi1⟩
    unfold State.block? at hb1 ⊢
    rw [applyDequeue_cacheBlocks]
    exact hb1

/-! ### The fold of a post-push writeback into a line (`processNextRead`) -/

/-- The walk of `processNextRead` over the targets changes the busy mask and the tick of the
line and nothing else, and leaves the targets of other addresses. -/
theorem foldTargets_fields (c : Config) (now addr : Nat) :
    ∀ (ts : List Nat) (blk : Block) (rq : List (Nat × WorkListItem × Nat))
      (r : Block × List (Nat × WorkListItem × Nat) × List Nat),
      foldTargets c now addr ts blk rq = .ok r →
      r.1.addr = blk.addr ∧ r.1.items = blk.items ∧ r.1.valid = blk.valid ∧
      r.1.needsWB = blk.needsWB ∧ r.1.needsApply = blk.needsApply ∧
      r.1.pendingData = blk.pendingData ∧ r.1.pendingApply = blk.pendingApply ∧
      r.1.pendingWB = blk.pendingWB ∧
      r.2.2 = ts.filter (fun t => roundDown t c.peerMemoryAtomSize != addr) := by
  intro ts
  induction ts with
  | nil =>
    intro blk rq r h
    simp only [foldTargets, pure, Except.pure] at h
    cases h
    simp
  | cons t ts ih =>
    intro blk rq r h
    unfold foldTargets at h
    simp only [] at h
    split at h
    · rename_i hm
      split at h
      · cases h
      · have := ih _ _ _ h
        simp only [] at this
        obtain ⟨h1, h2, h3, h4, h5, h6, h7, h8, h9⟩ := this
        refine ⟨h1, h2, h3, h4, h5, h6, h7, h8, ?_⟩
        have hm1 : roundDown t c.peerMemoryAtomSize = addr := by simpa using hm
        rw [h9, List.filter_cons]
        simp [hm1]
    · rename_i hm
      simp only [Except.bind_ok_iff] at h
      obtain ⟨r1, h1, h2⟩ := h
      simp only [pure, Except.pure] at h2
      cases h2
      obtain ⟨h1, h2, h3, h4, h5, h6, h7, h8, h9⟩ := ih _ _ _ h1
      refine ⟨h1, h2, h3, h4, h5, h6, h7, h8, ?_⟩
      have hm1 : ¬ roundDown t c.peerMemoryAtomSize = addr := by simpa using hm
      rw [List.filter_cons]
      simp [hm1, h9]

theorem or_bit_ne_zero (m i : Nat) : m ||| bit i ≠ 0 := by
  intro h
  have := congrArg (fun n => n.testBit i) h
  simp [Nat.testBit_or, testBit_bit] at this

theorem entryOf_eq_some {ts us : List Nat} (h : entryOf ts = some us) : us = ts ∧ ts ≠ [] := by
  unfold entryOf at h
  split at h
  · cases h
  · rename_i hne
    cases h
    exact ⟨rfl, by simpa using hne⟩

set_option maxHeartbeats 1000000 in
theorem LineStep.keepsInv {c : Config} {l l1 : Line} (h : LineStep c l l1) (hi : LineInv c l) :
    LineInv c l1 := by
  obtain ⟨i1, pd, i4, pa, pw, ap, bv, i5, hd, pc⟩ := hi
  cases h with
  | same => exact ⟨i1, pd, i4, pa, pw, ap, bv, i5, hd, pc⟩
  | hit blk tg off lct hv hpd =>
    constructor <;> simp_all [or_bit_ne_zero]
  | target blk ts addr =>
    constructor <;> simp_all
    intro hp
    obtain ⟨t, ⟨x, hx⟩, ht⟩ := hd hp
    exact ⟨t, ⟨x ++ [addr], by simp [hx]⟩, ht⟩
  | conflict blk addr hocc hbusy =>
    have hnp : blk.pendingData = false := by
      rcases Bool.eq_false_or_eq_true blk.pendingData with h | h
      · obtain ⟨t, ts, e, _⟩ := hd h
        cases e
      · exact h
    have hv : blk.valid = true := by simpa [hnp] using hocc
    refine ⟨i1, pd, i4, pa, pw, ap, bv, ?_, ?_, pc⟩
    · intro ts e
      cases e
      refine ⟨by simp, ?_⟩
      by_cases hb : blk.busyMask = 0
      · rcases Bool.eq_false_or_eq_true blk.pendingApply with hpa | hpa
        · exact Or.inr (Or.inr (Or.inl hpa))
        · rcases Bool.eq_false_or_eq_true blk.pendingWB with hpw | hpw
          · exact Or.inr (Or.inl hpw)
          · exact absurd ⟨hv, hb, hpa, hpw⟩ hbusy
      · exact Or.inr (Or.inr (Or.inr hb))
    · intro h
      simp only [] at h
      rw [hnp] at h
      cases h
  | missWB blk addr now hidle hna hpd hwb =>
    obtain ⟨h1, h2, h3, h4⟩ := hidle
    constructor <;> simp_all
  | claimNew blk addr now hq =>
    obtain ⟨h1, h2, h3, h4, h5, h6⟩ := hq
    constructor <;> simp_all [Block.claim]
  | writeBusy blk tg items wb ap1 mask now hpre hm =>
    obtain ⟨h1, h2, h3, h4, h5⟩ := hpre
    constructor <;> simp_all [Block.written]
  | writeApply blk tg items wb ap1 mask now hpre hm hna =>
    obtain ⟨h1, h2, h3, h4, h5⟩ := hpre
    constructor <;> simp_all [Block.written]
  | writeWB blk ts items wb ap1 mask now hpre hm hna hwb =>
    obtain ⟨h1, h2, h3, h4, h5⟩ := hpre
    constructor <;> simp_all [Block.written]
  | writeEvict blk t ts items wb ap1 mask now hpre hm hna hwb =>
    obtain ⟨h1, h2, h3, h4, h5⟩ := hpre
    constructor <;> simp_all [Block.written, Block.claim]
  | writeIdle blk items wb ap1 mask now hpre hm hna =>
    obtain ⟨h1, h2, h3, h4, h5⟩ := hpre
    constructor <;> simp_all [Block.written]
  | cleanup blk tg =>
    refine ⟨i1, pd, i4, pa, pw, ap, bv, ?_, ?_, pc⟩
    · intro ts hts
      obtain ⟨h1, h2⟩ := entryOf_eq_some hts
      cases tg with
      | none => exact absurd h1.symm (by simp at h2)
      | some us =>
        simp only [Option.getD_some] at h1 h2
        subst h1
        exact i5 _ rfl
    · intro hp
      obtain ⟨t, ts, h1, h2⟩ := hd hp
      simp only [] at h1
      subst h1
      exact ⟨t, ts, by simp [entryOf], h2⟩
  | fill blk ts items do_wb lct mask hpre hmask =>
    obtain ⟨h1, h2, h3, h4, h5, h6, h7⟩ := hpre
    obtain ⟨t, us, hus, ht⟩ := hd h5
    simp only [Option.some.injEq] at hus
    have hm : mask ≠ 0 := hmask ⟨t, by simp [hus], ht⟩
    constructor <;> simp_all
    intro us1 hus1
    obtain ⟨e1, e2⟩ := entryOf_eq_some hus1
    rw [e1]
    exact e2
  | appliedWB blk ts items now hv hna hpd hpw hb hwb =>
    constructor <;> simp_all
  | appliedIdle blk items now hv hna hpd hpw hb hwb =>
    constructor <;> simp_all
  | wbClaim blk t ts now hv hb hwb hna hpd hpa hpw =>
    constructor <;> simp_all [Block.claim]
  | pulled blk tg items wb hidle hna hpd =>
    obtain ⟨h1, h2, h3, h4⟩ := hidle
    constructor <;> simp_all

/-! ### The effect of an entry point on the lines -/

theorem mshrFind_replace_self (m : List (Int × List Nat)) (k : Int) (ts : List Nat) :
    mshrFind (mshrReplace m k ts) k = (mshrFind m k).map (fun _ => ts) := by
  induction m with
  | nil => simp [mshrReplace, mshrFind]
  | cons e rest ih =>
    obtain ⟨k1, us⟩ := e
    by_cases h : k1 = k
    · simp [mshrReplace, mshrFind, h]
    · simp [mshrReplace, mshrFind, h, ih]

theorem mshrFind_replace_ne (m : List (Int × List Nat)) (k j : Int) (ts : List Nat)
    (h : j ≠ k) : mshrFind (mshrReplace m k ts) j = mshrFind m j := by
  induction m with
  | nil => simp [mshrReplace, mshrFind]
  | cons e rest ih =>
    obtain ⟨k1, us⟩ := e
    by_cases h1 : k1 = k
    · subst h1
      simp [mshrReplace, mshrFind, Ne.symm h]
    · by_cases h2 : k1 = j
      · subst h2
        simp [mshrReplace, mshrFind, h1]
      · simp [mshrReplace, mshrFind, h1, h2, ih]

theorem mshrFind_erase_self (m : List (Int × List Nat)) (k : Int) :
    mshrFind (mshrErase m k) k = none := by
  induction m with
  | nil => simp [mshrErase, mshrFind]
  | cons e rest ih =>
    obtain ⟨k1, us⟩ := e
    by_cases h : k1 = k
    · simpa [mshrErase, List.filter_cons, h] using ih
    · simpa [mshrErase, List.filter_cons, h, mshrFind] using ih

theorem mshrFind_erase_ne (m : List (Int × List Nat)) (k j : Int) (h : j ≠ k) :
    mshrFind (mshrErase m k) j = mshrFind m j := by
  induction m with
  | nil => simp [mshrErase, mshrFind]
  | cons e rest ih =>
    obtain ⟨k1, us⟩ := e
    by_cases h1 : k1 = k
    · subst h1
      simpa [mshrErase, List.filter_cons, mshrFind, Ne.symm h] using ih
    · by_cases h2 : k1 = j
      · subst h2
        simp [mshrErase, List.filter_cons, mshrFind, h1]
      · simpa [mshrErase, List.filter_cons, mshrFind, h1, h2] using ih

theorem mshrFind_cleanup_self (m : List (Int × List Nat)) (k : Int) :
    mshrFind (mshrCleanup m k) k = entryOf ((mshrFind m k).getD []) := by
  unfold mshrCleanup mshrTargets entryOf
  split
  · exact mshrFind_erase_self m k
  · rename_i h
    cases hf : mshrFind m k with
    | none => simp [hf] at h
    | some ts => simp
  
theorem mshrFind_cleanup_ne (m : List (Int × List Nat)) (k j : Int) (h : j ≠ k) :
    mshrFind (mshrCleanup m k) j = mshrFind m j := by
  unfold mshrCleanup
  split
  · exact mshrFind_erase_ne m k j h
  · rfl

theorem State.line?_eq_some {s : State} {bi : Int} {l : Line} (h : s.line? bi = some l) :
    s.block? bi = some l.1 ∧ l.2 = mshrFind s.MSHR bi := by
  unfold State.line? at h
  cases hb : s.block? bi with
  | none => simp [hb] at h
  | some b =>
    simp only [hb, Option.map_some', Option.some.injEq] at h
    subst h
    exact ⟨rfl, rfl⟩

theorem State.line?_of_block {s : State} {bi : Int} {b : Block} (h : s.block? bi = some b) :
    s.line? bi = some (b, mshrFind s.MSHR bi) := by
  unfold State.line?
  rw [h]
  rfl

/-- Nothing of the cache or of the MSHR table is changed. -/
theorem Effect.of_same {c : Config} {s s1 : State} (hcb : s1.cacheBlocks = s.cacheBlocks)
    (hm : s1.MSHR = s.MSHR) : Effect c s s1 := by
  refine ⟨by rw [hcb], ?_⟩
  intro bi l hl
  refine ⟨l, ?_, LineStep.same l⟩
  unfold State.line? State.block? at hl ⊢
  rw [hcb, hm]
  exact hl

/-- Only line `i` is changed, by a transition. -/
theorem Effect.of_line {c : Config} {s s1 : State} {i : Int} {b b1 : Block}
    (hb : s.block? i = some b)
    (hcb : s1.cacheBlocks = s.cacheBlocks.set i.toNat b1)
    (hm : ∀ j, j ≠ i → mshrFind s1.MSHR j = mshrFind s.MSHR j)
    (hstep : LineStep c (b, mshrFind s.MSHR i) (b1, mshrFind s1.MSHR i)) :
    Effect c s s1 := by
  obtain ⟨h0, _, _⟩ := State.block?_some hb
  have hblk : ∀ j, s1.block? j = (s.setBlock i b1).block? j := by
    intro j
    unfold State.block? State.setBlock
    rw [hcb]
  refine ⟨by rw [hcb, List.length_set], ?_⟩
  intro bi l hl
  obtain ⟨hl1, hl2⟩ := State.line?_eq_some hl
  by_cases hbi : bi = i
  · subst hbi
    have hbl : b = l.1 := Option.some.inj (hb.symm.trans hl1)
    refine ⟨(b1, mshrFind s1.MSHR bi), ?_, ?_⟩
    · apply State.line?_of_block
      rw [hblk]
      exact State.block?_setBlock hb
    · have : l = (b, mshrFind s.MSHR bi) := by
        rw [hbl, ← hl2]
      rw [this]
      exact hstep
  · refine ⟨l, ?_, LineStep.same l⟩
    have : s1.block? bi = some l.1 := by
      rw [hblk, State.block?_setBlock_ne h0 hbi]
      exact hl1
    rw [State.line?_of_block this, hm bi hbi, ← hl2]

/-- Only the MSHR entry of line `i` is changed. -/
theorem Effect.of_entry {c : Config} {s s1 : State} {i : Int} {b : Block}
    (hb : s.block? i = some b) (hcb : s1.cacheBlocks = s.cacheBlocks)
    (hm : ∀ j, j ≠ i → mshrFind s1.MSHR j = mshrFind s.MSHR j)
    (hstep : LineStep c (b, mshrFind s.MSHR i) (b, mshrFind s1.MSHR i)) :
    Effect c s s1 := by
  obtain ⟨h0, hlt, hget⟩ := State.block?_some hb
  apply Effect.of_line hb _ hm hstep
  rw [hcb]
  apply List.ext_getElem?
  intro n
  by_cases hn : i.toNat = n
  · subst hn
    simp [List.getElem?_set, hlt, hget]
  · simp [List.getElem?_set, hn]

theorem State.MSHR_pushMemoryFunction (s : State) (fn : MemoryFunction) (i : Int) (t : Nat) :
    (s.pushMemoryFunction fn i t).MSHR = s.MSHR := rfl

theorem mshrTargets_of_find {m : List (Int × List Nat)} {k : Int} {ts : List Nat}
    (h : mshrFind m k = some ts) : mshrTargets m k = ts := by
  unfold mshrTargets
  rw [h]
  rfl

theorem mshrTargets_of_none {m : List (Int × List Nat)} {k : Int}
    (h : mshrFind m k = none) : mshrTargets m k = [] := by
  unfold mshrTargets
  rw [h]
  rfl

/-- The only line of `s` that `MSHR[i].push_back(addr)` concerns is line `i`; its entry gets
the target. -/
theorem Effect.of_push {c : Config} {s s1 : State} {i : Int} {b : Block} {addr : Nat}
    (hb : s.block? i = some b) (hcb : s1.cacheBlocks = s.cacheBlocks)
    (hm : s1.MSHR = mshrPushBack s.MSHR i addr)
    (hfree : mshrFind s.MSHR i = none →
      (b.valid || b.pendingData) = true ∧ ¬ b.idle) : Effect c s s1 := by
  apply Effect.of_entry hb hcb
  · intro j hj
    rw [hm, mshrFind_pushBack_ne _ _ _ _ hj]
  · rw [hm, mshrFind_pushBack_self]
    cases hf : mshrFind s.MSHR i with
    | none =>
      rw [mshrTargets_of_none hf]
      exact LineStep.conflict b addr (hfree hf).1 (hfree hf).2
    | some ts =>
      rw [mshrTargets_of_find hf]
      exact LineStep.target b ts addr

/-- Line `i`, which has no MSHR entry, is changed and gets an entry with one target. -/
theorem Effect.of_line_push {c : Config} {s s1 : State} {i : Int} {b b1 : Block}
    {addr : Nat} (hb : s.block? i = some b)
    (hcb : s1.cacheBlocks = s.cacheBlocks.set i.toNat b1)
    (hm : s1.MSHR = mshrPushBack s.MSHR i addr) (hnone : mshrFind s.MSHR i = none)
    (hstep : LineStep c (b, none) (b1, some [addr])) : Effect c s s1 := by
  apply Effect.of_line hb hcb
  · intro j hj
    rw [hm, mshrFind_pushBack_ne _ _ _ _ hj]
  · rw [hm, mshrFind_pushBack_self, mshrTargets_of_none hnone, hnone]
    exact hstep

theorem recvWLRead_effect (c : Config) (now : Nat) (s : State) (addr : Nat)
    (r : Bool × State) (h : recvWLRead c now s addr = .ok r) : Effect c s r.2 := by
  unfold recvWLRead at h
  simp only [Except.bind_ok_iff, assert_ok_iff, exists_and_left, exists_const] at h
  obtain ⟨_, bi1, _, _, _, blk, hblk, h⟩ := h
  have hb := State.block_ok hblk
  split at h
  · rename_i hhit
    simp only [Except.bind_ok_iff, assert_ok_iff, exists_and_left, exists_const] at h
    obtain ⟨hpd, _, h⟩ := h
    split at h
    · cases h
    · cases h
      simp only [Bool.and_eq_true, beq_iff_eq] at hhit
      apply Effect.of_line hb
      · rfl
      · intro j _; rfl
      · exact LineStep.hit blk _ _ _ hhit.2 (by simpa using hpd)
  · split at h
    · simp only [Except.bind_ok_iff, assert_ok_iff, exists_and_left, exists_const] at h
      obtain ⟨_, _, _, _, _, _, _, hsome, _, h⟩ := h
      split at h
      · cases h; exact Effect.of_same rfl rfl
      · cases h
        apply Effect.of_push hb
        · rfl
        · rfl
        · intro hf
          rw [hf] at hsome
          cases hsome
    · simp only [Except.bind_ok_iff, assert_ok_iff, exists_and_left, exists_const] at h
      obtain ⟨_, _, h⟩ := h
      split at h
      · rename_i hnone
        split at h
        · cases h; exact Effect.of_same rfl rfl
        · split at h
          · rename_i hocc
            split at h
            · rename_i hidle
              simp only [Except.bind_ok_iff, assert_ok_iff, exists_and_left,
                exists_const] at h
              obtain ⟨hna, hpd, _, h⟩ := h
              have hnone1 : mshrFind s.MSHR bi1 = none := by simpa using hnone
              simp only [Bool.and_eq_true, beq_iff_eq, Bool.not_eq_true'] at hidle
              have hidle1 : blk.idle := ⟨hidle.1.1.1, hidle.1.1.2, hidle.1.2, hidle.2⟩
              split at h
              · rename_i hwb
                cases h
                apply Effect.of_line_push hb
                · dsimp only
                  rw [State.cacheBlocks_scheduleMemoryEvent]
                  rfl
                · dsimp only
                  rw [State.MSHR_scheduleMemoryEvent]
                  rfl
                · exact hnone1
                · exact LineStep.missWB blk addr now hidle1 (by simpa using hna)
                    (by simpa using hpd) hwb
              · rename_i hwb
                cases h
                apply Effect.of_line_push hb
                · dsimp only
                  rw [State.cacheBlocks_scheduleMemoryEvent]
                  rfl
                · dsimp only
                  rw [State.MSHR_scheduleMemoryEvent]
                  rfl
                · exact hnone1
                · exact LineStep.claimNew blk addr now
                    ⟨hidle1.2.1, by simpa using hwb, by simpa using hna, by simpa using hpd,
                     hidle1.2.2.1, hidle1.2.2.2⟩
            · rename_i hnidle
              cases h
              apply Effect.of_push hb
              · rfl
              · rfl
              · intro _
                refine ⟨hocc, ?_⟩
                intro hi
                apply hnidle
                obtain ⟨i1, i2, i3, i4⟩ := hi
                simp [i1, i2, i3, i4]
          · simp only [Except.bind_ok_iff, assert_ok_iff, exists_and_left,
              exists_const] at h
            obtain ⟨h1, h2, h3, h4, h5, h6, h7, h8, h⟩ := h
            cases h
            have hnone1 : mshrFind s.MSHR bi1 = none := by simpa using hnone
            apply Effect.of_line_push hb
            · rw [State.cacheBlocks_scheduleMemoryEvent]
              rfl
            · rw [State.MSHR_scheduleMemoryEvent]
              rfl
            · exact hnone1
            · exact LineStep.claimNew blk addr now
                ⟨by simpa using h2, by simpa using h3, by simpa using h4, by simpa using h5,
                 by simpa using h6, by simpa using h7⟩
      · simp only [Except.bind_ok_iff, assert_ok_iff, exists_and_left, exists_const] at h
        obtain ⟨_, _, h⟩ := h
        split at h
        · cases h; exact Effect.of_same rfl rfl
        · cases h
          apply Effect.of_push hb
          · rfl
          · rfl
          · intro hf
            rename_i hsome _ _ _
            simp [hf] at hsome

theorem recvWLWrite_effect (c : Config) (now : Nat) (s s1 : State) (addr : Nat)
    (w : WorkListItem) (h : recvWLWrite c now s addr w = .ok s1) : Effect c s s1 := by
  unfold recvWLWrite at h
  simp only [Except.bind_ok_iff, assert_ok_iff, exists_and_left, exists_const] at h
  obtain ⟨bi1, hbi1, blk, hblk, _, hv, hbusy, hpd, hpa, hpw, _, h⟩ := h
  have hb := State.block_ok hblk
  have hpre : blk.handedOut :=
    ⟨hv, by simpa using hbusy, by simpa using hpd, by simpa using hpa, by simpa using hpw⟩
  split at h
  · cases h
  · rename_i old _
    split at h
    · rename_i hz
      have hz1 : clearBit blk.busyMask
          ((addr - roundDown addr c.peerMemoryAtomSize) / sizeofWorkListItem) = 0 := by
        simpa using hz
      split at h
      · rename_i hna
        cases h
        apply Effect.of_line hb
        · rfl
        · intro j _; rfl
        · exact LineStep.writeApply blk _ _ (w.tempProp != old.tempProp)
            (c.applyCondition w) _ now hpre hz1 hna
      · rename_i hna
        simp only [Except.bind_ok_iff, assert_ok_iff, exists_and_left, exists_const] at h
        obtain ⟨_, h⟩ := h
        split at h
        · rename_i tgts htg
          split at h
          · rename_i hwb
            cases h
            apply Effect.of_line hb
            · rw [State.cacheBlocks_scheduleMemoryEvent]
              rfl
            · intro j _
              rw [State.MSHR_scheduleMemoryEvent]
              rfl
            · rw [State.MSHR_scheduleMemoryEvent, State.MSHR_pushMemoryFunction]
              show LineStep c (blk, mshrFind s.MSHR bi1) (_, mshrFind s.MSHR bi1)
              rw [htg]
              exact LineStep.writeWB blk tgts _ (w.tempProp != old.tempProp)
                (c.applyCondition w) _ now hpre hz1 (by simpa using hna) hwb
          · rename_i hwb
            split at h
            · cases h
            · rename_i miss_addr hhead
              cases h
              obtain ⟨rest, hrest⟩ : ∃ rest, tgts = miss_addr :: rest := by
                cases tgts with
                | nil => simp at hhead
                | cons t ts => exact ⟨ts, by simp at hhead; rw [hhead]⟩
              apply Effect.of_line hb
              · rw [State.cacheBlocks_scheduleMemoryEvent]
                rfl
              · intro j _
                rw [State.MSHR_scheduleMemoryEvent]
                rfl
              · rw [State.MSHR_scheduleMemoryEvent, State.MSHR_pushMemoryFunction]
                show LineStep c (blk, mshrFind s.MSHR bi1) (_, mshrFind s.MSHR bi1)
                rw [htg, hrest]
                exact LineStep.writeEvict blk miss_addr rest _ (w.tempProp != old.tempProp)
                  (c.applyCondition w) _ now hpre hz1 (by simpa using hna)
                  (by simpa using hwb)
        · rename_i htg
          cases h
          apply Effect.of_line hb
          · rfl
          · intro j _; rfl
          · show LineStep c (blk, mshrFind s.MSHR bi1) (_, mshrFind s.MSHR bi1)
            rw [htg]
            exact LineStep.writeIdle blk _ (w.tempProp != old.tempProp)
              (c.applyCondition w) _ now hpre hz1 (by simpa using hna)
    · rename_i hz
      cases h
      apply Effect.of_line hb
      · rfl
      · intro j _; rfl
      · exact LineStep.writeBusy blk _ _ (w.tempProp != old.tempProp)
          (c.applyCondition w) _ now hpre (by simpa using hz)

/-! ### The walk over the targets of a filled line -/

theorem testBit_maskOfTargets (c : Config) (ts : List Nat) (m i : Nat) :
    (maskOfTargets c m ts).testBit i = true ↔
      m.testBit i = true ∨ ∃ t ∈ ts, wlOffsetOf c t = i := by
  induction ts generalizing m with
  | nil => simp [maskOfTargets]
  | cons t ts ih =>
    have : maskOfTargets c m (t :: ts) = maskOfTargets c (m ||| bit (wlOffsetOf c t)) ts := rfl
    rw [this, ih, Nat.testBit_or, testBit_bit]
    simp only [Bool.or_eq_true, decide_eq_true_eq, List.mem_cons, exists_eq_or_imp]
    tauto

theorem maskOfTargets_ne_zero (c : Config) (m : Nat) {ts : List Nat} (h : ts ≠ []) :
    maskOfTargets c m ts ≠ 0 := by
  obtain ⟨t, ht⟩ := List.exists_mem_of_ne_nil ts h
  have hbit : (maskOfTargets c m ts).testBit (wlOffsetOf c t) = true := by
    rw [testBit_maskOfTargets]
    exact Or.inr ⟨t, ht, rfl⟩
  exact ne_zero_of_testBit hbit

/-- What the walk of `handleMemResp` over the targets returns, when it returns. -/
theorem fillTargets_spec (c : Config) (now addr : Nat) :
    ∀ (ts : List Nat) (blk : Block) (rq : List (Nat × WorkListItem × Nat))
      (r : Block × List (Nat × WorkListItem × Nat) × List Nat),
      fillTargets c now addr ts blk rq = .ok r →
      r.1 = { blk with busyMask := maskOfTargets c blk.busyMask (servedTargets c addr ts) } ∧
      r.2.1 = rq ++ responsesOf c blk.items now (servedTargets c addr ts) ∧
      r.2.2 = otherTargets c addr ts ∧
      ∀ t ∈ servedTargets c addr ts, wlOffsetOf c t < blk.items.length := by
  intro ts
  induction ts with
  | nil =>
    intro blk rq r h
    simp only [fillTargets, pure, Except.pure] at h
    cases h
    simp [servedTargets, otherTargets, maskOfTargets, responsesOf]
  | cons t ts ih =>
    intro blk rq r h
    unfold fillTargets at h
    simp only [] at h
    split at h
    · rename_i hm
      have hm1 : roundDown t c.peerMemoryAtomSize = addr := by simpa using hm
      have hs : servedTargets c addr (t :: ts) = t :: servedTargets c addr ts := by
        simp [servedTargets, List.filter_cons, hm1]
      have ho : otherTargets c addr (t :: ts) = otherTargets c addr ts := by
        simp [otherTargets, List.filter_cons, hm1]
      split at h
      · cases h
      · rename_i item hitem
        obtain ⟨h1, h2, h3, h4⟩ := ih _ _ _ h
        have hoff : wlOffsetOf c t < blk.items.length :=
          (List.getElem?_eq_some_iff.mp hitem).1
        refine ⟨?_, ?_, ?_, ?_⟩
        · rw [h1, hs]
          rfl
        · rw [h2, hs]
          simp only [responsesOf, List.map_cons, List.append_assoc, List.singleton_append]
          have : (blk.items[wlOffsetOf c t]?).getD {} = item := by
            have hi : blk.items[wlOffsetOf c t]? = some item := hitem
            rw [hi]
            rfl
          rw [this]
        · rw [h3, ho]
        · intro u hu
          rw [hs] at hu
          rcases List.mem_cons.mp hu with hu | hu
          · rw [hu]; exact hoff
          · exact h4 u hu
    · rename_i hm
      have hm1 : ¬ roundDown t c.peerMemoryAtomSize = addr := by simpa using hm
      have hs : servedTargets c addr (t :: ts) = servedTargets c addr ts := by
        simp [servedTargets, List.filter_cons, hm1]
      have ho : otherTargets c addr (t :: ts) = t :: otherTargets c addr ts := by
        simp [otherTargets, List.filter_cons, hm1]
      simp only [Except.bind_ok_iff] at h
      obtain ⟨r1, hr1, h2⟩ := h
      simp only [pure, Except.pure] at h2
      cases h2
      obtain ⟨h1, h2, h3, h4⟩ := ih _ _ _ hr1
      refine ⟨by rw [h1, hs], by rw [h2, hs], by rw [h3, ho], by rw [hs]; exact h4⟩

/-- The walk of `handleMemResp` over the targets returns when every served target names a
slot of the line. -/
theorem fillTargets_ok (c : Config) (now addr : Nat) :
    ∀ (ts : List Nat) (blk : Block) (rq : List (Nat × WorkListItem × Nat)),
      (∀ t ∈ servedTargets c addr ts, wlOffsetOf c t < blk.items.length) →
      ∃ r, fillTargets c now addr ts blk rq = .ok r := by
  intro ts
  induction ts with
  | nil =>
    intro blk rq _
    exact ⟨_, rfl⟩
  | cons t ts ih =>
    intro blk rq hlen
    unfold fillTargets
    simp only []
    split
    · rename_i hm
      have hm1 : roundDown t c.peerMemoryAtomSize = addr := by simpa using hm
      have hs : servedTargets c addr (t :: ts) = t :: servedTargets c addr ts := by
        simp [servedTargets, List.filter_cons, hm1]
      rw [hs] at hlen
      have hoff : wlOffsetOf c t < blk.items.length := hlen t (List.mem_cons_self _ _)
      split
      · rename_i hnone
        have : blk.items[wlOffsetOf c t]? = none := hnone
        rw [List.getElem?_eq_none_iff] at this
        omega
      · exact ih _ _ (fun u hu => hlen u (List.mem_cons_of_mem _ hu))
    · rename_i hm
      have hm1 : ¬ roundDown t c.peerMemoryAtomSize = addr := by simpa using hm
      have hs : servedTargets c addr (t :: ts) = servedTargets c addr ts := by
        simp [servedTargets, List.filter_cons, hm1]
      rw [hs] at hlen
      obtain ⟨r, hr⟩ := ih blk rq hlen
      rw [hr]
      exact ⟨_, rfl⟩

theorem pullRespLoop_MSHR (c : Config) (addr : Nat) (it : Int) (send_mask : Nat) :
    ∀ (n i : Nat) (s : State) (items : List WorkListItem) (d : Bool)
      (r : State × List WorkListItem × Bool),
      pullRespLoop c addr it send_mask n i s items d = .ok r → r.1.MSHR = s.MSHR := by
  intro n
  induction n with
  | zero =>
    intro i s items d r h
    simp only [pullRespLoop, pure, Except.pure] at h
    cases h
    rfl
  | succ n ih =>
    intro i s items d r h
    unfold pullRespLoop at h
    split at h
    · simp only [Except.bind_ok_iff, assert_ok_iff, exists_and_left, exists_const] at h
      obtain ⟨b, _, _, h⟩ := h
      split at h
      · cases h
      · have := ih _ _ _ _ _ h
        exact this
    · exact ih _ _ _ _ _ h

/-- The pull part of `handleMemResp` touches neither the lines nor the MSHR table. -/
theorem handlePullResp_frame (c : Config) (s : State) (addr : Nat) (blk : Block)
    (items : List WorkListItem) (r : State × List WorkListItem × Bool)
    (h : handlePullResp c s addr blk items = .ok r) :
    r.1.cacheBlocks = s.cacheBlocks ∧ r.1.MSHR = s.MSHR := by
  unfold handlePullResp at h
  simp only [Except.bind_ok_iff, assert_ok_iff, exists_and_left, exists_const] at h
  obtain ⟨_, it, _, r0, hr0, h⟩ := h
  simp only [pure, Except.pure] at h
  cases h
  have h1 := pullRespLoop_cacheBlocks _ _ _ _ _ _ _ _ _ _ hr0
  have h2 := pullRespLoop_MSHR _ _ _ _ _ _ _ _ _ _ hr0
  exact ⟨h1, h2⟩

/-- What the cache-fill part of `handleMemResp` returns, when it returns. -/
theorem handleFill_spec (c : Config) (now : Nat) (s s2 : State) (bi : Int) (blk : Block)
    (addr : Nat) (items : List WorkListItem) (do_wb : Bool)
    (h : handleFill c now s bi blk addr items do_wb = .ok s2) :
    blk.awaitsData ∧ ∃ ts, mshrFind s.MSHR bi = some ts ∧
      (∀ t ∈ servedTargets c addr ts, wlOffsetOf c t < items.length) ∧
      s2 = { (s.setBlock bi
              { blk with items := items, valid := true, needsWB := blk.needsWB || do_wb,
                         pendingData := false,
                         lastChangedTick :=
                           (now + 2 ^ 64 - (c.clockPeriod / 2) % 2 ^ 64) % 2 ^ 64,
                         busyMask := maskOfTargets c blk.busyMask (servedTargets c addr ts) })
             with
             responseQueue := s.responseQueue ++ responsesOf c items now (servedTargets c addr ts),
             MSHR := mshrReplace s.MSHR bi (otherTargets c addr ts) } := by
  unfold handleFill at h
  simp only [Except.bind_ok_iff, assert_ok_iff, exists_and_left, exists_const] at h
  obtain ⟨h1, h2, h3, h4, h5, h6, h7, h8, r2, hr2, h⟩ := h
  simp only [pure, Except.pure] at h
  cases h
  refine ⟨⟨by simpa using h1, by simpa using h2, by simpa using h3, by simpa using h4, h5,
    by simpa using h6, by simpa using h7⟩, ?_⟩
  cases hf : mshrFind s.MSHR bi with
  | none => simp [hf] at h8
  | some ts =>
    refine ⟨ts, rfl, ?_⟩
    rw [mshrTargets_of_find hf] at hr2
    obtain ⟨e1, e2, e3, e4⟩ := fillTargets_spec _ _ _ _ _ _ _ hr2
    refine ⟨e4, ?_⟩
    rw [e1, e2, e3]

theorem State.MSHR_scheduleResponseEvent (s : State) :
    s.scheduleResponseEvent.MSHR = s.MSHR := by
  unfold State.scheduleResponseEvent
  split <;> rfl

theorem handleMemResp_effect (c : Config) (now : Nat) (s : State) (pkt : MemResponse)
    (r : Bool × State) (h : handleMemResp c now s pkt = .ok r) : Effect c s r.2 := by
  unfold handleMemResp at h
  split at h
  · cases h
    exact Effect.of_same rfl rfl
  · rename_i a its pl
    simp only [Except.bind_ok_iff, assert_ok_iff, exists_and_left, exists_const] at h
    obtain ⟨bi1, _, blk, hblk, r1, hr1, s2, hs2, h⟩ := h
    simp only [pure, Except.pure] at h
    cases h
    have hb : s.block? bi1 = some blk := State.block_ok hblk
    have hr1c : r1.1.cacheBlocks = s.cacheBlocks ∧ r1.1.MSHR = s.MSHR := by
      split at hr1
      · have := handlePullResp_frame _ _ _ _ _ _ hr1
        exact this
      · simp only [pure, Except.pure] at hr1
        cases hr1
        exact ⟨rfl, rfl⟩
    split at hs2
    · rename_i haddr
      have haddr1 : blk.addr = a := by simpa using haddr
      obtain ⟨hpre, ts, hts, _, hs2e⟩ := handleFill_spec _ _ _ _ _ _ _ _ _ hs2
      rw [hr1c.2] at hts
      subst hs2e
      apply Effect.of_line hb
      · rw [State.cacheBlocks_scheduleResponseEvent]
        show (r1.1.cacheBlocks).set _ _ = _
        rw [hr1c.1]
      · intro j hj
        rw [State.MSHR_scheduleResponseEvent]
        show mshrFind (mshrCleanup (mshrReplace r1.1.MSHR bi1 _) bi1) j = _
        rw [mshrFind_cleanup_ne _ _ _ hj, mshrFind_replace_ne _ _ _ _ hj, hr1c.2]
      · rw [State.MSHR_scheduleResponseEvent]
        show LineStep c _ (_, mshrFind (mshrCleanup (mshrReplace r1.1.MSHR bi1 _) bi1) bi1)
        rw [mshrFind_cleanup_self, mshrFind_replace_self, hr1c.2, hts, ← haddr1]
        exact LineStep.fill blk ts _ _ _ _ hpre
          (fun ⟨t, ht, hta⟩ => maskOfTargets_ne_zero c _
            (List.ne_nil_of_mem (List.mem_filter.mpr ⟨ht, by simpa using hta⟩)))
    · have hs2c : s2.cacheBlocks = s.cacheBlocks ∧ s2.MSHR = s.MSHR := by
        split at hs2
        · simp only [pure, Except.pure] at hs2
          cases hs2
          unfold queuePostPushWB
          rw [State.cacheBlocks_scheduleMemoryEvent, State.MSHR_scheduleMemoryEvent]
          exact hr1c
        · simp only [pure, Except.pure] at hs2
          cases hs2
          exact hr1c
      apply Effect.of_entry hb
      · rw [State.cacheBlocks_scheduleResponseEvent]
        exact hs2c.1
      · intro j hj
        rw [State.MSHR_scheduleResponseEvent]
        show mshrFind (mshrCleanup s2.MSHR bi1) j = _
        rw [mshrFind_cleanup_ne _ _ _ hj, hs2c.2]
      · rw [State.MSHR_scheduleResponseEvent]
        show LineStep c _ (_, mshrFind (mshrCleanup s2.MSHR bi1) bi1)
        rw [mshrFind_cleanup_self, hs2c.2]
        exact LineStep.cleanup blk _

theorem State.set_self {s : State} {i : Int} {b : Block} (hb : s.block? i = some b) :
    s.cacheBlocks.set i.toNat b = s.cacheBlocks := by
  obtain ⟨_, hlt, hget⟩ := State.block?_some hb
  apply List.ext_getElem?
  intro n
  by_cases hn : i.toNat = n
  · subst hn
    simp [List.getElem?_set, hlt, hget]
  · simp [List.getElem?_set, hn]

/-- The apply loop changes the items of line `bi` and nothing else of the lines or of the
MSHR table. -/
theorem applyLoop_frame (c : Config) (bi : Int) :
    ∀ (n index : Nat) (s s1 : State), applyLoop c bi n index s = .ok s1 →
      ∀ blk, s.block? bi = some blk →
        ∃ items, s1.cacheBlocks = s.cacheBlocks.set bi.toNat { blk with items := items } ∧
          s1.MSHR = s.MSHR := by
  intro n
  induction n with
  | zero =>
    intro index s s1 h blk hb
    simp only [applyLoop, pure, Except.pure] at h
    cases h
    exact ⟨blk.items, (State.set_self hb).symm, rfl⟩
  | succ n ih =>
    intro index s s1 h blk hb
    unfold applyLoop at h
    simp only [Except.bind_ok_iff, assert_ok_iff, exists_and_left, exists_const] at h
    obtain ⟨blk0, hblk0, h⟩ := h
    have hb0 := State.block_ok hblk0
    have hbe : blk0 = blk := Option.some.inj (hb0.symm.trans hb)
    subst hbe
    split at h
    · cases h
    · rename_i item hitem
      have fin : ∀ sx : State,
          sx.cacheBlocks = (s.setBlock bi { blk0 with
            items := blk0.items.set index (c.preWBApply item).2 }).cacheBlocks →
          sx.MSHR = s.MSHR → applyLoop c bi n (index + 1) sx = .ok s1 →
          ∃ items, s1.cacheBlocks = s.cacheBlocks.set bi.toNat { blk0 with items := items } ∧
            s1.MSHR = s.MSHR := by
        intro sx hsx hmx hx
        have hbx : sx.block? bi = some { blk0 with
            items := blk0.items.set index (c.preWBApply item).2 } := by
          have := State.block?_setBlock
            (d := { blk0 with items := blk0.items.set index (c.preWBApply item).2 }) hb0
          unfold State.block? at this ⊢
          rw [hsx]
          exact this
        obtain ⟨items, e1, e2⟩ := ih _ _ _ hx _ hbx
        refine ⟨items, ?_, by rw [e2, hmx]⟩
        rw [e1, hsx]
        show (s.cacheBlocks.set _ _).set _ _ = _
        rw [List.set_set]
      split at h
      · simp only [Except.bind_ok_iff, assert_ok_iff, exists_and_left, exists_const] at h
        obtain ⟨_, _, b, _, h⟩ := h
        split at h
        · apply fin _ _ _ h
          · split <;> rfl
          · split <;> rfl
        · exact fin _ rfl rfl h
      · exact fin _ rfl rfl h

theorem applyDequeue_MSHR (s : State) : (applyDequeue s).MSHR = s.MSHR := by
  unfold applyDequeue
  simp only []
  split <;> split <;> rfl

theorem processNextPreWBApplyEvent_effect (c : Config) (now : Nat) (s s1 : State)
    (h : processNextPreWBApplyEvent c now s = .ok s1) : Effect c s s1 := by
  unfold processNextPreWBApplyEvent at h
  simp only [] at h
  split at h
  · cases h
  · rename_i bi1 _
    simp only [Except.bind_ok_iff, assert_ok_iff, exists_and_left, exists_const] at h
    obtain ⟨blk, hblk, hv, hna, hpd, hpw, s2, hs2, h⟩ := h
    simp only [pure, Except.pure] at h
    cases h
    have hb : s.block? bi1 = some blk := State.block_ok hblk
    split at hs2
    · rename_i hpa
      unfold applyLine at hs2
      simp only [Except.bind_ok_iff, assert_ok_iff, exists_and_left, exists_const] at hs2
      obtain ⟨hbz, s3, hs3, blk3, hblk3, hwb, _, hs2⟩ := hs2
      have hb3 := State.block_ok hblk3
      obtain ⟨items, e1, e2⟩ := applyLoop_frame c bi1 _ _ _ _ hs3 blk hb
      have hb3e : blk3 = { blk with items := items } := by
        have h1 : s3.block? bi1 = (s.setBlock bi1 { blk with items := items }).block? bi1 := by
          unfold State.block? State.setBlock
          rw [e1]
        rw [h1, State.block?_setBlock hb] at hb3
        exact (Option.some.inj hb3).symm
      subst hb3e
      split at hs2
      · rename_i hsome
        simp only [pure, Except.pure] at hs2
        cases hs2
        cases hf : mshrFind s.MSHR bi1 with
        | none => simp [e2, hf] at hsome
        | some ts =>
          apply Effect.of_line hb
          · rw [applyDequeue_cacheBlocks, State.cacheBlocks_scheduleMemoryEvent]
            show s3.cacheBlocks.set _ _ = _
            rw [e1, List.set_set]
          · intro j _
            rw [applyDequeue_MSHR, State.MSHR_scheduleMemoryEvent]
            exact congrArg (fun m => mshrFind m j) e2
          · rw [applyDequeue_MSHR, State.MSHR_scheduleMemoryEvent]
            show LineStep c _ (_, mshrFind s3.MSHR bi1)
            rw [e2, hf]
            exact LineStep.appliedWB blk ts items now hv hna (by simpa using hpd)
              (by simpa using hpw) (by simpa using hbz) hwb
      · rename_i hsome
        simp only [pure, Except.pure] at hs2
        cases hs2
        have hf : mshrFind s.MSHR bi1 = none := by simpa [e2] using hsome
        apply Effect.of_line hb
        · rw [applyDequeue_cacheBlocks]
          show s3.cacheBlocks.set _ _ = _
          rw [e1, List.set_set]
        · intro j _
          rw [applyDequeue_MSHR]
          exact congrArg (fun m => mshrFind m j) e2
        · rw [applyDequeue_MSHR]
          show LineStep c _ (_, mshrFind s3.MSHR bi1)
          rw [e2, hf]
          exact LineStep.appliedIdle blk items now hv hna (by simpa using hpd)
            (by simpa using hpw) (by simpa using hbz) hwb
    · simp only [pure, Except.pure] at hs2
      cases hs2
      exact Effect.of_same (applyDequeue_cacheBlocks _) (applyDequeue_MSHR _)

theorem State.block?_of_set {s s1 : State} {i : Int} {b b1 : Block}
    (hb : s.block? i = some b) (hcb : s1.cacheBlocks = s.cacheBlocks.set i.toNat b1) :
    s1.block? i = some b1 := by
  have h1 := State.block?_setBlock (d := b1) hb
  have h2 : s1.block? i = (s.setBlock i b1).block? i := by
    unfold State.block? State.setBlock
    rw [hcb]
  rw [h2, h1]

theorem entryOf_ne_some_nil (ts : List Nat) : entryOf ts ≠ some [] := by
  intro h
  obtain ⟨h1, h2⟩ := entryOf_eq_some h
  exact h2 h1.symm

/-- The loop of `processNextRead` over the post-push writebacks returns only when no queued
packet has the address of line `bi`, and then it changes nothing. -/
theorem postPushWBLoop_same (c : Config) (now : Nat) (bi : Int) :
    ∀ (q : List (MemPacket × Nat)) (s : State) (need : Bool) (r : State × Bool),
      postPushWBLoop c now bi q s need = .ok r →
      r = (s, need) ∧
        ∀ blk, s.block? bi = some blk → ∀ e ∈ q, e.1.addr ≠ blk.addr := by
  intro q
  induction q with
  | nil =>
    intro s need r h
    simp only [postPushWBLoop, pure, Except.pure] at h
    cases h
    exact ⟨rfl, fun _ _ e he => absurd he (List.not_mem_nil e)⟩
  | cons wb rest ih =>
    intro s need r h
    unfold postPushWBLoop at h
    simp only [Except.bind_ok_iff] at h
    obtain ⟨blk, hblk, h⟩ := h
    have hb := State.block_ok hblk
    split at h
    · simp only [Except.bind_ok_iff] at h
      obtain ⟨_, _, h⟩ := h
      cases h
    · rename_i hne
      obtain ⟨e1, e2⟩ := ih _ _ _ h
      refine ⟨e1, fun blk1 hb1 e he => ?_⟩
      rcases List.mem_cons.mp he with he | he
      · rw [hb] at hb1
        cases hb1
        rw [he]
        intro heq
        exact hne (by simp [heq])
      · exact e2 blk1 hb1 e he

theorem processNextRead_effect (c : Config) (now : Nat) (s s1 : State) (i : Int)
    (t : Nat) (h : processNextRead c now s i t = .ok s1) : Effect c s s1 := by
  unfold processNextRead at h
  simp only [Except.bind_ok_iff, assert_ok_iff, exists_and_left, exists_const] at h
  obtain ⟨blk, hblk, h⟩ := h
  split at h
  · simp only [pure, Except.pure] at h
    cases h
    exact Effect.of_same rfl rfl
  · simp only [Except.bind_ok_iff, assert_ok_iff, exists_and_left, exists_const] at h
    obtain ⟨_, _, _, _, _, _, _, r, hr, blk1, _, h⟩ := h
    obtain ⟨e, _⟩ := postPushWBLoop_same _ _ _ _ _ _ _ hr
    subst e
    split at h
    · simp only [pure, Except.pure] at h
      cases h
      exact Effect.of_same rfl rfl
    · simp only [pure, Except.pure] at h
      cases h
      exact Effect.of_same rfl rfl

/-- `processNextRead` changes no line. -/
theorem processNextRead_slotKept (c : Config) (now : Nat) (s s1 : State) (i : Int)
    (t : Nat) (bi : Int) (off : Nat) (wl : WorkListItem)
    (h : processNextRead c now s i t = .ok s1) : SlotKept bi off wl s s1 := by
  unfold processNextRead at h
  simp only [Except.bind_ok_iff, assert_ok_iff, exists_and_left, exists_const] at h
  obtain ⟨blk, hblk, h⟩ := h
  split at h
  · simp only [pure, Except.pure] at h
    cases h
    exact SlotKept.of_eq rfl
  · simp only [Except.bind_ok_iff, assert_ok_iff, exists_and_left, exists_const] at h
    obtain ⟨_, _, _, _, _, _, _, r, hr, blk1, _, h⟩ := h
    obtain ⟨e, _⟩ := postPushWBLoop_same _ _ _ _ _ _ _ hr
    subst e
    split at h
    · simp only [pure, Except.pure] at h
      cases h
      exact SlotKept.of_eq rfl
    · simp only [pure, Except.pure] at h
      cases h
      exact SlotKept.of_eq rfl

theorem tmod_natCast_lt (a : Int) (n : Nat) (b : Int) (ha : a < b) (hb : 0 < b) :
    Int.tmod a (n : Int) < b := by
  cases a with
  | ofNat m =>
    show ((m % n : Nat) : Int) < b
    have h1 : m % n ≤ m := Nat.mod_le m n
    have h2 : ((m : Nat) : Int) < b := ha
    omega
  | negSucc m =>
    show -((m.succ % n : Nat) : Int) < b
    omega

theorem toInt32_lt (x : Nat) : toInt32 x < 2 ^ 31 := by
  unfold toInt32
  split
  · rename_i h
    exact_mod_cast h
  · have : x % 2 ^ 32 < 2 ^ 32 := Nat.mod_lt _ (by norm_num)
    omega

theorem blockIndexOf_lt_two_pow (c : Config) (addr : Nat) : blockIndexOf c addr < 2 ^ 31 := by
  unfold blockIndexOf
  exact tmod_natCast_lt _ _ _ (toInt32_lt _) (by norm_num)

theorem toInt32_of_index {bi : Int} (h0 : 0 ≤ bi) (h1 : bi < 2 ^ 31) :
    toInt32 ((bi % (2 ^ 64 : Int)).toNat) = bi := by
  have e1 : bi % (2 ^ 64 : Int) = bi := Int.emod_eq_of_lt h0 (by omega)
  rw [e1]
  unfold toInt32
  have e2 : bi.toNat % 2 ^ 32 = bi.toNat := Nat.mod_eq_of_lt (by omega)
  rw [e2]
  have e3 : bi.toNat < 2 ^ 31 := by omega
  simp only [e3, if_true]
  omega

/-- When the search of `getOptimalPullAddr` answers `IN_CACHE`, the location it returns is
the index of a line that is idle, applied and not waiting for data. -/
theorem getOptimalPullAddrLoop_inCache (c : Config) (s : State) :
    ∀ (n : Nat) (active : List Int) (loc : Nat) (off : Int) (rest : List Int),
      getOptimalPullAddrLoop c s n active = .ok ((.IN_CACHE, loc, off), rest) →
      ∃ blk, s.block? (toInt32 loc) = some blk ∧ blk.idle ∧ blk.needsApply = false ∧
        blk.pendingData = false := by
  intro n
  induction n with
  | zero =>
    intro active loc off rest h
    simp only [getOptimalPullAddrLoop, pure, Except.pure] at h
    cases h
  | succ n ih =>
    intro active loc off rest h
    unfold getOptimalPullAddrLoop at h
    split at h
    · cases h
    · simp only [Except.bind_ok_iff, assert_ok_iff, exists_and_left, exists_const] at h
      obtain ⟨_, _, _, _, addr, _, bi, hbi, h⟩ := h
      split at h
      · simp only [Except.bind_ok_iff, assert_ok_iff, exists_and_left, exists_const] at h
        obtain ⟨_, h⟩ := h
        simp only [pure, Except.pure] at h
        cases h
      · simp only [Except.bind_ok_iff, assert_ok_iff, exists_and_left, exists_const] at h
        obtain ⟨blk, hblk, h⟩ := h
        have hb := State.block_ok hblk
        split at h
        · rename_i hidle
          simp only [Except.bind_ok_iff, assert_ok_iff, exists_and_left, exists_const] at h
          obtain ⟨hna, hpd, h⟩ := h
          simp only [pure, Except.pure] at h
          cases h
          obtain ⟨h0, _, _⟩ := State.block?_some hb
          have hlt : bi < 2 ^ 31 := by
            rw [getBlockIndex_ok hbi]
            exact blockIndexOf_lt_two_pow c addr
          rw [toInt32_of_index h0 hlt]
          simp only [Bool.and_eq_true, beq_iff_eq, Bool.not_eq_true'] at hidle
          exact ⟨blk, hb, ⟨hidle.1.1.1.2, hidle.1.1.2, hidle.1.2, hidle.2⟩,
            by simpa using hna, by simpa using hpd⟩
        · split at h
          · simp only [pure, Except.pure] at h
            cases h
          · exact ih _ _ _ _ h

theorem pullInCache_effect (c : Config) (s s1 : State) (location : Nat) (o : Int)
    (hidle : ∃ blk, s.block? (toInt32 location) = some blk ∧ blk.idle ∧
      blk.needsApply = false ∧ blk.pendingData = false)
    (h : pullInCache c s location o = .ok s1) : Effect c s s1 := by
  unfold pullInCache at h
  simp only [Except.bind_ok_iff, assert_ok_iff, exists_and_left, exists_const] at h
  obtain ⟨blk, hblk, _, _, _, _, h⟩ := h
  have hb := State.block_ok hblk
  obtain ⟨blk0, hb0, hi, hna, hpd⟩ := hidle
  have hbe : blk0 = blk := Option.some.inj (hb0.symm.trans hb)
  subst hbe
  split at h
  · cases h
  · simp only [pure, Except.pure] at h
    cases h
    apply Effect.of_line hb
    · rfl
    · intro j _; rfl
    · exact LineStep.pulled blk0 _ _ _ hi hna hpd

theorem processNextVertexPull_effect (c : Config) (now : Nat) (s s1 : State) (i : Int)
    (t : Nat) (h : processNextVertexPull c now s i t = .ok s1) : Effect c s s1 := by
  unfold processNextVertexPull at h
  simp only [Except.bind_ok_iff] at h
  obtain ⟨r, hr, s2, hs2, h⟩ := h
  unfold getOptimalPullAddr at hr
  simp only [Except.bind_ok_iff] at hr
  obtain ⟨r0, hr0, hr⟩ := hr
  simp only [pure, Except.pure] at hr
  cases hr
  have hk2 : Effect c s s2 := by
    split at hs2
    · unfold pullPendingRead at hs2
      simp only [Except.bind_ok_iff, assert_ok_iff, exists_and_left, exists_const] at hs2
      obtain ⟨_, hs2⟩ := hs2
      simp only [pure, Except.pure] at hs2
      cases hs2
      exact Effect.of_same rfl rfl
    · rename_i hloc
      have hr1 : getOptimalPullAddrLoop c s s.activeBits.length s.activeBits =
          .ok ((.IN_CACHE, r0.1.2.1, r0.1.2.2), r0.2) := by
        rw [hr0]
        simp only [] at hloc
        obtain ⟨⟨w, a, b⟩, rest⟩ := r0
        simp only [] at hloc ⊢
        rw [hloc]
      have hidle := getOptimalPullAddrLoop_inCache c s _ _ _ _ _ hr1
      have hE : Effect c { s with activeBits := r0.2 } s2 :=
        pullInCache_effect c _ _ _ _ hidle hs2
      exact hE
    · unfold pullInMemory at hs2
      simp only [] at hs2
      split at hs2
      · simp only [Except.bind_ok_iff, assert_ok_iff, exists_and_left, exists_const] at hs2
        obtain ⟨_, hs2⟩ := hs2
        simp only [pure, Except.pure] at hs2
        cases hs2
        exact Effect.of_same rfl rfl
      · simp only [pure, Except.pure] at hs2
        cases hs2
        exact Effect.of_same rfl rfl
    · simp only [pure, Except.pure] at hs2
      cases hs2
      exact Effect.of_same rfl rfl
  split at h
  · simp only [pure, Except.pure] at h
    cases h
    exact hk2
  · simp only [pure, Except.pure] at h
    cases h
    exact hk2

theorem processNextWriteBack_slotKept (c : Config) (now : Nat) (s s1 : State) (i : Int)
    (t : Nat) (bi : Int) (off : Nat) (wl : WorkListItem)
    (h : processNextWriteBack c now s i t = .ok s1) : SlotKept bi off wl s s1 := by
  unfold processNextWriteBack at h
  simp only [Except.bind_ok_iff, assert_ok_iff, exists_and_left, exists_const] at h
  obtain ⟨blk, hblk, h⟩ := h
  have hb := State.block_ok hblk
  split at h
  · simp only [Except.bind_ok_iff, assert_ok_iff, exists_and_left, exists_const] at h
    obtain ⟨_, _, _, _, _, _, _, _, _, h⟩ := h
    split at h
    · cases h
    · simp only [pure, Except.pure] at h
      cases h
      apply SlotKept.setBlock hb
      · rfl
      · exact fun _ _ hi => hi
  · simp only [pure, Except.pure] at h
    cases h
    exact SlotKept.of_eq rfl

theorem processNextPostPushWB_cacheBlocks (c : Config) (now : Nat) (s s1 : State) (i : Int)
    (t : Nat) (h : processNextPostPushWB c now s i t = .ok s1) :
    s1.cacheBlocks = s.cacheBlocks := by
  unfold processNextPostPushWB at h
  split at h
  · cases h
  · split at h
    · simp only [pure, Except.pure] at h
      cases h
      rfl
    · simp only [pure, Except.pure] at h
      cases h
      rfl

theorem getOptimalPullAddr_cacheBlocks (c : Config) (s : State)
    (r : (WorkLocation × Nat × Int) × State) (h : getOptimalPullAddr c s = .ok r) :
    r.2.cacheBlocks = s.cacheBlocks := by
  unfold getOptimalPullAddr at h
  simp only [Except.bind_ok_iff] at h
  obtain ⟨r0, _, h⟩ := h
  simp only [pure, Except.pure] at h
  cases h
  rfl

theorem pullInCache_slotKept (c : Config) (s s1 : State) (location : Nat) (o : Int)
    (bi : Int) (off : Nat) (wl : WorkListItem) (hpure : (c.prePushApply wl).2 = wl)
    (h : pullInCache c s location o = .ok s1) : SlotKept bi off wl s s1 := by
  unfold pullInCache at h
  simp only [Except.bind_ok_iff, assert_ok_iff, exists_and_left, exists_const] at h
  obtain ⟨blk, hblk, _, _, _, _, h⟩ := h
  have hb := State.block_ok hblk
  split at h
  · cases h
  · rename_i item hitem
    simp only [pure, Except.pure] at h
    cases h
    apply SlotKept.setBlock hb
    · rfl
    · intro _ _ hi
      simp only
      by_cases hio : o.toNat = off
      · subst hio
        have hw : item = wl := Option.some.inj (hitem.symm.trans hi)
        subst hw
        have hlt : o.toNat < blk.items.length := (List.getElem?_eq_some_iff.mp hitem).1
        simp [List.getElem?_set, hlt, hpure]
      · rw [List.getElem?_set_ne hio]
        exact hi

theorem processNextVertexPull_slotKept (c : Config) (now : Nat) (s s1 : State) (i : Int)
    (t : Nat) (bi : Int) (off : Nat) (wl : WorkListItem)
    (hpure : (c.prePushApply wl).2 = wl)
    (h : processNextVertexPull c now s i t = .ok s1) : SlotKept bi off wl s s1 := by
  unfold processNextVertexPull at h
  simp only [Except.bind_ok_iff] at h
  obtain ⟨r, hr, s2, hs2, h⟩ := h
  have hrc := getOptimalPullAddr_cacheBlocks c s r hr
  have hk2 : SlotKept bi off wl r.2 s2 := by
    split at hs2
    · unfold pullPendingRead at hs2
      simp only [Except.bind_ok_iff, assert_ok_iff, exists_and_left, exists_const] at hs2
      obtain ⟨_, hs2⟩ := hs2
      simp only [pure, Except.pure] at hs2
      cases hs2
      exact SlotKept.of_eq rfl
    · exact pullInCache_slotKept c _ _ _ _ bi off wl hpure hs2
    · unfold pullInMemory at hs2
      simp only [] at hs2
      split at hs2
      · simp only [Except.bind_ok_iff, assert_ok_iff, exists_and_left, exists_const] at hs2
        obtain ⟨_, hs2⟩ := hs2
        simp only [pure, Except.pure] at hs2
        cases hs2
        exact SlotKept.of_eq rfl
      · simp only [pure, Except.pure] at hs2
        cases hs2
        exact SlotKept.of_eq rfl
    · simp only [pure, Except.pure] at hs2
      cases hs2
      exact SlotKept.of_eq rfl
  have hk3 : s1.cacheBlocks = s2.cacheBlocks := by
    split at h
    · simp only [pure, Except.pure] at h
      cases h
      rfl
    · simp only [pure, Except.pure] at h
      cases h
      rfl
  intro b hb hv hi
  have hb' : r.2.block? bi = some b := by
    unfold State.block? at hb ⊢
    rw [hrc]; exact hb
  obtain ⟨b2, hb2, hi2⟩ := hk2 b hb' hv hi
  refine ⟨b2, ?_, hi2⟩
  unfold State.block? at hb2 ⊢
  rw [hk3]; exact hb2

theorem processNextMemoryEvent_slotKept (c : Config) (now : Nat) (s s1 : State)
    (bi : Int) (off : Nat) (wl : WorkListItem) (hpure : (c.prePushApply wl).2 = wl)
    (h : processNextMemoryEvent c now s = .ok s1) : SlotKept bi off wl s s1 := by
  unfold processNextMemoryEvent at h
  simp only [] at h
  split at h
  · simp only [pure, Except.pure] at h
    cases h
    exact SlotKept.of_eq rfl
  · split at h
    · cases h
    · rename_i e _ _
      simp only [Except.bind_ok_iff, assert_ok_iff, exists_and_left, exists_const] at h
      obtain ⟨s2, hs2, _, _, h⟩ := h
      have hk0 : ∀ s0 : State, callMemoryFunction c now s0 e = .ok s2 →
          SlotKept bi off wl s0 s2 := by
        intro s0 hs0
        unfold callMemoryFunction at hs0
        split at hs0
        · exact processNextRead_slotKept _ _ _ _ _ _ bi off wl hs0
        · exact processNextWriteBack_slotKept _ _ _ _ _ _ bi off wl hs0
        · exact SlotKept.of_eq (processNextPostPushWB_cacheBlocks _ _ _ _ _ _ hs0)
        · exact processNextVertexPull_slotKept _ _ _ _ _ _ bi off wl hpure hs0
      have hk1 := hk0 _ hs2
      have hk : SlotKept bi off wl s s2 := hk1
      have hc3 : s1.cacheBlocks = s2.cacheBlocks := by
        split at h
        · simp only [pure, Except.pure] at h
          cases h
          rfl
        · simp only [pure, Except.pure] at h
          cases h
          rfl
      intro b hb hv hi
      obtain ⟨b2, hb2, hi2⟩ := hk b hb hv hi
      refine ⟨b2, ?_, hi2⟩
      unfold State.block? at hb2 ⊢
      rw [hc3]; exact hb2

theorem recvMemRetry_cacheBlocks (s s1 : State) (h : recvMemRetry s = .ok s1) :
    s1.cacheBlocks = s.cacheBlocks := by
  unfold recvMemRetry at h
  split at h
  · simp only [pure, Except.pure] at h
    cases h
    rfl
  · simp only [Except.bind_ok_iff, assert_ok_iff, exists_and_left, exists_const] at h
    obtain ⟨_, h⟩ := h
    simp only [pure, Except.pure] at h
    cases h
    rfl

theorem recvVertexPull_cacheBlocks (now : Nat) (s : State) :
    (recvVertexPull now s).cacheBlocks = s.cacheBlocks := by
  unfold recvVertexPull
  simp only []
  split
  · rw [State.cacheBlocks_scheduleMemoryEvent]; rfl
  · rfl

theorem recvFunctional_cacheBlocks (c : Config) (s s1 : State) (is_read : Bool)
    (addr size : Nat) (data : List WorkListItem)
    (h : recvFunctional c s is_read addr size data = .ok s1) :
    s1.cacheBlocks = s.cacheBlocks := by
  unfold recvFunctional at h
  split at h
  · simp only [Except.bind_ok_iff, assert_ok_iff, exists_and_left, exists_const] at h
    obtain ⟨_, _, _, _, _, h⟩ := h
    split at h
    · simp only [Except.bind_ok_iff, assert_ok_iff, exists_and_left, exists_const] at h
      obtain ⟨_, _, _, _, h⟩ := h
      simp only [pure, Except.pure] at h
      cases h
      rfl
    · simp only [pure, Except.pure] at h
      cases h
      rfl
  · simp only [Except.bind_ok_iff] at h
    obtain ⟨_, _, h⟩ := h
    simp only [pure, Except.pure] at h
    cases h
    rfl

/-- Every entry point other than a write to slot `off` of line `bi` keeps that slot of a
valid line, provided the workload's `preWBApply` and `prePushApply` leave the item `wl` as
it is. -/
theorem step_slotKept (c : Config) (now : Nat) (s s1 : State) (op : Op) (bi : Int)
    (off : Nat) (wl : WorkListItem)
    (hpure : (c.preWBApply wl).2 = wl ∧ (c.prePushApply wl).2 = wl)
    (h : step c now s op = .ok s1) (hq : ¬ op.writesSlot c bi off) :
    SlotKept bi off wl s s1 := by
  cases op with
  | recvWLRead addr =>
    simp only [step, Except.map] at h
    split at h
    · cases h
    · rename_i r hr
      cases h
      exact recvWLRead_slotKept c now s addr r bi off wl hr
  | recvWLWrite addr w => exact recvWLWrite_slotKept c now s s1 addr w bi off wl h hq
  | handleMemResp pkt =>
    simp only [step, Except.map] at h
    split at h
    · cases h
    · rename_i r hr
      cases h
      exact handleMemResp_slotKept c now s pkt r bi off wl hr
  | processNextResponseEvent =>
    exact SlotKept.of_eq (processNextResponseEvent_cacheBlocks c now s s1 h)
  | processNextPreWBApplyEvent =>
    exact processNextPreWBApplyEvent_slotKept c now s s1 bi off wl hpure.1 h
  | processNextMemoryEvent =>
    exact processNextMemoryEvent_slotKept c now s s1 bi off wl hpure.2 h
  | recvMemRetry => exact SlotKept.of_eq (recvMemRetry_cacheBlocks s s1 h)
  | recvVertexPull =>
    simp only [step, pure, Except.pure] at h
    cases h
    exact SlotKept.of_eq (recvVertexPull_cacheBlocks now s)
  | recvFunctional is_read addr size data =>
    exact SlotKept.of_eq (recvFunctional_cacheBlocks c s s1 is_read addr size data h)
  | portBlocked b =>
    simp only [step, pure, Except.pure] at h
    cases h
    exact SlotKept.of_eq rfl
  | ownerRuns b =>
    simp only [step, pure, Except.pure] at h
    cases h
    exact SlotKept.of_eq rfl

theorem blockIndexOf_lt {c : Config} (hc : c.wf) (addr : Nat) :
    blockIndexOf c addr < (c.numLines : Int) := by
  unfold blockIndexOf
  apply Int.tmod_lt_of_pos
  have := isPowerOf2_pos hc.1
  omega

/-- The hit path of `recvWLRead`, given the item of the slot. -/
theorem hitPath_item (c : Config) (now : Nat) (s : State) (addr : Nat) (blk : Block)
    (item : WorkListItem) (hc : c.wf)
    (hblk : s.block? (blockIndexOf c (roundDown addr c.peerMemoryAtomSize)) = some blk)
    (haddr : blk.addr = roundDown addr c.peerMemoryAtomSize) (hvalid : blk.valid = true)
    (hI1 : blk.pendingData = false)
    (hI2 : ¬ (blk.pendingApply = true ∧ blk.pendingWB = true))
    (hitem : blk.items[wlOffsetOf c addr]? = some item) :
    ∃ s1, recvWLRead c now s addr = .ok (true, s1) ∧
      s1.responseQueue = s.responseQueue ++ [(addr, item, now)] := by
  have hoff := wlOffsetOf_lt hc addr
  have hbi := blockIndexOf_lt hc (roundDown addr c.peerMemoryAtomSize)
  have hI2' : blk.pendingApply = false ∨ blk.pendingWB = false := by
    cases hA : blk.pendingApply <;> cases hB : blk.pendingWB <;> simp_all
  unfold wlOffsetOf at hoff hitem
  have key : recvWLRead c now s addr = .ok (true,
      { (s.setBlock (blockIndexOf c (roundDown addr c.peerMemoryAtomSize))
          { blk with busyMask := blk.busyMask ||| bit (wlOffsetOf c addr),
                     pendingApply := false, pendingWB := false,
                     lastChangedTick := tickAdd now (c.clockPeriod / 2) }) with
        responseQueue := s.responseQueue ++ [(addr, item, now)],
        nextResponseEventScheduled := true }) := by
    unfold wlOffsetOf
    simp [recvWLRead, getBlockIndex, roundDown_mod, assert, State.block, hblk, haddr, hvalid,
      hI1, hI2', hbi, hoff, hitem, bind, Except.bind, pure, Except.pure, State.setBlock]
  exact ⟨_, key, rfl⟩

/-- After a `recvWLWrite` that returns, the written slot holds the written item. -/
theorem recvWLWrite_slot (c : Config) (now : Nat) (s s1 : State) (addr : Nat)
    (wl : WorkListItem) (h : recvWLWrite c now s addr wl = .ok s1) :
    ∃ blk1, s1.block? (blockIndexOf c (roundDown addr c.peerMemoryAtomSize)) = some blk1 ∧
      blk1.items[wlOffsetOf c addr]? = some wl := by
  unfold recvWLWrite at h
  simp only [Except.bind_ok_iff, assert_ok_iff, exists_and_left, exists_const] at h
  obtain ⟨bi1, hbi1, blk, hblk, _, _, _, _, _, _, _, h⟩ := h
  have hb := State.block_ok hblk
  have hbi2 := getBlockIndex_ok hbi1
  subst hbi2
  split at h
  · cases h
  · rename_i old hold
    have hlt : (addr - roundDown addr c.peerMemoryAtomSize) / sizeofWorkListItem <
        blk.items.length := (List.getElem?_eq_some_iff.mp hold).1
    have hset : (blk.items.set
        ((addr - roundDown addr c.peerMemoryAtomSize) / sizeofWorkListItem) wl)[wlOffsetOf c
          addr]? = some wl := by
      unfold wlOffsetOf
      simp [List.getElem?_set, hlt]
    have fin : ∀ (d : Block) (sx : State),
        sx.cacheBlocks = (s.setBlock (blockIndexOf c (roundDown addr c.peerMemoryAtomSize))
          d).cacheBlocks →
        d.items = blk.items.set
          ((addr - roundDown addr c.peerMemoryAtomSize) / sizeofWorkListItem) wl →
        ∃ blk1, sx.block? (blockIndexOf c (roundDown addr c.peerMemoryAtomSize)) = some blk1 ∧
          blk1.items[wlOffsetOf c addr]? = some wl := by
      intro d sx hsx hd
      refine ⟨d, ?_, by rw [hd]; exact hset⟩
      have := State.block?_setBlock (d := d) hb
      unfold State.block? at this ⊢
      rw [hsx]
      exact this
    split at h
    · split at h
      · cases h
        apply fin
        · rfl
        · rfl
      · simp only [Except.bind_ok_iff, assert_ok_iff, exists_and_left, exists_const] at h
        obtain ⟨_, h⟩ := h
        split at h
        · split at h
          · cases h
            apply fin
            · rw [State.cacheBlocks_scheduleMemoryEvent]; rfl
            · rfl
          · split at h
            · cases h
            · cases h
              apply fin
              · rw [State.cacheBlocks_scheduleMemoryEvent]; rfl
              · rfl
        · cases h
          apply fin
          · rfl
          · rfl
    · cases h
      apply fin
      · rfl
      · rfl

/-- A quiet run keeps the slot of the resident line. -/
theorem QuietRun.keeps {c : Config} {bi : Int} {a off : Nat} {wl : WorkListItem}
    (hpure : (c.preWBApply wl).2 = wl ∧ (c.prePushApply wl).2 = wl)
    {s s2 : State} {ops : List (Nat × Op)} (hrun : QuietRun c bi a off s ops s2) :
    s.resident bi a → (∃ blk, s.block? bi = some blk ∧ blk.items[off]? = some wl) →
    s2.resident bi a ∧ ∃ blk2, s2.block? bi = some blk2 ∧ blk2.items[off]? = some wl := by
  induction hrun with
  | nil s => exact fun hres hslot => ⟨hres, hslot⟩
  | cons s s1 s2 now op ops hstep hquiet hres1 _ ih =>
    intro hres hslot
    obtain ⟨blk, hb, _, hv⟩ := hres
    obtain ⟨blk', hb', hi⟩ := hslot
    have hbe : blk' = blk := Option.some.inj (hb'.symm.trans hb)
    subst hbe
    exact ih hres1 (step_slotKept c now s s1 op bi off wl hpure hstep hquiet blk' hb hv hi)

/-- C10 as stated fails.  With the workload `cfgMin`, from construction: address 80 is read
and filled (`opsFill`), `itemX` is written to it, and the apply event runs; this is a run
with no write to the slot and no eviction of the line.  The read of address 80 that follows
hits, and the item it enqueues is `itemXApplied`, not the item `itemX` that was written. -/
theorem round_trip_fails_after_apply :
    ∃ s0 sF s1 s2 s3,
      CoalesceEngine cfgMin = .ok s0 ∧ run cfgMin s0 opsFill = .ok sF ∧
      recvWLWrite cfgMin 5000 sF 80 itemX = .ok s1 ∧ s1.resident 1 64 ∧
      QuietRun cfgMin 1 64 1 s1 [(6000, .processNextPreWBApplyEvent)] s2 ∧
      recvWLRead cfgMin 7000 s2 80 = .ok (true, s3) ∧
      s3.responseQueue = s2.responseQueue ++ [(80, itemXApplied, 7000)] ∧
      itemXApplied ≠ itemX :=
  ⟨_, _, _, _, _, rfl, rfl, rfl, ⟨_, rfl, rfl, rfl⟩,
    QuietRun.cons _ _ _ 6000 .processNextPreWBApplyEvent [] rfl (by decide) ⟨_, rfl, rfl, rfl⟩
      (QuietRun.nil _),
    rfl, rfl, by decide⟩

/-- C10 (write/read round trip), amended.  Let `a` be the line-aligned address of `addr`,
`bi` its block index and `off` its slot.  After `recvWLWrite(addr, wl)` returns with the line
still resident, let any run of entry points follow in which no operation is a write to that
slot and the line stays resident (it is not evicted).  If the workload's `preWBApply` and
`prePushApply` leave the item `wl` as it is, then a `recvWLRead(addr)` in the state reached
(with the line not pending data and not pending both apply and writeback) returns true and
appends exactly `(addr, wl, now)` to the response queue. -/
theorem write_read_round_trip (c : Config) (now0 now2 : Nat) (s0 s1 s2 : State)
    (addr a : Nat) (bi : Int) (off : Nat) (wl : WorkListItem) (ops : List (Nat × Op))
    (hc : c.wf)
    (ha : a = roundDown addr c.peerMemoryAtomSize) (hbi : bi = blockIndexOf c a)
    (ho : off = wlOffsetOf c addr)
    (hpure : (c.preWBApply wl).2 = wl ∧ (c.prePushApply wl).2 = wl)
    (hwrite : recvWLWrite c now0 s0 addr wl = .ok s1)
    (hres : s1.resident bi a)
    (hrun : QuietRun c bi a off s1 ops s2)
    (hI : ∀ blk2, s2.block? bi = some blk2 →
      blk2.pendingData = false ∧ ¬ (blk2.pendingApply = true ∧ blk2.pendingWB = true)) :
    ∃ s3, recvWLRead c now2 s2 addr = .ok (true, s3) ∧
      s3.responseQueue = s2.responseQueue ++ [(addr, wl, now2)] := by
  subst ha hbi ho
  obtain ⟨⟨blk2, hb2, ha2, hv2⟩, blk2', hb2', hi2⟩ :=
    hrun.keeps hpure hres (recvWLWrite_slot c now0 s0 s1 addr wl hwrite)
  have hbe : blk2' = blk2 := Option.some.inj (hb2'.symm.trans hb2)
  subst hbe
  obtain ⟨hI1, hI2⟩ := hI blk2' hb2
  exact hitPath_item c now2 s2 addr blk2' wl hc hb2 ha2 hv2 hI1 hI2 hi2

/-- The run `opsQuiet` from `stW1` to `stW3` is quiet for slot 1 of line 0. -/
theorem quietRun_opsQuiet : QuietRun cfgA 0 0 1 stW1 opsQuiet stW3 :=
  QuietRun.cons stW1 stW2 stW3 4000 (.recvWLRead 32) _ rfl (by decide) ⟨_, rfl, rfl, rfl⟩
    (QuietRun.cons stW2 stW3 stW3 5000 .processNextResponseEvent _ rfl (by decide)
      ⟨_, rfl, rfl, rfl⟩ (QuietRun.nil stW3))

/-- Witness for C10: in `stBusy` the item `itemW` is written to address 16; another slot of
the line is read and its response delivered (`opsQuiet`); the read of address 16 then returns
`itemW`. -/
theorem write_read_round_trip_witness :
    recvWLWrite cfgA 3000 stBusy 16 itemW = .ok stW1 ∧
    QuietRun cfgA 0 0 1 stW1 opsQuiet stW3 ∧
    ∃ s3, recvWLRead cfgA 6000 stW3 16 = .ok (true, s3) ∧
      s3.responseQueue = stW3.responseQueue ++ [(16, itemW, 6000)] :=
  ⟨rfl, quietRun_opsQuiet,
    write_read_round_trip cfgA 3000 6000 stBusy stW1 stW3 16 0 0 1 itemW opsQuiet
      (by decide) (by decide) (by decide) (by decide) (by decide) rfl ⟨_, rfl, rfl, rfl⟩
      quietRun_opsQuiet
      (by
        intro blk2 hb
        cases hb
        exact ⟨rfl, by decide⟩)⟩

/-- The same failure through an in-cache pull.  With the workload `cfgPull`, whose
`preWBApply` changes no item: after `itemX` has been written to address 80, the line is
applied, a vertex pull is served from the cached line (`opsPull`), and `prePushApply`
changes the cached item; the run is quiet and the read that follows returns
`itemXApplied`. -/
theorem round_trip_fails_after_pull :
    ∃ s0 sF s1 s2 s3,
      CoalesceEngine cfgPull = .ok s0 ∧ run cfgPull s0 opsFill = .ok sF ∧
      recvWLWrite cfgPull 5000 sF 80 itemX = .ok s1 ∧ s1.resident 1 64 ∧
      QuietRun cfgPull 1 64 1 s1 opsPull s2 ∧
      (cfgPull.preWBApply itemX).2 = itemX ∧
      recvWLRead cfgPull 9000 s2 80 = .ok (true, s3) ∧
      s3.responseQueue = s2.responseQueue ++ [(80, itemXApplied, 9000)] ∧
      itemXApplied ≠ itemX :=
  ⟨_, _, _, _, _, rfl, rfl, rfl, ⟨_, rfl, rfl, rfl⟩,
    QuietRun.cons _ _ _ 6000 .processNextPreWBApplyEvent _ rfl (by decide) ⟨_, rfl, rfl, rfl⟩
      (QuietRun.cons _ _ _ 7000 .recvVertexPull _ rfl (by decide) ⟨_, rfl, rfl, rfl⟩
        (QuietRun.cons _ _ _ 8000 .processNextMemoryEvent _ rfl (by decide)
          ⟨_, rfl, rfl, rfl⟩ (QuietRun.nil _))),
    rfl, rfl, rfl, by decide⟩

/-- Away from the assertion of line 252, `recvWLRead` rejects exactly on resource
exhaustion: whenever it returns, it returns false if and only if the access is not a hit and
either the block has an MSHR entry with `numTgtsPerMSHR` targets or it has none and the
table holds `numMSHREntries` entries. -/
theorem reject_iff_exhausted (c : Config) (now : Nat) (s : State) (addr : Nat)
    (r : Bool × State) (blk : Block)
    (hblk : s.block? (blockIndexOf c (roundDown addr c.peerMemoryAtomSize)) = some blk)
    (h : recvWLRead c now s addr = .ok r) :
    r.1 = false ↔
      ¬ (blk.addr = roundDown addr c.peerMemoryAtomSize ∧ blk.valid = true) ∧
      ((∃ ts, mshrFind s.MSHR (blockIndexOf c (roundDown addr c.peerMemoryAtomSize)) = some ts ∧
          ts.length = c.numTgtsPerMSHR) ∨
       (mshrFind s.MSHR (blockIndexOf c (roundDown addr c.peerMemoryAtomSize)) = none ∧
          s.MSHR.length = c.numMSHREntries)) := by
  unfold recvWLRead at h
  simp only [Except.bind_ok_iff, assert_ok_iff, exists_and_left, exists_const] at h
  obtain ⟨_, bi1, hbi1, _, _, blk1, hblk1, h⟩ := h
  have hbi2 := getBlockIndex_ok hbi1
  subst hbi2
  have hbe : blk1 = blk := Option.some.inj ((State.block_ok hblk1).symm.trans hblk)
  subst hbe
  split at h
  · rename_i hhit
    simp only [Except.bind_ok_iff, assert_ok_iff, exists_and_left, exists_const] at h
    obtain ⟨_, _, h⟩ := h
    split at h
    · cases h
    · cases h
      simp only [Bool.and_eq_true, beq_iff_eq] at hhit
      simp [hhit]
  · rename_i hnhit
    simp only [Bool.and_eq_true, beq_iff_eq] at hnhit
    split at h
    · simp only [Except.bind_ok_iff, assert_ok_iff, exists_and_left, exists_const] at h
      obtain ⟨_, _, _, _, _, _, _, hsome, _, h⟩ := h
      obtain ⟨ts, hts⟩ := Option.isSome_iff_exists.mp hsome
      split at h
      · rename_i heq
        cases h
        simp only [mshrTargets, hts, Option.getD_some, beq_iff_eq] at heq
        simp [hnhit, hts, heq]
      · rename_i hne
        cases h
        simp only [mshrTargets, hts, Option.getD_some, beq_iff_eq] at hne
        simp [hts, hne]
    · simp only [Except.bind_ok_iff, assert_ok_iff, exists_and_left, exists_const] at h
      obtain ⟨_, _, h⟩ := h
      split at h
      · rename_i hnone
        have hn : mshrFind s.MSHR (blockIndexOf c (roundDown addr c.peerMemoryAtomSize)) =
            none := by simpa using hnone
        split at h
        · rename_i heq
          cases h
          simp only [beq_iff_eq] at heq
          simp [hnhit, hn, heq]
        · rename_i hne
          simp only [beq_iff_eq] at hne
          have hr : r.1 = true := by
            split at h
            · split at h
              · simp only [Except.bind_ok_iff, assert_ok_iff, exists_and_left,
                  exists_const] at h
                obtain ⟨_, _, _, h⟩ := h
                split at h <;> cases h <;> rfl
              · cases h; rfl
            · simp only [Except.bind_ok_iff, assert_ok_iff, exists_and_left,
                exists_const] at h
              obtain ⟨_, _, _, _, _, _, _, _, h⟩ := h
              cases h; rfl
          simp [hr, hn, hne]
      · rename_i hsome
        obtain ⟨ts, hts⟩ : ∃ ts, mshrFind s.MSHR
            (blockIndexOf c (roundDown addr c.peerMemoryAtomSize)) = some ts := by
          cases hf : mshrFind s.MSHR (blockIndexOf c (roundDown addr c.peerMemoryAtomSize)) with
          | none => simp [hf] at hsome
          | some ts => exact ⟨ts, rfl⟩
        simp only [Except.bind_ok_iff, assert_ok_iff, exists_and_left, exists_const] at h
        obtain ⟨_, _, h⟩ := h
        split at h
        · rename_i heq
          cases h
          simp only [mshrTargets, hts, Option.getD_some, beq_iff_eq] at heq
          simp [hnhit, hts, heq]
        · rename_i hne
          cases h
          simp only [mshrTargets, hts, Option.getD_some, beq_iff_eq] at hne
          simp [hts, hne]

/-- Away from the assertion of line 252 (the empty line's address field is not the aligned
address of `addr`), the cold miss is as C2 says: with a free MSHR entry `recvWLRead` returns
true, the line is claimed for `a` in PendingData with every other flag clear and stamped
`now`, the block's MSHR target list becomes `[addr]`, and exactly one fill entry stamped
`now` is appended to the memory-function queue; with a full MSHR table it returns false. -/
theorem coldMiss_away_from_zero (c : Config) (now : Nat) (s : State) (addr a : Nat)
    (bi : Int) (blk : Block) (hc : c.wf) (hs : s.wf c)
    (ha : a = roundDown addr c.peerMemoryAtomSize) (hbi : bi = blockIndexOf c a)
    (hblk : s.block? bi = some blk)
    (hempty : blk.valid = false ∧ blk.pendingData = false) (hne : blk.addr ≠ a)
    (hflags : blk.busyMask = 0 ∧ blk.needsWB = false ∧ blk.needsApply = false ∧
      blk.pendingApply = false ∧ blk.pendingWB = false)
    (hmshr : mshrFind s.MSHR bi = none) (hsize : s.MSHR.length ≤ c.numMSHREntries) :
    (s.MSHR.length < c.numMSHREntries →
      ∃ s1 blk1, recvWLRead c now s addr = .ok (true, s1) ∧
        s1.block? bi = some blk1 ∧
        blk1.addr = a ∧ blk1.pendingData = true ∧ blk1.valid = false ∧
        blk1.needsWB = false ∧ blk1.needsApply = false ∧ blk1.pendingApply = false ∧
        blk1.pendingWB = false ∧ blk1.busyMask = 0 ∧ blk1.lastChangedTick = now ∧
        mshrFind s1.MSHR bi = some [addr] ∧
        s1.memoryFunctionQueue = s.memoryFunctionQueue ++ [⟨.nextRead, bi, now⟩]) ∧
    (s.MSHR.length = c.numMSHREntries → recvWLRead c now s addr = .ok (false, s)) := by
  have hoff := wlOffsetOf_lt hc addr
  obtain ⟨h0, hlt, hget⟩ := State.block?_some hblk
  have hbi2 : bi < (c.numLines : Int) := by
    rw [← hs.1]; omega
  unfold wlOffsetOf at hoff
  obtain ⟨hv, hpd⟩ := hempty
  obtain ⟨hb, hwb, hna, hpa, hpw⟩ := hflags
  rw [ha] at hbi hne
  constructor
  · intro hfree
    have hsz2 : ¬ s.MSHR.length = c.numMSHREntries := by omega
    have key : recvWLRead c now s addr = .ok (true,
        ({ (s.setBlock bi (blk.claim a now)) with
           MSHR := mshrPushBack s.MSHR bi addr }.pushMemoryFunction .nextRead
          bi now).scheduleMemoryEvent) := by
      subst hbi ha
      simp [recvWLRead, getBlockIndex, roundDown_mod, assert, State.block, hblk, hne, hv, hpd,
        hb, hwb, hna, hpa, hpw, hbi2, hoff, hmshr, mshrTargets, hsize, hsz2,
        bind, Except.bind, pure, Except.pure, State.scheduleMemoryEvent,
        State.pushMemoryFunction, State.setBlock]
    refine ⟨_, blk.claim a now, key, ?_, rfl, rfl, rfl, rfl, rfl, rfl, rfl, rfl, rfl, ?_, ?_⟩
    · rw [State.block?_scheduleMemoryEvent, State.block?_pushMemoryFunction]
      exact State.block?_setBlock hblk
    · rw [State.MSHR_scheduleMemoryEvent]
      show mshrFind (mshrPushBack s.MSHR bi addr) bi = some [addr]
      rw [mshrFind_pushBack_self]
      simp [mshrTargets, hmshr]
    · rw [State.memoryFunctionQueue_scheduleMemoryEvent]
      rfl
  · intro hfull
    subst hbi ha
    simp [recvWLRead, getBlockIndex, roundDown_mod, assert, State.block, hblk, hne, hv, hpd,
      hbi2, hoff, hmshr, hsize, hfull, bind, Except.bind, pure, Except.pure]

theorem processNextWriteBack_effect (c : Config) (now : Nat) (s s1 : State) (i : Int)
    (t : Nat) (h : processNextWriteBack c now s i t = .ok s1) : Effect c s s1 := by
  unfold processNextWriteBack at h
  simp only [Except.bind_ok_iff, assert_ok_iff, exists_and_left, exists_const] at h
  obtain ⟨blk, hblk, h⟩ := h
  have hb := State.block_ok hblk
  split at h
  · simp only [Except.bind_ok_iff, assert_ok_iff, exists_and_left, exists_const] at h
    obtain ⟨h1, h2, h3, h4, h5, h6, h7, _, h9, h⟩ := h
    split at h
    · cases h
    · rename_i miss_addr hhead
      simp only [pure, Except.pure] at h
      cases h
      cases hf : mshrFind s.MSHR i with
      | none => simp [hf] at h9
      | some ts =>
        have hts : mshrTargets (s.sendPacket (.write blk.addr c.peerMemoryAtomSize
            blk.items)).MSHR i = ts := mshrTargets_of_find hf
        rw [hts] at hhead
        obtain ⟨rest, hrest⟩ : ∃ rest, ts = miss_addr :: rest := by
          cases ts with
          | nil => simp at hhead
          | cons u us => exact ⟨us, by simp at hhead; rw [hhead]⟩
        apply Effect.of_line hb
        · rfl
        · intro j _; rfl
        · show LineStep c (blk, mshrFind s.MSHR i) (_, mshrFind s.MSHR i)
          rw [hf, hrest]
          exact LineStep.wbClaim blk miss_addr rest now h1 (by simpa using h2) h3
            (by simpa using h4) (by simpa using h5) (by simpa using h6) h7
  · simp only [pure, Except.pure] at h
    cases h
    exact Effect.of_same rfl rfl

theorem processNextPostPushWB_effect (c : Config) (now : Nat) (s s1 : State) (i : Int)
    (t : Nat) (h : processNextPostPushWB c now s i t = .ok s1) : Effect c s s1 := by
  unfold processNextPostPushWB at h
  split at h
  · cases h
  · split at h
    · simp only [pure, Except.pure] at h
      cases h
      exact Effect.of_same rfl rfl
    · simp only [pure, Except.pure] at h
      cases h
      exact Effect.of_same rfl rfl

theorem callMemoryFunction_effect (c : Config) (now : Nat) (s s1 : State)
    (e : MemoryFunctionEntry) (h : callMemoryFunction c now s e = .ok s1) :
    Effect c s s1 := by
  unfold callMemoryFunction at h
  split at h
  · exact processNextRead_effect _ _ _ _ _ _ h
  · exact processNextWriteBack_effect _ _ _ _ _ _ h
  · exact processNextPostPushWB_effect _ _ _ _ _ _ h
  · exact processNextVertexPull_effect _ _ _ _ _ _ h

theorem processNextMemoryEvent_effect (c : Config) (now : Nat) (s s1 : State)
    (h : processNextMemoryEvent c now s = .ok s1) : Effect c s s1 := by
  unfold processNextMemoryEvent at h
  simp only [] at h
  split at h
  · simp only [pure, Except.pure] at h
    cases h
    exact Effect.of_same rfl rfl
  · split at h
    · cases h
    · rename_i e _ _
      simp only [Except.bind_ok_iff, assert_ok_iff, exists_and_left, exists_const] at h
      obtain ⟨s2, hs2, _, _, h⟩ := h
      have hk := callMemoryFunction_effect _ _ _ _ _ hs2
      have hk1 : Effect c s s2 := hk
      split at h
      · simp only [pure, Except.pure] at h
        cases h
        exact hk1
      · simp only [pure, Except.pure] at h
        cases h
        exact hk1

theorem recvFunctional_effect (c : Config) (s s1 : State) (is_read : Bool)
    (addr size : Nat) (data : List WorkListItem)
    (h : recvFunctional c s is_read addr size data = .ok s1) : Effect c s s1 := by
  have h1 := recvFunctional_cacheBlocks _ _ _ _ _ _ _ h
  have h2 : s1.MSHR = s.MSHR := by
    unfold recvFunctional at h
    split at h
    · simp only [Except.bind_ok_iff, assert_ok_iff, exists_and_left, exists_const] at h
      obtain ⟨_, bi, _, blk, _, h⟩ := h
      split at h
      · simp only [Except.bind_ok_iff, assert_ok_iff, exists_and_left, exists_const] at h
        obtain ⟨_, _, _, _, h⟩ := h
        simp only [pure, Except.pure] at h
        cases h
        rfl
      · simp only [pure, Except.pure] at h
        cases h
        rfl
    · simp only [Except.bind_ok_iff] at h
      obtain ⟨_, _, h⟩ := h
      simp only [pure, Except.pure] at h
      cases h
      rfl
  exact Effect.of_same h1 h2

/-- Every entry point makes one transition on every line. -/
theorem step_effect (c : Config) (now : Nat) (s s1 : State) (op : Op)
    (h : step c now s op = .ok s1) : Effect c s s1 := by
  cases op with
  | recvWLRead addr =>
    simp only [step] at h
    cases hr : recvWLRead c now s addr with
    | error e => rw [hr] at h; cases h
    | ok r =>
      rw [hr] at h
      cases h
      exact recvWLRead_effect _ _ _ _ _ hr
  | recvWLWrite addr wl => exact recvWLWrite_effect _ _ _ _ _ _ h
  | handleMemResp pkt =>
    simp only [step] at h
    cases hr : handleMemResp c now s pkt with
    | error e => rw [hr] at h; cases h
    | ok r =>
      rw [hr] at h
      cases h
      exact handleMemResp_effect _ _ _ _ _ hr
  | processNextResponseEvent =>
    simp only [step] at h
    have h1 := processNextResponseEvent_cacheBlocks _ _ _ _ h
    have h2 : s1.MSHR = s.MSHR := by
      unfold processNextResponseEvent at h
      simp only [] at h
      split at h
      · cases h
      · simp only [pure, Except.pure] at h
        cases h
        rw [State.MSHR_scheduleResponseEvent]
    exact Effect.of_same h1 h2
  | processNextPreWBApplyEvent => exact processNextPreWBApplyEvent_effect _ _ _ _ h
  | processNextMemoryEvent => exact processNextMemoryEvent_effect _ _ _ _ h
  | recvMemRetry =>
    simp only [step] at h
    have h1 := recvMemRetry_cacheBlocks _ _ h
    have h2 : s1.MSHR = s.MSHR := by
      unfold recvMemRetry at h
      split at h
      · simp only [pure, Except.pure] at h
        cases h
        rfl
      · simp only [Except.bind_ok_iff, assert_ok_iff, exists_and_left, exists_const] at h
        obtain ⟨_, h⟩ := h
        simp only [pure, Except.pure] at h
        cases h
        rfl
    exact Effect.of_same h1 h2
  | recvVertexPull =>
    simp only [step, pure, Except.pure] at h
    cases h
    apply Effect.of_same (recvVertexPull_cacheBlocks _ _)
    unfold recvVertexPull
    simp only []
    split
    · rw [State.MSHR_scheduleMemoryEvent]
      rfl
    · rfl
  | recvFunctional is_read addr size data => exact recvFunctional_effect _ _ _ _ _ _ _ h
  | portBlocked b =>
    simp only [step, pure, Except.pure] at h
    cases h
    exact Effect.of_same rfl rfl
  | ownerRuns b =>
    simp only [step, pure, Except.pure] at h
    cases h
    exact Effect.of_same rfl rfl

/-! ### The invariants of the lines along every run -/

theorem Effect.line_of {c : Config} {s s1 : State} (h : Effect c s s1) {bi : Int}
    {b1 : Block} (hb1 : s1.block? bi = some b1) :
    ∃ b, s.block? bi = some b ∧
      LineStep c (b, mshrFind s.MSHR bi) (b1, mshrFind s1.MSHR bi) := by
  obtain ⟨hlen, hl⟩ := h
  obtain ⟨h0, hlt, _⟩ := State.block?_some hb1
  rw [hlen] at hlt
  have hex : ∃ b, s.block? bi = some b := by
    unfold State.block?
    have : ¬ bi < 0 := by omega
    simp only [this, if_false]
    exact ⟨_, List.getElem?_eq_getElem hlt⟩
  obtain ⟨b, hb⟩ := hex
  obtain ⟨l1, hl1, hstep⟩ := hl bi _ (State.line?_of_block hb)
  rw [State.line?_of_block hb1] at hl1
  cases hl1
  exact ⟨b, hb, hstep⟩

theorem Effect.stateInv {c : Config} {s s1 : State} (h : Effect c s s1) (hi : s.inv c) :
    s1.inv c := by
  intro bi l1 hl1
  obtain ⟨hb1, hm1⟩ := State.line?_eq_some hl1
  obtain ⟨b, hb, hstep⟩ := h.line_of hb1
  have hl : LineInv c (b, mshrFind s.MSHR bi) := hi bi _ (State.line?_of_block hb)
  have := hstep.keepsInv hl
  have e : l1 = (l1.1, mshrFind s1.MSHR bi) := by rw [← hm1]
  rw [e]
  exact this

/-- The freshly constructed cache has the line invariants. -/
theorem CoalesceEngine_inv {c : Config} {s0 : State} (h : CoalesceEngine c = .ok s0) :
    s0.inv c := by
  unfold CoalesceEngine at h
  simp only [Except.bind_ok_iff, assert_ok_iff, exists_and_left, exists_const] at h
  obtain ⟨_, h⟩ := h
  simp only [pure, Except.pure] at h
  cases h
  intro bi l hl
  obtain ⟨hb, hm⟩ := State.line?_eq_some hl
  have hmem := State.block?_mem hb
  have hinit : l.1 = Block.init c.numElementsPerLine := List.eq_of_mem_replicate hmem
  have hm2 : l.2 = none := hm
  constructor <;> simp [hinit, hm2, Block.init]

/-- Every run keeps the line invariants. -/
theorem run_inv (c : Config) :
    ∀ (ops : List (Nat × Op)) (s s1 : State), s.inv c → run c s ops = .ok s1 → s1.inv c := by
  intro ops
  induction ops with
  | nil =>
    intro s s1 hi h
    simp only [run, pure, Except.pure] at h
    cases h
    exact hi
  | cons op ops ih =>
    intro s s1 hi h
    obtain ⟨now, o⟩ := op
    simp only [run, Except.bind_ok_iff] at h
    obtain ⟨s2, h2, h3⟩ := h
    exact ih s2 s1 ((step_effect c now s s2 o h2).stateInv hi) h3

/-- The line invariants hold in every state reached from construction. -/
theorem reachable_inv {c : Config} {ops : List (Nat × Op)} {s0 s : State}
    (h0 : CoalesceEngine c = .ok s0) (hrun : run c s0 ops = .ok s) : s.inv c :=
  run_inv c ops s0 s (CoalesceEngine_inv h0) hrun

theorem State.block?_of_mem {s : State} {b : Block} (h : b ∈ s.cacheBlocks) :
    ∃ bi, s.block? bi = some b := by
  obtain ⟨n, hn, hget⟩ := List.getElem_of_mem h
  refine ⟨(n : Int), ?_⟩
  unfold State.block?
  have : ¬ ((n : Int) < 0) := by omega
  simp only [this, if_false, Int.toNat_ofNat]
  rw [List.getElem?_eq_getElem hn, hget]

theorem State.inv_of_mem {c : Config} {s : State} (hi : s.inv c) {b : Block}
    (h : b ∈ s.cacheBlocks) : ∃ bi, s.block? bi = some b ∧ LineInv c (b, mshrFind s.MSHR bi) := by
  obtain ⟨bi, hb⟩ := State.block?_of_mem h
  exact ⟨bi, hb, hi bi _ (State.line?_of_block hb)⟩

/-- A transition that gives a valid line another address starts from a line that needs no
apply. -/
theorem LineStep.retarget {c : Config} {l l1 : Line} (h : LineStep c l l1)
    (hv : l.1.valid = true) (ha : l1.1.addr ≠ l.1.addr) : l.1.needsApply = false := by
  cases h with
  | claimNew blk addr now hq => exact hq.2.2.1
  | writeEvict blk t ts items wb ap mask now hpre hm hna hwb =>
    simp only [Bool.or_eq_false_iff] at hna
    exact hna.1
  | wbClaim blk t ts now hv1 hb hwb hna hpd hpa hpw => exact hna
  | _ => exact absurd rfl ha

/-- When `recvWLWrite` gives the line another address (the fast-path eviction of lines
730-758), the line as merged needs no apply: it did not need one before, and the item
written does not ask for one. -/
theorem recvWLWrite_retarget (c : Config) (now : Nat) (s s1 : State) (addr : Nat)
    (w : WorkListItem) (bi : Int) (blk blk1 : Block)
    (h : recvWLWrite c now s addr w = .ok s1) (hb0 : s.block? bi = some blk)
    (hb1 : s1.block? bi = some blk1) (ha : blk1.addr ≠ blk.addr) :
    blk.needsApply = false ∧ c.applyCondition w = false := by
  unfold recvWLWrite at h
  simp only [Except.bind_ok_iff, assert_ok_iff, exists_and_left, exists_const] at h
  obtain ⟨bi1, hbi1, blk0, hblk, _, hv, hbusy, hpd, hpa, hpw, _, h⟩ := h
  have hb := State.block_ok hblk
  obtain ⟨h0, _, _⟩ := State.block?_some hb
  -- a leaf that stores a line of the same address
  have keep : ∀ (sx : State) (d : Block), sx.block? bi = some blk1 →
      sx.cacheBlocks = (s.setBlock bi1 d).cacheBlocks →
      d.addr = blk0.addr → blk.needsApply = false ∧ c.applyCondition w = false := by
    intro sx d hbx hcb hd
    exfalso
    have hblk1 : sx.block? bi = (s.setBlock bi1 d).block? bi := by
      unfold State.block?
      rw [hcb]
    by_cases hbb : bi = bi1
    · subst hbb
      rw [hblk1, State.block?_setBlock hb] at hbx
      have e0 : blk0 = blk := Option.some.inj (hb.symm.trans hb0)
      cases hbx
      exact ha (by rw [hd, e0])
    · rw [hblk1, State.block?_setBlock_ne h0 hbb, hb0] at hbx
      cases hbx
      exact ha rfl
  split at h
  · cases h
  · rename_i old _
    split at h
    · split at h
      · cases h
        exact keep _ _ hb1 rfl rfl
      · rename_i hna
        simp only [Except.bind_ok_iff, assert_ok_iff, exists_and_left, exists_const] at h
        obtain ⟨_, h⟩ := h
        split at h
        · split at h
          · cases h
            exact keep _ _ hb1 (State.cacheBlocks_scheduleMemoryEvent _) rfl
          · split at h
            · cases h
            · cases h
              by_cases hbb : bi = bi1
              · subst hbb
                have e0 : blk0 = blk := Option.some.inj (hb.symm.trans hb0)
                subst e0
                simp only [Bool.not_eq_true, Bool.or_eq_false_iff] at hna
                exact hna
              · exfalso
                have e1 : ∀ sx : State, sx.scheduleMemoryEvent.block? bi = sx.block? bi := by
                  intro sx
                  unfold State.block?
                  rw [State.cacheBlocks_scheduleMemoryEvent]
                rw [e1] at hb1
                change (s.setBlock bi1 _).block? bi = some blk1 at hb1
                rw [State.block?_setBlock_ne h0 hbb, hb0] at hb1
                cases hb1
                exact ha rfl
        · cases h
          exact keep _ _ hb1 rfl rfl
    · cases h
      exact keep _ _ hb1 rfl rfl

/-- C17 (invariant I1).  In every state reached from the constructed cache by any sequence
of entry points, no line has both `valid` and `pendingData` set.  Across every further entry
point a line whose `valid` goes from clear to set has `pendingData` clear afterwards, and a
line whose `pendingData` goes from clear to set has `valid` clear afterwards. -/
theorem valid_pendingData_exclusive (c : Config) (ops : List (Nat × Op)) (s0 s : State)
    (h0 : CoalesceEngine c = .ok s0) (hrun : run c s0 ops = .ok s) :
    (∀ blk ∈ s.cacheBlocks, ¬ (blk.valid = true ∧ blk.pendingData = true)) ∧
    ∀ (now : Nat) (op : Op) (s1 : State), step c now s op = .ok s1 →
      ∀ (bi : Int) (blk blk1 : Block), s.block? bi = some blk → s1.block? bi = some blk1 →
        (blk.valid = false → blk1.valid = true → blk1.pendingData = false) ∧
        (blk.pendingData = false → blk1.pendingData = true → blk1.valid = false) := by
  have hi := reachable_inv h0 hrun
  refine ⟨?_, ?_⟩
  · intro blk hmem ⟨hv, hp⟩
    obtain ⟨bi, _, hl⟩ := State.inv_of_mem hi hmem
    have := hl.i1 hv
    simp only [] at this
    rw [hp] at this
    cases this
  · intro now op s1 hstep bi blk blk1 _ hb1
    have hi1 := (step_effect c now s s1 op hstep).stateInv hi
    have hl := hi1 bi _ (State.line?_of_block hb1)
    refine ⟨fun _ hv => hl.i1 hv, fun _ hp => ?_⟩
    rcases Bool.eq_false_or_eq_true blk1.valid with hv | hv
    · have := hl.i1 hv
      simp only [] at this
      rw [hp] at this
      cases this
    · exact hv

theorem valid_pendingData_exclusive_witness :
    ∃ s0 s, CoalesceEngine cfgMin = .ok s0 ∧ run cfgMin s0 opsFill = .ok s ∧
      ∀ blk ∈ s.cacheBlocks, ¬ (blk.valid = true ∧ blk.pendingData = true) :=
  ⟨_, _, rfl, rfl, (valid_pendingData_exclusive cfgMin opsFill _ _ rfl rfl).1⟩

/-- C18 (invariant I2).  In every state reached from the constructed cache by any sequence
of entry points, no line has both `pendingApply` and `pendingWB` set. -/
theorem pendingApply_pendingWB_exclusive (c : Config) (ops : List (Nat × Op))
    (s0 s : State) (h0 : CoalesceEngine c = .ok s0) (hrun : run c s0 ops = .ok s) :
    ∀ blk ∈ s.cacheBlocks, ¬ (blk.pendingApply = true ∧ blk.pendingWB = true) := by
  have hi := reachable_inv h0 hrun
  intro blk hmem ⟨hpa, hpw⟩
  obtain ⟨bi, _, hl⟩ := State.inv_of_mem hi hmem
  have := (hl.pa hpa).2.2
  simp only [] at this
  rw [hpw] at this
  cases this

theorem pendingApply_pendingWB_exclusive_witness :
    ∃ s0 s, CoalesceEngine cfgMin = .ok s0 ∧ run cfgMin s0 opsConflict = .ok s ∧
      ∀ blk ∈ s.cacheBlocks, ¬ (blk.pendingApply = true ∧ blk.pendingWB = true) :=
  ⟨_, _, rfl, rfl, pendingApply_pendingWB_exclusive cfgMin opsConflict _ _ rfl rfl⟩

/-- C19 (invariant I5).  In every state reached from the constructed cache by any sequence
of entry points, a line whose MSHR target list holds a target of another aligned address is
`pendingData`, `pendingWB`, `pendingApply` or has a busy slot; so it is not in the idle
state (valid, no busy slot, nothing pending). -/
theorem conflict_line_not_idle (c : Config) (ops : List (Nat × Op)) (s0 s : State)
    (h0 : CoalesceEngine c = .ok s0) (hrun : run c s0 ops = .ok s) :
    ∀ (bi : Int) (blk : Block) (ts : List Nat), s.block? bi = some blk →
      mshrFind s.MSHR bi = some ts →
      (∃ t ∈ ts, roundDown t c.peerMemoryAtomSize ≠ blk.addr) →
      (blk.pendingData = true ∨ blk.pendingWB = true ∨ blk.pendingApply = true ∨
        blk.busyMask ≠ 0) ∧ ¬ blk.idle := by
  have hi := reachable_inv h0 hrun
  intro bi blk ts hb hts _
  have hl := hi bi _ (State.line?_of_block hb)
  have h5 := (hl.i5 ts hts).2
  simp only [] at h5
  refine ⟨h5, ?_⟩
  intro ⟨hv, hz, hpa, hpw⟩
  rcases h5 with h | h | h | h
  · have := hl.i1 hv
    simp only [] at this
    rw [h] at this
    cases this
  · rw [h] at hpw; cases hpw
  · rw [h] at hpa; cases hpa
  · exact h hz

theorem conflict_line_not_idle_witness :
    ∃ s0 s blk, CoalesceEngine cfgMin = .ok s0 ∧ run cfgMin s0 opsConflict = .ok s ∧
      s.block? 1 = some blk ∧ mshrFind s.MSHR 1 = some [208] ∧
      (∃ t ∈ [208], roundDown t cfgMin.peerMemoryAtomSize ≠ blk.addr) ∧
      ((blk.pendingData = true ∨ blk.pendingWB = true ∨ blk.pendingApply = true ∨
        blk.busyMask ≠ 0) ∧ ¬ blk.idle) :=
  ⟨_, _, _, rfl, rfl, rfl, rfl, ⟨208, by simp, by decide⟩,
    conflict_line_not_idle cfgMin opsConflict _ _ rfl rfl 1 _ [208] rfl rfl
      ⟨208, by simp, by decide⟩⟩

/-- When `processNextWriteBack` sends a packet, it is the write of the line as it stands,
and the line needs no apply. -/
theorem processNextWriteBack_sent (c : Config) (now : Nat) (s s1 : State) (i : Int)
    (t : Nat) (h : processNextWriteBack c now s i t = .ok s1)
    (hsent : s1.memPortSent ≠ s.memPortSent) :
    ∃ blk, s.block? i = some blk ∧ blk.needsApply = false ∧
      s1.memPortSent = s.memPortSent ++ [.write blk.addr c.peerMemoryAtomSize blk.items] := by
  unfold processNextWriteBack at h
  simp only [Except.bind_ok_iff, assert_ok_iff, exists_and_left, exists_const] at h
  obtain ⟨blk, hblk, h⟩ := h
  have hb := State.block_ok hblk
  split at h
  · simp only [Except.bind_ok_iff, assert_ok_iff, exists_and_left, exists_const] at h
    obtain ⟨_, _, _, h4, _, _, _, _, _, h⟩ := h
    split at h
    · cases h
    · simp only [pure, Except.pure] at h
      cases h
      exact ⟨blk, hb, by simpa using h4, rfl⟩
  · simp only [pure, Except.pure] at h
    cases h
    exact absurd rfl hsent

/-- C20 (apply precedes writeback).  In every state `s` reached from the constructed cache
by any sequence of entry points: every valid line without busy slot that needs an apply is
pending apply; an entry point that gives a valid line another address finds it with
`needsApply` clear; when that entry point is `recvWLWrite` (the fast-path eviction), the
item written does not ask for an apply either, so the line as merged needs none; and a
packet sent by `processNextWriteBack` is the write of a line whose `needsApply` is clear. -/
theorem apply_precedes_writeback (c : Config) (ops : List (Nat × Op)) (s0 s : State)
    (h0 : CoalesceEngine c = .ok s0) (hrun : run c s0 ops = .ok s) :
    (∀ blk ∈ s.cacheBlocks, blk.valid = true → blk.busyMask = 0 → blk.needsApply = true →
      blk.pendingApply = true) ∧
    (∀ (now : Nat) (op : Op) (s1 : State), step c now s op = .ok s1 →
      ∀ (bi : Int) (blk blk1 : Block), s.block? bi = some blk → s1.block? bi = some blk1 →
        blk.valid = true → blk1.addr ≠ blk.addr → blk.needsApply = false) ∧
    (∀ (now addr : Nat) (wl : WorkListItem) (s1 : State),
      recvWLWrite c now s addr wl = .ok s1 →
      ∀ (bi : Int) (blk blk1 : Block), s.block? bi = some blk → s1.block? bi = some blk1 →
        blk1.addr ≠ blk.addr → (blk.needsApply || c.applyCondition wl) = false) ∧
    (∀ (now : Nat) (bi : Int) (t : Nat) (s1 : State),
      processNextWriteBack c now s bi t = .ok s1 → s1.memPortSent ≠ s.memPortSent →
      ∃ blk, s.block? bi = some blk ∧ blk.needsApply = false ∧
        s1.memPortSent =
          s.memPortSent ++ [.write blk.addr c.peerMemoryAtomSize blk.items]) := by
  have hi := reachable_inv h0 hrun
  refine ⟨?_, ?_, ?_, ?_⟩
  · intro blk hmem hv hz hna
    obtain ⟨bi, _, hl⟩ := State.inv_of_mem hi hmem
    exact hl.ap hv hz hna
  · intro now op s1 hstep bi blk blk1 hb hb1 hv ha
    obtain ⟨b, hb', hls⟩ := (step_effect c now s s1 op hstep).line_of hb1
    have e : b = blk := Option.some.inj (hb'.symm.trans hb)
    subst e
    exact hls.retarget hv ha
  · intro now addr wl s1 hw bi blk blk1 hb hb1 ha
    obtain ⟨e1, e2⟩ := recvWLWrite_retarget c now s s1 addr wl bi blk blk1 hw hb hb1 ha
    rw [e1, e2]
    rfl
  · intro now bi t s1 hwb hsent
    exact processNextWriteBack_sent c now s s1 bi t hwb hsent

theorem apply_precedes_writeback_witness :
    ∃ s0 s, CoalesceEngine cfgMin = .ok s0 ∧ run cfgMin s0 opsConflict = .ok s ∧
      ∀ blk ∈ s.cacheBlocks, blk.valid = true → blk.busyMask = 0 → blk.needsApply = true →
        blk.pendingApply = true :=
  ⟨_, _, rfl, rfl, (apply_precedes_writeback cfgMin opsConflict _ _ rfl rfl).1⟩

/-! ### Stale schedules -/

theorem State.block_of_some {s : State} {i : Int} {b : Block} (l : Nat)
    (h : s.block? i = some b) : s.block i l = .ok b := by
  unfold State.block
  rw [h]

/-- A writeback entry whose tick is not the line's `lastChangedTick` does nothing. -/
theorem processNextWriteBack_stale (c : Config) (now : Nat) (s : State) (bi : Int)
    (t : Nat) (blk : Block) (hb : s.block? bi = some blk) (hne : t ≠ blk.lastChangedTick) :
    processNextWriteBack c now s bi t = .ok s := by
  unfold processNextWriteBack
  rw [State.block_of_some 982 hb]
  have : (t == blk.lastChangedTick) = false := by simpa using hne
  simp only [bind, Except.bind, this]
  rfl

/-- A fill entry whose tick is not the line's `lastChangedTick` does nothing. -/
theorem processNextRead_stale (c : Config) (now : Nat) (s : State) (bi : Int)
    (t : Nat) (blk : Block) (hb : s.block? bi = some blk) (hne : t ≠ blk.lastChangedTick) :
    processNextRead c now s bi t = .ok s := by
  unfold processNextRead
  rw [State.block_of_some 887 hb]
  have : (blk.lastChangedTick != t) = true := by simpa using (Ne.symm hne)
  simp only [bind, Except.bind, this]
  rfl

/-- C12 (stale-schedule rule).  For every state `s`, line `bi` of the cache and tick `t`
other than the line's `lastChangedTick`, `processNextWriteBack(bi, t)` and
`processNextRead(bi, t)` return the state `s` itself: no packet is sent and no line
descriptor, MSHR entry or queue is changed.  Hence executing any list of such stale entries
(each at its own tick `now`) returns `s`. -/
theorem stale_schedule_discarded (c : Config) (s : State) :
    (∀ (now : Nat) (bi : Int) (t : Nat) (blk : Block), s.block? bi = some blk →
      t ≠ blk.lastChangedTick →
      processNextWriteBack c now s bi t = .ok s ∧ processNextRead c now s bi t = .ok s) ∧
    ∀ es : List (Nat × MemoryFunctionEntry),
      (∀ e ∈ es, (e.2.fn = .nextRead ∨ e.2.fn = .nextWriteBack) ∧
        ∃ blk, s.block? e.2.input = some blk ∧ e.2.tick ≠ blk.lastChangedTick) →
      es.foldlM (fun st e => callMemoryFunction c e.1 st e.2) s = .ok s := by
  refine ⟨fun now bi t blk hb hne =>
    ⟨processNextWriteBack_stale c now s bi t blk hb hne,
     processNextRead_stale c now s bi t blk hb hne⟩, ?_⟩
  intro es
  induction es with
  | nil => intro _; rfl
  | cons e es ih =>
    intro h
    obtain ⟨hfn, blk, hb, hne⟩ := h e (List.mem_cons_self _ _)
    have hcall : callMemoryFunction c e.1 s e.2 = .ok s := by
      unfold callMemoryFunction
      rcases hfn with hfn | hfn
      · rw [hfn]
        exact processNextRead_stale c e.1 s _ _ blk hb hne
      · rw [hfn]
        exact processNextWriteBack_stale c e.1 s _ _ blk hb hne
    rw [List.foldlM_cons, hcall]
    exact ih (fun e1 he1 => h e1 (List.mem_cons_of_mem _ he1))

theorem stale_schedule_discarded_witness :
    processNextWriteBack cfgA 1000 stDirty 0 5 = .ok stDirty ∧
    processNextRead cfgA 1000 stDirty 0 5 = .ok stDirty :=
  (stale_schedule_discarded cfgA stDirty).1 1000 0 5 blkDirty rfl (by decide)

/-- The loop of `processNextRead` over the post-push writebacks does nothing when no queued
packet has the address of the line. -/
theorem postPushWBLoop_none (c : Config) (now : Nat) (bi : Int) (s : State) (blk : Block)
    (hb : s.block? bi = some blk) :
    ∀ (q : List (MemPacket × Nat)) (need : Bool),
      (∀ e ∈ q, e.1.addr ≠ blk.addr) →
      postPushWBLoop c now bi q s need = .ok (s, need) := by
  intro q
  induction q with
  | nil => intro need _; rfl
  | cons e q ih =>
    intro need h
    unfold postPushWBLoop
    rw [State.block_of_some 903 hb]
    have hne : (blk.addr == e.1.addr) = false := by
      have := h e (List.mem_cons_self _ _)
      simpa using Ne.symm this
    simp only [bind, Except.bind, hne]
    exact ih _ (fun e1 he1 => h e1 (List.mem_cons_of_mem _ he1))

/-- `processNextRead` on a line that waits for data, with a current tick, no queued
post-push writeback and no pull read of the line's address: one read request is sent. -/
theorem processNextRead_sends (c : Config) (now : Nat) (s : State) (bi : Int) (blk : Block)
    (hb : s.block? bi = some blk) (hpre : blk.awaitsData)
    (hq : ∀ e ∈ s.postPushWBQueue, e.1.addr ≠ blk.addr)
    (hp : pullFind s.pendingVertexPullReads blk.addr = none) :
    processNextRead c now s bi blk.lastChangedTick =
      .ok { (s.sendPacket (.read blk.addr c.peerMemoryAtomSize false)) with
            onTheFlyReqs := s.onTheFlyReqs + 1 } := by
  obtain ⟨h1, h2, h3, h4, h5, h6, h7⟩ := hpre
  unfold processNextRead
  rw [State.block_of_some 887 hb]
  simp only [bind, Except.bind, bne_self_eq_false, Bool.false_eq_true, if_false, assert, h1,
    h2, h3, h4, h5, h6, h7, Bool.not_false, beq_self_eq_true, if_true,
    postPushWBLoop_none c now bi s blk hb _ _ hq, State.block_of_some 955 hb, hp,
    Option.isNone_none, Bool.and_self]
  rfl

/-- The line after a read that hits it. -/
theorem hitPath_line (c : Config) (now : Nat) (s : State) (addr : Nat)
    (r : Bool × State) (blk : Block) (h : recvWLRead c now s addr = .ok r)
    (hb : s.block? (blockIndexOf c (roundDown addr c.peerMemoryAtomSize)) = some blk)
    (ha : blk.addr = roundDown addr c.peerMemoryAtomSize) (hv : blk.valid = true) :
    r.2.block? (blockIndexOf c (roundDown addr c.peerMemoryAtomSize)) =
      some { blk with busyMask := blk.busyMask ||| bit (wlOffsetOf c addr),
                      pendingApply := false, pendingWB := false,
                      lastChangedTick := tickAdd now (c.clockPeriod / 2) } := by
  unfold recvWLRead at h
  simp only [Except.bind_ok_iff, assert_ok_iff, exists_and_left, exists_const] at h
  obtain ⟨_, bi1, hbi1, _, _, blk0, hblk, h⟩ := h
  have hbi := getBlockIndex_ok hbi1
  subst hbi
  have hb0 := State.block_ok hblk
  have e : blk0 = blk := Option.some.inj (hb0.symm.trans hb)
  subst e
  split at h
  · simp only [Except.bind_ok_iff, assert_ok_iff, exists_and_left, exists_const] at h
    obtain ⟨_, _, h⟩ := h
    split at h
    · cases h
    · cases h
      exact State.block?_setBlock hb
  · rename_i hn
    exfalso
    apply hn
    simp [ha, hv]

/-- On a clock of at least two ticks, a writeback scheduled at tick `t` is discarded when a
read has hit the line at a tick `now ≥ t`, the tick `t` itself included: the hit leaves
`lastChangedTick = now + clockPeriod / 2`, which is not `t`, and `processNextWriteBack`
returns the state as it is. -/
theorem hit_cancels_writeback (c : Config) (now now2 : Nat) (s : State) (addr : Nat)
    (r : Bool × State) (t : Nat) (blk : Block)
    (h : recvWLRead c now s addr = .ok r)
    (hb : s.block? (blockIndexOf c (roundDown addr c.peerMemoryAtomSize)) = some blk)
    (ha : blk.addr = roundDown addr c.peerMemoryAtomSize) (hv : blk.valid = true)
    (ht : t ≤ now) (hp : 2 ≤ c.clockPeriod) (hnow : now + c.clockPeriod / 2 < 2 ^ 64) :
    processNextWriteBack c now2 r.2 (blockIndexOf c (roundDown addr c.peerMemoryAtomSize)) t =
      .ok r.2 := by
  have hl := hitPath_line c now s addr r blk h hb ha hv
  apply processNextWriteBack_stale c now2 r.2 _ t _ hl
  show t ≠ tickAdd now (c.clockPeriod / 2)
  unfold tickAdd
  rw [Nat.mod_eq_of_lt hnow]
  have : 1 ≤ c.clockPeriod / 2 := by omega
  omega

/-- C13 (a read hit cancels a pending writeback, also on the same tick), at a clock period
of one tick.  From construction with `cfgTick1`, line 1 is made valid, idle and dirty; at
tick 40 a conflicting read schedules its writeback and a read of address 64 hits the line.
`clockPeriod / 2` is 0, the hit leaves `lastChangedTick = 40`, and the writeback entry is
not discarded: `processNextWriteBack` runs on the busy line and the assertion of line 984
(`busyMask == 0`) fails.  The same happens when the writeback was scheduled by
`recvWLWrite`. -/
theorem same_tick_hit_asserts :
    (∃ s0, CoalesceEngine cfgTick1 = .ok s0 ∧
      run cfgTick1 s0 opsHitSameTick = .error (.assertion 984)) ∧
    (∃ s0, CoalesceEngine cfgTick1 = .ok s0 ∧
      run cfgTick1 s0 opsHitSameTickWrite = .error (.assertion 984)) :=
  ⟨⟨_, rfl, rfl⟩, ⟨_, rfl, rfl⟩⟩

/-- On the clock of `cfgA` (a period of 1000 ticks) the same two runs return: the writeback
entry is discarded. -/
theorem same_tick_hit_discards :
    (∃ s0 s, CoalesceEngine cfgA = .ok s0 ∧ run cfgA s0 opsHitSameTick = .ok s ∧
      s.memPortSent = [.read 64 64 false]) ∧
    (∃ s0 s, CoalesceEngine cfgA = .ok s0 ∧ run cfgA s0 opsHitSameTickWrite = .ok s ∧
      s.memPortSent = [.read 64 64 false]) :=
  ⟨⟨_, _, rfl, rfl, rfl⟩, ⟨_, _, rfl, rfl, rfl⟩⟩

/-- C14 (writeback precedes refill).  Let line `bi` be pending writeback as the source
asserts it (valid, dirty, applied, no busy slot, `pendingWB` set), with an MSHR entry whose
first target is `t`, in a table within its bound.  Then `processNextWriteBack(bi, tick)`
with `tick` the line's `lastChangedTick` returns; it appends to what has been sent to the
memory port exactly one packet, the write of the line's address, of one line of bytes, with
the line's items, and no read; the line becomes the claim of the aligned address of `t`
(`pendingData` set, every other flag and the busy mask clear, `lastChangedTick = now`, items
untouched); exactly one fill entry `(processNextRead, bi, now)` is appended to the
memory-function queue; every other line, the MSHR table, the response queue and the
post-push writeback queue are unchanged.  When that fill entry is executed next (no
post-push writeback and no pull read of the new address being queued), its read request
follows the write in the order of the memory port. -/
theorem writeback_precedes_refill (c : Config) (now : Nat) (s : State) (bi : Int)
    (blk : Block) (t : Nat) (ts : List Nat) (hb : s.block? bi = some blk)
    (hv : blk.valid = true) (hz : blk.busyMask = 0) (hwb : blk.needsWB = true)
    (hna : blk.needsApply = false) (hpd : blk.pendingData = false)
    (hpa : blk.pendingApply = false) (hpw : blk.pendingWB = true)
    (hM : s.MSHR.length ≤ c.numMSHREntries) (hts : mshrFind s.MSHR bi = some (t :: ts)) :
    ∃ s1, processNextWriteBack c now s bi blk.lastChangedTick = .ok s1 ∧
      s1.memPortSent = s.memPortSent ++ [.write blk.addr c.peerMemoryAtomSize blk.items] ∧
      s1.block? bi = some
        { blk with addr := roundDown t c.peerMemoryAtomSize, valid := false, busyMask := 0,
                   needsWB := false, needsApply := false, pendingData := true,
                   pendingApply := false, pendingWB := false, lastChangedTick := now } ∧
      (∀ j, j ≠ bi → s1.block? j = s.block? j) ∧
      s1.memoryFunctionQueue = s.memoryFunctionQueue ++ [⟨.nextRead, bi, now⟩] ∧
      s1.MSHR = s.MSHR ∧ s1.responseQueue = s.responseQueue ∧
      s1.postPushWBQueue = s.postPushWBQueue ∧
      ∀ now2 : Nat,
        (∀ e ∈ s.postPushWBQueue, e.1.addr ≠ roundDown t c.peerMemoryAtomSize) →
        pullFind s.pendingVertexPullReads (roundDown t c.peerMemoryAtomSize) = none →
        ∃ s2, processNextRead c now2 s1 bi now = .ok s2 ∧
          s2.memPortSent = s.memPortSent ++
            [.write blk.addr c.peerMemoryAtomSize blk.items,
             .read (roundDown t c.peerMemoryAtomSize) c.peerMemoryAtomSize false] := by
  obtain ⟨h0, _, _⟩ := State.block?_some hb
  have hM1 : decide (s.MSHR.length ≤ c.numMSHREntries) = true := by simpa using hM
  have key : processNextWriteBack c now s bi blk.lastChangedTick =
      .ok (((s.sendPacket (.write blk.addr c.peerMemoryAtomSize blk.items)).setBlock bi
        (blk.claim (roundDown t c.peerMemoryAtomSize) now)).pushMemoryFunction
          .nextRead bi now) := by
    unfold processNextWriteBack
    rw [State.block_of_some 982 hb]
    have hts1 : mshrFind (s.sendPacket (.write blk.addr c.peerMemoryAtomSize blk.items)).MSHR
        bi = some (t :: ts) := hts
    simp only [bind, Except.bind, beq_self_eq_true, if_true, assert, hv, hz, hwb, hna, hpd,
      hpa, hpw, hM1, hts, Option.isSome_some, Bool.not_false, mshrTargets_of_find hts1,
      List.head?_cons]
    rfl
  have hb1 : (((s.sendPacket (.write blk.addr c.peerMemoryAtomSize blk.items)).setBlock bi
        (blk.claim (roundDown t c.peerMemoryAtomSize) now)).pushMemoryFunction
          .nextRead bi now).block? bi = some (blk.claim (roundDown t c.peerMemoryAtomSize) now) :=
    State.block?_setBlock (s := s.sendPacket _) hb
  refine ⟨_, key, rfl, hb1, ?_, rfl, rfl, rfl, rfl, ?_⟩
  · intro j hj
    exact State.block?_setBlock_ne (s := s.sendPacket _) h0 hj
  · intro now2 hq hp
    have hsend := processNextRead_sends c now2 _ bi _ hb1
      ⟨rfl, rfl, rfl, rfl, rfl, rfl, rfl⟩ hq hp
    refine ⟨_, hsend, ?_⟩
    show (s.memPortSent ++ [_]) ++ [_] = _
    simp [Block.claim]

theorem writeback_precedes_refill_witness :
    ∃ s1, processNextWriteBack cfgA 41 stPendingWB 1 blkPendingWB.lastChangedTick = .ok s1 ∧
      s1.memPortSent = stPendingWB.memPortSent ++ [.write 64 64 itemsA] ∧
      s1.block? 1 = some { blkPendingWB with addr := 192, valid := false, needsWB := false,
                                             pendingData := true, pendingWB := false,
                                             lastChangedTick := 41 } :=
  match writeback_precedes_refill cfgA 41 stPendingWB 1 blkPendingWB 192 [] rfl rfl rfl rfl
      rfl rfl rfl rfl (by decide) rfl with
  | ⟨s1, h1, h2, h3, _⟩ => ⟨s1, h1, h2, h3⟩

/-- The cache-fill part of `handleMemResp` returns on a line that waits for data and has an
MSHR entry, when the served targets name slots of the response. -/
theorem handleFill_ok (c : Config) (now : Nat) (s : State) (bi : Int) (blk : Block)
    (addr : Nat) (items : List WorkListItem) (do_wb : Bool) (ts : List Nat)
    (hpre : blk.awaitsData) (hts : mshrFind s.MSHR bi = some ts)
    (hbound : ∀ t ∈ servedTargets c addr ts, wlOffsetOf c t < items.length) :
    ∃ s2, handleFill c now s bi blk addr items do_wb = .ok s2 := by
  obtain ⟨h1, h2, h3, h4, h5, h6, h7⟩ := hpre
  obtain ⟨r, hr⟩ := fillTargets_ok c now addr ts
    { blk with items := items, valid := true, needsWB := blk.needsWB || do_wb,
               pendingData := false,
               lastChangedTick := (now + 2 ^ 64 - (c.clockPeriod / 2) % 2 ^ 64) % 2 ^ 64 }
    s.responseQueue hbound
  have a1 : assert (!blk.valid) 504 = .ok () := by simp [assert, h1]
  have a2 : assert (blk.busyMask == 0) 505 = .ok () := by simp [assert, h2]
  have a3 : assert (!blk.needsWB) 506 = .ok () := by simp [assert, h3]
  have a4 : assert (!blk.needsApply) 507 = .ok () := by simp [assert, h4]
  have a5 : assert blk.pendingData 508 = .ok () := by simp [assert, h5]
  have a6 : assert (!blk.pendingApply) 509 = .ok () := by simp [assert, h6]
  have a7 : assert (!blk.pendingWB) 510 = .ok () := by simp [assert, h7]
  have a8 : assert ((mshrFind s.MSHR bi).isSome) 511 = .ok () := by simp [assert, hts]
  unfold handleFill
  simp only [a1, a2, a3, a4, a5, a6, a7, a8, bind, Except.bind, mshrTargets_of_find hts, hr]
  exact ⟨_, rfl⟩

theorem getBlockIndex_aligned {c : Config} {addr : Nat} (h : addr % c.peerMemoryAtomSize = 0) :
    getBlockIndex c addr = .ok (blockIndexOf c addr) := by
  unfold getBlockIndex
  simp [assert, h, bind, Except.bind, pure, Except.pure]

/-- A read response without the pull tag whose address is the address of its line: the
result of `handleMemResp` in terms of the result of the cache-fill part. -/
theorem fillResp_eq (c : Config) (now : Nat) (s s2 : State) (a : Nat)
    (items : List WorkListItem) (blk : Block)
    (ha : a % c.peerMemoryAtomSize = 0)
    (hb : s.block? (blockIndexOf c a) = some blk) (haddr : blk.addr = a)
    (hs2 : handleFill c now { s with onTheFlyReqs := s.onTheFlyReqs - 1 } (blockIndexOf c a)
      blk a items false = .ok s2) :
    handleMemResp c now s (.read a items false) =
      .ok (true, ({ s2 with MSHR := mshrCleanup s2.MSHR (blockIndexOf c a) }
        ).scheduleResponseEvent) := by
  have hb0 : ({ s with onTheFlyReqs := s.onTheFlyReqs - 1 } : State).block
      (blockIndexOf c a) 460 = .ok blk := State.block_of_some 460 hb
  have hbeq : (blk.addr == a) = true := by simp [haddr]
  unfold handleMemResp
  simp only [getBlockIndex_aligned ha, bind, Except.bind, hb0, Bool.false_eq_true, if_false,
    pure, Except.pure, hbeq, if_true, hs2]

theorem State.responseQueue_scheduleResponseEvent (s : State) :
    s.scheduleResponseEvent.responseQueue = s.responseQueue := by
  unfold State.scheduleResponseEvent
  split <;> rfl

/-- C11 (cache fill).  In a cache whose lines have fewer than 32 slots (the range in which
the `int` shift `1 << wl_offset` of line 572 is the single bit of the slot), let `a` be a
line-aligned address whose line `bi` holds `a` and waits for data as the source asserts it (`pendingData` set, every other flag and the busy
mask clear), with the MSHR targets `ts`; let the response carry the `K` items `items`, at a
tick `now` of 64 bits that is not before half a clock period.  Then `handleMemResp` returns
true; the line holds `items`, is valid, no longer `pendingData`, with
`lastChangedTick = now - clockPeriod / 2` and its other flags still clear; for the targets
of `ts` whose aligned address is `a`, in list order, the entries `(t, items[offset t], now)`
are appended to the response queue, and the busy bits set are exactly their slots; the
line's MSHR list becomes the targets of other aligned addresses in their original order, and
the entry is removed if and only if that list is empty; every other line and MSHR entry is
unchanged. -/
theorem handleMemResp_fill (c : Config) (now : Nat) (s : State) (a : Nat)
    (items : List WorkListItem) (blk : Block) (ts : List Nat) (hc : c.wf)
    (hK : c.numElementsPerLine < 32) (ha : a % c.peerMemoryAtomSize = 0)
    (hb : s.block? (blockIndexOf c a) = some blk) (haddr : blk.addr = a)
    (hpre : blk.awaitsData) (hts : mshrFind s.MSHR (blockIndexOf c a) = some ts)
    (hlen : items.length = c.numElementsPerLine)
    (htick : c.clockPeriod / 2 ≤ now) (hnow : now < 2 ^ 64) :
    ∃ s1 blk1, handleMemResp c now s (.read a items false) = .ok (true, s1) ∧
      s1.block? (blockIndexOf c a) = some blk1 ∧
      blk1.addr = a ∧ blk1.items = items ∧ blk1.valid = true ∧ blk1.pendingData = false ∧
      blk1.lastChangedTick = now - c.clockPeriod / 2 ∧
      blk1.needsWB = false ∧ blk1.needsApply = false ∧ blk1.pendingApply = false ∧
      blk1.pendingWB = false ∧
      (∀ i, blk1.busyMask.testBit i = true ↔ ∃ t ∈ servedTargets c a ts, wlOffsetOf c t = i) ∧
      s1.responseQueue = s.responseQueue ++ responsesOf c items now (servedTargets c a ts) ∧
      (∀ t ∈ servedTargets c a ts, wlOffsetOf c t < items.length) ∧
      mshrFind s1.MSHR (blockIndexOf c a) =
        (if otherTargets c a ts = [] then none else some (otherTargets c a ts)) ∧
      ∀ j, j ≠ blockIndexOf c a →
        s1.block? j = s.block? j ∧ mshrFind s1.MSHR j = mshrFind s.MSHR j := by
  have hbound : ∀ t ∈ servedTargets c a ts, wlOffsetOf c t < items.length := by
    intro t _
    rw [hlen]
    exact wlOffsetOf_lt hc t
  have _hshift : ∀ t, wlOffsetOf c t < 31 :=
    fun t => Nat.lt_of_lt_of_le (wlOffsetOf_lt hc t) (by omega)
  obtain ⟨h0, _, _⟩ := State.block?_some hb
  obtain ⟨s2, hs2⟩ := handleFill_ok c now { s with onTheFlyReqs := s.onTheFlyReqs - 1 }
    (blockIndexOf c a) blk a items false ts hpre hts hbound
  have hres := fillResp_eq c now s s2 a items blk ha hb haddr hs2
  obtain ⟨_, ts1, hts1, _, hs2e⟩ := handleFill_spec _ _ _ _ _ _ _ _ _ hs2
  have ets : ts1 = ts := Option.some.inj (hts1.symm.trans hts)
  rw [ets] at hs2e
  obtain ⟨p1, p2, p3, p4, p5, p6, p7⟩ := hpre
  rw [hs2e] at hres
  refine ⟨_,
    { blk with items := items, valid := true, needsWB := blk.needsWB || false,
               pendingData := false,
               lastChangedTick := (now + 2 ^ 64 - (c.clockPeriod / 2) % 2 ^ 64) % 2 ^ 64,
               busyMask := maskOfTargets c blk.busyMask (servedTargets c a ts) },
    hres, ?_, haddr, rfl, rfl, rfl, ?_, ?_, p4, p6, p7, ?_, ?_, hbound, ?_, ?_⟩
  · have : ∀ sx : State, sx.scheduleResponseEvent.block? (blockIndexOf c a) =
        sx.block? (blockIndexOf c a) := by
      intro sx
      unfold State.block?
      rw [State.cacheBlocks_scheduleResponseEvent]
    rw [this]
    exact State.block?_setBlock (s := { s with onTheFlyReqs := s.onTheFlyReqs - 1 }) hb
  · show (now + 2 ^ 64 - (c.clockPeriod / 2) % 2 ^ 64) % 2 ^ 64 = now - c.clockPeriod / 2
    have h1 : c.clockPeriod / 2 % 2 ^ 64 = c.clockPeriod / 2 := Nat.mod_eq_of_lt (by omega)
    rw [h1]
    omega
  · show (blk.needsWB || false) = false
    rw [p3]
    rfl
  · intro i
    show (maskOfTargets c blk.busyMask (servedTargets c a ts)).testBit i = true ↔ _
    rw [testBit_maskOfTargets, p2]
    simp
  · rw [State.responseQueue_scheduleResponseEvent]
  · rw [State.MSHR_scheduleResponseEvent]
    show mshrFind (mshrCleanup (mshrReplace s.MSHR _ _) _) _ = _
    rw [mshrFind_cleanup_self, mshrFind_replace_self, hts]
    simp only [Option.map_some', Option.getD_some, entryOf, List.isEmpty_iff]
  · intro j hj
    refine ⟨?_, ?_⟩
    · have : ∀ sx : State, sx.scheduleResponseEvent.block? j = sx.block? j := by
        intro sx
        unfold State.block?
        rw [State.cacheBlocks_scheduleResponseEvent]
      rw [this]
      exact State.block?_setBlock_ne (s := { s with onTheFlyReqs := s.onTheFlyReqs - 1 })
        h0 hj
    · rw [State.MSHR_scheduleResponseEvent]
      show mshrFind (mshrCleanup (mshrReplace s.MSHR _ _) _) j = _
      rw [mshrFind_cleanup_ne _ _ _ hj, mshrFind_replace_ne _ _ _ _ hj]

theorem handleMemResp_fill_witness :
    ∃ s1 blk1, handleMemResp cfgA 3000 stFull (.read 64 itemsA false) = .ok (true, s1) ∧
      s1.block? (blockIndexOf cfgA 64) = some blk1 ∧ blk1.addr = 64 ∧ blk1.items = itemsA ∧
      blk1.valid = true ∧ blk1.pendingData = false ∧ blk1.lastChangedTick = 3000 - 500 :=
  match handleMemResp_fill cfgA 3000 stFull 64 itemsA
      { (Block.init 4) with addr := 64, pendingData := true, lastChangedTick := 1000 } [64]
      (by decide) (by decide) (by decide) rfl rfl ⟨rfl, rfl, rfl, rfl, rfl, rfl, rfl⟩ rfl
      rfl (by decide) (by decide) with
  | ⟨s1, blk1, h1, h2, h3, h4, h5, h6, h7, _⟩ => ⟨s1, blk1, h1, h2, h3, h4, h5, h6, h7⟩

/-! ### The response event -/

theorem State.ownerCalls_scheduleResponseEvent (s : State) :
    s.scheduleResponseEvent.ownerCalls = s.ownerCalls := by
  unfold State.scheduleResponseEvent
  split <;> rfl

/-- What the loop of `processNextResponseEvent` does with the queue: the entries handed over
are a prefix of the queue, each has waited at least one cycle as `ticksToCycles` counts, and
their number stays within the cap, except that the first entry is handed over before the cap
is looked at. -/
theorem responseLoop_spec (c : Config) (now : Nat) :
    ∀ (rq : List (Nat × WorkListItem × Nat)) (sent : Nat) (calls : List OwnerCall),
      ∃ delivered, rq = delivered ++ (responseLoop c now rq sent calls).1 ∧
        (responseLoop c now rq sent calls).2 = calls ++ delivered.map incomingWL ∧
        (∀ e ∈ delivered, 1 ≤ c.ticksToCycles (waitingTicks now e.2.2)) ∧
        sent + delivered.length ≤ max (sent + 1) c.maxRespPerCycle := by
  intro rq
  induction rq with
  | nil =>
    intro sent calls
    exact ⟨[], rfl, by simp [responseLoop], by simp, by simp⟩
  | cons e rest ih =>
    intro sent calls
    obtain ⟨a, w, t⟩ := e
    unfold responseLoop
    simp only []
    split
    · exact ⟨[], rfl, by simp, by simp, by simp⟩
    · rename_i hw
      split
      · refine ⟨[(a, w, t)], rfl, rfl, ?_, by simp⟩
        intro e he
        simp only [List.mem_singleton] at he
        subst he
        exact Nat.le_of_not_lt hw
      · rename_i hcap
        obtain ⟨d, h1, h2, h3, h4⟩ :=
          ih (sent + 1) (calls ++ [OwnerCall.handleIncomingWL a w])
        refine ⟨(a, w, t) :: d, ?_, ?_, ?_, ?_⟩
        · rw [List.cons_append, ← h1]
        · rw [h2]
          simp [incomingWL]
        · intro e he
          rcases List.mem_cons.mp he with he | he
          · subst he
            exact Nat.le_of_not_lt hw
          · exact h3 e he
        · simp only [List.length_cons]
          have : sent + 1 < c.maxRespPerCycle := by simpa using hcap
          omega

/-- On a non-empty queue `processNextResponseEvent` returns, and its result is the result of
the loop. -/
theorem processNextResponseEvent_ok (c : Config) (now : Nat) (s : State)
    (hne : s.responseQueue ≠ []) :
    ∃ s1, processNextResponseEvent c now s = .ok s1 ∧
      s1.responseQueue = (responseLoop c now s.responseQueue 0 s.ownerCalls).1 ∧
      s1.ownerCalls = (responseLoop c now s.responseQueue 0 s.ownerCalls).2 := by
  unfold processNextResponseEvent
  have he : s.responseQueue.isEmpty = false := by
    cases h : s.responseQueue with
    | nil => exact absurd h hne
    | cons _ _ => rfl
  simp only [he, bind, Except.bind, pure, Except.pure]
  exact ⟨_, rfl, State.responseQueue_scheduleResponseEvent _,
    State.ownerCalls_scheduleResponseEvent _⟩

/-- C26 (response rate cap), amended.  On a non-empty response queue one execution of
`processNextResponseEvent` returns and hands over a prefix of the queue of at most
`max 1 maxRespPerCycle` entries: at most `maxRespPerCycle` when that is at least 1, and at
most one when it is 0, because the cap is tested after an entry has been handed over. -/
theorem response_rate_cap (c : Config) (now : Nat) (s : State)
    (hne : s.responseQueue ≠ []) :
    ∃ (s1 : State) (delivered : List (Nat × WorkListItem × Nat)),
      processNextResponseEvent c now s = .ok s1 ∧
      s1.ownerCalls = s.ownerCalls ++ delivered.map incomingWL ∧
      delivered.length ≤ max 1 c.maxRespPerCycle ∧
      (1 ≤ c.maxRespPerCycle → delivered.length ≤ c.maxRespPerCycle) := by
  obtain ⟨s1, h, _, h2⟩ := processNextResponseEvent_ok c now s hne
  obtain ⟨d, _, e2, _, e4⟩ := responseLoop_spec c now s.responseQueue 0 s.ownerCalls
  refine ⟨s1, d, h, h2.trans e2, by simpa using e4, fun h1 => ?_⟩
  have : max (0 + 1) c.maxRespPerCycle = c.maxRespPerCycle := by omega
  omega

theorem response_rate_cap_witness :
    ∃ (s1 : State) (delivered : List (Nat × WorkListItem × Nat)),
      processNextResponseEvent cfgA 5000 stW2 = .ok s1 ∧
      s1.ownerCalls = stW2.ownerCalls ++ delivered.map incomingWL ∧
      delivered.length ≤ max 1 cfgA.maxRespPerCycle :=
  match response_rate_cap cfgA 5000 stW2 (by decide) with
  | ⟨s1, d, h1, h2, h3, _⟩ => ⟨s1, d, h1, h2, h3⟩

/-- C26 as stated fails for `maxRespPerCycle = 0`: from construction with `cfgCap0`, the
response event of the run `opsOneResponse` hands one response to the work-list engine. -/
theorem zero_cap_delivers_one :
    cfgCap0.maxRespPerCycle = 0 ∧
    ∃ s0 s, CoalesceEngine cfgCap0 = .ok s0 ∧ run cfgCap0 s0 opsOneResponse = .ok s ∧
      s.ownerCalls = [.handleIncomingWL 64 { tempProp := 10, prop := 11 }] :=
  ⟨rfl, _, _, rfl, rfl, rfl⟩

/-- C27 (response order and latency), amended.  Let the clock count cycles as gem5 does,
`ticksToCycles(t) = divCeil(t, clockPeriod)` with a positive period, and let `now` be a
64-bit tick.  On a non-empty response queue one execution of `processNextResponseEvent`
returns; the entries it hands to the work-list engine are a prefix of the queue, handed over
in queue order with the address and the item that were queued; the entries not handed over
stay in the queue in their order; every entry handed over has waited at least one tick (the
test of line 611 counts a wait of one tick as one cycle), so an entry queued at the current
tick is never handed over; and an entry that was queued at a clock edge and is handed over
at a clock edge has waited at least one full clock period. -/
theorem response_order_wait (c : Config) (now : Nat) (s : State)
    (hne : s.responseQueue ≠ [])
    (hclk : ∀ t, c.ticksToCycles t = (t + (c.clockPeriod - 1)) / c.clockPeriod)
    (hp : 0 < c.clockPeriod) (hnow : now < 2 ^ 64) :
    ∃ (s1 : State) (delivered : List (Nat × WorkListItem × Nat)),
      processNextResponseEvent c now s = .ok s1 ∧
      s.responseQueue = delivered ++ s1.responseQueue ∧
      s1.ownerCalls = s.ownerCalls ++ delivered.map incomingWL ∧
      (∀ e ∈ delivered, 1 ≤ waitingTicks now e.2.2 ∧ e.2.2 ≠ now) ∧
      (∀ e ∈ delivered, e.2.2 ≤ now → e.2.2 < now ∧ waitingTicks now e.2.2 = now - e.2.2) ∧
      (∀ e ∈ delivered, e.2.2 ≤ now → c.clockPeriod ∣ now → c.clockPeriod ∣ e.2.2 →
        e.2.2 + c.clockPeriod ≤ now) := by
  obtain ⟨s1, h, h1, h2⟩ := processNextResponseEvent_ok c now s hne
  obtain ⟨d, e1, e2, e3, _⟩ := responseLoop_spec c now s.responseQueue 0 s.ownerCalls
  have hz : waitingTicks now now = 0 := by
    unfold waitingTicks
    rw [Nat.mod_eq_of_lt hnow]
    have : now + 2 ^ 64 - now = 2 ^ 64 := by omega
    rw [this]
    norm_num
  have hw : ∀ e ∈ d, 1 ≤ waitingTicks now e.2.2 ∧ e.2.2 ≠ now := by
    intro e he
    have h3 := e3 e he
    rw [hclk, Nat.le_div_iff_mul_le hp] at h3
    have h4 : 1 ≤ waitingTicks now e.2.2 := by omega
    refine ⟨h4, fun heq => ?_⟩
    rw [heq, hz] at h4
    omega
  have hle : ∀ t, t ≤ now → waitingTicks now t = now - t := by
    intro t ht
    unfold waitingTicks
    have ht64 : t < 2 ^ 64 := Nat.lt_of_le_of_lt ht hnow
    rw [Nat.mod_eq_of_lt ht64]
    have e : now + 2 ^ 64 - t = (now - t) + 2 ^ 64 := by omega
    rw [e, Nat.add_mod_right]
    exact Nat.mod_eq_of_lt (by omega)
  refine ⟨s1, d, h, ?_, h2.trans e2, hw, fun e he hle1 => ?_, fun e he hle1 hd1 hd2 => ?_⟩
  · rw [h1]
    exact e1
  · have := (hw e he).2
    exact ⟨by omega, hle _ hle1⟩
  · have hne1 := (hw e he).2
    have hlt : e.2.2 < now := by omega
    have hdvd : c.clockPeriod ∣ now - e.2.2 := Nat.dvd_sub' hd1 hd2
    have := Nat.le_of_dvd (by omega) hdvd
    omega

theorem response_order_wait_witness :
    ∃ (s1 : State) (delivered : List (Nat × WorkListItem × Nat)),
      processNextResponseEvent cfgA 5000 stW2 = .ok s1 ∧
      stW2.responseQueue = delivered ++ s1.responseQueue ∧
      s1.ownerCalls = stW2.ownerCalls ++ delivered.map incomingWL ∧
      (∀ e ∈ delivered, 1 ≤ waitingTicks 5000 e.2.2 ∧ e.2.2 ≠ 5000) :=
  match response_order_wait cfgA 5000 stW2 (by decide) (fun _ => rfl) (by decide)
    (by decide) with
  | ⟨s1, d, h1, h2, h3, h4, _⟩ => ⟨s1, d, h1, h2, h3, h4⟩

/-- C27 as stated fails when the response is queued between two clock edges.  From
construction with `cfgMin` (clock period 1000 ticks), the read of address 80 misses and the
fill arrives at tick 2999 (`opsLateFill`): the response is queued with the stamp 2999.  The
response event of the next clock edge, tick 3000, hands it to the work-list engine after a
wait of one tick: `ticksToCycles(1) = divCeil(1, 1000) = 1`. -/
theorem response_delivered_after_one_tick :
    cfgMin.clockPeriod = 1000 ∧ cfgMin.ticksToCycles 1 = 1 ∧
    ∃ s0 s s1, CoalesceEngine cfgMin = .ok s0 ∧ run cfgMin s0 opsLateFill = .ok s ∧
      s.responseQueue = [(80, { tempProp := 21, prop := 21 }, 2999)] ∧
      s.nextResponseEventScheduled = true ∧
      waitingTicks 3000 2999 = 1 ∧
      processNextResponseEvent cfgMin 3000 s = .ok s1 ∧ s1.responseQueue = [] ∧
      s1.ownerCalls = s.ownerCalls ++ [.handleIncomingWL 80 { tempProp := 21, prop := 21 }] :=
  ⟨rfl, rfl, _, _, _, rfl, rfl, rfl, rfl, rfl, rfl, rfl, rfl⟩

/-! ### Direct-mapped indexing -/

theorem toInt32_of_lt {x : Nat} (h : x < 2 ^ 31) : toInt32 x = (x : Int) := by
  unfold toInt32
  have e : x % 2 ^ 32 = x := Nat.mod_eq_of_lt (by omega)
  rw [e, if_pos h]

/-- For an address whose line number is below `2 ^ 31` (and no address interleaving), the
values `recvWLRead` computes on lines 149-154 are the ones of the direct-mapped scheme and
are within bounds. -/
theorem index_in_bounds_below_cast {c : Config} (hc : c.wf) (A : Nat)
    (hid : c.removeIntlvBits (roundDown A c.peerMemoryAtomSize) =
      roundDown A c.peerMemoryAtomSize)
    (hsmall : A / c.peerMemoryAtomSize < 2 ^ 31) :
    roundDown A c.peerMemoryAtomSize = A - A % c.peerMemoryAtomSize ∧
    roundDown A c.peerMemoryAtomSize % c.peerMemoryAtomSize = 0 ∧
    blockIndexOf c (roundDown A c.peerMemoryAtomSize) =
      (((roundDown A c.peerMemoryAtomSize / c.peerMemoryAtomSize) % c.numLines : Nat) : Int) ∧
    0 ≤ blockIndexOf c (roundDown A c.peerMemoryAtomSize) ∧
    blockIndexOf c (roundDown A c.peerMemoryAtomSize) < (c.numLines : Int) ∧
    wlOffsetOf c A = (A - roundDown A c.peerMemoryAtomSize) / sizeofWorkListItem ∧
    wlOffsetOf c A < c.numElementsPerLine := by
  have hle : roundDown A c.peerMemoryAtomSize / c.peerMemoryAtomSize ≤
      A / c.peerMemoryAtomSize := by
    apply Nat.div_le_div_right
    unfold roundDown
    omega
  have e : blockIndexOf c (roundDown A c.peerMemoryAtomSize) =
      (((roundDown A c.peerMemoryAtomSize / c.peerMemoryAtomSize) % c.numLines : Nat) :
        Int) := by
    unfold blockIndexOf
    rw [hid, toInt32_of_lt (by omega)]
    rfl
  refine ⟨rfl, roundDown_mod _ _, e, ?_, blockIndexOf_lt hc _, rfl, wlOffsetOf_lt hc A⟩
  rw [e]
  exact Int.ofNat_nonneg _

/-- C30 (direct-mapped indexing) for an address beyond the range of the cast.  With lines of
64 bytes and two lines, the 64-bit address `addrFar = 2 ^ 37 + 64` is in line number
`2 ^ 31 + 1`; the cast `(int)` of line 123 makes that `-2 ^ 31 + 1`, and `%` gives the
block index `-1`, which passes `assert(block_index < numLines)`.  On the freshly
constructed cache `recvWLRead` then reads `cacheBlocks[-1]` (line 162), outside the
array. -/
theorem cast_makes_index_negative :
    addrFar < 2 ^ 64 ∧ cfgA.removeIntlvBits addrFar = addrFar ∧
    roundDown addrFar cfgA.peerMemoryAtomSize = addrFar ∧
    blockIndexOf cfgA (roundDown addrFar cfgA.peerMemoryAtomSize) = -1 ∧
    (addrFar / cfgA.peerMemoryAtomSize) % cfgA.numLines = 1 ∧
    ∃ s0, CoalesceEngine cfgA = .ok s0 ∧
      recvWLRead cfgA 0 s0 addrFar = .error (.undefined 162) :=
  ⟨by decide, rfl, by decide, by decide, by decide, _, rfl, rfl⟩

/-! ### The memory-function queue -/

theorem State.memCtl_scheduleResponseEvent (s : State) :
    s.scheduleResponseEvent.memCtl = s.memCtl := by
  unfold State.scheduleResponseEvent
  split <;> rfl

theorem Appended.of_memCtl {s s1 : State} (h : s1.memCtl = s.memCtl) : Appended s s1 [] := by
  unfold State.memCtl at h
  simp only [Prod.mk.injEq] at h
  exact ⟨by rw [h.1, List.append_nil], h.2.1, h.2.2⟩

theorem foldPostPushWB_memCtl (c : Config) (now : Nat) (s s1 : State) (bi : Int)
    (blk : Block) (data : List WorkListItem)
    (h : foldPostPushWB c now s bi blk data = .ok s1) : s1.memCtl = s.memCtl := by
  unfold foldPostPushWB at h
  simp only [Except.bind_ok_iff] at h
  obtain ⟨r, _, h⟩ := h
  simp only [pure, Except.pure] at h
  cases h
  rw [State.memCtl_scheduleResponseEvent]
  rfl

theorem postPushWBLoop_memCtl (c : Config) (now : Nat) (bi : Int)
    (q : List (MemPacket × Nat)) (s : State) (need : Bool) (r : State × Bool)
    (h : postPushWBLoop c now bi q s need = .ok r) : r.1.memCtl = s.memCtl := by
  rw [(postPushWBLoop_same c now bi q s need r h).1]

theorem processNextRead_memCtl (c : Config) (now : Nat) (s s1 : State) (bi : Int) (t : Nat)
    (h : processNextRead c now s bi t = .ok s1) : s1.memCtl = s.memCtl := by
  unfold processNextRead at h
  simp only [Except.bind_ok_iff] at h
  obtain ⟨blk, _, h⟩ := h
  split at h
  · simp only [pure, Except.pure] at h
    cases h
    rfl
  · simp only [Except.bind_ok_iff, assert_ok_iff, exists_and_left, exists_const] at h
    obtain ⟨_, _, _, _, _, _, _, r, hr, blk1, _, h⟩ := h
    have e := postPushWBLoop_memCtl _ _ _ _ _ _ _ hr
    split at h
    · simp only [pure, Except.pure] at h
      cases h
      exact e
    · simp only [pure, Except.pure] at h
      cases h
      exact e

theorem processNextVertexPull_appended (c : Config) (now : Nat) (s s1 : State) (i : Int)
    (t : Nat) (h : processNextVertexPull c now s i t = .ok s1) :
    ∃ app, Appended s s1 app := by
  unfold processNextVertexPull at h
  simp only [Except.bind_ok_iff] at h
  obtain ⟨r, hr, s2, hs2, h⟩ := h
  unfold getOptimalPullAddr at hr
  simp only [Except.bind_ok_iff] at hr
  obtain ⟨r0, _, hr⟩ := hr
  simp only [pure, Except.pure] at hr
  cases hr
  have e2 : s2.memCtl = s.memCtl := by
    split at hs2
    · unfold pullPendingRead at hs2
      simp only [Except.bind_ok_iff, assert_ok_iff, exists_and_left, exists_const] at hs2
      obtain ⟨_, hs2⟩ := hs2
      simp only [pure, Except.pure] at hs2
      cases hs2
      rfl
    · unfold pullInCache at hs2
      simp only [Except.bind_ok_iff, assert_ok_iff, exists_and_left, exists_const] at hs2
      obtain ⟨blk, _, _, _, _, _, hs2⟩ := hs2
      split at hs2
      · cases hs2
      · simp only [pure, Except.pure] at hs2
        cases hs2
        rfl
    · unfold pullInMemory at hs2
      simp only [] at hs2
      split at hs2
      · simp only [Except.bind_ok_iff, assert_ok_iff, exists_and_left, exists_const] at hs2
        obtain ⟨_, hs2⟩ := hs2
        simp only [pure, Except.pure] at hs2
        cases hs2
        rfl
      · simp only [pure, Except.pure] at hs2
        cases hs2
        rfl
    · simp only [pure, Except.pure] at hs2
      cases hs2
      rfl
  unfold State.memCtl at e2
  simp only [Prod.mk.injEq] at e2
  split at h
  · simp only [pure, Except.pure] at h
    cases h
    refine ⟨[⟨.nextVertexPull, 0, now⟩], ?_, e2.2.1, e2.2.2⟩
    show s2.memoryFunctionQueue ++ _ = _
    rw [e2.1]
  · simp only [pure, Except.pure] at h
    cases h
    exact ⟨[], by rw [e2.1, List.append_nil], e2.2.1, e2.2.2⟩

theorem processNextWriteBack_appended (c : Config) (now : Nat) (s s1 : State) (i : Int)
    (t : Nat) (h : processNextWriteBack c now s i t = .ok s1) :
    ∃ app, Appended s s1 app := by
  unfold processNextWriteBack at h
  simp only [Except.bind_ok_iff] at h
  obtain ⟨blk, _, h⟩ := h
  split at h
  · simp only [Except.bind_ok_iff, assert_ok_iff, exists_and_left, exists_const] at h
    obtain ⟨_, _, _, _, _, _, _, _, _, h⟩ := h
    split at h
    · cases h
    · simp only [pure, Except.pure] at h
      cases h
      exact ⟨[⟨.nextRead, i, now⟩], rfl, rfl, rfl⟩
  · simp only [pure, Except.pure] at h
    cases h
    exact ⟨[], by simp, rfl, rfl⟩

/-- A memory function does not take entries off the memory-function queue and does not
touch `nextMemoryEvent`: it leaves the queue as it is or appends to it. -/
theorem callMemoryFunction_appended (c : Config) (now : Nat) (s s1 : State)
    (e : MemoryFunctionEntry) (h : callMemoryFunction c now s e = .ok s1) :
    ∃ app, Appended s s1 app := by
  unfold callMemoryFunction at h
  split at h
  · exact ⟨[], Appended.of_memCtl (processNextRead_memCtl _ _ _ _ _ _ h)⟩
  · exact processNextWriteBack_appended _ _ _ _ _ _ h
  · unfold processNextPostPushWB at h
    split at h
    · cases h
    · split at h
      · simp only [pure, Except.pure] at h
        cases h
        exact ⟨[], (List.append_nil _).symm, rfl, rfl⟩
      · simp only [pure, Except.pure] at h
        cases h
        exact ⟨[], (List.append_nil _).symm, rfl, rfl⟩
  · exact processNextVertexPull_appended _ _ _ _ _ _ h

/-- With the port not blocked, the memory event is the call of the head of the queue
followed by the removal of the head and the two assertions of lines 870-871. -/
theorem processNextMemoryEvent_unblocked (c : Config) (now : Nat) (s : State)
    (e : MemoryFunctionEntry) (rest : List MemoryFunctionEntry)
    (hb : s.memPortBlocked = false) (hq : s.memoryFunctionQueue = e :: rest) :
    processNextMemoryEvent c now s =
      (callMemoryFunction c now { s with nextMemoryEventScheduled := false } e).bind
        (fun s1 => (assert (!s1.nextMemoryEventPending) 870).bind (fun _ =>
          (assert (!s1.nextMemoryEventScheduled) 871).bind (fun _ =>
            if !s1.memoryFunctionQueue.tail.isEmpty then
              .ok { s1 with memoryFunctionQueue := s1.memoryFunctionQueue.tail,
                            nextMemoryEventScheduled := true }
            else .ok { s1 with memoryFunctionQueue := s1.memoryFunctionQueue.tail }))) := by
  cases s
  simp only at hb hq
  subst hb
  subst hq
  rfl

/-- C29 (memory-function FIFO).  When the port is blocked, `processNextMemoryEvent` returns
the state with the event asleep (pending, not scheduled) and nothing else changed: no
function is invoked, the queue, the lines and the packets sent are as before; and
`recvMemRetry` wakes the event.  When the port is not blocked (and the event is not asleep)
and the queue is `e :: rest`, the function invoked is the one of the head `e`, with the
input and the tick stored in `e`: a fault of that call is the fault of the event, and when
the call returns a state `sm`, the queue of `sm` is `e :: rest ++ app` for the entries `app`
the call appended, the event returns, and its result is `sm` with the queue `rest ++ app`
and the event scheduled again exactly when that queue is not empty. -/
theorem memory_function_fifo (c : Config) (now : Nat) (s : State) :
    (s.memPortBlocked = true →
      processNextMemoryEvent c now s =
        .ok { s with nextMemoryEventScheduled := false, nextMemoryEventPending := true } ∧
      recvMemRetry { s with nextMemoryEventScheduled := false,
                            nextMemoryEventPending := true } =
        .ok { s with nextMemoryEventScheduled := true, nextMemoryEventPending := false }) ∧
    (s.memPortBlocked = false → s.nextMemoryEventPending = false →
      ∀ (e : MemoryFunctionEntry) (rest : List MemoryFunctionEntry),
        s.memoryFunctionQueue = e :: rest →
        (∀ f, callMemoryFunction c now { s with nextMemoryEventScheduled := false } e =
            .error f → processNextMemoryEvent c now s = .error f) ∧
        (∀ sm, callMemoryFunction c now { s with nextMemoryEventScheduled := false } e =
            .ok sm →
          ∃ app, sm.memoryFunctionQueue = e :: rest ++ app ∧
            processNextMemoryEvent c now s =
              .ok { sm with memoryFunctionQueue := rest ++ app,
                            nextMemoryEventScheduled := !(rest ++ app).isEmpty })) := by
  refine ⟨fun hb => ⟨?_, ?_⟩, fun hb hp e rest hq => ⟨fun f hf => ?_, fun sm hsm => ?_⟩⟩
  · unfold processNextMemoryEvent
    simp [hb, pure, Except.pure]
  · unfold recvMemRetry
    simp [assert, bind, Except.bind, pure, Except.pure]
  · rw [processNextMemoryEvent_unblocked c now s e rest hb hq, hf]
    rfl
  · obtain ⟨app, h1, h2, h3⟩ := callMemoryFunction_appended _ _ _ _ _ hsm
    have h1' : sm.memoryFunctionQueue = e :: rest ++ app := by
      rw [h1]
      show s.memoryFunctionQueue ++ app = _
      rw [hq]
    have h2' : sm.nextMemoryEventPending = false := h2.trans hp
    have h3' : sm.nextMemoryEventScheduled = false := h3
    refine ⟨app, h1', ?_⟩
    rw [processNextMemoryEvent_unblocked c now s e rest hb hq, hsm]
    simp only [Except.bind, assert, h2', h3', Bool.not_false, if_true, h1', List.cons_append,
      List.tail_cons]
    cases hrest : rest ++ app with
    | nil =>
      simp only [List.isEmpty_nil, Bool.not_true, Bool.false_eq_true, if_false]
    | cons x xs =>
      simp only [List.isEmpty_cons, Bool.not_false, if_true]

theorem memory_function_fifo_witness :
    processNextMemoryEvent cfgA 2000 stBlocked =
        .ok { stBlocked with nextMemoryEventScheduled := false,
                             nextMemoryEventPending := true } ∧
    ∃ sm app, callMemoryFunction cfgA 2000 { stFull with nextMemoryEventScheduled := false }
        ⟨.nextRead, 1, 1000⟩ = .ok sm ∧
      sm.memoryFunctionQueue = ⟨.nextRead, 1, 1000⟩ :: [] ++ app ∧
      processNextMemoryEvent cfgA 2000 stFull =
        .ok { sm with memoryFunctionQueue := [] ++ app,
                      nextMemoryEventScheduled := !([] ++ app).isEmpty } :=
  ⟨((memory_function_fifo cfgA 2000 stBlocked).1 rfl).1,
   match ((memory_function_fifo cfgA 2000 stFull).2 rfl rfl _ [] rfl).2 _ rfl with
   | ⟨app, h1, h2⟩ => ⟨_, app, rfl, h1, h2⟩⟩

/-! ### The search of `getOptimalPullAddr` -/

/-- One turn of the loop of `getOptimalPullAddr`: the head is examined; it is returned and
taken off the list, or rotated to the tail. -/
theorem getOptimalPullAddrLoop_step (c : Config) (s : State) (n : Nat) (index : Int)
    (rest : List Int) :
    getOptimalPullAddrLoop c s (n + 1) (index :: rest) =
      (examinePull c s index).bind (fun o =>
        match o with
        | some r => .ok (r, rest)
        | none => getOptimalPullAddrLoop c s n (rest ++ [index])) := by
  rw [getOptimalPullAddrLoop]
  unfold examinePull
  simp only [bind, Except.bind, pure, Except.pure]
  repeat' split
  all_goals first | rfl | simp_all

/-- An entry that `examinePull` serves is served with one of the three locations. -/
theorem examinePull_location (c : Config) (s : State) (index : Int)
    (r : WorkLocation × Nat × Int) (h : examinePull c s index = .ok (some r)) :
    r.1 = .PENDING_READ ∨ r.1 = .IN_CACHE ∨ r.1 = .IN_MEMORY := by
  unfold examinePull at h
  simp only [Except.bind_ok_iff, assert_ok_iff, exists_and_left, exists_const] at h
  obtain ⟨_, _, _, _, addr, _, bi, _, h⟩ := h
  split at h
  · simp only [Except.bind_ok_iff, assert_ok_iff, exists_and_left, exists_const] at h
    obtain ⟨_, h⟩ := h
    simp only [pure, Except.pure] at h
    cases h
    exact Or.inl rfl
  · simp only [Except.bind_ok_iff, assert_ok_iff, exists_and_left, exists_const] at h
    obtain ⟨blk, _, h⟩ := h
    split at h
    · simp only [Except.bind_ok_iff, assert_ok_iff, exists_and_left, exists_const] at h
      obtain ⟨_, _, h⟩ := h
      simp only [pure, Except.pure] at h
      cases h
      exact Or.inr (Or.inl rfl)
    · split at h
      · simp only [pure, Except.pure] at h
        cases h
        exact Or.inr (Or.inr rfl)
      · simp only [pure, Except.pure] at h
        cases h

/-- The search over the first `n` entries of the active list, when it returns: either all
`n` entries were rotated and the answer is `GARBAGE`, or the entry at some position
`k < n` was served after the `k` entries before it were rotated. -/
theorem getOptimalPullAddrLoop_spec (c : Config) (s : State) :
    ∀ (n : Nat) (active : List Int) (r : WorkLocation × Nat × Int) (active1 : List Int),
      n ≤ active.length → getOptimalPullAddrLoop c s n active = .ok (r, active1) →
      (r = (.GARBAGE, 0, 0) ∧ active1 = active.drop n ++ active.take n ∧
        ∀ i ∈ active.take n, examinePull c s i = .ok none) ∨
      (∃ k idx, k < n ∧ active[k]? = some idx ∧
        (∀ i ∈ active.take k, examinePull c s i = .ok none) ∧
        examinePull c s idx = .ok (some r) ∧
        active1 = active.drop (k + 1) ++ active.take k) := by
  intro n
  induction n with
  | zero =>
    intro active r active1 _ h
    simp only [getOptimalPullAddrLoop, pure, Except.pure] at h
    cases h
    exact Or.inl ⟨rfl, by simp, by simp⟩
  | succ n ih =>
    intro active r active1 hlen h
    cases active with
    | nil => simp at hlen
    | cons index rest =>
      have hn : n ≤ rest.length := by simpa using hlen
      rw [getOptimalPullAddrLoop_step] at h
      cases he : examinePull c s index with
      | error f =>
        rw [he] at h
        cases h
      | ok o =>
        rw [he] at h
        cases o with
        | some r0 =>
          simp only [Except.bind] at h
          cases h
          exact Or.inr ⟨0, index, by omega, by simp, by simp, he, by simp⟩
        | none =>
          simp only [Except.bind] at h
          rcases ih (rest ++ [index]) r active1 (by simp; omega) h with
            ⟨h1, h2, h3⟩ | ⟨k, idx, hk, hidx, hpre, hex, h2⟩
          · left
            refine ⟨h1, ?_, ?_⟩
            · rw [h2, List.take_append_of_le_length hn, List.drop_append_of_le_length hn]
              simp
            · intro i hi
              rw [List.take_succ_cons] at hi
              rcases List.mem_cons.mp hi with hi | hi
              · rw [hi]
                exact he
              · apply h3
                rw [List.take_append_of_le_length hn]
                exact hi
          · right
            have hk1 : k < rest.length := by omega
            refine ⟨k + 1, idx, by omega, ?_, ?_, hex, ?_⟩
            · rw [List.getElem?_cons_succ]
              rw [List.getElem?_append_left hk1] at hidx
              exact hidx
            · intro i hi
              rw [List.take_succ_cons] at hi
              rcases List.mem_cons.mp hi with hi | hi
              · rw [hi]
                exact he
              · apply hpre
                rw [List.take_append_of_le_length (by omega)]
                exact hi
            · rw [h2, List.take_append_of_le_length (by omega),
                List.drop_append_of_le_length (by omega)]
              simp

/-- The search returns when no entry of the list faults. -/
theorem getOptimalPullAddrLoop_ok (c : Config) (s : State) :
    ∀ (n : Nat) (active : List Int), n ≤ active.length →
      (∀ i ∈ active, ∃ o, examinePull c s i = .ok o) →
      ∃ r, getOptimalPullAddrLoop c s n active = .ok r := by
  intro n
  induction n with
  | zero =>
    intro active _ _
    exact ⟨_, rfl⟩
  | succ n ih =>
    intro active hlen hall
    cases active with
    | nil => simp at hlen
    | cons index rest =>
      rw [getOptimalPullAddrLoop_step]
      obtain ⟨o, ho⟩ := hall index (List.mem_cons_self _ _)
      rw [ho]
      cases o with
      | some r0 => exact ⟨_, rfl⟩
      | none =>
        simp only [Except.bind]
        apply ih
        · simp only [List.length_append, List.length_cons, List.length_nil] at hlen ⊢
          omega
        · intro i hi
          apply hall
          simp only [List.mem_append, List.mem_singleton] at hi
          rcases hi with hi | hi
          · exact List.mem_cons_of_mem _ hi
          · rw [hi]
            exact List.mem_cons_self _ _

/-- When the head of the active list can be served, `getOptimalPullAddr` returns the tuple
of the head and removes exactly the head from the list: `PENDING_READ` when a pull read of
its line is in flight, else `IN_CACHE` when its slot holds the line and is idle, else
`IN_MEMORY` when the `addr` field of its slot differs from the line's address (the three
`some` results of `examinePull`). -/
theorem head_served (c : Config) (s : State) (index : Int) (rest : List Int)
    (r : WorkLocation × Nat × Int) (ha : s.activeBits = index :: rest)
    (he : examinePull c s index = .ok (some r)) :
    getOptimalPullAddr c s = .ok (r, { s with activeBits := rest }) := by
  unfold getOptimalPullAddr
  rw [ha]
  simp only [List.length_cons]
  rw [getOptimalPullAddrLoop_step, he]
  rfl

/-- C23 (pull address selection) on a cold cache.  After `opsActiveZero` on the freshly
constructed cache of `cfgFold`, vertex 0 is the only active vertex; no pull read is in
flight, and line 0, the slot of address 0, is neither valid nor pending data, so the line of
the vertex is not cached at all.  `getOptimalPullAddr` does not return `IN_MEMORY`: the
`addr` field of the cold slot is 0, the address of the line, so the test
`cacheBlocks[block_index].addr != addr` of line 1085 fails, the entry is rotated, and the
answer is `GARBAGE` with the active list as it was. -/
theorem cold_line_zero_not_pulled :
    ∃ s0 blk, CoalesceEngine cfgFold = .ok s0 ∧
      run cfgFold s0 opsActiveZero = .ok stActiveZero ∧
      stActiveZero.activeBits = [0] ∧ stActiveZero.pendingVertexPullReads = [] ∧
      stActiveZero.block? 0 = some blk ∧ blk.valid = false ∧ blk.pendingData = false ∧
      getBlockAddrFromBitIndex cfgFold 0 = .ok 0 ∧ blockIndexOf cfgFold 0 = 0 ∧
      examinePull cfgFold stActiveZero 0 = .ok none ∧
      getOptimalPullAddr cfgFold stActiveZero = .ok ((.GARBAGE, 0, 0), stActiveZero) :=
  ⟨_, _, rfl, rfl, rfl, rfl, rfl, rfl, rfl, rfl, rfl, rfl, rfl⟩

/-- The search of `getOptimalPullAddr` in terms of its loop body (`examinePull`, lines
1058-1092): an entry can be served when the body returns a tuple for it.  The search
returns whenever no entry of the active list trips an assertion.  When it returns, with
`n` the length of the active list on entry: either all `n` entries were examined and none
could be served, the answer is `GARBAGE` and the state, the active list included, is as
before the call; or the entry at a position `k < n` was served after the `k` entries before
it were rotated, `k + 1` entries were examined, and the list is the old one without that
entry, rotated by `k`.  The answer is `GARBAGE` if and only if no entry of the list can be
served. -/
theorem pull_search_full_rotation (c : Config) (s : State) :
    ((∀ i ∈ s.activeBits, ∃ o, examinePull c s i = .ok o) →
      ∃ r, getOptimalPullAddr c s = .ok r) ∧
    ∀ (r : WorkLocation × Nat × Int) (s1 : State), getOptimalPullAddr c s = .ok (r, s1) →
      ((r = (.GARBAGE, 0, 0) ∧ s1 = s ∧ ∀ i ∈ s.activeBits, examinePull c s i = .ok none) ∨
       (∃ k idx, k < s.activeBits.length ∧ s.activeBits[k]? = some idx ∧
          (∀ i ∈ s.activeBits.take k, examinePull c s i = .ok none) ∧
          examinePull c s idx = .ok (some r) ∧
          s1 = { s with activeBits := s.activeBits.drop (k + 1) ++ s.activeBits.take k })) ∧
      (r.1 = .GARBAGE ↔ ∀ i ∈ s.activeBits, examinePull c s i = .ok none) ∧
      (r.1 = .GARBAGE → s1.activeBits = s.activeBits) := by
  refine ⟨fun hall => ?_, fun r s1 h => ?_⟩
  · obtain ⟨r, hr⟩ := getOptimalPullAddrLoop_ok c s _ _ (Nat.le_refl _) hall
    exact ⟨(r.1, { s with activeBits := r.2 }), by
      unfold getOptimalPullAddr
      rw [hr]
      rfl⟩
  · unfold getOptimalPullAddr at h
    simp only [Except.bind_ok_iff] at h
    obtain ⟨r0, hr0, h⟩ := h
    simp only [pure, Except.pure] at h
    cases h
    have hspec := getOptimalPullAddrLoop_spec c s _ _ r0.1 r0.2 (Nat.le_refl _) hr0
    have hmain : (r0.1 = (.GARBAGE, 0, 0) ∧ ({ s with activeBits := r0.2 } : State) = s ∧
          ∀ i ∈ s.activeBits, examinePull c s i = .ok none) ∨
        (∃ k idx, k < s.activeBits.length ∧ s.activeBits[k]? = some idx ∧
          (∀ i ∈ s.activeBits.take k, examinePull c s i = .ok none) ∧
          examinePull c s idx = .ok (some r0.1) ∧
          ({ s with activeBits := r0.2 } : State) =
            { s with activeBits := s.activeBits.drop (k + 1) ++ s.activeBits.take k }) := by
      rcases hspec with ⟨h1, h2, h3⟩ | ⟨k, idx, hk, hidx, hpre, hex, h2⟩
      · left
        simp only [List.drop_length, List.take_length, List.nil_append] at h2 h3
        exact ⟨h1, by rw [h2], h3⟩
      · right
        exact ⟨k, idx, hk, hidx, hpre, hex, by rw [h2]⟩
    refine ⟨hmain, ⟨fun hg => ?_, fun hall => ?_⟩, fun hg => ?_⟩
    · rcases hmain with ⟨_, _, h3⟩ | ⟨k, idx, _, _, _, hex, _⟩
      · exact h3
      · rcases examinePull_location c s idx r0.1 hex with h | h | h <;>
          rw [h] at hg <;> cases hg
    · rcases hmain with ⟨h1, _, _⟩ | ⟨k, idx, _, hidx, _, hex, _⟩
      · rw [h1]
      · have hmem : idx ∈ s.activeBits := List.mem_iff_getElem?.mpr ⟨k, hidx⟩
        rw [hall idx hmem] at hex
        cases hex
    · rcases hmain with ⟨_, h2, _⟩ | ⟨k, idx, _, _, _, hex, _⟩
      · exact congrArg State.activeBits h2
      · rcases examinePull_location c s idx r0.1 hex with h | h | h <;>
          rw [h] at hg <;> cases hg

theorem pull_search_full_rotation_witness :
    ∃ r, getOptimalPullAddr cfgFold stActiveZero = .ok r :=
  (pull_search_full_rotation cfgFold stActiveZero).1 (fun i hi =>
    ⟨none, by
      have e : i = 0 := by simpa [stActiveZero] using hi
      rw [e]
      rfl⟩)

/-! ### Bit indices and line addresses -/

theorem needsPushGet_ok {np : List Bool} {i : Int} {line : Nat} {b : Bool}
    (h : needsPushGet np i line = .ok b) : 0 ≤ i ∧ np[i.toNat]? = some b := by
  unfold needsPushGet at h
  split at h
  · cases h
  · split at h
    · rename_i hnp
      cases h
      exact ⟨by omega, hnp⟩
    · cases h

theorem needsPushGet_of_some {np : List Bool} {i : Int} {b : Bool} (line : Nat)
    (h0 : 0 ≤ i) (h : np[i.toNat]? = some b) : needsPushGet np i line = .ok b := by
  unfold needsPushGet
  rw [if_neg (by omega)]
  simp only [h]

/-- Without address interleaving, the line address computed from the base index of an
active vertex (line 1064) has that base index as its bit index base (lines 127-134): the
casts to `int` are exact for an index below `2 ^ 31`. -/
theorem getBitIndexBase_roundTrip {c : Config} (hc : c.wf)
    (hid : ∀ x, c.removeIntlvBits (c.addIntlvBits x) = x) (idx : Int) (addr : Nat)
    (h0 : 0 ≤ idx) (hlt : idx < 2 ^ 31)
    (ha : getBlockAddrFromBitIndex c (idx - Int.tmod idx (c.numElementsPerLine : Int)) =
      .ok addr)
    (hal : addr % c.peerMemoryAtomSize = 0) :
    getBitIndexBase c addr = .ok (idx - Int.tmod idx (c.numElementsPerLine : Int)) := by
  obtain ⟨_, hK, hdvd⟩ := hc
  have hKpos := isPowerOf2_pos hK
  obtain ⟨i, rfl⟩ := Int.eq_ofNat_of_zero_le h0
  have hi : i < 2 ^ 31 := by exact_mod_cast hlt
  have hatom : c.peerMemoryAtomSize = c.numElementsPerLine * 16 := by
    unfold Config.numElementsPerLine sizeofWorkListItem
    unfold sizeofWorkListItem at hdvd
    exact (Nat.div_mul_cancel hdvd).symm
  have hmod : Int.tmod (i : Int) (c.numElementsPerLine : Int) =
      ((i % c.numElementsPerLine : Nat) : Int) := rfl
  have hle : i % c.numElementsPerLine ≤ i := Nat.mod_le _ _
  have hbase : (i : Int) - ((i % c.numElementsPerLine : Nat) : Int) =
      ((i - i % c.numElementsPerLine : Nat) : Int) := by omega
  rw [hmod, hbase] at ha ⊢
  generalize hb : i - i % c.numElementsPerLine = b at ha ⊢
  have hbi : b ≤ i := by omega
  have hdiv : c.numElementsPerLine ∣ b := by
    rw [← hb]
    exact Nat.dvd_sub_mod i
  unfold getBlockAddrFromBitIndex at ha
  simp only [Except.bind_ok_iff, assert_ok_iff, exists_and_left, exists_const] at ha
  obtain ⟨_, ha⟩ := ha
  simp only [pure, Except.pure] at ha
  have htrim : (((b : Int) * (sizeofWorkListItem : Int)) % (2 ^ 64 : Int)).toNat = b * 16 := by
    unfold sizeofWorkListItem
    have e : ((b : Int) * ((16 : Nat) : Int)) % (2 ^ 64 : Int) = ((b * 16 : Nat) : Int) := by
      rw [Int.emod_eq_of_lt]
      · push_cast
        rfl
      · positivity
      · push_cast
        omega
    rw [e]
    rfl
  rw [htrim] at ha
  have haddr : addr = c.addIntlvBits (b * 16) := by
    cases ha
    rfl
  unfold getBitIndexBase
  simp only [assert, hal, beq_self_eq_true, if_true, bind, Except.bind, pure, Except.pure]
  rw [haddr, hid, hatom]
  have hq : b * 16 / (c.numElementsPerLine * 16) = b / c.numElementsPerLine :=
    Nat.mul_div_mul_right _ _ (by norm_num)
  have hK16 : c.numElementsPerLine * 16 / sizeofWorkListItem = c.numElementsPerLine := by
    unfold sizeofWorkListItem
    exact Nat.mul_div_cancel _ (by norm_num)
  rw [hq, hK16]
  have hql : b / c.numElementsPerLine ≤ b := Nat.div_le_self _ _
  rw [toInt32_of_lt (by omega)]
  congr 1
  rcases Nat.eq_zero_or_pos b with hz | hpos
  · rw [hz]
    simp
  · have hKb : c.numElementsPerLine ≤ b := Nat.le_of_dvd hpos hdiv
    rw [toInt32_of_lt (by omega)]
    have := Nat.div_mul_cancel hdiv
    exact_mod_cast this

/-! ### A pull served from the cache -/

/-- What `examinePull` has checked when it answers `IN_CACHE`. -/
theorem examinePull_inCache (c : Config) (s : State) (idx : Int) (loc : Nat) (o : Int)
    (h : examinePull c s idx = .ok (some (.IN_CACHE, loc, o))) :
    ∃ addr blk, needsPushGet s.needsPush idx 1061 = .ok true ∧
      o = Int.tmod idx (c.numElementsPerLine : Int) ∧ o < (c.numElementsPerLine : Int) ∧
      getBlockAddrFromBitIndex c (idx - Int.tmod idx (c.numElementsPerLine : Int)) =
        .ok addr ∧
      addr % c.peerMemoryAtomSize = 0 ∧ s.block? (toInt32 loc) = some blk ∧
      blk.addr = addr ∧ blk.idle := by
  unfold examinePull at h
  simp only [Except.bind_ok_iff, assert_ok_iff, exists_and_left, exists_const] at h
  obtain ⟨b, hb, hbt, ho, addr, haddr, bi, hbi, h⟩ := h
  have hal : addr % c.peerMemoryAtomSize = 0 := by
    unfold getBlockIndex at hbi
    simp only [Except.bind_ok_iff, assert_ok_iff, exists_and_left, exists_const] at hbi
    simpa using hbi.1
  split at h
  · simp only [Except.bind_ok_iff, assert_ok_iff, exists_and_left, exists_const] at h
    obtain ⟨_, h⟩ := h
    simp only [pure, Except.pure] at h
    cases h
  · simp only [Except.bind_ok_iff, assert_ok_iff, exists_and_left, exists_const] at h
    obtain ⟨blk, hblk, h⟩ := h
    have hbk := State.block_ok hblk
    split at h
    · rename_i hidle
      simp only [Except.bind_ok_iff, assert_ok_iff, exists_and_left, exists_const] at h
      obtain ⟨_, _, h⟩ := h
      simp only [pure, Except.pure] at h
      cases h
      obtain ⟨h0, _, _⟩ := State.block?_some hbk
      have hlt : bi < 2 ^ 31 := by
        rw [getBlockIndex_ok hbi]
        exact blockIndexOf_lt_two_pow c addr
      simp only [Bool.and_eq_true, beq_iff_eq, Bool.not_eq_true'] at hidle
      have hbe : b = true := by simpa using hbt
      rw [hbe] at hb
      refine ⟨addr, blk, hb, by omega, by simpa using ho, haddr, hal, ?_,
        hidle.1.1.1.1, ⟨hidle.1.1.1.2, hidle.1.1.2, hidle.1.2, hidle.2⟩⟩
      rw [toInt32_of_index h0 hlt]
      exact hbk
    · split at h
      · simp only [pure, Except.pure] at h
        cases h
      · simp only [pure, Except.pure] at h
        cases h

/-- The `IN_CACHE` case of `processNextVertexPull` returns when the line, the bit and the
slot exist, and this is its result. -/
theorem pullInCache_ok (c : Config) (s : State) (loc : Nat) (o base : Int) (blk : Block)
    (item : WorkListItem) (b : Bool)
    (hb : s.block? (toInt32 loc) = some blk) (hbase : getBitIndexBase c blk.addr = .ok base)
    (h0 : 0 ≤ base + o) (hbit : s.needsPush[(base + o).toNat]? = some b)
    (hitem : blk.items[o.toNat]? = some item) :
    ∃ s1, pullInCache c s loc o = .ok s1 ∧
      s1.needsPush = s.needsPush.set (base + o).toNat false ∧
      s1.workCount = s.workCount - 1 ∧ s1.numPullsReceived = s.numPullsReceived - 1 ∧
      s1.block? (toInt32 loc) =
        some { blk with items := blk.items.set o.toNat (c.prePushApply item).2,
                        needsWB := blk.needsWB || (c.prePushApply item).1.2.2 } ∧
      s1.memPortSent = s.memPortSent ∧ s1.activeBits = s.activeBits ∧
      s1.ownerCalls = s.ownerCalls ++
        [pushCall c ((blk.addr + o.toNat * sizeofWorkListItem) % 2 ^ 64) item] := by
  unfold pullInCache
  simp only [State.block_of_some _ hb, hbase, needsPushGet_of_some _ h0 hbit, hitem, bind,
    Except.bind, pure, Except.pure]
  refine ⟨_, rfl, rfl, rfl, rfl, ?_, rfl, rfl, rfl⟩
  exact State.block?_setBlock
    (s := { s with needsPush := s.needsPush.set (base + o).toNat false,
                   workCount := s.workCount - 1 }) hb

/-- C22 (pull served from cache).  Let the engine be without address interleaving, with a
work bitvector that an `int` can index, and let `getOptimalPullAddr` return
`(IN_CACHE, loc, o)` in state `s`.  Then `loc` is the index of a line `blk`, `base` is the
bit index base of the line's address, slot `o` holds an item, and `processNextVertexPull`
returns a state in which bit `base + o` of the work bitvector is clear, the work count and
the count of pulls received are one less, the line has `needsWB` or-ed with the `do_wb` of
`prePushApply` (and the slot as `prePushApply` left it), no packet has been sent to memory,
and the one call made into the push engine is `recvVertexPush(addr + o * 16, delta,
edgeIndex, degree)` when `prePushApply` asks for a push and `recvPrevPullCorrection`
otherwise. -/
theorem pull_served_from_cache (c : Config) (now : Nat) (s sA : State) (i : Int) (t : Nat)
    (loc : Nat) (o : Int) (hc : c.wf) (hs : s.wf c)
    (hid : ∀ x, c.removeIntlvBits (c.addIntlvBits x) = x)
    (hsize : s.needsPush.length < 2 ^ 31)
    (hg : getOptimalPullAddr c s = .ok ((.IN_CACHE, loc, o), sA)) :
    ∃ blk base item s1, s.block? (toInt32 loc) = some blk ∧
      getBitIndexBase c blk.addr = .ok base ∧ 0 ≤ o ∧ 0 ≤ base + o ∧
      s.needsPush[(base + o).toNat]? = some true ∧ blk.items[o.toNat]? = some item ∧
      processNextVertexPull c now s i t = .ok s1 ∧
      s1.needsPush = s.needsPush.set (base + o).toNat false ∧
      s1.workCount = s.workCount - 1 ∧ s1.numPullsReceived = s.numPullsReceived - 1 ∧
      s1.block? (toInt32 loc) =
        some { blk with items := blk.items.set o.toNat (c.prePushApply item).2,
                        needsWB := blk.needsWB || (c.prePushApply item).1.2.2 } ∧
      s1.memPortSent = s.memPortSent ∧
      s1.ownerCalls = s.ownerCalls ++
        [pushCall c ((blk.addr + o.toNat * sizeofWorkListItem) % 2 ^ 64) item] := by
  have hg0 := hg
  unfold getOptimalPullAddr at hg
  simp only [Except.bind_ok_iff] at hg
  obtain ⟨r0, hr0, hg⟩ := hg
  simp only [pure, Except.pure, Except.ok.injEq, Prod.mk.injEq] at hg
  obtain ⟨hr1, hsA⟩ := hg
  subst hsA
  obtain ⟨idx, hex⟩ : ∃ idx, examinePull c s idx = .ok (some r0.1) := by
    rcases getOptimalPullAddrLoop_spec c s _ _ r0.1 r0.2 (Nat.le_refl _) hr0 with
      ⟨h1, _, _⟩ | ⟨k, idx, _, _, _, hex, _⟩
    · rw [h1] at hr1
      cases hr1
    · exact ⟨idx, hex⟩
  rw [hr1] at hex
  obtain ⟨addr, blk, hnp, ho, holt, haddr, hal, hb, hba, _⟩ :=
    examinePull_inCache c s idx loc o hex
  obtain ⟨hi0, hbit⟩ := needsPushGet_ok hnp
  have hilt : idx.toNat < s.needsPush.length := (List.getElem?_eq_some_iff.mp hbit).1
  have hidx : idx < 2 ^ 31 := by omega
  have hbase := getBitIndexBase_roundTrip hc hid idx addr hi0 hidx haddr hal
  rw [← hba] at hbase
  have ho0 : 0 ≤ o := by
    rw [ho]
    exact Int.tmod_nonneg _ hi0
  have hsum : idx - Int.tmod idx (c.numElementsPerLine : Int) + o = idx := by omega
  have hlen : blk.items.length = c.numElementsPerLine := (hs.2 blk (State.block?_mem hb)).1
  have hol : o.toNat < blk.items.length := by omega
  have hitem : blk.items[o.toNat]? = some blk.items[o.toNat] :=
    List.getElem?_eq_getElem hol
  have hbit1 : s.needsPush[(idx - Int.tmod idx (c.numElementsPerLine : Int) + o).toNat]? =
      some true := by
    rw [hsum]
    exact hbit
  obtain ⟨s2, hs2, e1, e2, e3, e4, e5, _, e7⟩ :=
    pullInCache_ok c { s with activeBits := r0.2 } loc o _ blk _ true hb hbase
      (by omega) hbit1 hitem
  have hcall : ∃ s1, processNextVertexPull c now s i t = .ok s1 ∧
      (s1 = s2 ∨ s1 = s2.pushMemoryFunction .nextVertexPull 0 now) := by
    unfold processNextVertexPull
    rw [hg0]
    simp only [bind, Except.bind, hs2, pure, Except.pure]
    split
    · exact ⟨_, rfl, Or.inr rfl⟩
    · exact ⟨_, rfl, Or.inl rfl⟩
  obtain ⟨s1, hs1, hor⟩ := hcall
  refine ⟨blk, _, _, s1, hb, hbase, ho0, by omega, hbit1, hitem, hs1, ?_⟩
  rcases hor with h | h <;> rw [h]
  · exact ⟨e1, e2, e3, e4, e5, e7⟩
  · exact ⟨e1, e2, e3, e4, e5, e7⟩

theorem pull_served_from_cache_witness :
    ∃ blk base item s1, stPullReady.block? (toInt32 1) = some blk ∧
      getBitIndexBase cfgPull blk.addr = .ok base ∧ blk.items[(0 : Int).toNat]? = some item ∧
      processNextVertexPull cfgPull 8000 stPullReady 0 7000 = .ok s1 ∧
      s1.needsPush = stPullReady.needsPush.set (base + 0).toNat false ∧
      s1.memPortSent = stPullReady.memPortSent :=
  match pull_served_from_cache cfgPull 8000 stPullReady _ 0 7000 1 0 (by decide) (by decide)
      (fun _ => rfl) (by decide) rfl with
  | ⟨blk, base, item, s1, h1, h2, _, _, _, h6, h7, h8, _, _, _, h12, _⟩ =>
    ⟨blk, base, item, s1, h1, h2, h6, h7, h8, h12⟩

/-! ### The response of a pull read -/

theorem maskedSlots_succ (m i n : Nat) :
    maskedSlots m i (n + 1) =
      if m &&& bit i != 0 then i :: maskedSlots m (i + 1) n else maskedSlots m (i + 1) n := by
  unfold maskedSlots
  rw [List.range'_succ, List.filter_cons]

theorem lt_of_mem_maskedSlots {m i n j : Nat} (h : j ∈ maskedSlots m i n) :
    i ≤ j ∧ j < i + n ∧ m &&& bit j ≠ 0 := by
  unfold maskedSlots at h
  rw [List.mem_filter, List.mem_range'_1] at h
  exact ⟨h.1.1, h.1.2, by simpa using h.2⟩

theorem any_congr_mem {α : Type} (l : List α) (f g : α → Bool)
    (h : ∀ x ∈ l, f x = g x) : l.any f = l.any g := by
  induction l with
  | nil => rfl
  | cons x xs ih =>
    simp only [List.any_cons]
    rw [h x (List.mem_cons_self _ _), ih (fun y hy => h y (List.mem_cons_of_mem _ hy))]

/-- The loop of `handleMemResp` over the slots of a pull-read response, in closed form.
When every slot named by the send mask has its bit set in the work bitvector and an item in
the packet, the loop returns: these bits are cleared, the work count is reduced by their
number, one call is made into the push engine per slot, in increasing slot order, with the
item of the packet, and `do_wb` is the disjunction of the slots' `do_wb`. -/
theorem pullRespLoop_spec (c : Config) (addr : Nat) (it : Int) (m : Nat) :
    ∀ (n i : Nat) (s : State) (items : List WorkListItem) (d : Bool),
      (∀ j ∈ maskedSlots m i n, 0 ≤ it + (j : Int) ∧
        s.needsPush[(it + (j : Int)).toNat]? = some true ∧ j < items.length) →
      pullRespLoop c addr it m n i s items d = .ok
        ({ s with
           needsPush := (maskedSlots m i n).foldl
             (fun (np : List Bool) (j : Nat) => np.set (it + (j : Int)).toNat false) s.needsPush,
           workCount := s.workCount - ((maskedSlots m i n).length : Int),
           ownerCalls := s.ownerCalls ++ (maskedSlots m i n).map
             (fun (j : Nat) => pushCall c (addr + j * sizeofWorkListItem) (items.getD j {})) },
         (maskedSlots m i n).foldl
           (fun (its : List WorkListItem) (j : Nat) =>
             its.set j (c.prePushApply (its.getD j {})).2) items,
         d || (maskedSlots m i n).any
           (fun (j : Nat) => (c.prePushApply (items.getD j {})).1.2.2)) := by
  intro n
  induction n with
  | zero =>
    intro i s items d _
    have e : maskedSlots m i 0 = [] := rfl
    simp only [pullRespLoop, pure, Except.pure, e, List.foldl_nil, List.length_nil,
      List.map_nil, List.append_nil, List.any_nil, Bool.or_false, Int.ofNat_zero,
      Int.sub_zero, Nat.cast_zero]
  | succ n ih =>
    intro i s items d hpre
    rw [maskedSlots_succ] at hpre ⊢
    unfold pullRespLoop
    by_cases hm : (m &&& bit i != 0) = true
    · rw [if_pos hm] at hpre ⊢
      rw [if_pos hm]
      obtain ⟨h0, hbit, hlen⟩ := hpre i (List.mem_cons_self _ _)
      have hitem : items[i]? = some items[i] := List.getElem?_eq_getElem hlen
      have hgetD : items.getD i {} = items[i] := by
        rw [List.getD_eq_getElem?_getD, hitem]
        rfl
      have hrest : ∀ j ∈ maskedSlots m (i + 1) n, i < j := fun j hj =>
        (lt_of_mem_maskedSlots hj).1
      have hpre1 : ∀ j ∈ maskedSlots m (i + 1) n, 0 ≤ it + (j : Int) ∧
          (s.needsPush.set (it + (i : Int)).toNat false)[(it + (j : Int)).toNat]? =
            some true ∧ j < (items.set i (c.prePushApply items[i]).2).length := by
        intro j hj
        obtain ⟨g0, gbit, glen⟩ := hpre j (List.mem_cons_of_mem _ hj)
        have hij := hrest j hj
        refine ⟨g0, ?_, by simpa using glen⟩
        rw [List.getElem?_set_ne (by omega)]
        exact gbit
      have hmap : ∀ j ∈ maskedSlots m (i + 1) n,
          (items.set i (c.prePushApply items[i]).2).getD j {} = items.getD j {} := by
        intro j hj
        have hij := hrest j hj
        rw [List.getD_eq_getElem?_getD, List.getD_eq_getElem?_getD,
          List.getElem?_set_ne (by omega)]
      simp only [needsPushGet_of_some 474 h0 hbit, assert, beq_self_eq_true, if_true, bind,
        Except.bind, hitem]
      have hih := ih (i + 1)
        { s with needsPush := s.needsPush.set (it + (i : Int)).toNat false,
                 workCount := s.workCount - 1,
                 ownerCalls := s.ownerCalls ++
                   [pushCall c (addr + i * sizeofWorkListItem) items[i]] }
        (items.set i (c.prePushApply items[i]).2)
        (d || (c.prePushApply items[i]).1.2.2) hpre1
      have hcall : (if (c.prePushApply items[i]).1.2.1 = true then
            OwnerCall.recvVertexPush (addr + i * sizeofWorkListItem)
              (c.prePushApply items[i]).1.1 (c.prePushApply items[i]).2.edgeIndex
              (c.prePushApply items[i]).2.degree
          else OwnerCall.recvPrevPullCorrection) =
          pushCall c (addr + i * sizeofWorkListItem) items[i] := rfl
      rw [hcall]
      refine hih.trans ?_
      simp only [List.foldl_cons, List.length_cons, List.map_cons, List.any_cons, hgetD,
        List.append_assoc, List.singleton_append, Bool.or_assoc, Nat.cast_add, Nat.cast_one]
      rw [List.map_congr_left (fun j hj => by rw [hmap j hj])]
      have hany : (maskedSlots m (i + 1) n).any
            (fun (j : Nat) => (c.prePushApply
              ((items.set i (c.prePushApply items[i]).2).getD j {})).1.2.2) =
          (maskedSlots m (i + 1) n).any
            (fun (j : Nat) => (c.prePushApply (items.getD j {})).1.2.2) :=
        any_congr_mem _ _ _ (fun j hj => by rw [hmap j hj])
      rw [hany]
      have hwc : s.workCount - 1 - ((maskedSlots m (i + 1) n).length : Int) =
          s.workCount - (((maskedSlots m (i + 1) n).length : Int) + 1) := by omega
      rw [hwc]
    · rw [if_neg hm] at hpre ⊢
      rw [if_neg hm]
      exact ih (i + 1) s items d hpre

theorem pullFind_filter_self (m : List (Nat × Nat)) (a : Nat) :
    pullFind (m.filter (fun e => e.1 != a)) a = none := by
  induction m with
  | nil => rfl
  | cons e rest ih =>
    obtain ⟨k, v⟩ := e
    rw [List.filter_cons]
    by_cases h : k = a
    · simp only [h, bne_self_eq_false, Bool.false_eq_true, if_false]
      exact ih
    · have hk : (k != a) = true := by simpa using h
      simp only [hk, if_true, pullFind, h, if_false]
      exact ih

theorem pullFind_filter_ne (m : List (Nat × Nat)) (a b : Nat) (hab : b ≠ a) :
    pullFind (m.filter (fun e => e.1 != a)) b = pullFind m b := by
  induction m with
  | nil => rfl
  | cons e rest ih =>
    obtain ⟨k, v⟩ := e
    rw [List.filter_cons]
    by_cases h : k = a
    · subst h
      have hkb : ¬ k = b := fun e => hab e.symm
      simp only [bne_self_eq_false, Bool.false_eq_true, if_false, pullFind]
      rw [if_neg hkb]
      exact ih
    · have hk : (k != a) = true := by simpa using h
      simp only [hk, if_true, pullFind]
      rw [ih]

theorem State.scheduleResponseEvent_cases (s : State) :
    s.scheduleResponseEvent = s ∨
      s.scheduleResponseEvent = { s with nextResponseEventScheduled := true } := by
  unfold State.scheduleResponseEvent
  split
  · exact Or.inr rfl
  · exact Or.inl rfl

/-- The bits of the work bitvector that the loop over the slots `l` does not name are
unchanged, and the bits it names are clear. -/
theorem foldl_clear_bits (it : Int) (l : List Nat) :
    ∀ (np : List Bool),
      (∀ k, (∀ j ∈ l, (it + (j : Int)).toNat ≠ k) →
        (l.foldl (fun (np : List Bool) (j : Nat) => np.set (it + (j : Int)).toNat false)
          np)[k]? = np[k]?) ∧
      (∀ j ∈ l, (it + (j : Int)).toNat < np.length →
        (l.foldl (fun (np : List Bool) (j : Nat) => np.set (it + (j : Int)).toNat false)
          np)[(it + (j : Int)).toNat]? = some false) := by
  induction l with
  | nil =>
    intro np
    exact ⟨fun _ _ => rfl, fun j hj => absurd hj (List.not_mem_nil _)⟩
  | cons x xs ih =>
    intro np
    obtain ⟨ih1, ih2⟩ := ih (np.set (it + (x : Int)).toNat false)
    refine ⟨fun k hk => ?_, fun j hj hlt => ?_⟩
    · rw [List.foldl_cons, ih1 k (fun j hj => hk j (List.mem_cons_of_mem _ hj)),
        List.getElem?_set_ne (hk x (List.mem_cons_self _ _))]
    · rw [List.foldl_cons]
      by_cases hmem : j ∈ xs
      · exact ih2 j hmem (by simpa using hlt)
      · rcases List.mem_cons.mp hj with hj | hj
        · by_cases hk : ∀ j' ∈ xs, (it + (j' : Int)).toNat ≠ (it + (j : Int)).toNat
          · rw [ih1 _ hk, hj, List.getElem?_set_eq_of_lt]
            rw [← hj]
            exact hlt
          · push_neg at hk
            obtain ⟨j', hj', he⟩ := hk
            rw [← he]
            exact ih2 j' hj' (by rw [he]; simpa using hlt)
        · exact absurd hj hmem

/-- The pull part of `handleMemResp` returns when the line does not hold the address as a
valid line and the slots of the send mask have their bits and items. -/
theorem handlePullResp_ok (c : Config) (s : State) (a : Nat) (blk : Block)
    (items : List WorkListItem) (it : Int)
    (hnot : ¬ (blk.addr = a ∧ blk.valid = true)) (hit : getBitIndexBase c a = .ok it)
    (hpre : ∀ j ∈ maskedSlots ((pullFind s.pendingVertexPullReads a).getD 0) 0
        c.numElementsPerLine,
      0 ≤ it + (j : Int) ∧ s.needsPush[(it + (j : Int)).toNat]? = some true ∧
        j < items.length) :
    handlePullResp c s a blk items = .ok
      ({ s with
         needsPush := (maskedSlots ((pullFind s.pendingVertexPullReads a).getD 0) 0
             c.numElementsPerLine).foldl
           (fun (np : List Bool) (j : Nat) => np.set (it + (j : Int)).toNat false)
           s.needsPush,
         workCount := s.workCount -
           ((maskedSlots ((pullFind s.pendingVertexPullReads a).getD 0) 0
             c.numElementsPerLine).length : Int),
         ownerCalls := s.ownerCalls ++
           (maskedSlots ((pullFind s.pendingVertexPullReads a).getD 0) 0
             c.numElementsPerLine).map
             (fun (j : Nat) => pushCall c (a + j * sizeofWorkListItem) (items.getD j {})),
         pendingVertexPullReads := s.pendingVertexPullReads.filter (fun e => e.1 != a),
         maxPotentialPostPushWB := s.maxPotentialPostPushWB - 1 },
       (maskedSlots ((pullFind s.pendingVertexPullReads a).getD 0) 0
           c.numElementsPerLine).foldl
         (fun (its : List WorkListItem) (j : Nat) =>
           its.set j (c.prePushApply (its.getD j {})).2) items,
       (maskedSlots ((pullFind s.pendingVertexPullReads a).getD 0) 0
           c.numElementsPerLine).any
         (fun (j : Nat) => (c.prePushApply (items.getD j {})).1.2.2)) := by
  have hna : (!(blk.addr == a && blk.valid)) = true := by
    cases hv : blk.valid
    · simp
    · have : blk.addr ≠ a := fun e => hnot ⟨e, hv⟩
      simp [this]
  unfold handlePullResp
  simp only [assert, hna, if_true, hit, bind, Except.bind,
    pullRespLoop_spec c a it _ _ 0 s items false hpre, pure, Except.pure, Bool.false_or]

theorem getBitIndexBase_aligned {c : Config} {addr : Nat}
    (h : addr % c.peerMemoryAtomSize = 0) :
    getBitIndexBase c addr = .ok (bitIndexBaseOf c addr) := by
  unfold getBitIndexBase
  simp [assert, h, bind, Except.bind, pure, Except.pure, bitIndexBaseOf]

theorem State.scheduleMemoryEvent_cases (s : State) :
    s.scheduleMemoryEvent = s ∨
      s.scheduleMemoryEvent = { s with nextMemoryEventScheduled := true } := by
  unfold State.scheduleMemoryEvent
  split
  · exact Or.inr rfl
  · exact Or.inl rfl

theorem foldl_set_length (c : Config) (l : List Nat) :
    ∀ (items : List WorkListItem),
      (l.foldl (fun (its : List WorkListItem) (j : Nat) =>
        its.set j (c.prePushApply (its.getD j {})).2) items).length = items.length := by
  induction l with
  | nil => intro items; rfl
  | cons x xs ih =>
    intro items
    rw [List.foldl_cons, ih]
    simp

/-- C21 (pull-read response).  Let `a` be a line-aligned address, `blk` its direct-mapped
line, not holding `a` as a valid line, and let the response carry `K` items.  Let every
slot of the recorded send mask have its bit set in the work bitvector (and, when the line
waits for the data of `a`, let it have its MSHR entry).  Then `handleMemResp` returns
`true` on the pull-tagged response, and in the state it returns: the bitvector bits
`base(a) + i` of the masked slots are clear and all other bits are unchanged; the work count
is reduced by the number of masked slots; the calls made into the push engine are, in
increasing slot order, `recvVertexPush(a + 16 i, delta, edgeIndex, degree)` or
`recvPrevPullCorrection` as `prePushApply(items[i])` tells; the pending-pull entry of `a`
is removed and the others are unchanged; and the post-push writeback queue and the
memory-function queue each get one entry appended (the write of `a` with the items as
`prePushApply` left them, and `processNextPostPushWB`) if some masked slot asked for a
writeback and the line's address is not `a`, and are unchanged otherwise. -/
theorem pull_read_response (c : Config) (now : Nat) (s : State) (a : Nat)
    (items : List WorkListItem) (blk : Block) (hc : c.wf)
    (ha : a % c.peerMemoryAtomSize = 0)
    (hb : s.block? (blockIndexOf c a) = some blk)
    (hnot : ¬ (blk.addr = a ∧ blk.valid = true))
    (hlen : items.length = c.numElementsPerLine)
    (hbits : ∀ j ∈ pullSlots c s a, 0 ≤ bitIndexBaseOf c a + (j : Int) ∧
      s.needsPush[(bitIndexBaseOf c a + (j : Int)).toNat]? = some true)
    (hfill : blk.addr = a →
      blk.awaitsData ∧ ∃ ts, mshrFind s.MSHR (blockIndexOf c a) = some ts) :
    ∃ s1, handleMemResp c now s (.read a items true) = .ok (true, s1) ∧
      (∀ j ∈ pullSlots c s a,
        s1.needsPush[(bitIndexBaseOf c a + (j : Int)).toNat]? = some false) ∧
      (∀ k, (∀ j ∈ pullSlots c s a, (bitIndexBaseOf c a + (j : Int)).toNat ≠ k) →
        s1.needsPush[k]? = s.needsPush[k]?) ∧
      s1.workCount = s.workCount - ((pullSlots c s a).length : Int) ∧
      s1.ownerCalls = s.ownerCalls ++ (pullSlots c s a).map
        (fun (j : Nat) => pushCall c (a + j * sizeofWorkListItem) (items.getD j {})) ∧
      pullFind s1.pendingVertexPullReads a = none ∧
      (∀ b, b ≠ a → pullFind s1.pendingVertexPullReads b =
        pullFind s.pendingVertexPullReads b) ∧
      s1.postPushWBQueue = s.postPushWBQueue ++
        (if pullDoWB c s a items = true ∧ blk.addr ≠ a then
          [(MemPacket.write a c.peerMemoryAtomSize (pullItems c s a items), now)]
        else []) ∧
      s1.memoryFunctionQueue = s.memoryFunctionQueue ++
        (if pullDoWB c s a items = true ∧ blk.addr ≠ a then [⟨.nextPostPushWB, 0, now⟩]
        else []) := by
  have hpre : ∀ j ∈ maskedSlots
      ((pullFind ({ s with onTheFlyReqs := s.onTheFlyReqs - 1 } : State
        ).pendingVertexPullReads a).getD 0) 0 c.numElementsPerLine,
      0 ≤ bitIndexBaseOf c a + (j : Int) ∧
      ({ s with onTheFlyReqs := s.onTheFlyReqs - 1 } : State).needsPush[
        (bitIndexBaseOf c a + (j : Int)).toNat]? = some true ∧ j < items.length := by
    intro j hj
    obtain ⟨h1, h2⟩ := hbits j hj
    have := (lt_of_mem_maskedSlots hj).2.1
    exact ⟨h1, h2, by omega⟩
  have hP := handlePullResp_ok c { s with onTheFlyReqs := s.onTheFlyReqs - 1 } a blk items
    (bitIndexBaseOf c a) hnot (getBitIndexBase_aligned ha) hpre
  have hb0 : ({ s with onTheFlyReqs := s.onTheFlyReqs - 1 } : State).block
      (blockIndexOf c a) 460 = .ok blk := State.block_of_some 460 hb
  obtain ⟨hsame, hclear⟩ := foldl_clear_bits (bitIndexBaseOf c a) (pullSlots c s a) s.needsPush
  have hclr1 : ∀ j ∈ pullSlots c s a,
      ((pullSlots c s a).foldl
        (fun (np : List Bool) (j : Nat) => np.set (bitIndexBaseOf c a + (j : Int)).toNat false)
        s.needsPush)[(bitIndexBaseOf c a + (j : Int)).toNat]? = some false :=
    fun j hj => hclear j hj (List.getElem?_eq_some_iff.mp (hbits j hj).2).1
  have hf1 := pullFind_filter_self s.pendingVertexPullReads a
  have hf2 := pullFind_filter_ne s.pendingVertexPullReads a
  unfold handleMemResp
  simp only [getBlockIndex_aligned ha, bind, Except.bind, hb0, if_true, hP]
  by_cases hadd : blk.addr = a
  · have hbeq : (blk.addr == a) = true := by simp [hadd]
    have hcond : ¬ (pullDoWB c s a items = true ∧ blk.addr ≠ a) := fun h => h.2 hadd
    simp only [hbeq, if_true, if_neg hcond, List.append_nil]
    obtain ⟨hw, ts, hts⟩ := hfill hadd
    generalize hsP : ({ s with
        onTheFlyReqs := s.onTheFlyReqs - 1,
        needsPush := (maskedSlots ((pullFind s.pendingVertexPullReads a).getD 0) 0
            c.numElementsPerLine).foldl
          (fun (np : List Bool) (j : Nat) =>
            np.set (bitIndexBaseOf c a + (j : Int)).toNat false) s.needsPush,
        workCount := s.workCount -
          ((maskedSlots ((pullFind s.pendingVertexPullReads a).getD 0) 0
            c.numElementsPerLine).length : Int),
        ownerCalls := s.ownerCalls ++
          (maskedSlots ((pullFind s.pendingVertexPullReads a).getD 0) 0
            c.numElementsPerLine).map
            (fun (j : Nat) => pushCall c (a + j * sizeofWorkListItem) (items.getD j {})),
        pendingVertexPullReads := s.pendingVertexPullReads.filter (fun e => e.1 != a),
        maxPotentialPostPushWB := s.maxPotentialPostPushWB - 1 } : State) = sP
    have hsPm : mshrFind sP.MSHR (blockIndexOf c a) = some ts := by
      rw [← hsP]
      exact hts
    obtain ⟨s2, hs2⟩ := handleFill_ok c now sP (blockIndexOf c a) blk a
      ((maskedSlots ((pullFind s.pendingVertexPullReads a).getD 0) 0
          c.numElementsPerLine).foldl
        (fun (its : List WorkListItem) (j : Nat) =>
          its.set j (c.prePushApply (its.getD j {})).2) items)
      ((maskedSlots ((pullFind s.pendingVertexPullReads a).getD 0) 0
          c.numElementsPerLine).any
        (fun (j : Nat) => (c.prePushApply (items.getD j {})).1.2.2)) ts hw hsPm
      (fun t _ => by
        rw [foldl_set_length, hlen]
        exact wlOffsetOf_lt hc t)
    obtain ⟨_, ts', _, _, hs2e⟩ := handleFill_spec _ _ _ _ _ _ _ _ _ hs2
    simp only [hs2, pure, Except.pure]
    refine ⟨_, rfl, ?_⟩
    rw [hs2e, ← hsP]
    rcases State.scheduleResponseEvent_cases
      ({ ({ (({ s with
        onTheFlyReqs := s.onTheFlyReqs - 1,
        needsPush := (maskedSlots ((pullFind s.pendingVertexPullReads a).getD 0) 0
            c.numElementsPerLine).foldl
          (fun (np : List Bool) (j : Nat) =>
            np.set (bitIndexBaseOf c a + (j : Int)).toNat false) s.needsPush,
        workCount := s.workCount -
          ((maskedSlots ((pullFind s.pendingVertexPullReads a).getD 0) 0
            c.numElementsPerLine).length : Int),
        ownerCalls := s.ownerCalls ++
          (maskedSlots ((pullFind s.pendingVertexPullReads a).getD 0) 0
            c.numElementsPerLine).map
            (fun (j : Nat) => pushCall c (a + j * sizeofWorkListItem) (items.getD j {})),
        pendingVertexPullReads := s.pendingVertexPullReads.filter (fun e => e.1 != a),
        maxPotentialPostPushWB := s.maxPotentialPostPushWB - 1 } : State).setBlock
          (blockIndexOf c a) _) with responseQueue := _, MSHR := _ } : State) with
        MSHR := _ } : State) with h | h <;> rw [h] <;>
      exact ⟨hclr1, hsame, rfl, rfl, hf1, hf2, rfl, rfl⟩
  · have hbeq : (blk.addr == a) = false := by simp [hadd]
    simp only [hbeq, Bool.false_eq_true, if_false, pure, Except.pure]
    by_cases hwb : pullDoWB c s a items = true
    swap
    · have hwb' : (maskedSlots ((pullFind s.pendingVertexPullReads a).getD 0) 0
          c.numElementsPerLine).any
          (fun (j : Nat) => (c.prePushApply (items.getD j {})).1.2.2) = false := by
        simpa [pullDoWB, pullSlots, pullMask] using hwb
      have hq1 : (if pullDoWB c s a items = true ∧ blk.addr ≠ a then
            [(MemPacket.write a c.peerMemoryAtomSize (pullItems c s a items), now)]
          else []) = [] := if_neg (fun h => hwb h.1)
      have hq2 : (if pullDoWB c s a items = true ∧ blk.addr ≠ a then
            [(⟨.nextPostPushWB, 0, now⟩ : MemoryFunctionEntry)]
          else []) = [] := if_neg (fun h => hwb h.1)
      simp only [hq1, hq2, List.append_nil]
      simp only [hwb', Bool.false_eq_true, if_false]
      refine ⟨_, rfl, ?_⟩
      rcases State.scheduleResponseEvent_cases
        ({ ({ s with
          onTheFlyReqs := s.onTheFlyReqs - 1,
          needsPush := (maskedSlots ((pullFind s.pendingVertexPullReads a).getD 0) 0
              c.numElementsPerLine).foldl
            (fun (np : List Bool) (j : Nat) =>
              np.set (bitIndexBaseOf c a + (j : Int)).toNat false) s.needsPush,
          workCount := s.workCount -
            ((maskedSlots ((pullFind s.pendingVertexPullReads a).getD 0) 0
              c.numElementsPerLine).length : Int),
          ownerCalls := s.ownerCalls ++
            (maskedSlots ((pullFind s.pendingVertexPullReads a).getD 0) 0
              c.numElementsPerLine).map
              (fun (j : Nat) => pushCall c (a + j * sizeofWorkListItem) (items.getD j {})),
          pendingVertexPullReads := s.pendingVertexPullReads.filter (fun e => e.1 != a),
          maxPotentialPostPushWB := s.maxPotentialPostPushWB - 1 } : State) with
          MSHR := _ } : State) with h | h <;> rw [h] <;>
        exact ⟨hclr1, hsame, rfl, rfl, hf1, hf2, rfl, rfl⟩
    · have hwb' : (maskedSlots ((pullFind s.pendingVertexPullReads a).getD 0) 0
          c.numElementsPerLine).any
          (fun (j : Nat) => (c.prePushApply (items.getD j {})).1.2.2) = true := hwb
      have hq1 : (if pullDoWB c s a items = true ∧ blk.addr ≠ a then
            [(MemPacket.write a c.peerMemoryAtomSize (pullItems c s a items), now)]
          else []) =
          [(MemPacket.write a c.peerMemoryAtomSize (pullItems c s a items), now)] :=
        if_pos ⟨hwb, hadd⟩
      have hq2 : (if pullDoWB c s a items = true ∧ blk.addr ≠ a then
            [(⟨.nextPostPushWB, 0, now⟩ : MemoryFunctionEntry)]
          else []) = [⟨.nextPostPushWB, 0, now⟩] := if_pos ⟨hwb, hadd⟩
      simp only [hq1, hq2]
      simp only [hwb', if_true]
      refine ⟨_, rfl, ?_⟩
      unfold queuePostPushWB
      simp only []
      rcases State.scheduleMemoryEvent_cases
        (({ ({ s with
          onTheFlyReqs := s.onTheFlyReqs - 1,
          needsPush := (maskedSlots ((pullFind s.pendingVertexPullReads a).getD 0) 0
              c.numElementsPerLine).foldl
            (fun (np : List Bool) (j : Nat) =>
              np.set (bitIndexBaseOf c a + (j : Int)).toNat false) s.needsPush,
          workCount := s.workCount -
            ((maskedSlots ((pullFind s.pendingVertexPullReads a).getD 0) 0
              c.numElementsPerLine).length : Int),
          ownerCalls := s.ownerCalls ++
            (maskedSlots ((pullFind s.pendingVertexPullReads a).getD 0) 0
              c.numElementsPerLine).map
              (fun (j : Nat) => pushCall c (a + j * sizeofWorkListItem) (items.getD j {})),
          pendingVertexPullReads := s.pendingVertexPullReads.filter (fun e => e.1 != a),
          maxPotentialPostPushWB := s.maxPotentialPostPushWB - 1 } : State) with
          postPushWBQueue := _ } : State).pushMemoryFunction .nextPostPushWB 0 now)
        with h | h <;> rw [h]
      · rcases State.scheduleResponseEvent_cases
          ({ (({ ({ s with
            onTheFlyReqs := s.onTheFlyReqs - 1,
            needsPush := (maskedSlots ((pullFind s.pendingVertexPullReads a).getD 0) 0
                c.numElementsPerLine).foldl
              (fun (np : List Bool) (j : Nat) =>
                np.set (bitIndexBaseOf c a + (j : Int)).toNat false) s.needsPush,
            workCount := s.workCount -
              ((maskedSlots ((pullFind s.pendingVertexPullReads a).getD 0) 0
                c.numElementsPerLine).length : Int),
            ownerCalls := s.ownerCalls ++
              (maskedSlots ((pullFind s.pendingVertexPullReads a).getD 0) 0
                c.numElementsPerLine).map
                (fun (j : Nat) =>
                  pushCall c (a + j * sizeofWorkListItem) (items.getD j {})),
            pendingVertexPullReads := s.pendingVertexPullReads.filter (fun e => e.1 != a),
            maxPotentialPostPushWB := s.maxPotentialPostPushWB - 1 } : State) with
            postPushWBQueue := _ } : State).pushMemoryFunction .nextPostPushWB 0 now) with
            MSHR := _ } : State) with h2 | h2 <;> rw [h2] <;>
          exact ⟨hclr1, hsame, rfl, rfl, hf1, hf2, rfl, rfl⟩
      · rcases State.scheduleResponseEvent_cases
          ({ ({ (({ ({ s with
            onTheFlyReqs := s.onTheFlyReqs - 1,
            needsPush := (maskedSlots ((pullFind s.pendingVertexPullReads a).getD 0) 0
                c.numElementsPerLine).foldl
              (fun (np : List Bool) (j : Nat) =>
                np.set (bitIndexBaseOf c a + (j : Int)).toNat false) s.needsPush,
            workCount := s.workCount -
              ((maskedSlots ((pullFind s.pendingVertexPullReads a).getD 0) 0
                c.numElementsPerLine).length : Int),
            ownerCalls := s.ownerCalls ++
              (maskedSlots ((pullFind s.pendingVertexPullReads a).getD 0) 0
                c.numElementsPerLine).map
                (fun (j : Nat) =>
                  pushCall c (a + j * sizeofWorkListItem) (items.getD j {})),
            pendingVertexPullReads := s.pendingVertexPullReads.filter (fun e => e.1 != a),
            maxPotentialPostPushWB := s.maxPotentialPostPushWB - 1 } : State) with
            postPushWBQueue := _ } : State).pushMemoryFunction .nextPostPushWB 0 now) with
            nextMemoryEventScheduled := true } : State) with
            MSHR := _ } : State) with h2 | h2 <;> rw [h2] <;>
          exact ⟨hclr1, hsame, rfl, rfl, hf1, hf2, rfl, rfl⟩

theorem pull_read_response_witness :
    ∃ s1, handleMemResp cfgFold 4000 stPullInFlight (.read 192 itemsFar true) =
        .ok (true, s1) ∧
      s1.workCount =
        stPullInFlight.workCount - ((pullSlots cfgFold stPullInFlight 192).length : Int) ∧
      pullFind s1.pendingVertexPullReads 192 = none :=
  match pull_read_response cfgFold 4000 stPullInFlight 192 itemsFar (Block.init 4)
      (by decide) (by decide) rfl (by decide) rfl
      (by
        intro j hj
        have e : pullSlots cfgFold stPullInFlight 192 = [0] := by decide
        rw [e] at hj
        simp only [List.mem_singleton] at hj
        subst hj
        exact ⟨by decide, rfl⟩)
      (fun h => absurd h (by decide)) with
  | ⟨s1, h1, _, _, h4, _, h6, _⟩ => ⟨s1, h1, h4, h6⟩

/-! ### Entry points that leave the tables alone -/

theorem State.tables_scheduleMemoryEvent (s : State) :
    s.scheduleMemoryEvent.tables = s.tables := by
  unfold State.scheduleMemoryEvent
  split <;> rfl

theorem State.tables_scheduleResponseEvent (s : State) :
    s.scheduleResponseEvent.tables = s.tables := by
  unfold State.scheduleResponseEvent
  split <;> rfl

theorem recvWLWrite_tables (c : Config) (now : Nat) (s s1 : State) (addr : Nat)
    (w : WorkListItem) (h : recvWLWrite c now s addr w = .ok s1) : s1.tables = s.tables := by
  unfold recvWLWrite at h
  simp only [Except.bind_ok_iff, assert_ok_iff, exists_and_left, exists_const] at h
  obtain ⟨bi1, _, blk, _, _, _, _, _, _, _, _, h⟩ := h
  split at h
  · cases h
  · split at h
    · split at h
      · cases h
        rfl
      · simp only [Except.bind_ok_iff, assert_ok_iff, exists_and_left, exists_const] at h
        obtain ⟨_, h⟩ := h
        split at h
        · split at h
          · cases h
            rw [State.tables_scheduleMemoryEvent]
            rfl
          · split at h
            · cases h
            · cases h
              rw [State.tables_scheduleMemoryEvent]
              rfl
        · cases h
          rfl
    · cases h
      rfl

theorem processNextResponseEvent_tables (c : Config) (now : Nat) (s s1 : State)
    (h : processNextResponseEvent c now s = .ok s1) : s1.tables = s.tables := by
  unfold processNextResponseEvent at h
  simp only [] at h
  split at h
  · cases h
  · simp only [pure, Except.pure] at h
    cases h
    rw [State.tables_scheduleResponseEvent]
    rfl

theorem applyLoop_tables (c : Config) (bi : Int) :
    ∀ (n index : Nat) (s s1 : State), applyLoop c bi n index s = .ok s1 →
      s1.tables = s.tables := by
  intro n
  induction n with
  | zero =>
    intro index s s1 h
    simp only [applyLoop, pure, Except.pure] at h
    cases h
    rfl
  | succ n ih =>
    intro index s s1 h
    unfold applyLoop at h
    simp only [Except.bind_ok_iff, assert_ok_iff, exists_and_left, exists_const] at h
    obtain ⟨blk0, _, h⟩ := h
    split at h
    · cases h
    · split at h
      · simp only [Except.bind_ok_iff, assert_ok_iff, exists_and_left, exists_const] at h
        obtain ⟨_, _, b, _, h⟩ := h
        split at h
        · have e := ih _ _ _ h
          rw [e]
          split <;> rfl
        · have e := ih _ _ _ h
          exact e
      · have e := ih _ _ _ h
        exact e

theorem applyDequeue_tables (s : State) : (applyDequeue s).tables = s.tables := by
  unfold applyDequeue
  simp only []
  split <;> split <;> rfl

theorem processNextPreWBApplyEvent_tables (c : Config) (now : Nat) (s s1 : State)
    (h : processNextPreWBApplyEvent c now s = .ok s1) : s1.tables = s.tables := by
  unfold processNextPreWBApplyEvent at h
  simp only [] at h
  split at h
  · cases h
  · simp only [Except.bind_ok_iff, assert_ok_iff, exists_and_left, exists_const] at h
    obtain ⟨blk, _, _, _, _, _, sa, hsa, h⟩ := h
    simp only [pure, Except.pure] at h
    cases h
    rw [applyDequeue_tables]
    split at hsa
    · unfold applyLine at hsa
      simp only [Except.bind_ok_iff, assert_ok_iff, exists_and_left, exists_const] at hsa
      obtain ⟨_, sl, hsl, blk1, _, _, _, hsa⟩ := hsa
      have e := applyLoop_tables _ _ _ _ _ _ hsl
      split at hsa
      · simp only [pure, Except.pure] at hsa
        cases hsa
        rw [State.tables_scheduleMemoryEvent]
        exact e
      · simp only [pure, Except.pure] at hsa
        cases hsa
        exact e
    · simp only [pure, Except.pure] at hsa
      cases hsa
      rfl

theorem processNextWriteBack_tables (c : Config) (now : Nat) (s s1 : State) (i : Int)
    (t : Nat) (h : processNextWriteBack c now s i t = .ok s1) : s1.tables = s.tables := by
  unfold processNextWriteBack at h
  simp only [Except.bind_ok_iff] at h
  obtain ⟨blk, _, h⟩ := h
  split at h
  · simp only [Except.bind_ok_iff, assert_ok_iff, exists_and_left, exists_const] at h
    obtain ⟨_, _, _, _, _, _, _, _, _, h⟩ := h
    split at h
    · cases h
    · simp only [pure, Except.pure] at h
      cases h
      rfl
  · simp only [pure, Except.pure] at h
    cases h
    rfl

theorem recvMemRetry_tables (s s1 : State) (h : recvMemRetry s = .ok s1) :
    s1.tables = s.tables := by
  unfold recvMemRetry at h
  split at h
  · simp only [pure, Except.pure] at h
    cases h
    rfl
  · simp only [Except.bind_ok_iff, assert_ok_iff, exists_and_left, exists_const] at h
    obtain ⟨_, h⟩ := h
    simp only [pure, Except.pure] at h
    cases h
    rfl

theorem recvVertexPull_tables (now : Nat) (s : State) :
    (recvVertexPull now s).tables = s.tables := by
  unfold recvVertexPull
  simp only []
  split
  · rw [State.tables_scheduleMemoryEvent]
    rfl
  · rfl

theorem recvFunctional_tables (c : Config) (s s1 : State) (is_read : Bool)
    (addr size : Nat) (data : List WorkListItem)
    (h : recvFunctional c s is_read addr size data = .ok s1) : s1.tables = s.tables := by
  unfold recvFunctional at h
  split at h
  · simp only [Except.bind_ok_iff, assert_ok_iff, exists_and_left, exists_const] at h
    obtain ⟨_, bi, _, blk, _, h⟩ := h
    split at h
    · simp only [Except.bind_ok_iff, assert_ok_iff, exists_and_left, exists_const] at h
      obtain ⟨_, _, _, _, h⟩ := h
      simp only [pure, Except.pure] at h
      cases h
      rfl
    · simp only [pure, Except.pure] at h
      cases h
      rfl
  · simp only [Except.bind_ok_iff] at h
    obtain ⟨_, _, h⟩ := h
    simp only [pure, Except.pure] at h
    cases h
    rfl

theorem pullInCache_tables (c : Config) (s s1 : State) (location : Nat) (o : Int)
    (h : pullInCache c s location o = .ok s1) : s1.tables = s.tables := by
  unfold pullInCache at h
  simp only [Except.bind_ok_iff, assert_ok_iff, exists_and_left, exists_const] at h
  obtain ⟨blk, _, _, _, _, _, h⟩ := h
  split at h
  · cases h
  · simp only [pure, Except.pure] at h
    cases h
    rfl

/-! ### The capacity of the MSHR table -/

theorem MSHRShrunk.refl (m : List (Int × List Nat)) : MSHRShrunk m m :=
  ⟨Nat.le_refl _, fun e he => ⟨e, he, Nat.le_refl _⟩⟩

theorem MSHRShrunk.andThen {m m1 m2 : List (Int × List Nat)} (h1 : MSHRShrunk m m1)
    (h2 : MSHRShrunk m1 m2) : MSHRShrunk m m2 := by
  refine ⟨Nat.le_trans h2.1 h1.1, fun e2 he2 => ?_⟩
  obtain ⟨e1, he1, hl1⟩ := h2.2 e2 he2
  obtain ⟨e, he, hl⟩ := h1.2 e1 he1
  exact ⟨e, he, Nat.le_trans hl1 hl⟩

theorem MSHRWithin.of_shrunk {c : Config} {m m1 : List (Int × List Nat)}
    (hw : MSHRWithin c m) (h : MSHRShrunk m m1) : MSHRWithin c m1 := by
  refine ⟨Nat.le_trans h.1 hw.1, fun e1 he1 => ?_⟩
  obtain ⟨e, he, hl⟩ := h.2 e1 he1
  exact Nat.le_trans hl (hw.2 e he)

theorem mshrReplace_shrunk (k : Int) (ts1 : List Nat) :
    ∀ (m : List (Int × List Nat)),
      (∀ ts, mshrFind m k = some ts → ts1.length ≤ ts.length) →
      MSHRShrunk m (mshrReplace m k ts1) := by
  intro m
  induction m with
  | nil => intro _; exact MSHRShrunk.refl _
  | cons e rest ih =>
    intro h
    obtain ⟨k1, ts⟩ := e
    by_cases hk : k1 = k
    · have hle : ts1.length ≤ ts.length := h ts (by simp [mshrFind, hk])
      simp only [mshrReplace, hk, if_true]
      refine ⟨Nat.le_refl _, fun e1 he1 => ?_⟩
      rcases List.mem_cons.mp he1 with he1 | he1
      · exact ⟨(k, ts), List.mem_cons_self _ _, by rw [he1]; exact hle⟩
      · exact ⟨e1, List.mem_cons_of_mem _ he1, Nat.le_refl _⟩
    · simp only [mshrReplace, hk, if_false]
      obtain ⟨h1, h2⟩ := ih (fun ts hts => h ts (by simpa [mshrFind, hk] using hts))
      refine ⟨by simpa using h1, fun e1 he1 => ?_⟩
      rcases List.mem_cons.mp he1 with he1 | he1
      · exact ⟨(k1, ts), List.mem_cons_self _ _, by rw [he1]⟩
      · obtain ⟨e, he, hl⟩ := h2 e1 he1
        exact ⟨e, List.mem_cons_of_mem _ he, hl⟩

theorem mshrCleanup_shrunk (m : List (Int × List Nat)) (k : Int) :
    MSHRShrunk m (mshrCleanup m k) := by
  unfold mshrCleanup
  split
  · unfold mshrErase
    exact ⟨List.length_filter_le _ _, fun e1 he1 =>
      ⟨e1, (List.mem_filter.mp he1).1, Nat.le_refl _⟩⟩
  · exact MSHRShrunk.refl _

/-- A target pushed on an entry that has room keeps the table within its capacity. -/
theorem mshrPushBack_present {c : Config} (k : Int) (a : Nat) :
    ∀ (m : List (Int × List Nat)), MSHRWithin c m → (mshrFind m k).isSome = true →
      (mshrTargets m k).length < c.numTgtsPerMSHR → MSHRWithin c (mshrPushBack m k a) := by
  intro m
  induction m with
  | nil =>
    intro _ hs _
    simp [mshrFind] at hs
  | cons e rest ih =>
    intro hw hs hlt
    obtain ⟨k1, ts⟩ := e
    by_cases hk : k1 = k
    · simp only [mshrPushBack, hk, if_true]
      have hts : ts.length < c.numTgtsPerMSHR := by
        simpa [mshrTargets, mshrFind, hk] using hlt
      refine ⟨hw.1, fun e1 he1 => ?_⟩
      rcases List.mem_cons.mp he1 with he1 | he1
      · rw [he1]
        simp only [List.length_append, List.length_cons, List.length_nil]
        omega
      · exact hw.2 e1 (List.mem_cons_of_mem _ he1)
    · simp only [mshrPushBack, hk, if_false]
      have hwr : MSHRWithin c rest :=
        ⟨Nat.le_trans (Nat.le_succ _) hw.1, fun e1 he1 => hw.2 e1 (List.mem_cons_of_mem _ he1)⟩
      have hlen : (mshrPushBack rest k a).length = rest.length := by
        rw [mshrPushBack_length]
        have : (mshrFind rest k).isSome = true := by simpa [mshrFind, hk] using hs
        simp [this]
      obtain ⟨_, h2⟩ := ih hwr (by simpa [mshrFind, hk] using hs)
        (by simpa [mshrTargets, mshrFind, hk] using hlt)
      refine ⟨?_, fun e1 he1 => ?_⟩
      · simp only [List.length_cons, hlen]
        exact hw.1
      · rcases List.mem_cons.mp he1 with he1 | he1
        · rw [he1]
          exact hw.2 (k1, ts) (List.mem_cons_self _ _)
        · exact h2 e1 he1

/-- A first target pushed for a line without entry keeps the table within its capacity when
the table is not full and an entry may hold a target. -/
theorem mshrPushBack_absent {c : Config} (k : Int) (a : Nat)
    (hT : 1 ≤ c.numTgtsPerMSHR) :
    ∀ (m : List (Int × List Nat)) (n : Nat), m.length < n →
      (∀ e ∈ m, e.2.length ≤ c.numTgtsPerMSHR) → mshrFind m k = none →
      (mshrPushBack m k a).length ≤ n ∧
        ∀ e ∈ mshrPushBack m k a, e.2.length ≤ c.numTgtsPerMSHR := by
  intro m
  induction m with
  | nil =>
    intro n hn _ _
    refine ⟨by simpa [mshrPushBack] using hn, fun e he => ?_⟩
    simp only [mshrPushBack, List.mem_singleton] at he
    rw [he]
    exact hT
  | cons e rest ih =>
    intro n hn hall hnone
    obtain ⟨k1, ts⟩ := e
    by_cases hk : k1 = k
    · simp [mshrFind, hk] at hnone
    · simp only [mshrPushBack, hk, if_false]
      have hn1 : rest.length < n - 1 := by
        simp only [List.length_cons] at hn
        omega
      obtain ⟨h1, h2⟩ := ih (n - 1) hn1 (fun e1 he1 => hall e1 (List.mem_cons_of_mem _ he1))
        (by simpa [mshrFind, hk] using hnone)
      refine ⟨by simp only [List.length_cons]; omega, fun e1 he1 => ?_⟩
      rcases List.mem_cons.mp he1 with he1 | he1
      · rw [he1]
        exact hall (k1, ts) (List.mem_cons_self _ _)
      · exact h2 e1 he1

/-- The MSHR table after `recvWLRead`: as before, or with the address pushed on an entry
that had room, or as the first target of a new entry of a table that was not full. -/
theorem recvWLRead_mshr (c : Config) (now : Nat) (s : State) (addr : Nat)
    (r : Bool × State) (h : recvWLRead c now s addr = .ok r) :
    r.2.MSHR = s.MSHR ∨ ∃ k, r.2.MSHR = mshrPushBack s.MSHR k addr ∧
      (((mshrFind s.MSHR k).isSome = true ∧
          (mshrTargets s.MSHR k).length < c.numTgtsPerMSHR) ∨
       (mshrFind s.MSHR k = none ∧ s.MSHR.length < c.numMSHREntries)) := by
  unfold recvWLRead at h
  simp only [Except.bind_ok_iff, assert_ok_iff, exists_and_left, exists_const] at h
  obtain ⟨_, bi1, _, _, _, blk, hblk, h⟩ := h
  split at h
  · simp only [Except.bind_ok_iff, assert_ok_iff, exists_and_left, exists_const] at h
    obtain ⟨_, _, h⟩ := h
    split at h
    · cases h
    · cases h
      exact Or.inl rfl
  · split at h
    · simp only [Except.bind_ok_iff, assert_ok_iff, exists_and_left, exists_const] at h
      obtain ⟨_, _, _, _, _, _, _, hsome, hle, h⟩ := h
      split at h
      · cases h
        exact Or.inl rfl
      · rename_i hne
        cases h
        refine Or.inr ⟨bi1, rfl, Or.inl ⟨hsome, ?_⟩⟩
        have h1 : (mshrTargets s.MSHR bi1).length ≤ c.numTgtsPerMSHR := by simpa using hle
        have h2 : (mshrTargets s.MSHR bi1).length ≠ c.numTgtsPerMSHR := by simpa using hne
        omega
    · simp only [Except.bind_ok_iff, assert_ok_iff, exists_and_left, exists_const] at h
      obtain ⟨_, hle, h⟩ := h
      have hle1 : s.MSHR.length ≤ c.numMSHREntries := by simpa using hle
      split at h
      · rename_i hnone
        have hnone1 : mshrFind s.MSHR bi1 = none := by simpa using hnone
        split at h
        · cases h
          exact Or.inl rfl
        · rename_i hne
          have hlt : s.MSHR.length < c.numMSHREntries := by
            have : s.MSHR.length ≠ c.numMSHREntries := by simpa using hne
            omega
          split at h
          · split at h
            · simp only [Except.bind_ok_iff, assert_ok_iff, exists_and_left,
                exists_const] at h
              obtain ⟨_, _, _, h⟩ := h
              split at h
              · cases h
                refine Or.inr ⟨bi1, ?_, Or.inr ⟨hnone1, hlt⟩⟩
                show mshrPushBack (State.scheduleMemoryEvent _).MSHR bi1 addr = _
                rw [State.MSHR_scheduleMemoryEvent]
                rfl
              · cases h
                refine Or.inr ⟨bi1, ?_, Or.inr ⟨hnone1, hlt⟩⟩
                show mshrPushBack (State.scheduleMemoryEvent _).MSHR bi1 addr = _
                rw [State.MSHR_scheduleMemoryEvent]
                rfl
            · cases h
              exact Or.inr ⟨bi1, rfl, Or.inr ⟨hnone1, hlt⟩⟩
          · simp only [Except.bind_ok_iff, assert_ok_iff, exists_and_left,
              exists_const] at h
            obtain ⟨_, _, _, _, _, _, _, _, h⟩ := h
            cases h
            refine Or.inr ⟨bi1, ?_, Or.inr ⟨hnone1, hlt⟩⟩
            rw [State.MSHR_scheduleMemoryEvent]
            rfl
      · rename_i hsome
        simp only [Except.bind_ok_iff, assert_ok_iff, exists_and_left, exists_const] at h
        obtain ⟨hle2, _, h⟩ := h
        split at h
        · cases h
          exact Or.inl rfl
        · rename_i hne
          cases h
          refine Or.inr ⟨bi1, rfl, Or.inl ⟨?_, ?_⟩⟩
          · cases hf : mshrFind s.MSHR bi1 with
            | none => simp [hf] at hsome
            | some ts => rfl
          · have h1 : (mshrTargets s.MSHR bi1).length ≤ c.numTgtsPerMSHR := by
              simpa using hle2
            have h2 : (mshrTargets s.MSHR bi1).length ≠ c.numTgtsPerMSHR := by
              simpa using hne
            omega

theorem handleMemResp_shrunk (c : Config) (now : Nat) (s : State) (pkt : MemResponse)
    (r : Bool × State) (h : handleMemResp c now s pkt = .ok r) :
    MSHRShrunk s.MSHR r.2.MSHR := by
  unfold handleMemResp at h
  split at h
  · simp only [pure, Except.pure] at h
    cases h
    exact MSHRShrunk.refl _
  · simp only [Except.bind_ok_iff] at h
    obtain ⟨bi, _, blk, _, r1, hr1, s2, hs2, h⟩ := h
    simp only [pure, Except.pure] at h
    cases h
    have hr1m : r1.1.MSHR = s.MSHR := by
      split at hr1
      · exact (handlePullResp_frame _ _ _ _ _ _ hr1).2
      · simp only [pure, Except.pure] at hr1
        cases hr1
        rfl
    have hs2m : MSHRShrunk s.MSHR s2.MSHR := by
      split at hs2
      · obtain ⟨_, ts, hts, _, he⟩ := handleFill_spec _ _ _ _ _ _ _ _ _ hs2
        rw [he]
        show MSHRShrunk s.MSHR (mshrReplace r1.1.MSHR bi (otherTargets c _ ts))
        rw [hr1m] at hts ⊢
        apply mshrReplace_shrunk
        intro ts' hts'
        rw [hts] at hts'
        cases hts'
        exact List.length_filter_le _ _
      · split at hs2
        · simp only [pure, Except.pure] at hs2
          cases hs2
          unfold queuePostPushWB
          simp only []
          rw [State.MSHR_scheduleMemoryEvent]
          show MSHRShrunk s.MSHR r1.1.MSHR
          rw [hr1m]
          exact MSHRShrunk.refl _
        · simp only [pure, Except.pure] at hs2
          cases hs2
          rw [hr1m]
          exact MSHRShrunk.refl _
    rw [State.MSHR_scheduleResponseEvent]
    exact hs2m.andThen (mshrCleanup_shrunk _ _)

theorem foldPostPushWB_shrunk (c : Config) (now : Nat) (s s1 : State) (bi : Int)
    (blk : Block) (data : List WorkListItem)
    (h : foldPostPushWB c now s bi blk data = .ok s1) :
    MSHRShrunk s.MSHR s1.MSHR ∧ s1.maxPotentialPostPushWB = s.maxPotentialPostPushWB ∧
      s1.pendingVertexPullReads = s.pendingVertexPullReads ∧
      s1.postPushWBQueue = s.postPushWBQueue := by
  unfold foldPostPushWB at h
  simp only [Except.bind_ok_iff] at h
  obtain ⟨r, hr, h⟩ := h
  simp only [pure, Except.pure] at h
  cases h
  have hl := (foldTargets_fields _ _ _ _ _ _ _ hr).2.2.2.2.2.2.2.2
  have e := State.tables_scheduleResponseEvent
    { ({ (s.setBlock bi r.1) with
          responseQueue := r.2.1, MSHR := mshrReplace s.MSHR bi r.2.2 } : State) with
      MSHR := mshrCleanup (mshrReplace s.MSHR bi r.2.2) bi }
  unfold State.tables at e
  simp only [Prod.mk.injEq] at e
  obtain ⟨e1, e2, e3, e4⟩ := e
  refine ⟨?_, e2, e3, e4⟩
  rw [e1]
  refine MSHRShrunk.andThen (mshrReplace_shrunk _ _ _ ?_) (mshrCleanup_shrunk _ _)
  intro ts hts
  rw [hl, mshrTargets_of_find hts]
  exact List.length_filter_le _ _

theorem postPushWBLoop_shrunk (c : Config) (now : Nat) (bi : Int)
    (q : List (MemPacket × Nat)) (s : State) (need : Bool) (r : State × Bool)
    (h : postPushWBLoop c now bi q s need = .ok r) :
    MSHRShrunk s.MSHR r.1.MSHR ∧
      r.1.maxPotentialPostPushWB = s.maxPotentialPostPushWB ∧
      r.1.pendingVertexPullReads = s.pendingVertexPullReads ∧
      r.1.postPushWBQueue.length ≤ s.postPushWBQueue.length := by
  rw [(postPushWBLoop_same c now bi q s need r h).1]
  exact ⟨MSHRShrunk.refl _, rfl, rfl, Nat.le_refl _⟩

theorem processNextRead_shrunk (c : Config) (now : Nat) (s s1 : State) (bi : Int) (t : Nat)
    (h : processNextRead c now s bi t = .ok s1) :
    MSHRShrunk s.MSHR s1.MSHR ∧ s1.maxPotentialPostPushWB = s.maxPotentialPostPushWB ∧
      s1.pendingVertexPullReads = s.pendingVertexPullReads ∧
      s1.postPushWBQueue.length ≤ s.postPushWBQueue.length := by
  unfold processNextRead at h
  simp only [Except.bind_ok_iff] at h
  obtain ⟨blk, _, h⟩ := h
  split at h
  · simp only [pure, Except.pure] at h
    cases h
    exact ⟨MSHRShrunk.refl _, rfl, rfl, Nat.le_refl _⟩
  · simp only [Except.bind_ok_iff, assert_ok_iff, exists_and_left, exists_const] at h
    obtain ⟨_, _, _, _, _, _, _, r, hr, blk1, _, h⟩ := h
    have e := postPushWBLoop_shrunk _ _ _ _ _ _ _ hr
    split at h
    · simp only [pure, Except.pure] at h
      cases h
      exact e
    · simp only [pure, Except.pure] at h
      cases h
      exact e

theorem processNextVertexPull_MSHR (c : Config) (now : Nat) (s s1 : State) (i : Int)
    (t : Nat) (h : processNextVertexPull c now s i t = .ok s1) : s1.MSHR = s.MSHR := by
  unfold processNextVertexPull at h
  simp only [Except.bind_ok_iff] at h
  obtain ⟨r, hr, s2, hs2, h⟩ := h
  unfold getOptimalPullAddr at hr
  simp only [Except.bind_ok_iff] at hr
  obtain ⟨r0, _, hr⟩ := hr
  simp only [pure, Except.pure] at hr
  cases hr
  have e2 : s2.MSHR = s.MSHR := by
    split at hs2
    · unfold pullPendingRead at hs2
      simp only [Except.bind_ok_iff, assert_ok_iff, exists_and_left, exists_const] at hs2
      obtain ⟨_, hs2⟩ := hs2
      simp only [pure, Except.pure] at hs2
      cases hs2
      rfl
    · exact congrArg (fun x => x.1) (pullInCache_tables _ _ _ _ _ hs2)
    · unfold pullInMemory at hs2
      simp only [] at hs2
      split at hs2
      · simp only [Except.bind_ok_iff, assert_ok_iff, exists_and_left, exists_const] at hs2
        obtain ⟨_, hs2⟩ := hs2
        simp only [pure, Except.pure] at hs2
        cases hs2
        rfl
      · simp only [pure, Except.pure] at hs2
        cases hs2
        rfl
    · simp only [pure, Except.pure] at hs2
      cases hs2
      rfl
  split at h
  · simp only [pure, Except.pure] at h
    cases h
    exact e2
  · simp only [pure, Except.pure] at h
    cases h
    exact e2

theorem processNextMemoryEvent_shrunk (c : Config) (now : Nat) (s s1 : State)
    (h : processNextMemoryEvent c now s = .ok s1) : MSHRShrunk s.MSHR s1.MSHR := by
  unfold processNextMemoryEvent at h
  simp only [] at h
  split at h
  · simp only [pure, Except.pure] at h
    cases h
    exact MSHRShrunk.refl _
  · split at h
    · cases h
    · simp only [Except.bind_ok_iff, assert_ok_iff, exists_and_left, exists_const] at h
      obtain ⟨sm, hsm, _, _, h⟩ := h
      have hm : MSHRShrunk s.MSHR sm.MSHR := by
        unfold callMemoryFunction at hsm
        split at hsm
        · exact (processNextRead_shrunk _ _ _ _ _ _ hsm).1
        · have e := congrArg (fun x => x.1) (processNextWriteBack_tables _ _ _ _ _ _ hsm)
          simp only [State.tables] at e
          rw [e]
          exact MSHRShrunk.refl _
        · unfold processNextPostPushWB at hsm
          split at hsm
          · cases hsm
          · split at hsm
            · simp only [pure, Except.pure] at hsm
              cases hsm
              exact MSHRShrunk.refl _
            · simp only [pure, Except.pure] at hsm
              cases hsm
              exact MSHRShrunk.refl _
        · rw [processNextVertexPull_MSHR _ _ _ _ _ _ hsm]
          exact MSHRShrunk.refl _
      split at h
      · simp only [pure, Except.pure] at h
        cases h
        exact hm
      · simp only [pure, Except.pure] at h
        cases h
        exact hm

/-- Every entry point keeps the MSHR table within its capacity, when an entry may hold a
target. -/
theorem step_mshrWithin (c : Config) (hT : 1 ≤ c.numTgtsPerMSHR) (now : Nat) (s s1 : State)
    (op : Op) (h : step c now s op = .ok s1) (hw : MSHRWithin c s.MSHR) :
    MSHRWithin c s1.MSHR := by
  have same : ∀ {sx : State}, sx.tables = s.tables → MSHRWithin c sx.MSHR := by
    intro sx e
    have e1 : sx.MSHR = s.MSHR := congrArg (fun x => x.1) e
    rw [e1]
    exact hw
  cases op with
  | recvWLRead addr =>
    simp only [step] at h
    cases hr : recvWLRead c now s addr with
    | error e => rw [hr] at h; cases h
    | ok r =>
      rw [hr] at h
      cases h
      rcases recvWLRead_mshr _ _ _ _ _ hr with e | ⟨k, e, hp | ha⟩
      · show MSHRWithin c r.2.MSHR
        rw [e]
        exact hw
      · show MSHRWithin c r.2.MSHR
        rw [e]
        exact mshrPushBack_present k addr _ hw hp.1 hp.2
      · show MSHRWithin c r.2.MSHR
        rw [e]
        exact mshrPushBack_absent k addr hT _ _ ha.2 hw.2 ha.1
  | recvWLWrite addr wl => exact same (recvWLWrite_tables _ _ _ _ _ _ h)
  | handleMemResp pkt =>
    simp only [step] at h
    cases hr : handleMemResp c now s pkt with
    | error e => rw [hr] at h; cases h
    | ok r =>
      rw [hr] at h
      cases h
      exact hw.of_shrunk (handleMemResp_shrunk _ _ _ _ _ hr)
  | processNextResponseEvent => exact same (processNextResponseEvent_tables _ _ _ _ h)
  | processNextPreWBApplyEvent => exact same (processNextPreWBApplyEvent_tables _ _ _ _ h)
  | processNextMemoryEvent => exact hw.of_shrunk (processNextMemoryEvent_shrunk _ _ _ _ h)
  | recvMemRetry => exact same (recvMemRetry_tables _ _ h)
  | recvVertexPull =>
    simp only [step, pure, Except.pure] at h
    cases h
    exact same (recvVertexPull_tables _ _)
  | recvFunctional is_read addr size data =>
    exact same (recvFunctional_tables _ _ _ _ _ _ _ h)
  | portBlocked b =>
    simp only [step, pure, Except.pure] at h
    cases h
    exact hw
  | ownerRuns b =>
    simp only [step, pure, Except.pure] at h
    cases h
    exact hw

theorem run_mshrWithin (c : Config) (hT : 1 ≤ c.numTgtsPerMSHR) :
    ∀ (ops : List (Nat × Op)) (s s1 : State), MSHRWithin c s.MSHR →
      run c s ops = .ok s1 → MSHRWithin c s1.MSHR := by
  intro ops
  induction ops with
  | nil =>
    intro s s1 hw h
    simp only [run, pure, Except.pure] at h
    cases h
    exact hw
  | cons o rest ih =>
    intro s s1 hw h
    obtain ⟨now, op⟩ := o
    unfold run at h
    simp only [Except.bind_ok_iff] at h
    obtain ⟨s2, h2, h3⟩ := h
    exact ih s2 s1 (step_mshrWithin c hT now s s2 op h2 hw) h3

/-- The capacity of the MSHR table.  For every configuration in which an MSHR entry may hold
at least one target, in every state reached from the constructed cache by any sequence of
entry points the MSHR table holds at most `numMSHREntries` entries and every entry holds at
most `numTgtsPerMSHR` targets. -/
theorem mshr_capacity (c : Config) (ops : List (Nat × Op)) (s0 s : State)
    (hT : 1 ≤ c.numTgtsPerMSHR) (h0 : CoalesceEngine c = .ok s0)
    (hrun : run c s0 ops = .ok s) :
    s.MSHR.length ≤ c.numMSHREntries ∧ ∀ e ∈ s.MSHR, e.2.length ≤ c.numTgtsPerMSHR := by
  have hinit : MSHRWithin c s0.MSHR := by
    unfold CoalesceEngine at h0
    simp only [Except.bind_ok_iff, assert_ok_iff, exists_and_left, exists_const] at h0
    obtain ⟨_, h0⟩ := h0
    simp only [pure, Except.pure] at h0
    cases h0
    exact ⟨Nat.zero_le _, fun e he => absurd he (List.not_mem_nil _)⟩
  exact run_mshrWithin c hT ops s0 s hinit hrun

theorem mshr_capacity_witness :
    ∃ s0 s, CoalesceEngine cfgMin = .ok s0 ∧ run cfgMin s0 opsConflict = .ok s ∧
      s.MSHR.length ≤ cfgMin.numMSHREntries ∧
      ∀ e ∈ s.MSHR, e.2.length ≤ cfgMin.numTgtsPerMSHR :=
  ⟨_, _, rfl, rfl, mshr_capacity cfgMin opsConflict _ _ (by decide) rfl rfl⟩

/-- C28 (MSHR capacity) with `numTgtsPerMSHR = 0`.  On the freshly constructed cache of
`cfgNoTargets` the read of address 64 misses and is accepted: the path of a line without
entry tests only the number of entries (line 258) before `MSHR[block_index].push_back(addr)`
(line 388), and the MSHR entry made for the line holds one target, more than
`numTgtsPerMSHR`.  The next read of that line, address 80, finds the entry and aborts at the
assertion `MSHR[block_index].size() <= numTgtsPerMSHR` of line 227. -/
theorem zero_targets_entry_holds_one :
    cfgNoTargets.numTgtsPerMSHR = 0 ∧
    ∃ s0 r, CoalesceEngine cfgNoTargets = .ok s0 ∧
      recvWLRead cfgNoTargets 0 s0 64 = .ok (true, r) ∧ r.MSHR = [(1, [64])] ∧
      recvWLRead cfgNoTargets 1000 r 80 = .error (.assertion 227) :=
  ⟨rfl, _, _, rfl, rfl, rfl, rfl⟩

/-! ### The back-pressure of pull reads -/

theorem pullFind_none_iff (m : List (Nat × Nat)) (a : Nat) :
    pullFind m a = none ↔ a ∉ m.map Prod.fst := by
  induction m with
  | nil => simp [pullFind]
  | cons e rest ih =>
    obtain ⟨k, v⟩ := e
    by_cases hk : k = a
    · simp [pullFind, hk]
    · have hk' : ¬ a = k := fun e => hk e.symm
      simp [pullFind, hk, hk', ih]

theorem pullSet_absent (m : List (Nat × Nat)) (a v : Nat) (h : pullFind m a = none) :
    (pullSet m a v).length = m.length + 1 ∧
      (pullSet m a v).map Prod.fst = m.map Prod.fst ++ [a] := by
  induction m with
  | nil => exact ⟨rfl, rfl⟩
  | cons e rest ih =>
    obtain ⟨k, w⟩ := e
    by_cases hk : k = a
    · simp [pullFind, hk] at h
    · have hr : pullFind rest a = none := by simpa [pullFind, hk] using h
      obtain ⟨h1, h2⟩ := ih hr
      simp only [pullSet, hk, if_false, List.length_cons, h1, List.map_cons, h2,
        List.cons_append]
      exact ⟨trivial, trivial⟩

theorem pullSet_present (m : List (Nat × Nat)) (a v : Nat)
    (h : (pullFind m a).isSome = true) :
    (pullSet m a v).length = m.length ∧ (pullSet m a v).map Prod.fst = m.map Prod.fst := by
  induction m with
  | nil => simp [pullFind] at h
  | cons e rest ih =>
    obtain ⟨k, w⟩ := e
    by_cases hk : k = a
    · simp only [pullSet, hk, if_true, List.length_cons, List.map_cons]
      exact ⟨trivial, trivial⟩
    · have hr : (pullFind rest a).isSome = true := by simpa [pullFind, hk] using h
      obtain ⟨h1, h2⟩ := ih hr
      simp only [pullSet, hk, if_false, List.length_cons, h1, List.map_cons, h2]
      exact ⟨trivial, trivial⟩

theorem pull_filter_present (m : List (Nat × Nat)) (a : Nat)
    (hnd : (m.map Prod.fst).Nodup) (h : (pullFind m a).isSome = true) :
    (m.filter (fun e => e.1 != a)).length + 1 = m.length ∧
      ((m.filter (fun e => e.1 != a)).map Prod.fst).Nodup := by
  induction m with
  | nil => simp [pullFind] at h
  | cons e rest ih =>
    obtain ⟨k, w⟩ := e
    simp only [List.map_cons, List.nodup_cons] at hnd
    obtain ⟨hnot, hnd1⟩ := hnd
    by_cases hk : k = a
    · subst hk
      have hall : rest.filter (fun e => e.1 != k) = rest := by
        rw [List.filter_eq_self]
        intro e he
        have : e.1 ≠ k := fun heq => hnot (by rw [← heq]; exact List.mem_map_of_mem _ he)
        simpa using this
      rw [List.filter_cons]
      simp only [bne_self_eq_false, Bool.false_eq_true, if_false, hall, List.length_cons]
      exact ⟨trivial, hnd1⟩
    · have hr : (pullFind rest a).isSome = true := by simpa [pullFind, hk] using h
      obtain ⟨h1, h2⟩ := ih hnd1 hr
      have hkb : (k != a) = true := by simpa using hk
      rw [List.filter_cons]
      simp only [hkb, if_true, List.length_cons, List.map_cons, List.nodup_cons]
      refine ⟨by omega, ?_, h2⟩
      intro hmem
      apply hnot
      obtain ⟨e, he, hek⟩ := List.mem_map.mp hmem
      exact List.mem_map.mpr ⟨e, (List.mem_filter.mp he).1, hek⟩

theorem PullInv.of_fields {c : Config} {s s1 : State} (hi : PullInv c s)
    (h1 : s1.maxPotentialPostPushWB = s.maxPotentialPostPushWB)
    (h2 : s1.pendingVertexPullReads = s.pendingVertexPullReads)
    (h3 : s1.postPushWBQueue.length ≤ s.postPushWBQueue.length) : PullInv c s1 := by
  obtain ⟨i1, i2, i3⟩ := hi
  refine ⟨by rw [h1, h2]; exact i1, by rw [h2]; exact i2, ?_⟩
  rw [h2]
  omega

theorem PullInv.of_tables {c : Config} {s s1 : State} (hi : PullInv c s)
    (h : s1.tables = s.tables) : PullInv c s1 := by
  unfold State.tables at h
  simp only [Prod.mk.injEq] at h
  exact hi.of_fields h.2.1 h.2.2.1 (by rw [h.2.2.2])

theorem pullRespLoop_tables (c : Config) (addr : Nat) (it : Int) (send_mask : Nat) :
    ∀ (n i : Nat) (s : State) (items : List WorkListItem) (d : Bool)
      (r : State × List WorkListItem × Bool),
      pullRespLoop c addr it send_mask n i s items d = .ok r → r.1.tables = s.tables := by
  intro n
  induction n with
  | zero =>
    intro i s items d r h
    simp only [pullRespLoop, pure, Except.pure] at h
    cases h
    rfl
  | succ n ih =>
    intro i s items d r h
    unfold pullRespLoop at h
    split at h
    · simp only [Except.bind_ok_iff, assert_ok_iff, exists_and_left, exists_const] at h
      obtain ⟨b, _, _, h⟩ := h
      split at h
      · cases h
      · have := ih _ _ _ _ _ h
        exact this
    · exact ih _ _ _ _ _ h

/-- The pull part of `handleMemResp` removes the entry of the address from
`pendingVertexPullReads` and decrements `maxPotentialPostPushWB`. -/
theorem handlePullResp_fields (c : Config) (s : State) (addr : Nat) (blk : Block)
    (items : List WorkListItem) (r : State × List WorkListItem × Bool)
    (h : handlePullResp c s addr blk items = .ok r) :
    r.1.maxPotentialPostPushWB = s.maxPotentialPostPushWB - 1 ∧
      r.1.pendingVertexPullReads =
        s.pendingVertexPullReads.filter (fun e => e.1 != addr) ∧
      r.1.postPushWBQueue = s.postPushWBQueue := by
  unfold handlePullResp at h
  simp only [Except.bind_ok_iff, assert_ok_iff, exists_and_left, exists_const] at h
  obtain ⟨_, it, _, r0, hr0, h⟩ := h
  simp only [pure, Except.pure] at h
  cases h
  have e := pullRespLoop_tables _ _ _ _ _ _ _ _ _ _ hr0
  unfold State.tables at e
  simp only [Prod.mk.injEq] at e
  obtain ⟨_, e2, e3, e4⟩ := e
  refine ⟨?_, ?_, e4⟩
  · show r0.1.maxPotentialPostPushWB - 1 = _
    rw [e2]
  · show r0.1.pendingVertexPullReads.filter _ = _
    rw [e3]

/-- The bookkeeping of pull reads after `handleMemResp`, in terms of the state after the
pull part: the queue of post-push writebacks is as it was or one packet longer, and is as
it was when the pull part did not ask for a writeback. -/
theorem handleMemResp_after (c : Config) (now : Nat) (s : State) (a : Nat)
    (items : List WorkListItem) (pull : Bool) (r : Bool × State)
    (h : handleMemResp c now s (.read a items pull) = .ok r) :
    ∃ blk r1, (if pull then
          handlePullResp c { s with onTheFlyReqs := s.onTheFlyReqs - 1 } a blk items
        else pure ({ s with onTheFlyReqs := s.onTheFlyReqs - 1 }, items, false)) = .ok r1 ∧
      r.2.maxPotentialPostPushWB = r1.1.maxPotentialPostPushWB ∧
      r.2.pendingVertexPullReads = r1.1.pendingVertexPullReads ∧
      (r.2.postPushWBQueue = r1.1.postPushWBQueue ∨
        (r1.2.2 = true ∧ ∃ x, r.2.postPushWBQueue = r1.1.postPushWBQueue ++ [x])) := by
  unfold handleMemResp at h
  simp only [Except.bind_ok_iff] at h
  obtain ⟨bi, _, blk, _, r1, hr1, s2, hs2, h⟩ := h
  simp only [pure, Except.pure] at h
  cases h
  refine ⟨blk, r1, hr1, ?_⟩
  have e := State.tables_scheduleResponseEvent { s2 with MSHR := mshrCleanup s2.MSHR bi }
  unfold State.tables at e
  simp only [Prod.mk.injEq] at e
  obtain ⟨_, e2, e3, e4⟩ := e
  rw [e2, e3, e4]
  split at hs2
  · obtain ⟨_, ts, _, _, he⟩ := handleFill_spec _ _ _ _ _ _ _ _ _ hs2
    rw [he]
    exact ⟨rfl, rfl, Or.inl rfl⟩
  · split at hs2
    · rename_i hwb
      simp only [pure, Except.pure] at hs2
      cases hs2
      unfold queuePostPushWB
      simp only []
      have e' := State.tables_scheduleMemoryEvent
        (({ r1.1 with postPushWBQueue := r1.1.postPushWBQueue ++
            [(MemPacket.write a c.peerMemoryAtomSize r1.2.1, now)] } : State
          ).pushMemoryFunction .nextPostPushWB 0 now)
      unfold State.tables at e'
      simp only [Prod.mk.injEq] at e'
      obtain ⟨_, f2, f3, f4⟩ := e'
      exact ⟨f2, f3, Or.inr ⟨hwb, _, f4⟩⟩
    · simp only [pure, Except.pure] at hs2
      cases hs2
      exact ⟨rfl, rfl, Or.inl rfl⟩

theorem handleMemResp_pullInv (c : Config) (now : Nat) (s : State) (pkt : MemResponse)
    (r : Bool × State) (h : handleMemResp c now s pkt = .ok r) (hi : PullInv c s)
    (hsol : Op.solicited s (.handleMemResp pkt)) : PullInv c r.2 := by
  cases pkt with
  | write a =>
    simp only [handleMemResp, pure, Except.pure] at h
    cases h
    exact hi
  | read a items pull =>
    obtain ⟨blk, r1, hr1, g1, g2, g3⟩ := handleMemResp_after c now s a items pull r h
    cases pull with
    | false =>
      simp only [Bool.false_eq_true, if_false, pure, Except.pure] at hr1
      cases hr1
      refine hi.of_fields g1 g2 ?_
      rcases g3 with g3 | ⟨hwb, _⟩
      · rw [g3]
      · cases hwb
    | true =>
      simp only [if_true] at hr1
      obtain ⟨f1, f2, f3⟩ := handlePullResp_fields _ _ _ _ _ _ hr1
      have f1' : r1.1.maxPotentialPostPushWB = s.maxPotentialPostPushWB - 1 := f1
      have f2' : r1.1.pendingVertexPullReads =
          s.pendingVertexPullReads.filter (fun e => e.1 != a) := f2
      have f3' : r1.1.postPushWBQueue = s.postPushWBQueue := f3
      have hs : (pullFind s.pendingVertexPullReads a).isSome = true := hsol
      obtain ⟨i1, i2, i3⟩ := hi
      obtain ⟨p1, p2⟩ := pull_filter_present s.pendingVertexPullReads a i2 hs
      have hq : r.2.postPushWBQueue.length ≤ s.postPushWBQueue.length + 1 := by
        rcases g3 with g3 | ⟨_, x, g3⟩
        · rw [g3, f3']
          exact Nat.le_succ _
        · rw [g3, f3']
          simp
      refine ⟨?_, ?_, ?_⟩
      · rw [g1, f1', g2, f2', i1]
        omega
      · rw [g2, f2']
        exact p2
      · rw [g2, f2']
        omega

theorem examinePull_pendingRead (c : Config) (s : State) (idx : Int) (a : Nat) (o : Int)
    (h : examinePull c s idx = .ok (some (.PENDING_READ, a, o))) :
    (pullFind s.pendingVertexPullReads a).isSome = true := by
  unfold examinePull at h
  simp only [Except.bind_ok_iff, assert_ok_iff, exists_and_left, exists_const] at h
  obtain ⟨_, _, _, _, addr, _, bi, _, h⟩ := h
  split at h
  · rename_i mask hfind
    simp only [Except.bind_ok_iff, assert_ok_iff, exists_and_left, exists_const] at h
    obtain ⟨_, h⟩ := h
    simp only [pure, Except.pure, Except.ok.injEq, Option.some.injEq, Prod.mk.injEq] at h
    rw [← h.2.1, hfind]
    rfl
  · simp only [Except.bind_ok_iff, assert_ok_iff, exists_and_left, exists_const] at h
    obtain ⟨blk, _, h⟩ := h
    split at h
    · simp only [Except.bind_ok_iff, assert_ok_iff, exists_and_left, exists_const] at h
      obtain ⟨_, _, h⟩ := h
      simp only [pure, Except.pure] at h
      cases h
    · split at h
      · simp only [pure, Except.pure] at h
        cases h
      · simp only [pure, Except.pure] at h
        cases h

theorem pullInCache_sent (c : Config) (s s1 : State) (location : Nat) (o : Int)
    (h : pullInCache c s location o = .ok s1) : s1.memPortSent = s.memPortSent := by
  unfold pullInCache at h
  simp only [Except.bind_ok_iff, assert_ok_iff, exists_and_left, exists_const] at h
  obtain ⟨blk, _, _, _, _, _, h⟩ := h
  split at h
  · cases h
  · simp only [pure, Except.pure] at h
    cases h
    rfl

/-- The `IN_MEMORY` case of `processNextVertexPull` in a state whose bookkeeping is
consistent: a pull read is sent only when the queued post-push writebacks and the pull
reads in flight leave room, and the bookkeeping stays consistent. -/
theorem pullInMemory_pull (c : Config) (s s1 : State) (a : Nat) (o : Int)
    (h : pullInMemory c s a o = .ok s1) (hi : PullInv c s) :
    PullInv c s1 ∧
      (s1.memPortSent ≠ s.memPortSent →
        s.postPushWBQueue.length + s.pendingVertexPullReads.length < c.postPushWBQueueSize ∧
        s1.memPortSent = s.memPortSent ++ [.read a c.peerMemoryAtomSize true]) := by
  obtain ⟨i1, i2, i3⟩ := hi
  unfold pullInMemory at h
  simp only [] at h
  split at h
  · rename_i hroom
    simp only [Except.bind_ok_iff, assert_ok_iff, exists_and_left, exists_const] at h
    obtain ⟨hnone, h⟩ := h
    simp only [pure, Except.pure] at h
    cases h
    have hnone1 : pullFind s.pendingVertexPullReads a = none := by simpa using hnone
    obtain ⟨p1, p2⟩ := pullSet_absent s.pendingVertexPullReads a (bit o.toNat) hnone1
    have hlt : s.postPushWBQueue.length + s.pendingVertexPullReads.length <
        c.postPushWBQueueSize := by
      rw [i1] at hroom
      omega
    refine ⟨⟨?_, ?_, ?_⟩, fun _ => ⟨hlt, rfl⟩⟩
    · show s.maxPotentialPostPushWB + 1 =
        ((pullSet s.pendingVertexPullReads a (bit o.toNat)).length : Int)
      rw [p1, i1]
      push_cast
      rfl
    · show ((pullSet s.pendingVertexPullReads a (bit o.toNat)).map Prod.fst).Nodup
      rw [p2]
      apply List.Nodup.append i2 (List.nodup_singleton a)
      intro x hx hxa
      simp only [List.mem_singleton] at hxa
      rw [hxa] at hx
      exact (pullFind_none_iff _ _).mp hnone1 hx
    · show s.postPushWBQueue.length +
        (pullSet s.pendingVertexPullReads a (bit o.toNat)).length ≤ _
      rw [p1]
      omega
  · simp only [pure, Except.pure] at h
    cases h
    exact ⟨⟨i1, i2, i3⟩, fun hne => absurd rfl hne⟩

theorem State.pull_scheduleMemoryEvent (s : State) :
    s.scheduleMemoryEvent.maxPotentialPostPushWB = s.maxPotentialPostPushWB ∧
      s.scheduleMemoryEvent.pendingVertexPullReads = s.pendingVertexPullReads ∧
      s.scheduleMemoryEvent.postPushWBQueue = s.postPushWBQueue := by
  unfold State.scheduleMemoryEvent
  split <;> exact ⟨rfl, rfl, rfl⟩

/-- `recvWLRead` does not touch the bookkeeping of pull reads. -/
theorem recvWLRead_pullFields (c : Config) (now : Nat) (s : State) (addr : Nat)
    (r : Bool × State) (h : recvWLRead c now s addr = .ok r) :
    r.2.maxPotentialPostPushWB = s.maxPotentialPostPushWB ∧
      r.2.pendingVertexPullReads = s.pendingVertexPullReads ∧
      r.2.postPushWBQueue = s.postPushWBQueue := by
  unfold recvWLRead at h
  simp only [Except.bind_ok_iff, assert_ok_iff, exists_and_left, exists_const] at h
  obtain ⟨_, bi1, _, _, _, blk, hblk, h⟩ := h
  split at h
  · simp only [Except.bind_ok_iff, assert_ok_iff, exists_and_left, exists_const] at h
    obtain ⟨_, _, h⟩ := h
    split at h
    · cases h
    · cases h
      exact ⟨rfl, rfl, rfl⟩
  · split at h
    · simp only [Except.bind_ok_iff, assert_ok_iff, exists_and_left, exists_const] at h
      obtain ⟨_, _, _, _, _, _, _, _, _, h⟩ := h
      split at h
      · cases h
        exact ⟨rfl, rfl, rfl⟩
      · cases h
        exact ⟨rfl, rfl, rfl⟩
    · simp only [Except.bind_ok_iff, assert_ok_iff, exists_and_left, exists_const] at h
      obtain ⟨_, _, h⟩ := h
      split at h
      · split at h
        · cases h
          exact ⟨rfl, rfl, rfl⟩
        · split at h
          · split at h
            · simp only [Except.bind_ok_iff, assert_ok_iff, exists_and_left,
                exists_const] at h
              obtain ⟨_, _, _, h⟩ := h
              split at h
              · cases h
                exact State.pull_scheduleMemoryEvent _
              · cases h
                exact State.pull_scheduleMemoryEvent _
            · cases h
              exact ⟨rfl, rfl, rfl⟩
          · simp only [Except.bind_ok_iff, assert_ok_iff, exists_and_left,
              exists_const] at h
            obtain ⟨_, _, _, _, _, _, _, _, h⟩ := h
            cases h
            exact State.pull_scheduleMemoryEvent _
      · simp only [Except.bind_ok_iff, assert_ok_iff, exists_and_left, exists_const] at h
        obtain ⟨_, _, h⟩ := h
        split at h
        · cases h
          exact ⟨rfl, rfl, rfl⟩
        · cases h
          exact ⟨rfl, rfl, rfl⟩

/-- `processNextVertexPull` in a state whose bookkeeping is consistent: the bookkeeping
stays consistent, and a packet is sent only in the `IN_MEMORY` case, when there is room. -/
theorem processNextVertexPull_pull (c : Config) (now : Nat) (s s1 : State) (i : Int)
    (t : Nat) (h : processNextVertexPull c now s i t = .ok s1) (hi : PullInv c s) :
    PullInv c s1 ∧
      (s1.memPortSent ≠ s.memPortSent →
        s.postPushWBQueue.length + s.pendingVertexPullReads.length < c.postPushWBQueueSize ∧
        ∃ a, s1.memPortSent = s.memPortSent ++ [.read a c.peerMemoryAtomSize true]) := by
  unfold processNextVertexPull at h
  simp only [Except.bind_ok_iff] at h
  obtain ⟨r, hr, s2, hs2, h⟩ := h
  unfold getOptimalPullAddr at hr
  simp only [Except.bind_ok_iff] at hr
  obtain ⟨r0, hr0, hr⟩ := hr
  simp only [pure, Except.pure] at hr
  cases hr
  have hiA : PullInv c { s with activeBits := r0.2 } := hi
  have e2 : PullInv c s2 ∧
      (s2.memPortSent ≠ s.memPortSent →
        s.postPushWBQueue.length + s.pendingVertexPullReads.length <
          c.postPushWBQueueSize ∧
        ∃ a, s2.memPortSent = s.memPortSent ++ [.read a c.peerMemoryAtomSize true]) := by
    split at hs2
    · rename_i hloc
      have hr1 : r0.1 = (.PENDING_READ, r0.1.2.1, r0.1.2.2) := by
        simp only [] at hloc
        obtain ⟨⟨w, a, b⟩, rest⟩ := r0
        simp only [] at hloc ⊢
        rw [hloc]
      have hfind : (pullFind s.pendingVertexPullReads r0.1.2.1).isSome = true := by
        rcases getOptimalPullAddrLoop_spec c s _ _ r0.1 r0.2 (Nat.le_refl _) hr0 with
          ⟨h1, _, _⟩ | ⟨k, idx, _, _, _, hex, _⟩
        · rw [h1] at hr1
          cases hr1
        · rw [hr1] at hex
          exact examinePull_pendingRead c s idx _ _ hex
      unfold pullPendingRead at hs2
      simp only [Except.bind_ok_iff, assert_ok_iff, exists_and_left, exists_const] at hs2
      obtain ⟨_, hs2⟩ := hs2
      simp only [pure, Except.pure] at hs2
      cases hs2
      obtain ⟨i1, i2, i3⟩ := hi
      obtain ⟨p1, p2⟩ := pullSet_present s.pendingVertexPullReads r0.1.2.1
        ((pullFind s.pendingVertexPullReads r0.1.2.1).getD 0 ||| bit r0.1.2.2.toNat) hfind
      refine ⟨⟨?_, ?_, ?_⟩, fun hne => absurd rfl hne⟩
      · show s.maxPotentialPostPushWB = ((pullSet s.pendingVertexPullReads _ _).length : Int)
        rw [p1]
        exact i1
      · show ((pullSet s.pendingVertexPullReads _ _).map Prod.fst).Nodup
        rw [p2]
        exact i2
      · show s.postPushWBQueue.length + (pullSet s.pendingVertexPullReads _ _).length ≤ _
        rw [p1]
        exact i3
    · have e := pullInCache_tables _ _ _ _ _ hs2
      have e' := pullInCache_sent _ _ _ _ _ hs2
      exact ⟨hiA.of_tables e, fun hne => absurd e' hne⟩
    · obtain ⟨m1, m2⟩ := pullInMemory_pull c _ _ _ _ hs2 hiA
      exact ⟨m1, fun hne => ⟨(m2 hne).1, _, (m2 hne).2⟩⟩
    · simp only [pure, Except.pure] at hs2
      cases hs2
      exact ⟨hi, fun hne => absurd rfl hne⟩
  split at h
  · simp only [pure, Except.pure] at h
    cases h
    exact e2
  · simp only [pure, Except.pure] at h
    cases h
    exact e2

theorem callMemoryFunction_pullInv (c : Config) (now : Nat) (s s1 : State)
    (e : MemoryFunctionEntry) (h : callMemoryFunction c now s e = .ok s1)
    (hi : PullInv c s) : PullInv c s1 := by
  unfold callMemoryFunction at h
  split at h
  · obtain ⟨_, g2, g3, g4⟩ := processNextRead_shrunk _ _ _ _ _ _ h
    exact hi.of_fields g2 g3 g4
  · exact hi.of_tables (processNextWriteBack_tables _ _ _ _ _ _ h)
  · unfold processNextPostPushWB at h
    split at h
    · cases h
    · rename_i hq
      split at h
      · simp only [pure, Except.pure] at h
        cases h
        refine hi.of_fields rfl rfl ?_
        show _ ≤ s.postPushWBQueue.length
        rw [hq]
        exact Nat.le_succ _
      · simp only [pure, Except.pure] at h
        cases h
        exact hi
  · exact (processNextVertexPull_pull _ _ _ _ _ _ h hi).1

theorem step_pullInv (c : Config) (now : Nat) (s s1 : State) (op : Op)
    (h : step c now s op = .ok s1) (hi : PullInv c s) (hsol : op.solicited s) :
    PullInv c s1 := by
  cases op with
  | recvWLRead addr =>
    simp only [step] at h
    cases hr : recvWLRead c now s addr with
    | error e => rw [hr] at h; cases h
    | ok r =>
      rw [hr] at h
      cases h
      obtain ⟨g1, g2, g3⟩ := recvWLRead_pullFields _ _ _ _ _ hr
      exact hi.of_fields g1 g2 (by rw [g3])
  | recvWLWrite addr wl => exact hi.of_tables (recvWLWrite_tables _ _ _ _ _ _ h)
  | handleMemResp pkt =>
    simp only [step] at h
    cases hr : handleMemResp c now s pkt with
    | error e => rw [hr] at h; cases h
    | ok r =>
      rw [hr] at h
      cases h
      exact handleMemResp_pullInv _ _ _ _ _ hr hi hsol
  | processNextResponseEvent => exact hi.of_tables (processNextResponseEvent_tables _ _ _ _ h)
  | processNextPreWBApplyEvent =>
    exact hi.of_tables (processNextPreWBApplyEvent_tables _ _ _ _ h)
  | processNextMemoryEvent =>
    simp only [step] at h
    unfold processNextMemoryEvent at h
    simp only [] at h
    split at h
    · simp only [pure, Except.pure] at h
      cases h
      exact hi
    · split at h
      · cases h
      · simp only [Except.bind_ok_iff, assert_ok_iff, exists_and_left, exists_const] at h
        obtain ⟨sm, hsm, _, _, h⟩ := h
        have hm : PullInv c sm := callMemoryFunction_pullInv _ _ _ _ _ hsm hi
        split at h
        · simp only [pure, Except.pure] at h
          cases h
          exact hm
        · simp only [pure, Except.pure] at h
          cases h
          exact hm
  | recvMemRetry => exact hi.of_tables (recvMemRetry_tables _ _ h)
  | recvVertexPull =>
    simp only [step, pure, Except.pure] at h
    cases h
    exact hi.of_tables (recvVertexPull_tables _ _)
  | recvFunctional is_read addr size data =>
    exact hi.of_tables (recvFunctional_tables _ _ _ _ _ _ _ h)
  | portBlocked b =>
    simp only [step, pure, Except.pure] at h
    cases h
    exact hi
  | ownerRuns b =>
    simp only [step, pure, Except.pure] at h
    cases h
    exact hi

theorem run_pullInv (c : Config) :
    ∀ (ops : List (Nat × Op)) (s s1 : State), PullInv c s → Solicited c s ops →
      run c s ops = .ok s1 → PullInv c s1 := by
  intro ops
  induction ops with
  | nil =>
    intro s s1 hi _ h
    simp only [run, pure, Except.pure] at h
    cases h
    exact hi
  | cons o rest ih =>
    intro s s1 hi hsol h
    obtain ⟨now, op⟩ := o
    unfold run at h
    simp only [Except.bind_ok_iff] at h
    obtain ⟨s2, h2, h3⟩ := h
    obtain ⟨hs1, hs2⟩ := hsol
    exact ih s2 s1 (step_pullInv c now s s2 op h2 hi hs1) (hs2 s2 h2) h3

/-- C25 (pull-read back-pressure).  Let `s` be reached from the constructed cache by a
sequence of entry points in which the memory answers only pull reads that are in flight.
Then `maxPotentialPostPushWB` is the number of entries of `pendingVertexPullReads` (the
pull reads in flight), and the queued post-push writebacks and the pull reads in flight
together are at most `postPushWBQueueSize`; and when `processNextVertexPull` sends a packet
in `s`, it is a pull read, and at that moment the two together are strictly below
`postPushWBQueueSize`. -/
theorem pull_read_backpressure (c : Config) (ops : List (Nat × Op)) (s0 s : State)
    (h0 : CoalesceEngine c = .ok s0) (hsol : Solicited c s0 ops)
    (hrun : run c s0 ops = .ok s) :
    s.maxPotentialPostPushWB = (s.pendingVertexPullReads.length : Int) ∧
    s.postPushWBQueue.length + s.pendingVertexPullReads.length ≤ c.postPushWBQueueSize ∧
    ∀ (now : Nat) (i : Int) (t : Nat) (s1 : State),
      processNextVertexPull c now s i t = .ok s1 → s1.memPortSent ≠ s.memPortSent →
      s.postPushWBQueue.length + s.pendingVertexPullReads.length < c.postPushWBQueueSize ∧
      ∃ a, s1.memPortSent = s.memPortSent ++ [.read a c.peerMemoryAtomSize true] := by
  have hinit : PullInv c s0 := by
    unfold CoalesceEngine at h0
    simp only [Except.bind_ok_iff, assert_ok_iff, exists_and_left, exists_const] at h0
    obtain ⟨_, h0⟩ := h0
    simp only [pure, Except.pure] at h0
    cases h0
    exact ⟨rfl, List.nodup_nil, Nat.zero_le _⟩
  have hi := run_pullInv c ops s0 s hinit hsol hrun
  exact ⟨hi.1, hi.2.2, fun now i t s1 h hne =>
    (processNextVertexPull_pull c now s s1 i t h hi).2 hne⟩

theorem Solicited.cons_of_step {c : Config} {s s1 : State} {now : Nat} {op : Op}
    {rest : List (Nat × Op)} (hs : op.solicited s) (hstep : step c now s op = .ok s1)
    (hrest : Solicited c s1 rest) : Solicited c s ((now, op) :: rest) :=
  ⟨hs, fun s2 h => by
    rw [hstep] at h
    cases h
    exact hrest⟩

/-- In the run `opsPullOne` the pull response answers the pull read sent before it. -/
theorem opsPullOne_solicited : Solicited cfgFold stFoldFresh opsPullOne :=
  Solicited.cons_of_step trivial rfl
    (Solicited.cons_of_step trivial rfl
      (Solicited.cons_of_step trivial rfl
        (Solicited.cons_of_step rfl rfl trivial)))

theorem pull_read_backpressure_witness :
    ∃ s, CoalesceEngine cfgFold = .ok stFoldFresh ∧ Solicited cfgFold stFoldFresh opsPullOne ∧
      run cfgFold stFoldFresh opsPullOne = .ok s ∧
      s.maxPotentialPostPushWB = (s.pendingVertexPullReads.length : Int) ∧
      s.postPushWBQueue.length + s.pendingVertexPullReads.length ≤
        cfgFold.postPushWBQueueSize ∧
      s.postPushWBQueue.length = 1 :=
  ⟨_, rfl, opsPullOne_solicited, rfl,
    (pull_read_backpressure cfgFold opsPullOne stFoldFresh _ rfl opsPullOne_solicited rfl).1,
    (pull_read_backpressure cfgFold opsPullOne stFoldFresh _ rfl opsPullOne_solicited rfl).2.1,
    rfl⟩

/-- Without the hypothesis on the run the count is lost: a pull-tagged response handed to
the freshly constructed cache, which has no pull read in flight, leaves
`maxPotentialPostPushWB = -1` with an empty `pendingVertexPullReads`. -/
theorem unsolicited_response_miscounts :
    ∃ s, handleMemResp cfgFold 0 stFoldFresh (.read 192 itemsFar true) = .ok (true, s) ∧
      s.maxPotentialPostPushWB = -1 ∧ s.pendingVertexPullReads = [] :=
  ⟨_, rfl, rfl, rfl⟩

/-! ### Counterexample runs -/

/-- C36 (apply-event assertions).  From construction with `cfgApply`, the run `opsRequeued`
returns and leaves line 1 valid and applied (`needsApply` clear) with one entry of line 1
still in the apply queue: the line was queued for apply, read again, written again and
queued again while its first entry was waiting behind the entry of line 0, and the apply
event that found the first entry applied the line.  The apply event of the next cycle
(`opsStaleApply`) finds the second entry, and `assert(cacheBlocks[block_index].needsApply)`
on line 780 fails. -/
theorem requeued_apply_entry_asserts :
    ∃ s0 s blk, CoalesceEngine cfgApply = .ok s0 ∧ run cfgApply s0 opsRequeued = .ok s ∧
      s.applyQueue = [1] ∧ s.block? 1 = some blk ∧ blk.valid = true ∧
      blk.needsApply = false ∧ blk.pendingData = false ∧ blk.pendingWB = false ∧
      run cfgApply s0 opsStaleApply = .error (.assertion 780) :=
  ⟨_, _, _, rfl, rfl, rfl, rfl, rfl, rfl, rfl, rfl, rfl⟩

/-- C31 (bitvector and active list) with a pull refused by back-pressure.  From
construction with `cfgOneWB` (room for one post-push writeback), the vertices 4 and 12
(lines 64 and 192) are made active and the push engine asks for two vertices.  The first
memory event sends the pull read of line 64.  The second finds vertex 12 in memory:
`getOptimalPullAddr` takes it off the active list (line 1088), and the pull read is refused
because there is no room (line 1153).  Bit 12 of the work bitvector is still set, the
active list is empty, and the only pull read in flight is the one of address 64. -/
theorem refused_pull_drops_active_index :
    ∃ s0 s, CoalesceEngine cfgOneWB = .ok s0 ∧ run cfgOneWB s0 opsPullReads = .ok s ∧
      s.needsPush[12]? = some true ∧ s.activeBits = [] ∧
      s.pendingVertexPullReads = [(64, 1)] ∧ s.memPortSent = [.read 64 64 true] ∧
      s.workCount = 2 :=
  ⟨_, _, rfl, rfl, rfl, rfl, rfl, rfl, rfl⟩

/-- C33 (invalidated apply entry).  Let the head of the apply queue be a line that passes
the four entry assertions (valid, `needsApply`, not `pendingData`, not `pendingWB`) and whose
`pendingApply` is clear.  Then `processNextPreWBApplyEvent` returns; the apply queue has lost
exactly its head; and the lines, the work bitvector, the work count, the active list, the
MSHR table and the memory-function queue are unchanged. -/
theorem invalidated_apply_entry (c : Config) (now : Nat) (s : State) (bi : Int)
    (rest : List Int) (blk : Block) (hq : s.applyQueue = bi :: rest)
    (hb : s.block? bi = some blk) (hv : blk.valid = true) (hna : blk.needsApply = true)
    (hpd : blk.pendingData = false) (hpw : blk.pendingWB = false)
    (hpa : blk.pendingApply = false) :
    ∃ s1, processNextPreWBApplyEvent c now s = .ok s1 ∧ s1.applyQueue = rest ∧
      s1.cacheBlocks = s.cacheBlocks ∧ s1.needsPush = s.needsPush ∧
      s1.workCount = s.workCount ∧ s1.activeBits = s.activeBits ∧ s1.MSHR = s.MSHR ∧
      s1.memoryFunctionQueue = s.memoryFunctionQueue ∧ s1.memPortSent = s.memPortSent := by
  have hb0 : ({ s with nextPreWBApplyEventScheduled := false } : State).block bi 779 =
      .ok blk := State.block_of_some 779 hb
  have hh : ({ s with nextPreWBApplyEventScheduled := false } : State).applyQueue.head? =
      some bi := by
    show s.applyQueue.head? = some bi
    rw [hq]
    rfl
  unfold processNextPreWBApplyEvent
  simp only [hh, hb0, bind, Except.bind, assert, hv, hna, hpd, hpw, hpa, if_true,
    Bool.not_false, Bool.false_eq_true, if_false, pure, Except.pure]
  refine ⟨_, rfl, ?_⟩
  unfold applyDequeue
  simp only [hq, List.tail_cons]
  split <;> split <;> exact ⟨rfl, rfl, rfl, rfl, rfl, rfl, rfl, rfl⟩

theorem invalidated_apply_entry_witness :
    ∃ s1, processNextPreWBApplyEvent cfgMin 7000 stReadAgain = .ok s1 ∧ s1.applyQueue = [] ∧
      s1.cacheBlocks = stReadAgain.cacheBlocks ∧ s1.needsPush = stReadAgain.needsPush :=
  match invalidated_apply_entry cfgMin 7000 stReadAgain 1 [] _ rfl rfl rfl rfl rfl rfl rfl
    with
  | ⟨s1, h1, h2, h3, h4, _⟩ => ⟨s1, h1, h2, h3, h4⟩

theorem processNextRead_silent (c : Config) (now : Nat) (s : State) (bi : Int) (blk : Block)
    (m : Nat) (hb : s.block? bi = some blk) (hpre : blk.awaitsData)
    (hq : ∀ e ∈ s.postPushWBQueue, e.1.addr ≠ blk.addr)
    (hp : pullFind s.pendingVertexPullReads blk.addr = some m) :
    processNextRead c now s bi blk.lastChangedTick = .ok s := by
  obtain ⟨h1, h2, h3, h4, h5, h6, h7⟩ := hpre
  unfold processNextRead
  rw [State.block_of_some 887 hb]
  simp only [bind, Except.bind, bne_self_eq_false, Bool.false_eq_true, if_false, assert, h1,
    h2, h3, h4, h5, h6, h7, Bool.not_false, beq_self_eq_true, if_true,
    postPushWBLoop_none c now bi s blk hb _ _ hq, State.block_of_some 955 hb, hp,
    Option.isNone_some, Bool.and_false]
  rfl

/-- C34 (fill request issue).  Let line `bi` wait for data as the source asserts it (lines
891-897) and let no queued post-push writeback packet have the line's address.  Executed
with the line's `lastChangedTick`, `processNextRead` returns.  When no pull read of the
line's address is in flight, exactly one packet is sent, the read of the line's address of
`peerMemoryAtomSize` bytes, the count of outstanding requests is one more, and nothing else
of the state changes (the lines and the MSHR table in particular).  When a pull read of
that address is in flight, the state is returned as it is: nothing is sent. -/
theorem fill_request_issue (c : Config) (now : Nat) (s : State) (bi : Int) (blk : Block)
    (hb : s.block? bi = some blk) (hpre : blk.awaitsData)
    (hq : ∀ e ∈ s.postPushWBQueue, e.1.addr ≠ blk.addr) :
    (pullFind s.pendingVertexPullReads blk.addr = none →
      processNextRead c now s bi blk.lastChangedTick =
        .ok { s with memPortSent := s.memPortSent ++
                       [.read blk.addr c.peerMemoryAtomSize false],
                     onTheFlyReqs := s.onTheFlyReqs + 1 }) ∧
    (∀ m, pullFind s.pendingVertexPullReads blk.addr = some m →
      processNextRead c now s bi blk.lastChangedTick = .ok s) :=
  ⟨fun hp => processNextRead_sends c now s bi blk hb hpre hq hp,
   fun m hp => processNextRead_silent c now s bi blk m hb hpre hq hp⟩

theorem fill_request_issue_witness :
    processNextRead cfgA 2000 stFull 1 1000 =
      .ok { stFull with memPortSent := [.read 64 64 false], onTheFlyReqs := 1 } :=
  (fill_request_issue cfgA 2000 stFull 1
    { (Block.init 4) with addr := 64, pendingData := true, lastChangedTick := 1000 }
    rfl ⟨rfl, rfl, rfl, rfl, rfl, rfl, rfl⟩
    (fun e he => absurd he (List.not_mem_nil e))).1 rfl

/-! ### The work count and the work bitvector -/

theorem count_set_true (l : List Bool) (i : Nat) (h : l[i]? = some false) :
    (l.set i true).count true = l.count true + 1 := by
  induction l generalizing i with
  | nil => simp at h
  | cons x xs ih =>
    cases i with
    | zero =>
      simp only [List.getElem?_cons_zero, Option.some.injEq] at h
      subst h
      simp
    | succ n =>
      simp only [List.getElem?_cons_succ] at h
      simp only [List.set_cons_succ, List.count_cons, ih n h]
      omega

theorem count_set_false (l : List Bool) (i : Nat) (h : l[i]? = some true) :
    (l.set i false).count true + 1 = l.count true := by
  induction l generalizing i with
  | nil => simp at h
  | cons x xs ih =>
    cases i with
    | zero =>
      simp only [List.getElem?_cons_zero, Option.some.injEq] at h
      subst h
      simp
    | succ n =>
      simp only [List.getElem?_cons_succ] at h
      simp only [List.set_cons_succ, List.count_cons]
      have := ih n h
      omega

theorem State.work_scheduleMemoryEvent (s : State) :
    s.scheduleMemoryEvent.work = s.work := by
  unfold State.scheduleMemoryEvent
  split <;> rfl

theorem State.work_scheduleResponseEvent (s : State) :
    s.scheduleResponseEvent.work = s.work := by
  unfold State.scheduleResponseEvent
  split <;> rfl

theorem WorkInv.of_work {c : Config} {s s1 : State} (hi : WorkInv c s)
    (h : s1.work = s.work) : WorkInv c s1 := by
  unfold State.work at h
  simp only [Prod.mk.injEq] at h
  unfold WorkInv
  rw [h.1, h.2]
  exact hi

theorem recvWLRead_work (c : Config) (now : Nat) (s : State) (addr : Nat)
    (r : Bool × State) (h : recvWLRead c now s addr = .ok r) : r.2.work = s.work := by
  unfold recvWLRead at h
  simp only [Except.bind_ok_iff, assert_ok_iff, exists_and_left, exists_const] at h
  obtain ⟨_, bi1, _, _, _, blk, hblk, h⟩ := h
  split at h
  · simp only [Except.bind_ok_iff, assert_ok_iff, exists_and_left, exists_const] at h
    obtain ⟨_, _, h⟩ := h
    split at h
    · cases h
    · cases h
      rfl
  · split at h
    · simp only [Except.bind_ok_iff, assert_ok_iff, exists_and_left, exists_const] at h
      obtain ⟨_, _, _, _, _, _, _, _, _, h⟩ := h
      split at h
      · cases h
        rfl
      · cases h
        rfl
    · simp only [Except.bind_ok_iff, assert_ok_iff, exists_and_left, exists_const] at h
      obtain ⟨_, _, h⟩ := h
      split at h
      · split at h
        · cases h
          rfl
        · split at h
          · split at h
            · simp only [Except.bind_ok_iff, assert_ok_iff, exists_and_left,
                exists_const] at h
              obtain ⟨_, _, _, h⟩ := h
              split at h
              · cases h
                exact State.work_scheduleMemoryEvent _
              · cases h
                exact State.work_scheduleMemoryEvent _
            · cases h
              rfl
          · simp only [Except.bind_ok_iff, assert_ok_iff, exists_and_left,
              exists_const] at h
            obtain ⟨_, _, _, _, _, _, _, _, h⟩ := h
            cases h
            exact State.work_scheduleMemoryEvent _
      · simp only [Except.bind_ok_iff, assert_ok_iff, exists_and_left, exists_const] at h
        obtain ⟨_, _, h⟩ := h
        split at h
        · cases h
          rfl
        · cases h
          rfl

theorem recvWLWrite_work (c : Config) (now : Nat) (s s1 : State) (addr : Nat)
    (w : WorkListItem) (h : recvWLWrite c now s addr w = .ok s1) : s1.work = s.work := by
  unfold recvWLWrite at h
  simp only [Except.bind_ok_iff, assert_ok_iff, exists_and_left, exists_const] at h
  obtain ⟨bi1, _, blk, _, _, _, _, _, _, _, _, h⟩ := h
  split at h
  · cases h
  · split at h
    · split at h
      · cases h
        rfl
      · simp only [Except.bind_ok_iff, assert_ok_iff, exists_and_left, exists_const] at h
        obtain ⟨_, h⟩ := h
        split at h
        · split at h
          · cases h
            rw [State.work_scheduleMemoryEvent]
            rfl
          · split at h
            · cases h
            · cases h
              rw [State.work_scheduleMemoryEvent]
              rfl
        · cases h
          rfl
    · cases h
      rfl

theorem processNextResponseEvent_work (c : Config) (now : Nat) (s s1 : State)
    (h : processNextResponseEvent c now s = .ok s1) : s1.work = s.work := by
  unfold processNextResponseEvent at h
  simp only [] at h
  split at h
  · cases h
  · simp only [pure, Except.pure] at h
    cases h
    rw [State.work_scheduleResponseEvent]
    rfl

theorem foldPostPushWB_work (c : Config) (now : Nat) (s s1 : State) (bi : Int)
    (blk : Block) (data : List WorkListItem)
    (h : foldPostPushWB c now s bi blk data = .ok s1) : s1.work = s.work := by
  unfold foldPostPushWB at h
  simp only [Except.bind_ok_iff] at h
  obtain ⟨r, _, h⟩ := h
  simp only [pure, Except.pure] at h
  cases h
  rw [State.work_scheduleResponseEvent]
  rfl

theorem postPushWBLoop_work (c : Config) (now : Nat) (bi : Int)
    (q : List (MemPacket × Nat)) (s : State) (need : Bool) (r : State × Bool)
    (h : postPushWBLoop c now bi q s need = .ok r) : r.1.work = s.work := by
  rw [(postPushWBLoop_same c now bi q s need r h).1]

theorem processNextRead_work (c : Config) (now : Nat) (s s1 : State) (bi : Int) (t : Nat)
    (h : processNextRead c now s bi t = .ok s1) : s1.work = s.work := by
  unfold processNextRead at h
  simp only [Except.bind_ok_iff] at h
  obtain ⟨blk, _, h⟩ := h
  split at h
  · simp only [pure, Except.pure] at h
    cases h
    rfl
  · simp only [Except.bind_ok_iff, assert_ok_iff, exists_and_left, exists_const] at h
    obtain ⟨_, _, _, _, _, _, _, r, hr, blk1, _, h⟩ := h
    have e := postPushWBLoop_work _ _ _ _ _ _ _ hr
    split at h
    · simp only [pure, Except.pure] at h
      cases h
      exact e
    · simp only [pure, Except.pure] at h
      cases h
      exact e

theorem processNextWriteBack_work (c : Config) (now : Nat) (s s1 : State) (i : Int)
    (t : Nat) (h : processNextWriteBack c now s i t = .ok s1) : s1.work = s.work := by
  unfold processNextWriteBack at h
  simp only [Except.bind_ok_iff] at h
  obtain ⟨blk, _, h⟩ := h
  split at h
  · simp only [Except.bind_ok_iff, assert_ok_iff, exists_and_left, exists_const] at h
    obtain ⟨_, _, _, _, _, _, _, _, _, h⟩ := h
    split at h
    · cases h
    · simp only [pure, Except.pure] at h
      cases h
      rfl
  · simp only [pure, Except.pure] at h
    cases h
    rfl

theorem recvMemRetry_work (s s1 : State) (h : recvMemRetry s = .ok s1) :
    s1.work = s.work := by
  unfold recvMemRetry at h
  split at h
  · simp only [pure, Except.pure] at h
    cases h
    rfl
  · simp only [Except.bind_ok_iff, assert_ok_iff, exists_and_left, exists_const] at h
    obtain ⟨_, h⟩ := h
    simp only [pure, Except.pure] at h
    cases h
    rfl

theorem recvVertexPull_work (now : Nat) (s : State) :
    (recvVertexPull now s).work = s.work := by
  unfold recvVertexPull
  simp only []
  split
  · rw [State.work_scheduleMemoryEvent]
    rfl
  · rfl

theorem WorkInv.set_bit {c : Config} {s : State} (hi : WorkInv c s) (i : Nat)
    (h : s.needsPush[i]? = some false) :
    WorkInv c { s with needsPush := s.needsPush.set i true, workCount := s.workCount + 1 } := by
  obtain ⟨h1, h2⟩ := hi
  refine ⟨?_, ?_⟩
  · show s.workCount + 1 = (((s.needsPush.set i true).count true : Nat) : Int)
    rw [count_set_true _ _ h, h1]
    push_cast
    rfl
  · show (s.needsPush.set i true).length = _
    rw [List.length_set]
    exact h2

theorem WorkInv.clear_bit {c : Config} {s : State} (hi : WorkInv c s) (i : Nat)
    (h : s.needsPush[i]? = some true) :
    WorkInv c { s with needsPush := s.needsPush.set i false, workCount := s.workCount - 1 } := by
  obtain ⟨h1, h2⟩ := hi
  refine ⟨?_, ?_⟩
  · show s.workCount - 1 = (((s.needsPush.set i false).count true : Nat) : Int)
    have := count_set_false _ _ h
    rw [h1]
    omega
  · show (s.needsPush.set i false).length = _
    rw [List.length_set]
    exact h2

/-- The apply loop sets only bits that are clear, and counts each one. -/
theorem applyLoop_workInv (c : Config) (bi : Int) :
    ∀ (n index : Nat) (s s1 : State), applyLoop c bi n index s = .ok s1 →
      WorkInv c s → WorkInv c s1 := by
  intro n
  induction n with
  | zero =>
    intro index s s1 h hi
    simp only [applyLoop, pure, Except.pure] at h
    cases h
    exact hi
  | succ n ih =>
    intro index s s1 h hi
    unfold applyLoop at h
    simp only [Except.bind_ok_iff, assert_ok_iff, exists_and_left, exists_const] at h
    obtain ⟨blk0, _, h⟩ := h
    split at h
    · cases h
    · rename_i item _
      have hi1 : WorkInv c
          (s.setBlock bi { blk0 with items := blk0.items.set index (c.preWBApply item).2 }) :=
        hi
      split at h
      · simp only [Except.bind_ok_iff, assert_ok_iff, exists_and_left, exists_const] at h
        obtain ⟨base, _, b, hb, h⟩ := h
        split at h
        · rename_i hbf
          have hbf' : b = false := by simpa using hbf
          subst hbf'
          obtain ⟨_, hget⟩ := needsPushGet_ok hb
          have hi2 := hi1.set_bit (base + index).toNat hget
          refine ih _ _ _ h ?_
          split
          · exact hi2
          · exact hi2
        · exact ih _ _ _ h hi1
      · exact ih _ _ _ h hi1

theorem applyDequeue_work (s : State) : (applyDequeue s).work = s.work := by
  unfold applyDequeue
  simp only []
  split <;> split <;> rfl

theorem processNextPreWBApplyEvent_workInv (c : Config) (now : Nat) (s s1 : State)
    (h : processNextPreWBApplyEvent c now s = .ok s1) (hi : WorkInv c s) : WorkInv c s1 := by
  unfold processNextPreWBApplyEvent at h
  simp only [] at h
  split at h
  · cases h
  · simp only [Except.bind_ok_iff, assert_ok_iff, exists_and_left, exists_const] at h
    obtain ⟨blk, _, _, _, _, _, sa, hsa, h⟩ := h
    simp only [pure, Except.pure] at h
    cases h
    refine WorkInv.of_work ?_ (applyDequeue_work _)
    have hi0 : WorkInv c { s with nextPreWBApplyEventScheduled := false } := hi
    split at hsa
    · unfold applyLine at hsa
      simp only [Except.bind_ok_iff, assert_ok_iff, exists_and_left, exists_const] at hsa
      obtain ⟨_, sl, hsl, blk1, _, _, _, hsa⟩ := hsa
      have e := applyLoop_workInv _ _ _ _ _ _ hsl hi0
      split at hsa
      · simp only [pure, Except.pure] at hsa
        cases hsa
        exact e.of_work (State.work_scheduleMemoryEvent _)
      · simp only [pure, Except.pure] at hsa
        cases hsa
        exact e
    · simp only [pure, Except.pure] at hsa
      cases hsa
      exact hi0

/-- The loop over the mask of a pull read clears only bits that are set, and counts each
one. -/
theorem pullRespLoop_workInv (c : Config) (addr : Nat) (it : Int) (send_mask : Nat) :
    ∀ (n i : Nat) (s : State) (items : List WorkListItem) (d : Bool)
      (r : State × List WorkListItem × Bool),
      pullRespLoop c addr it send_mask n i s items d = .ok r →
      WorkInv c s → WorkInv c r.1 := by
  intro n
  induction n with
  | zero =>
    intro i s items d r h hi
    simp only [pullRespLoop, pure, Except.pure] at h
    cases h
    exact hi
  | succ n ih =>
    intro i s items d r h hi
    unfold pullRespLoop at h
    split at h
    · simp only [Except.bind_ok_iff, assert_ok_iff, exists_and_left, exists_const] at h
      obtain ⟨b, hb, hbt, h⟩ := h
      have hbt' : b = true := by simpa using hbt
      subst hbt'
      obtain ⟨_, hget⟩ := needsPushGet_ok hb
      split at h
      · cases h
      · exact ih _ _ _ _ _ h (hi.clear_bit (it + i).toNat hget)
    · exact ih _ _ _ _ _ h hi

theorem handleMemResp_workInv (c : Config) (now : Nat) (s : State) (pkt : MemResponse)
    (r : Bool × State) (h : handleMemResp c now s pkt = .ok r) (hi : WorkInv c s) :
    WorkInv c r.2 := by
  cases pkt with
  | write a =>
    simp only [handleMemResp, pure, Except.pure] at h
    cases h
    exact hi
  | read a items pull =>
    unfold handleMemResp at h
    simp only [Except.bind_ok_iff] at h
    obtain ⟨bi, _, blk, _, r1, hr1, s2, hs2, h⟩ := h
    simp only [pure, Except.pure] at h
    cases h
    have hi0 : WorkInv c { s with onTheFlyReqs := s.onTheFlyReqs - 1 } := hi
    have hi1 : WorkInv c r1.1 := by
      split at hr1
      · unfold handlePullResp at hr1
        simp only [Except.bind_ok_iff, assert_ok_iff, exists_and_left, exists_const] at hr1
        obtain ⟨_, it, _, r0, hr0, hr1⟩ := hr1
        simp only [pure, Except.pure] at hr1
        cases hr1
        have e := pullRespLoop_workInv _ _ _ _ _ _ _ _ _ _ hr0 hi0
        exact e
      · simp only [pure, Except.pure] at hr1
        cases hr1
        exact hi0
    have hi2 : WorkInv c s2 := by
      split at hs2
      · obtain ⟨_, ts, _, _, he⟩ := handleFill_spec _ _ _ _ _ _ _ _ _ hs2
        rw [he]
        exact hi1
      · split at hs2
        · simp only [pure, Except.pure] at hs2
          cases hs2
          unfold queuePostPushWB
          simp only []
          exact WorkInv.of_work hi1 (State.work_scheduleMemoryEvent _)
        · simp only [pure, Except.pure] at hs2
          cases hs2
          exact hi1
    exact WorkInv.of_work hi2
      (State.work_scheduleResponseEvent { s2 with MSHR := mshrCleanup s2.MSHR bi })

/-- A pull served from the cache clears the bit of the vertex that the search examined,
which is set. -/
theorem processNextVertexPull_workInv (c : Config) (now : Nat) (s s1 : State) (i : Int)
    (t : Nat) (hc : c.wf) (hid : ∀ x, c.removeIntlvBits (c.addIntlvBits x) = x)
    (hsize : c.maxBitvectorSize < 2 ^ 31)
    (h : processNextVertexPull c now s i t = .ok s1) (hi : WorkInv c s) : WorkInv c s1 := by
  unfold processNextVertexPull at h
  simp only [Except.bind_ok_iff] at h
  obtain ⟨r, hr, s2, hs2, h⟩ := h
  unfold getOptimalPullAddr at hr
  simp only [Except.bind_ok_iff] at hr
  obtain ⟨r0, hr0, hr⟩ := hr
  simp only [pure, Except.pure] at hr
  cases hr
  have hiA : WorkInv c { s with activeBits := r0.2 } := hi
  have e2 : WorkInv c s2 := by
    split at hs2
    · unfold pullPendingRead at hs2
      simp only [Except.bind_ok_iff, assert_ok_iff, exists_and_left, exists_const] at hs2
      obtain ⟨_, hs2⟩ := hs2
      simp only [pure, Except.pure] at hs2
      cases hs2
      exact hi
    · rename_i hloc
      have hr1 : r0.1 = (.IN_CACHE, r0.1.2.1, r0.1.2.2) := by
        simp only [] at hloc
        obtain ⟨⟨w, a, b⟩, rest⟩ := r0
        simp only [] at hloc ⊢
        rw [hloc]
      obtain ⟨idx, hex⟩ : ∃ idx, examinePull c s idx = .ok (some r0.1) := by
        rcases getOptimalPullAddrLoop_spec c s _ _ r0.1 r0.2 (Nat.le_refl _) hr0 with
          ⟨h1, _, _⟩ | ⟨k, idx, _, _, _, hex, _⟩
        · rw [h1] at hr1
          cases hr1
        · exact ⟨idx, hex⟩
      rw [hr1] at hex
      obtain ⟨addr, blk, hbit, ho, _, haddr, hal, hblk, hba, _⟩ :=
        examinePull_inCache c s idx _ _ hex
      obtain ⟨hidx0, hget⟩ := needsPushGet_ok hbit
      have hlen : idx.toNat < s.needsPush.length := (List.getElem?_eq_some_iff.mp hget).1
      have hidx : idx < 2 ^ 31 := by
        have := hi.2
        omega
      have hbase := getBitIndexBase_roundTrip hc hid idx addr hidx0 hidx haddr hal
      unfold pullInCache at hs2
      simp only [Except.bind_ok_iff, assert_ok_iff, exists_and_left, exists_const] at hs2
      obtain ⟨blk1, hblk1, base, hb1, _, _, hs2⟩ := hs2
      have e1 : blk1 = blk := by
        have := State.block_ok hblk1
        have hblk' : ({ s with activeBits := r0.2 } : State).block? (toInt32 r0.1.2.1) =
            some blk := hblk
        rw [hblk'] at this
        cases this
        rfl
      subst e1
      rw [hba, hbase] at hb1
      cases hb1
      split at hs2
      · cases hs2
      · simp only [pure, Except.pure] at hs2
        cases hs2
        have hsum : idx - Int.tmod idx (c.numElementsPerLine : Int) + r0.1.2.2 = idx := by
          rw [ho]
          omega
        have := hiA.clear_bit idx.toNat hget
        rw [hsum]
        exact this
    · unfold pullInMemory at hs2
      simp only [] at hs2
      split at hs2
      · simp only [Except.bind_ok_iff, assert_ok_iff, exists_and_left, exists_const] at hs2
        obtain ⟨_, hs2⟩ := hs2
        simp only [pure, Except.pure] at hs2
        cases hs2
        exact hi
      · simp only [pure, Except.pure] at hs2
        cases hs2
        exact hi
    · simp only [pure, Except.pure] at hs2
      cases hs2
      exact hi
  split at h
  · simp only [pure, Except.pure] at h
    cases h
    exact e2
  · simp only [pure, Except.pure] at h
    cases h
    exact e2

theorem processNextMemoryEvent_workInv (c : Config) (now : Nat) (s s1 : State) (hc : c.wf)
    (hid : ∀ x, c.removeIntlvBits (c.addIntlvBits x) = x)
    (hsize : c.maxBitvectorSize < 2 ^ 31)
    (h : processNextMemoryEvent c now s = .ok s1) (hi : WorkInv c s) : WorkInv c s1 := by
  unfold processNextMemoryEvent at h
  simp only [] at h
  split at h
  · simp only [pure, Except.pure] at h
    cases h
    exact hi
  · split at h
    · cases h
    · rename_i e rest hq
      simp only [Except.bind_ok_iff, assert_ok_iff, exists_and_left, exists_const] at h
      obtain ⟨s2, hs2, _, _, h⟩ := h
      have hi0 : WorkInv c { s with nextMemoryEventScheduled := false } := hi
      have e2 : WorkInv c s2 := by
        unfold callMemoryFunction at hs2
        split at hs2
        · exact hi0.of_work (processNextRead_work _ _ _ _ _ _ hs2)
        · exact hi0.of_work (processNextWriteBack_work _ _ _ _ _ _ hs2)
        · unfold processNextPostPushWB at hs2
          split at hs2
          · cases hs2
          · split at hs2
            · simp only [pure, Except.pure] at hs2
              cases hs2
              exact hi
            · simp only [pure, Except.pure] at hs2
              cases hs2
              exact hi
        · exact processNextVertexPull_workInv c now _ _ _ _ hc hid hsize hs2 hi0
      split at h
      · simp only [pure, Except.pure] at h
        cases h
        exact e2
      · simp only [pure, Except.pure] at h
        cases h
        exact e2

theorem recvFunctional_workInv (c : Config) (s s1 : State) (is_read : Bool) (addr size : Nat)
    (data : List WorkListItem) (hinit : InitKeepsCount c)
    (h : recvFunctional c s is_read addr size data = .ok s1) (hi : WorkInv c s) :
    WorkInv c s1 := by
  unfold recvFunctional at h
  split at h
  · simp only [Except.bind_ok_iff, assert_ok_iff, exists_and_left, exists_const] at h
    obtain ⟨_, bi, _, blk, _, h⟩ := h
    split at h
    · simp only [Except.bind_ok_iff, assert_ok_iff, exists_and_left, exists_const] at h
      obtain ⟨_, _, _, _, h⟩ := h
      simp only [pure, Except.pure] at h
      cases h
      exact hi
    · simp only [pure, Except.pure] at h
      cases h
      exact hi
  · simp only [Except.bind_ok_iff] at h
    obtain ⟨base, _, h⟩ := h
    simp only [pure, Except.pure] at h
    cases h
    obtain ⟨k1, k2⟩ := hinit addr data base s.needsPush s.activeBits s.workCount hi.1
    exact ⟨k1, k2.trans hi.2⟩

theorem step_workInv (c : Config) (hc : c.wf)
    (hid : ∀ x, c.removeIntlvBits (c.addIntlvBits x) = x)
    (hsize : c.maxBitvectorSize < 2 ^ 31) (hinit : InitKeepsCount c) (now : Nat)
    (s s1 : State) (op : Op) (h : step c now s op = .ok s1) (hi : WorkInv c s) :
    WorkInv c s1 := by
  cases op with
  | recvWLRead addr =>
    simp only [step] at h
    cases hr : recvWLRead c now s addr with
    | error e => rw [hr] at h; cases h
    | ok r =>
      rw [hr] at h
      cases h
      exact hi.of_work (recvWLRead_work _ _ _ _ _ hr)
  | recvWLWrite addr wl => exact hi.of_work (recvWLWrite_work _ _ _ _ _ _ h)
  | handleMemResp pkt =>
    simp only [step] at h
    cases hr : handleMemResp c now s pkt with
    | error e => rw [hr] at h; cases h
    | ok r =>
      rw [hr] at h
      cases h
      exact handleMemResp_workInv _ _ _ _ _ hr hi
  | processNextResponseEvent => exact hi.of_work (processNextResponseEvent_work _ _ _ _ h)
  | processNextPreWBApplyEvent => exact processNextPreWBApplyEvent_workInv _ _ _ _ h hi
  | processNextMemoryEvent => exact processNextMemoryEvent_workInv _ _ _ _ hc hid hsize h hi
  | recvMemRetry => exact hi.of_work (recvMemRetry_work _ _ h)
  | recvVertexPull =>
    simp only [step, pure, Except.pure] at h
    cases h
    exact hi.of_work (recvVertexPull_work _ _)
  | recvFunctional is_read addr size data =>
    exact recvFunctional_workInv _ _ _ _ _ _ _ hinit h hi
  | portBlocked b =>
    simp only [step, pure, Except.pure] at h
    cases h
    exact hi
  | ownerRuns b =>
    simp only [step, pure, Except.pure] at h
    cases h
    exact hi

theorem run_workInv (c : Config) (hc : c.wf)
    (hid : ∀ x, c.removeIntlvBits (c.addIntlvBits x) = x)
    (hsize : c.maxBitvectorSize < 2 ^ 31) (hinit : InitKeepsCount c) :
    ∀ (ops : List (Nat × Op)) (s s1 : State), WorkInv c s →
      run c s ops = .ok s1 → WorkInv c s1 := by
  intro ops
  induction ops with
  | nil =>
    intro s s1 hw h
    simp only [run, pure, Except.pure] at h
    cases h
    exact hw
  | cons o rest ih =>
    intro s s1 hw h
    obtain ⟨now, op⟩ := o
    unfold run at h
    simp only [Except.bind_ok_iff] at h
    obtain ⟨s2, h2, h3⟩ := h
    exact ih s2 s1 (step_workInv c hc hid hsize hinit now s s2 op h2 hw) h3

theorem CoalesceEngine_workInv {c : Config} {s0 : State} (h : CoalesceEngine c = .ok s0) :
    WorkInv c s0 := by
  unfold CoalesceEngine at h
  simp only [Except.bind_ok_iff, assert_ok_iff, exists_and_left, exists_const] at h
  obtain ⟨_, h⟩ := h
  simp only [pure, Except.pure] at h
  cases h
  refine ⟨?_, ?_⟩
  · show (0 : Int) = (((List.replicate c.maxBitvectorSize false).count true : Nat) : Int)
    rw [List.count_replicate]
    simp
  · show (List.replicate c.maxBitvectorSize false).length = _
    exact List.length_replicate _ _

/-- The workload of `cfgApply` leaves the work bitvector alone in its `init`. -/
theorem cfgApply_initKeepsCount : InitKeepsCount cfgApply := by
  intro addr data base np active wc h
  exact ⟨h, rfl⟩

/-- C38 (work count matches the bitvector).  Let the engine be without address
interleaving, with a work bitvector that an `int` can index, and with a workload whose
`init` keeps the count it is handed equal to the number of bits set in the bitvector it is
handed.  Then in every state reached from the constructed cache (all bits clear, count
zero) by any sequence of entry points, `_workCount` is the number of set bits of
`needsPush`; and from any such state, every entry point that returns leaves the count
changed by exactly the change of the number of set bits. -/
theorem work_count_matches_bitvector (c : Config) (ops : List (Nat × Op)) (s0 s : State)
    (hc : c.wf) (hid : ∀ x, c.removeIntlvBits (c.addIntlvBits x) = x)
    (hsize : c.maxBitvectorSize < 2 ^ 31) (hinit : InitKeepsCount c)
    (h0 : CoalesceEngine c = .ok s0) (hrun : run c s0 ops = .ok s) :
    s0.workCount = 0 ∧ s0.needsPush.count true = 0 ∧
    s.workCount = (s.needsPush.count true : Int) ∧
    ∀ (now : Nat) (op : Op) (s1 : State), step c now s op = .ok s1 →
      s1.workCount - s.workCount =
        (s1.needsPush.count true : Int) - (s.needsPush.count true : Int) := by
  have hi0 := CoalesceEngine_workInv h0
  have hi := run_workInv c hc hid hsize hinit ops s0 s hi0 hrun
  have hz : s0.needsPush.count true = 0 := by
    unfold CoalesceEngine at h0
    simp only [Except.bind_ok_iff, assert_ok_iff, exists_and_left, exists_const] at h0
    obtain ⟨_, h0⟩ := h0
    simp only [pure, Except.pure] at h0
    cases h0
    show (List.replicate c.maxBitvectorSize false).count true = 0
    rw [List.count_replicate]
    simp
  refine ⟨?_, hz, hi.1, ?_⟩
  · rw [hi0.1, hz]
    rfl
  · intro now op s1 hs
    have hi1 := step_workInv c hc hid hsize hinit now s s1 op hs hi
    rw [hi1.1, hi.1]

theorem work_count_matches_bitvector_witness :
    ∃ s0 s, CoalesceEngine cfgApply = .ok s0 ∧ run cfgApply s0 opsRequeued = .ok s ∧
      s.workCount = 2 ∧ s.needsPush.count true = 2 ∧
      (s0.workCount = 0 ∧ s0.needsPush.count true = 0 ∧
        s.workCount = (s.needsPush.count true : Int) ∧
        ∀ (now : Nat) (op : Op) (s1 : State), step cfgApply now s op = .ok s1 →
          s1.workCount - s.workCount =
            (s1.needsPush.count true : Int) - (s.needsPush.count true : Int)) :=
  ⟨_, _, rfl, rfl, rfl, rfl,
    work_count_matches_bitvector cfgApply opsRequeued _ _ (by decide) (fun _ => rfl)
      (by decide) cfgApply_initKeepsCount rfl rfl⟩

/-! ### The apply loop in closed form -/

theorem applySlots_succ (c : Config) (items : List WorkListItem) (np : List Bool)
    (base : Int) (i n : Nat) :
    applySlots c items np base i (n + 1) =
      if ((c.preWBApply (items.getD i {})).1 &&
          (np.getD (base + (i : Int)).toNat true == false)) = true then
        i :: applySlots c items np base (i + 1) n
      else applySlots c items np base (i + 1) n := by
  unfold applySlots
  rw [List.range'_succ, List.filter_cons]

theorem mem_applySlots {c : Config} {items : List WorkListItem} {np : List Bool}
    {base : Int} {i n j : Nat} (h : j ∈ applySlots c items np base i n) :
    i ≤ j ∧ j < i + n ∧ (c.preWBApply (items.getD j {})).1 = true ∧
      np.getD (base + (j : Int)).toNat true = false := by
  unfold applySlots at h
  rw [List.mem_filter, List.mem_range'_1] at h
  obtain ⟨⟨h1, h2⟩, h3⟩ := h
  simp only [Bool.and_eq_true, beq_iff_eq] at h3
  exact ⟨h1, h2, h3.1, h3.2⟩

/-- The slots found from slot `i + 1` on do not depend on slot `i` of the line. -/
theorem applySlots_congr_items (c : Config) (items : List WorkListItem) (np : List Bool)
    (base : Int) (i n : Nat) (x : WorkListItem) :
    applySlots c (items.set i x) np base (i + 1) n = applySlots c items np base (i + 1) n := by
  unfold applySlots
  apply List.filter_congr
  intro j hj
  rw [List.mem_range'_1] at hj
  have hne : i ≠ j := by omega
  simp only [List.getD_eq_getElem?_getD, List.getElem?_set_ne hne]

/-- The slots found from slot `i + 1` on do not depend on bit `base + i` of the
bitvector. -/
theorem applySlots_congr_bits (c : Config) (items : List WorkListItem) (np : List Bool)
    (base : Int) (i n : Nat) (b : Bool) (h0 : 0 ≤ base + (i : Int)) :
    applySlots c items (np.set (base + (i : Int)).toNat b) base (i + 1) n =
      applySlots c items np base (i + 1) n := by
  unfold applySlots
  apply List.filter_congr
  intro j hj
  rw [List.mem_range'_1] at hj
  have hne2 : (base + (i : Int)).toNat ≠ (base + (j : Int)).toNat := by omega
  simp only [List.getD_eq_getElem?_getD, List.getElem?_set_ne hne2]

theorem appliedItems_succ (c : Config) (items : List WorkListItem) (i n : Nat) :
    appliedItems c items i (n + 1) =
      appliedItems c (items.set i (c.preWBApply (items.getD i {})).2) (i + 1) n := by
  unfold appliedItems
  rw [List.range'_succ, List.foldl_cons]

theorem appliedItems_length (c : Config) :
    ∀ (n i : Nat) (items : List WorkListItem),
      (appliedItems c items i n).length = items.length := by
  intro n
  induction n with
  | zero => intro i items; rfl
  | succ n ih =>
    intro i items
    rw [appliedItems_succ, ih]
    simp

theorem State.setBlock_same {s : State} {bi : Int} {blk : Block}
    (h : s.block? bi = some blk) : s.setBlock bi blk = s := by
  obtain ⟨_, hlt, hget⟩ := State.block?_some h
  unfold State.setBlock
  have e : s.cacheBlocks.set bi.toNat blk = s.cacheBlocks := by
    apply List.ext_getElem?
    intro k
    by_cases hk : bi.toNat = k
    · subst hk
      rw [List.getElem?_set_self hlt, hget]
    · rw [List.getElem?_set_ne hk]
  rw [e]

theorem State.setBlock_twice (s : State) (bi : Int) (b1 b2 : Block) :
    (s.setBlock bi b1).setBlock bi b2 = s.setBlock bi b2 := by
  unfold State.setBlock
  simp only [List.set_set]

theorem appliedState_zero (c : Config) (s : State) (bi : Int) (blk : Block) (base : Int)
    (i : Nat) (hb : s.block? bi = some blk) : appliedState c s bi blk base i 0 = s := by
  have e := State.setBlock_same hb
  unfold State.setBlock at e
  unfold appliedState State.setBlock applySlots appliedItems setBits
  simp only [List.range'_zero, List.filter_nil, List.foldl_nil, List.length_nil,
    List.map_nil, List.append_nil, List.isEmpty_nil, Bool.not_true, Bool.or_false,
    Bool.or_true, if_true, Nat.cast_zero, Int.add_zero]
  exact e

theorem appliedState_skip (c : Config) (s : State) (bi : Int) (blk : Block) (base : Int)
    (i n : Nat)
    (hp : ¬ ((c.preWBApply (blk.items.getD i {})).1 &&
          (s.needsPush.getD (base + (i : Int)).toNat true == false)) = true) :
    appliedState c
        (s.setBlock bi { blk with items := blk.items.set i (c.preWBApply (blk.items.getD i {})).2 })
        bi { blk with items := blk.items.set i (c.preWBApply (blk.items.getD i {})).2 }
        base (i + 1) n =
      appliedState c s bi blk base i (n + 1) := by
  unfold appliedState State.setBlock
  dsimp only
  rw [applySlots_succ, if_neg hp, appliedItems_succ, applySlots_congr_items, List.set_set]

theorem appliedState_push (c : Config) (s : State) (bi : Int) (blk : Block) (base : Int)
    (i n : Nat) (h0 : 0 ≤ base + (i : Int))
    (hp : ((c.preWBApply (blk.items.getD i {})).1 &&
          (s.needsPush.getD (base + (i : Int)).toNat true == false)) = true) :
    appliedState c
        (if !s.ownerRunning then
          { (s.setBlock bi
              { blk with items := blk.items.set i (c.preWBApply (blk.items.getD i {})).2 }) with
            needsPush := s.needsPush.set (base + (i : Int)).toNat true,
            workCount := s.workCount + 1,
            activeBits := s.activeBits ++ [base + (i : Int)],
            ownerRunning := true, ownerCalls := s.ownerCalls ++ [.start] }
         else
          { (s.setBlock bi
              { blk with items := blk.items.set i (c.preWBApply (blk.items.getD i {})).2 }) with
            needsPush := s.needsPush.set (base + (i : Int)).toNat true,
            workCount := s.workCount + 1,
            activeBits := s.activeBits ++ [base + (i : Int)] })
        bi { blk with items := blk.items.set i (c.preWBApply (blk.items.getD i {})).2 }
        base (i + 1) n =
      appliedState c s bi blk base i (n + 1) := by
  cases hr : s.ownerRunning with
  | false =>
    simp only [Bool.not_false, if_true]
    unfold appliedState State.setBlock
    dsimp only
    rw [applySlots_succ, if_pos hp, appliedItems_succ, applySlots_congr_items,
      applySlots_congr_bits _ _ _ _ _ _ _ h0, List.set_set]
    simp only [setBits, List.foldl_cons, List.length_cons, List.map_cons, hr, Bool.true_or,
      Bool.false_or, List.isEmpty_cons, Bool.not_false, if_true, Bool.false_eq_true,
      if_false, List.append_nil, List.append_assoc, List.singleton_append, Nat.cast_add,
      Nat.cast_one, State.mk.injEq, true_and, and_true]
    omega
  | true =>
    simp only [Bool.not_true, Bool.false_eq_true, if_false]
    unfold appliedState State.setBlock
    dsimp only
    rw [applySlots_succ, if_pos hp, appliedItems_succ, applySlots_congr_items,
      applySlots_congr_bits _ _ _ _ _ _ _ h0, List.set_set]
    simp only [setBits, List.foldl_cons, List.length_cons, List.map_cons, hr, Bool.true_or,
      if_true, List.append_nil, List.append_assoc, List.singleton_append, Nat.cast_add,
      Nat.cast_one, State.mk.injEq, true_and, and_true]
    omega

/-- The loop of `processNextPreWBApplyEvent` over the slots of a line, in closed form.  When
the line has an item in every slot visited and the bit of every slot for which
`preWBApply` asks for a push is inside the work bitvector, the loop returns the state
`appliedState`: every item is as `preWBApply` left it, and for the slots that ask for a push
and whose bit is clear, the bit is set, the work count is incremented, the bit index is
appended to the active list, and the push engine is started when it was not running. -/
theorem applyLoop_spec (c : Config) (bi : Int) (base : Int) :
    ∀ (n i : Nat) (s : State) (blk : Block), s.block? bi = some blk →
      getBitIndexBase c blk.addr = .ok base → i + n ≤ blk.items.length →
      (∀ j, i ≤ j → j < i + n → (c.preWBApply (blk.items.getD j {})).1 = true →
        0 ≤ base + (j : Int) ∧ (base + (j : Int)).toNat < s.needsPush.length) →
      applyLoop c bi n i s = .ok (appliedState c s bi blk base i n) := by
  intro n
  induction n with
  | zero =>
    intro i s blk hb _ _ _
    rw [appliedState_zero c s bi blk base i hb]
    rfl
  | succ n ih =>
    intro i s blk hb hbase hlen hrange
    have hi : i < blk.items.length := by omega
    have hitem : blk.items[i]? = some blk.items[i] := List.getElem?_eq_getElem hi
    have hgetD : blk.items.getD i {} = blk.items[i] := by
      rw [List.getD_eq_getElem?_getD, hitem]
      rfl
    have hb1 : (s.setBlock bi
          { blk with items := blk.items.set i (c.preWBApply (blk.items.getD i {})).2 }).block? bi =
        some
          { blk with items := blk.items.set i (c.preWBApply (blk.items.getD i {})).2 } :=
      State.block?_setBlock hb
    have hlen1 : i + 1 + n ≤ (blk.items.set i (c.preWBApply (blk.items.getD i {})).2).length := by
      rw [List.length_set]
      omega
    have hpre : ∀ j, i + 1 ≤ j →
        (c.preWBApply ((blk.items.set i (c.preWBApply (blk.items.getD i {})).2).getD j {})).1 =
          (c.preWBApply (blk.items.getD j {})).1 := by
      intro j hj
      have hne : i ≠ j := by omega
      simp only [List.getD_eq_getElem?_getD, List.getElem?_set_ne hne]
    unfold applyLoop
    rw [State.block_of_some 787 hb]
    simp only [bind, Except.bind, hitem]
    rw [← hgetD]
    by_cases hp : (c.preWBApply (blk.items.getD i {})).1 = true
    · obtain ⟨h0, hin⟩ := hrange i (Nat.le_refl _) (by omega) hp
      have hget : s.needsPush[(base + (i : Int)).toNat]? =
          some s.needsPush[(base + (i : Int)).toNat] := List.getElem?_eq_getElem hin
      have hg : needsPushGet (s.setBlock bi
            { blk with items := blk.items.set i (c.preWBApply (blk.items.getD i {})).2 }).needsPush
          (base + (i : Int)) 790 = .ok s.needsPush[(base + (i : Int)).toNat] :=
        needsPushGet_of_some 790 h0 hget
      have hD : s.needsPush.getD (base + (i : Int)).toNat true =
          s.needsPush[(base + (i : Int)).toNat] := by
        rw [List.getD_eq_getElem?_getD, hget]
        rfl
      simp only [hp, if_true, hbase, hg]
      cases hv : s.needsPush[(base + (i : Int)).toNat] with
      | false =>
        simp only [beq_self_eq_true, if_true]
        have hpp : ((c.preWBApply (blk.items.getD i {})).1 &&
            (s.needsPush.getD (base + (i : Int)).toNat true == false)) = true := by
          rw [hD, hv, hp]
          rfl
        rw [← appliedState_push c s bi blk base i n h0 hpp]
        refine ih (i + 1) _ _ ?_ hbase hlen1 ?_
        · split
          · exact hb1
          · exact hb1
        · intro j hj1 hj2 hjp
          rw [hpre j hj1] at hjp
          obtain ⟨g0, gin⟩ := hrange j (by omega) (by omega) hjp
          refine ⟨g0, ?_⟩
          split
          · show (base + (j : Int)).toNat < (s.needsPush.set _ true).length
            rw [List.length_set]
            exact gin
          · show (base + (j : Int)).toNat < (s.needsPush.set _ true).length
            rw [List.length_set]
            exact gin
      | true =>
        have hpp : ¬ ((c.preWBApply (blk.items.getD i {})).1 &&
            (s.needsPush.getD (base + (i : Int)).toNat true == false)) = true := by
          rw [hD, hv, hp]
          decide
        have hf : (true == false) = false := rfl
        simp only [hf, Bool.false_eq_true, if_false]
        rw [← appliedState_skip c s bi blk base i n hpp]
        refine ih (i + 1) _ _ hb1 hbase hlen1 ?_
        intro j hj1 hj2 hjp
        rw [hpre j hj1] at hjp
        exact hrange j (by omega) (by omega) hjp
    · have hpp : ¬ ((c.preWBApply (blk.items.getD i {})).1 &&
          (s.needsPush.getD (base + (i : Int)).toNat true == false)) = true := by
        simp only [Bool.and_eq_true, not_and]
        intro h
        exact absurd h hp
      simp only [hp, Bool.false_eq_true, if_false]
      rw [← appliedState_skip c s bi blk base i n hpp]
      refine ih (i + 1) _ _ hb1 hbase hlen1 ?_
      intro j hj1 hj2 hjp
      rw [hpre j hj1] at hjp
      exact hrange j (by omega) (by omega) hjp

theorem setBits_spec (base : Int) (l : List Nat) :
    ∀ (np : List Bool),
      (∀ k, (∀ j ∈ l, (base + (j : Int)).toNat ≠ k) →
        (setBits np base l)[k]? = np[k]?) ∧
      (∀ j ∈ l, (base + (j : Int)).toNat < np.length →
        (setBits np base l)[(base + (j : Int)).toNat]? = some true) := by
  unfold setBits
  induction l with
  | nil =>
    intro np
    exact ⟨fun _ _ => rfl, fun j hj => absurd hj (List.not_mem_nil _)⟩
  | cons x xs ih =>
    intro np
    obtain ⟨ih1, ih2⟩ := ih (np.set (base + (x : Int)).toNat true)
    refine ⟨fun k hk => ?_, fun j hj hlt => ?_⟩
    · rw [List.foldl_cons, ih1 k (fun j hj => hk j (List.mem_cons_of_mem _ hj)),
        List.getElem?_set_ne (hk x (List.mem_cons_self _ _))]
    · rw [List.foldl_cons]
      by_cases hmem : j ∈ xs
      · exact ih2 j hmem (by simpa using hlt)
      · rcases List.mem_cons.mp hj with hj | hj
        · by_cases hk : ∀ j' ∈ xs, (base + (j' : Int)).toNat ≠ (base + (j : Int)).toNat
          · rw [ih1 _ hk, hj, List.getElem?_set_eq_of_lt]
            rw [← hj]
            exact hlt
          · push_neg at hk
            obtain ⟨j', hj', he⟩ := hk
            rw [← he]
            exact ih2 j' hj' (by rw [he]; simpa using hlt)
        · exact absurd hj hmem

/-- The apply of a line whose assertions hold (lines 785-828), in closed form. -/
theorem applyLine_ok (c : Config) (now : Nat) (s : State) (bi : Int) (blk : Block)
    (base : Int) (hb : s.block? bi = some blk) (hbusy : blk.busyMask = 0)
    (hwb : blk.needsWB = true) (hlen : c.numElementsPerLine ≤ blk.items.length)
    (hbase : getBitIndexBase c blk.addr = .ok base)
    (hrange : ∀ j, j < c.numElementsPerLine →
      (c.preWBApply (blk.items.getD j {})).1 = true →
      0 ≤ base + (j : Int) ∧ (base + (j : Int)).toNat < s.needsPush.length)
    (hm : s.MSHR.length ≤ c.numMSHREntries) :
    applyLine c now s bi blk = .ok
      (if (mshrFind s.MSHR bi).isSome then
        (((appliedState c s bi blk base 0 c.numElementsPerLine).setBlock bi
            { blk with items := appliedItems c blk.items 0 c.numElementsPerLine,
                       needsApply := false, pendingApply := false, pendingWB := true,
                       lastChangedTick := now }).pushMemoryFunction .nextWriteBack bi
          now).scheduleMemoryEvent
       else
        (appliedState c s bi blk base 0 c.numElementsPerLine).setBlock bi
          { blk with items := appliedItems c blk.items 0 c.numElementsPerLine,
                     needsApply := false, pendingApply := false,
                     lastChangedTick := now }) := by
  have hloop := applyLoop_spec c bi base c.numElementsPerLine 0 s blk hb hbase (by omega)
    (fun j _ hj hp => hrange j (by omega) hp)
  have hblkA : (appliedState c s bi blk base 0 c.numElementsPerLine).block? bi =
      some { blk with items := appliedItems c blk.items 0 c.numElementsPerLine } :=
    State.block?_setBlock hb
  have hmA : decide ((appliedState c s bi blk base 0 c.numElementsPerLine).MSHR.length ≤
      c.numMSHREntries) = true := decide_eq_true hm
  unfold applyLine
  simp only [assert, hbusy, beq_self_eq_true, if_true, bind, Except.bind, hloop,
    State.block_of_some 802 hblkA, hwb, hmA, pure, Except.pure]
  by_cases hf : (mshrFind s.MSHR bi).isSome = true
  · have hf1 : (mshrFind (appliedState c s bi blk base 0 c.numElementsPerLine).MSHR
        bi).isSome = true := hf
    rw [if_pos hf, if_pos hf1]
  · have hf1 : ¬ (mshrFind (appliedState c s bi blk base 0 c.numElementsPerLine).MSHR
        bi).isSome = true := hf
    rw [if_neg hf, if_neg hf1]

theorem State.needsPush_scheduleMemoryEvent (s : State) :
    s.scheduleMemoryEvent.needsPush = s.needsPush := by
  unfold State.scheduleMemoryEvent
  split <;> rfl

theorem State.workCount_scheduleMemoryEvent (s : State) :
    s.scheduleMemoryEvent.workCount = s.workCount := by
  unfold State.scheduleMemoryEvent
  split <;> rfl

theorem State.activeBits_scheduleMemoryEvent (s : State) :
    s.scheduleMemoryEvent.activeBits = s.activeBits := by
  unfold State.scheduleMemoryEvent
  split <;> rfl

theorem applyDequeue_keeps (s : State) :
    (applyDequeue s).applyQueue = s.applyQueue.tail ∧
      (∀ j, (applyDequeue s).block? j = s.block? j) ∧
      (applyDequeue s).needsPush = s.needsPush ∧ (applyDequeue s).workCount = s.workCount ∧
      (applyDequeue s).activeBits = s.activeBits ∧ (applyDequeue s).MSHR = s.MSHR ∧
      (applyDequeue s).memoryFunctionQueue = s.memoryFunctionQueue := by
  unfold applyDequeue
  simp only []
  split <;> split <;> exact ⟨rfl, fun _ => rfl, rfl, rfl, rfl, rfl, rfl⟩

theorem mem_applySlots_iff (c : Config) (items : List WorkListItem) (np : List Bool)
    (base : Int) (n j : Nat) :
    j ∈ applySlots c items np base 0 n ↔
      j < n ∧ (c.preWBApply (items.getD j {})).1 = true ∧
        np[(base + (j : Int)).toNat]? = some false := by
  unfold applySlots
  rw [List.mem_filter, List.mem_range'_1]
  simp only [Bool.and_eq_true, beq_iff_eq, Nat.zero_le, true_and, Nat.zero_add,
    List.getD_eq_getElem?_getD]
  have e : np[(base + (j : Int)).toNat]?.getD true = false ↔
      np[(base + (j : Int)).toNat]? = some false := by
    cases np[(base + (j : Int)).toNat]? with
    | none => simp
    | some b => simp
  rw [e]

/-- C32 (pre-writeback apply).  Let the head of the apply queue be line `bi`, which passes
the entry assertions (valid, `needsApply`, not `pendingData`, not `pendingWB`) and has
`pendingApply` set, no busy slot and `needsWB` set (the two assertions of the apply, lines
785 and 802); let the line have its `K` items and bit index base `base`, let the bits of
the slots for which `preWBApply` asks for a push lie inside the work bitvector, and let the
MSHR table be within its size.  Then `processNextPreWBApplyEvent` returns, and with `slots`
the slots `j < K` for which `preWBApply(items[j])` returns true and whose bit `base + j` is
clear: these bits are set and no other bit changes, the work count grows by the number of
these slots, and the indices `base + j` are appended to the active list in slot order;
the line has `needsApply` and `pendingApply` clear, `needsWB` set and `lastChangedTick =
now`; when the line has an MSHR entry `pendingWB` is set and exactly one writeback entry
stamped `now` is appended to the memory-function queue, otherwise the queue is unchanged
and the line is valid and idle; and the apply queue has lost exactly its head. -/
theorem pre_writeback_apply (c : Config) (now : Nat) (s : State) (bi : Int)
    (rest : List Int) (blk : Block) (base : Int) (hq : s.applyQueue = bi :: rest)
    (hb : s.block? bi = some blk) (hv : blk.valid = true) (hna : blk.needsApply = true)
    (hpd : blk.pendingData = false) (hpw : blk.pendingWB = false)
    (hpa : blk.pendingApply = true) (hbusy : blk.busyMask = 0) (hwb : blk.needsWB = true)
    (hlen : c.numElementsPerLine ≤ blk.items.length)
    (hbase : getBitIndexBase c blk.addr = .ok base)
    (hrange : ∀ j, j < c.numElementsPerLine →
      (c.preWBApply (blk.items.getD j {})).1 = true →
      0 ≤ base + (j : Int) ∧ (base + (j : Int)).toNat < s.needsPush.length)
    (hm : s.MSHR.length ≤ c.numMSHREntries) :
    ∃ (s1 : State) (blk1 : Block) (slots : List Nat),
      processNextPreWBApplyEvent c now s = .ok s1 ∧
      (∀ j, j ∈ slots ↔ j < c.numElementsPerLine ∧
        (c.preWBApply (blk.items.getD j {})).1 = true ∧
        s.needsPush[(base + (j : Int)).toNat]? = some false) ∧
      s1.needsPush = setBits s.needsPush base slots ∧
      (∀ j ∈ slots, s1.needsPush[(base + (j : Int)).toNat]? = some true) ∧
      (∀ k, (∀ j ∈ slots, (base + (j : Int)).toNat ≠ k) →
        s1.needsPush[k]? = s.needsPush[k]?) ∧
      s1.workCount = s.workCount + (slots.length : Int) ∧
      s1.activeBits = s.activeBits ++ slots.map (fun (j : Nat) => base + (j : Int)) ∧
      s1.block? bi = some blk1 ∧ blk1.addr = blk.addr ∧ blk1.valid = true ∧
      blk1.busyMask = 0 ∧ blk1.pendingData = false ∧ blk1.needsApply = false ∧
      blk1.pendingApply = false ∧ blk1.needsWB = true ∧ blk1.lastChangedTick = now ∧
      blk1.pendingWB = (mshrFind s.MSHR bi).isSome ∧
      s1.memoryFunctionQueue = s.memoryFunctionQueue ++
        (if (mshrFind s.MSHR bi).isSome then [⟨.nextWriteBack, bi, now⟩] else []) ∧
      (mshrFind s.MSHR bi = none → blk1.idle) ∧
      s1.applyQueue = rest ∧ s1.MSHR = s.MSHR := by
  have hb0 : ({ s with nextPreWBApplyEventScheduled := false } : State).block? bi =
      some blk := hb
  have hh : ({ s with nextPreWBApplyEventScheduled := false } : State).applyQueue.head? =
      some bi := by
    show s.applyQueue.head? = some bi
    rw [hq]
    rfl
  have hline := applyLine_ok c now { s with nextPreWBApplyEventScheduled := false } bi blk
    base hb0 hbusy hwb hlen hbase hrange hm
  have hblkA : (appliedState c { s with nextPreWBApplyEventScheduled := false } bi blk base 0
      c.numElementsPerLine).block? bi =
      some { blk with items := appliedItems c blk.items 0 c.numElementsPerLine } :=
    State.block?_setBlock hb0
  have hbits := setBits_spec base (applySlots c blk.items s.needsPush base 0
    c.numElementsPerLine) s.needsPush
  have hset : ∀ j ∈ applySlots c blk.items s.needsPush base 0 c.numElementsPerLine,
      (setBits s.needsPush base (applySlots c blk.items s.needsPush base 0
        c.numElementsPerLine))[(base + (j : Int)).toNat]? = some true := by
    intro j hj
    refine hbits.2 j hj ?_
    have := ((mem_applySlots_iff c blk.items s.needsPush base _ j).mp hj).2.2
    exact (List.getElem?_eq_some_iff.mp this).1
  have a1 : assert blk.valid 779 = .ok () := by rw [hv]; rfl
  have a2 : assert blk.needsApply 780 = .ok () := by rw [hna]; rfl
  have a3 : assert (!blk.pendingData) 781 = .ok () := by rw [hpd]; rfl
  have a4 : assert (!blk.pendingWB) 782 = .ok () := by rw [hpw]; rfl
  unfold processNextPreWBApplyEvent
  simp only [hh, State.block_of_some 779 hb0, bind, Except.bind, a1, a2, a3, a4, hpa,
    if_true, hline, pure, Except.pure]
  cases hf : mshrFind s.MSHR bi with
  | none =>
    simp only [hf, Option.isSome_none, Bool.false_eq_true, if_false]
    obtain ⟨k1, k2, k3, k4, k5, k6, k7⟩ := applyDequeue_keeps
      ((appliedState c { s with nextPreWBApplyEventScheduled := false } bi blk base 0
          c.numElementsPerLine).setBlock bi
        { blk with items := appliedItems c blk.items 0 c.numElementsPerLine,
                   needsApply := false, pendingApply := false,
                   lastChangedTick := now })
    refine ⟨applyDequeue
      ((appliedState c { s with nextPreWBApplyEventScheduled := false } bi blk base 0
          c.numElementsPerLine).setBlock bi
        { blk with items := appliedItems c blk.items 0 c.numElementsPerLine,
                   needsApply := false, pendingApply := false,
                   lastChangedTick := now }),
      { blk with items := appliedItems c blk.items 0 c.numElementsPerLine,
                 needsApply := false, pendingApply := false, lastChangedTick := now },
      applySlots c blk.items s.needsPush base 0 c.numElementsPerLine,
      rfl, mem_applySlots_iff c blk.items s.needsPush base _, ?_, ?_, ?_, ?_,
      ?_, ?_, rfl, hv, hbusy, hpd, rfl, rfl, hwb, rfl, hpw, ?_, ?_, ?_, ?_⟩
    · rw [k3]
      rfl
    · rw [k3]
      exact hset
    · rw [k3]
      exact hbits.1
    · rw [k4]
      rfl
    · rw [k5]
      rfl
    · rw [k2]
      exact State.block?_setBlock hblkA
    · rw [k7]
      exact (List.append_nil _).symm
    · intro _
      exact ⟨hv, hbusy, rfl, hpw⟩
    · rw [k1]
      show s.applyQueue.tail = rest
      rw [hq]
      rfl
    · rw [k6]
      rfl
  | some ts =>
    simp only [hf, Option.isSome_some, if_true]
    obtain ⟨k1, k2, k3, k4, k5, k6, k7⟩ := applyDequeue_keeps
      (((appliedState c { s with nextPreWBApplyEventScheduled := false } bi blk base 0
          c.numElementsPerLine).setBlock bi
          { blk with items := appliedItems c blk.items 0 c.numElementsPerLine,
                     needsApply := false, pendingApply := false, pendingWB := true,
                     lastChangedTick := now }).pushMemoryFunction .nextWriteBack bi
        now).scheduleMemoryEvent
    refine ⟨applyDequeue
      (((appliedState c { s with nextPreWBApplyEventScheduled := false } bi blk base 0
          c.numElementsPerLine).setBlock bi
          { blk with items := appliedItems c blk.items 0 c.numElementsPerLine,
                     needsApply := false, pendingApply := false, pendingWB := true,
                     lastChangedTick := now }).pushMemoryFunction .nextWriteBack bi
        now).scheduleMemoryEvent,
      { blk with items := appliedItems c blk.items 0 c.numElementsPerLine,
                 needsApply := false, pendingApply := false, pendingWB := true,
                 lastChangedTick := now },
      applySlots c blk.items s.needsPush base 0 c.numElementsPerLine,
      rfl, mem_applySlots_iff c blk.items s.needsPush base _, ?_, ?_, ?_, ?_,
      ?_, ?_, rfl, hv, hbusy, hpd, rfl, rfl, hwb, rfl, rfl, ?_, ?_, ?_, ?_⟩
    · rw [k3, State.needsPush_scheduleMemoryEvent]
      rfl
    · rw [k3, State.needsPush_scheduleMemoryEvent]
      exact hset
    · rw [k3, State.needsPush_scheduleMemoryEvent]
      exact hbits.1
    · rw [k4, State.workCount_scheduleMemoryEvent]
      rfl
    · rw [k5, State.activeBits_scheduleMemoryEvent]
      rfl
    · rw [k2, State.block?_scheduleMemoryEvent, State.block?_pushMemoryFunction]
      exact State.block?_setBlock hblkA
    · rw [k7, State.memoryFunctionQueue_scheduleMemoryEvent]
      rfl
    · intro h
      cases h
    · rw [k1, State.applyQueue_scheduleMemoryEvent]
      show s.applyQueue.tail = rest
      rw [hq]
      rfl
    · rw [k6, State.MSHR_scheduleMemoryEvent]
      rfl

theorem pre_writeback_apply_witness :
    ∃ (s1 : State) (blk1 : Block),
      processNextPreWBApplyEvent cfgMin 6000 stApplyConflict = .ok s1 ∧
      s1.needsPush[5]? = some true ∧ s1.workCount = 1 ∧ s1.activeBits = [5] ∧
      s1.block? 1 = some blk1 ∧ blk1.needsApply = false ∧ blk1.pendingApply = false ∧
      blk1.needsWB = true ∧ blk1.lastChangedTick = 6000 ∧ blk1.pendingWB = true ∧
      s1.memoryFunctionQueue = [⟨.nextWriteBack, 1, 6000⟩] ∧ s1.applyQueue = [] :=
  match pre_writeback_apply cfgMin 6000 stApplyConflict 1 [] _ 4 rfl rfl rfl rfl rfl rfl rfl
      rfl rfl (by decide) rfl
      (fun j hj _ =>
        ⟨by omega, by
          have h4 : j < 4 := hj
          show (4 + (j : Int)).toNat < 8
          omega⟩)
      (by decide) with
  | ⟨s1, blk1, _, h1, _, _, _, _, _, _, h8, _, _, _, _, h13, h14, h15, h16, h17, h18, _, h20,
      _⟩ =>
    ⟨s1, blk1, h1, by rw [h1.symm.trans rfl |> Except.ok.inj]; rfl,
      by rw [h1.symm.trans rfl |> Except.ok.inj]; rfl,
      by rw [h1.symm.trans rfl |> Except.ok.inj]; rfl,
      h8, h13, h14, h15, h16, h17.trans rfl, h18.trans rfl, h20⟩

/-! ### The two hand-offs of MSHR targets -/

theorem lostBits_small {n : Nat} (h : n < 2 ^ 53) : lostBits n = 0 := by
  unfold lostBits
  rw [List.length_eq_zero, List.filter_eq_nil_iff]
  intro k _
  have : 2 ^ 53 ≤ 2 ^ (53 + k) := Nat.pow_le_pow_right (by decide) (by omega)
  simp only [decide_eq_true_eq, not_le]
  omega

/-- A value below `2 ^ 53` is a `double`. -/
theorem toDouble_exact {n : Nat} (h : n < 2 ^ 53) : toDouble n = n := by
  unfold toDouble
  simp only [lostBits_small h, pow_zero, Nat.div_one, Nat.mod_one, Nat.mul_zero,
    Nat.mul_one]
  rw [if_neg]
  omega

/-- For a target below `2 ^ 53`, line 261 computes the aligned address. -/
theorem alignedMissAddr_exact (c : Config) (t : Nat) (h : t < 2 ^ 53) :
    alignedMissAddr c t = .ok (roundDown t c.peerMemoryAtomSize) := by
  have hq : t / c.peerMemoryAtomSize ≤ t := Nat.div_le_self _ _
  have hm : t / c.peerMemoryAtomSize * c.peerMemoryAtomSize ≤ t := Nat.div_mul_le_self _ _
  have hr : roundDown t c.peerMemoryAtomSize =
      t / c.peerMemoryAtomSize * c.peerMemoryAtomSize := by
    unfold roundDown
    have := Nat.div_add_mod t c.peerMemoryAtomSize
    rw [Nat.mul_comm] at this
    omega
  unfold alignedMissAddr
  by_cases hbig : c.peerMemoryAtomSize < 2 ^ 53
  · simp only [toDouble_exact (lt_of_le_of_lt hq h), toDouble_exact hbig,
      toDouble_exact (lt_of_le_of_lt hm h)]
    rw [if_pos (by omega), hr]
    rfl
  · have hz : t / c.peerMemoryAtomSize = 0 := Nat.div_eq_of_lt (by omega)
    have h0 : toDouble 0 = 0 := toDouble_exact (by decide)
    simp only [hz, h0, Nat.zero_mul]
    rw [if_pos (by decide), hr, hz, Nat.zero_mul]
    rfl

/-- The first loop in closed form, for targets below `2 ^ 53` whose slots hold an item: the
targets of the filled line get their responses, in list order, and their indices are
recorded. -/
theorem serviceTargets_spec (c : Config) (addr : Nat) (items : List WorkListItem) :
    ∀ (ts : List Nat) (i : Nat) (rq : List (Nat × WorkListItem)) (sv : List Nat),
      (∀ t ∈ ts, t < 2 ^ 53) →
      (∀ t ∈ servedTargets c addr ts, wlOffsetOf c t < items.length) →
      serviceTargets c addr items ts i rq sv = .ok
        (rq ++ (servedTargets c addr ts).map
            (fun (t : Nat) => (t, (items[wlOffsetOf c t]?).getD {})),
          sv ++ servedIndices c addr ts i) := by
  intro ts
  induction ts with
  | nil =>
    intro i rq sv _ _
    simp [serviceTargets, servedTargets, servedIndices, pure, Except.pure]
  | cons t ts ih =>
    intro i rq sv hsmall hslots
    have ht : t < 2 ^ 53 := hsmall t (List.mem_cons_self _ _)
    have hsmall1 : ∀ x ∈ ts, x < 2 ^ 53 := fun x hx => hsmall x (List.mem_cons_of_mem _ hx)
    have hle : roundDown t c.peerMemoryAtomSize ≤ t := by
      unfold roundDown
      omega
    have hoff : ((t + 2 ^ 64 - roundDown t c.peerMemoryAtomSize) % 2 ^ 64) /
        sizeofWorkListItem = wlOffsetOf c t := by
      unfold wlOffsetOf
      have e : (t + 2 ^ 64 - roundDown t c.peerMemoryAtomSize) % 2 ^ 64 =
          t - roundDown t c.peerMemoryAtomSize := by omega
      rw [e]
    unfold serviceTargets
    simp only [alignedMissAddr_exact c t ht, bind, Except.bind, hoff]
    by_cases hm : (roundDown t c.peerMemoryAtomSize == addr) = true
    · have hserved : servedTargets c addr (t :: ts) = t :: servedTargets c addr ts := by
        unfold servedTargets
        rw [List.filter_cons, if_pos hm]
      have hidx : servedIndices c addr (t :: ts) i = i :: servedIndices c addr ts (i + 1) := by
        rw [servedIndices, if_pos hm]
      rw [hserved] at hslots
      have hin := hslots t (List.mem_cons_self _ _)
      have hitem : items[wlOffsetOf c t]? = some items[wlOffsetOf c t] :=
        List.getElem?_eq_getElem hin
      simp only [hm, if_true, hitem]
      rw [ih (i + 1) _ _ hsmall1 (fun x hx => hslots x (List.mem_cons_of_mem _ hx)), hserved,
        hidx]
      simp only [List.map_cons, hitem, Option.getD_some, List.append_assoc,
        List.singleton_append]
    · have hserved : servedTargets c addr (t :: ts) = servedTargets c addr ts := by
        unfold servedTargets
        rw [List.filter_cons, if_neg hm]
      have hidx : servedIndices c addr (t :: ts) i = servedIndices c addr ts (i + 1) := by
        rw [servedIndices, if_neg hm]
      rw [hserved] at hslots
      simp only [hm, Bool.false_eq_true, if_false]
      rw [ih (i + 1) _ _ hsmall1 hslots, hserved, hidx]

/-- The second loop in closed form: erasing `servicedIndices[i] - bias` for the recorded
indices leaves the targets of other lines, in their order. -/
theorem eraseServiced_spec (c : Config) (addr : Nat) :
    ∀ (ts kept : List Nat) (i bias : Nat), i = kept.length + bias →
      eraseServiced (servedIndices c addr ts i) bias (kept ++ ts) =
        .ok (kept ++ otherTargets c addr ts) := by
  intro ts
  induction ts with
  | nil =>
    intro kept i bias _
    simp [servedIndices, eraseServiced, otherTargets, pure, Except.pure]
  | cons t ts ih =>
    intro kept i bias hi
    by_cases hm : (roundDown t c.peerMemoryAtomSize == addr) = true
    · have hother : otherTargets c addr (t :: ts) = otherTargets c addr ts := by
        unfold otherTargets
        rw [List.filter_cons, if_neg]
        simp only [bne_iff_ne, ne_eq, not_not]
        exact beq_iff_eq.mp hm
      have herase : (kept ++ t :: ts).eraseIdx (i - bias) = kept ++ ts := by
        have e : i - bias = kept.length := by omega
        rw [e, List.eraseIdx_append_of_length_le (Nat.le_refl _), Nat.sub_self]
        rfl
      rw [servedIndices, if_pos hm, eraseServiced, if_neg, herase, hother]
      · exact ih kept (i + 1) (bias + 1) (by omega)
      · simp only [List.length_append, List.length_cons]
        omega
    · have hother : otherTargets c addr (t :: ts) = t :: otherTargets c addr ts := by
        unfold otherTargets
        rw [List.filter_cons, if_pos]
        simp only [bne_iff_ne, ne_eq]
        intro h
        exact hm (beq_iff_eq.mpr h)
      rw [servedIndices, if_neg hm, hother]
      have hl : i + 1 = (kept ++ [t]).length + bias := by
        rw [List.length_append, List.length_singleton]
        omega
      have e := ih (kept ++ [t]) (i + 1) bias hl
      simp only [List.append_assoc, List.singleton_append] at e
      exact e

/-- Where the two MSHR hand-offs agree.  Let every target of the list be
below `2 ^ 53`, so that the conversion of its line number to `double` by `std::floor` in
`coalesce_engine.cc` is exact, and let the slot of every target of the filled line hold an
item.  Then for every fill address both hand-offs return: the index-bias removal of
`coalesce_engine.cc` and the erase-while-walk of `coalesce_engine_bak.cc` enqueue the same
sequence of responses (the latter stamps each with the tick), one for each target whose
aligned address is the fill address, in list order; and both leave the same target list,
the targets whose aligned address differs from the fill address, in their original
order. -/
theorem handoff_equivalence (c : Config) (now addr : Nat) (ts : List Nat) (blk : Block)
    (rq : List (Nat × WorkListItem × Nat)) (hsmall : ∀ t ∈ ts, t < 2 ^ 53)
    (hslots : ∀ t ∈ servedTargets c addr ts, wlOffsetOf c t < blk.items.length) :
    ∃ (blk1 : Block) (rqB : List (Nat × WorkListItem × Nat))
      (rqS : List (Nat × WorkListItem)),
      fillTargets c now addr ts blk rq = .ok (blk1, rqB, otherTargets c addr ts) ∧
      handOff c addr blk.items ts (rq.map untimed) = .ok (rqS, otherTargets c addr ts) ∧
      rqB.map untimed = rqS ∧
      rqS = rq.map untimed ++
        (ts.filter (fun (t : Nat) => roundDown t c.peerMemoryAtomSize == addr)).map
          (fun (t : Nat) => (t, (blk.items[wlOffsetOf c t]?).getD {})) ∧
      otherTargets c addr ts =
        ts.filter (fun (t : Nat) => roundDown t c.peerMemoryAtomSize != addr) := by
  obtain ⟨r, hr⟩ := fillTargets_ok c now addr ts blk rq hslots
  obtain ⟨_, g2, g3, _⟩ := fillTargets_spec c now addr ts blk rq r hr
  have hS : handOff c addr blk.items ts (rq.map untimed) = .ok
      (rq.map untimed ++ (servedTargets c addr ts).map
          (fun (t : Nat) => (t, (blk.items[wlOffsetOf c t]?).getD {})),
        otherTargets c addr ts) := by
    have e := eraseServiced_spec c addr ts [] 0 0 rfl
    simp only [List.nil_append] at e
    unfold handOff
    simp only [serviceTargets_spec c addr blk.items ts 0 _ _ hsmall hslots, bind, Except.bind,
      List.nil_append, e, pure, Except.pure]
  refine ⟨r.1, r.2.1, _, ?_, hS, ?_, rfl, rfl⟩
  · rw [hr, ← g3]
  · rw [g2]
    unfold responsesOf
    simp only [List.map_append, List.map_map]
    rfl

theorem handoff_equivalence_witness :
    ∃ (blk1 : Block) (rqB : List (Nat × WorkListItem × Nat)),
      fillTargets cfgMin 3000 64 [80, 208, 64] blkBusy [] = .ok (blk1, rqB, [208]) ∧
      handOff cfgMin 64 blkBusy.items [80, 208, 64] [] = .ok (rqB.map untimed, [208]) ∧
      rqB.map untimed =
        [(80, { tempProp := 20, prop := 21 }), (64, { tempProp := 10, prop := 11 })] :=
  match handoff_equivalence cfgMin 3000 64 [80, 208, 64] blkBusy [] (by decide)
      (by decide) with
  | ⟨blk1, rqB, _, h1, h2, h3, h4, _⟩ => ⟨blk1, rqB, h1, h3 ▸ h2, h3.trans h4⟩

/-- C35 (equivalence of the two MSHR hand-offs) for a target whose line number needs more
than 53 bits.  `coalesce_engine.cc` aligns the target through `std::floor` (line 261), that
is through a `double`, where line 73 of the same file and `roundDown` in
`coalesce_engine_bak.cc` align on integers.  The line number of `addrOdd` is `2 ^ 53 + 1`;
`std::floor` makes it `2 ^ 53`, so for the fill of address `addrOdd` the hand-off of
`coalesce_engine.cc` computes the aligned address `2 ^ 59`, serves nothing and keeps the
target, while the hand-off of `coalesce_engine_bak.cc` serves the target and leaves an
empty list. -/
theorem floor_loses_line_number :
    addrOdd < 2 ^ 64 ∧ roundDown addrOdd cfgMin.peerMemoryAtomSize = addrOdd ∧
    alignedMissAddr cfgMin addrOdd = .ok (2 ^ 59) ∧
    (∃ blk1, fillTargets cfgMin 3000 addrOdd [addrOdd] blkBusy [] =
      .ok (blk1, [(addrOdd, { tempProp := 10, prop := 11 }, 3000)], [])) ∧
    handOff cfgMin addrOdd blkBusy.items [addrOdd] [] = .ok ([], [addrOdd]) :=
  ⟨by decide, by decide, rfl, ⟨_, rfl⟩, rfl⟩

/-! ### The generator of edge reads -/

/-- One call of `nextReadPacketInfo` on a well-formed generator that is not done: the
tuple names the packet of `_start`, and its edges are the ones from `_start` to the end of
the packet or of the range, whichever comes first. -/
theorem nextReadPacketInfo_spec (g : EdgeReadInfoGen) (hg : g.wellFormed)
    (hlt : g._start < g._end) :
    ∃ num : Nat,
      g.nextReadPacketInfo = .ok
        ((roundDown g._start g._atom, g._start - roundDown g._start g._atom, (num : Int)),
         { g with _start := roundDown g._start g._atom + g._atom }) ∧
      g._start + num * g._step = min (roundDown g._start g._atom + g._atom) g._end ∧
      g._start - roundDown g._start g._atom + num * g._step ≤ g._atom ∧
      g._start - roundDown g._start g._atom < g._atom ∧
      g._start < roundDown g._start g._atom + g._atom ∧
      ({ g with _start := roundDown g._start g._atom + g._atom } :
        EdgeReadInfoGen).wellFormed := by
  obtain ⟨hpow, hstep, hdiv, hs, he, hint, hwrap⟩ := hg
  have hA := isPowerOf2_pos hpow
  have hmod : g._start % g._atom < g._atom := Nat.mod_lt _ hA
  have hle : g._start % g._atom ≤ g._start := Nat.mod_le _ _
  have ha : roundDown g._start g._atom = g._start - g._start % g._atom := rfl
  have hoff : g._start - roundDown g._start g._atom = g._start % g._atom := by omega
  have hdoff : g._step ∣ g._start % g._atom := (Nat.dvd_mod_iff hdiv).mpr hs
  have hda : g._step ∣ roundDown g._start g._atom := by
    rw [ha]
    exact Nat.dvd_sub' hs hdoff
  have hnd : g.done = false := by
    unfold EdgeReadInfoGen.done
    exact decide_eq_false (by omega)
  have hsum : (roundDown g._start g._atom + g._atom) % 2 ^ 64 =
      roundDown g._start g._atom + g._atom := Nat.mod_eq_of_lt (by omega)
  have hdiff : (g._atom + 2 ^ 64 - (g._start - roundDown g._start g._atom)) % 2 ^ 64 =
      g._atom - g._start % g._atom := by
    rw [hoff]
    omega
  have hwf : ({ g with _start := roundDown g._start g._atom + g._atom } :
      EdgeReadInfoGen).wellFormed :=
    ⟨hpow, hstep, hdiv, Nat.dvd_add hda hdiv, he, hint, hwrap⟩
  have hs0 : ¬ g._step = 0 := by omega
  unfold EdgeReadInfoGen.nextReadPacketInfo
  simp only [hnd, Bool.not_false, assert, if_true, bind, Except.bind, hsum, hdiff, hs0,
    if_false, pure, Except.pure]
  by_cases hfar : g._end > roundDown g._start g._atom + g._atom
  · have hmul : (g._atom - g._start % g._atom) / g._step * g._step =
        g._atom - g._start % g._atom := Nat.div_mul_cancel (Nat.dvd_sub' hdiv hdoff)
    have hsmall : (g._atom - g._start % g._atom) / g._step < 2 ^ 31 :=
      lt_of_le_of_lt (Nat.div_le_div_right (Nat.sub_le _ _)) hint
    refine ⟨(g._atom - g._start % g._atom) / g._step, ?_, ?_, ?_, ?_, ?_, hwf⟩
    · simp only [hfar, if_true, toInt32_of_lt hsmall]
    · rw [hmul, Nat.min_eq_left (by omega)]
      omega
    · rw [hmul]
      omega
    · omega
    · omega
  · have hmul : (g._end - g._start) / g._step * g._step = g._end - g._start :=
      Nat.div_mul_cancel (Nat.dvd_sub' he hs)
    have hsmall : (g._end - g._start) / g._step < 2 ^ 31 :=
      lt_of_le_of_lt (Nat.div_le_div_right (by omega)) hint
    refine ⟨(g._end - g._start) / g._step, ?_, ?_, ?_, ?_, ?_, hwf⟩
    · simp only [hfar, if_false, toInt32_of_lt hsmall]
    · rw [hmul, Nat.min_eq_right (by omega)]
      omega
    · rw [hmul]
      omega
    · omega
    · omega

theorem roundDown_aligned_add (a L : Nat) (hL : 0 < L) (h : a % L = 0) :
    roundDown (a + L) L = a + L := by
  unfold roundDown
  have : (a + L) % L = 0 := by
    rw [Nat.add_mod_right]
    exact h
  omega

/-- The calls of `nextReadPacketInfo` on a well-formed generator that is not done: after
`n + 1` calls, and not before, the generator is done; the packets are consecutive, and the
edges they name add up to the range. -/
theorem nextReadPacketInfos_spec :
    ∀ (m : Nat) (g : EdgeReadInfoGen), g.wellFormed → g._start < g._end →
      g._end - g._start ≤ m →
      ∃ (n : Nat) (rs : List ((Nat × Nat × Int) × EdgeReadInfoGen)) (nums : List Nat),
        nextReadPacketInfos (n + 1) g = .ok rs ∧
        rs.map (fun r => r.1.1) =
          (List.range (n + 1)).map (fun k => roundDown g._start g._atom + k * g._atom) ∧
        rs.map (fun r => r.2._start) =
          (List.range (n + 1)).map
            (fun k => roundDown g._start g._atom + (k + 1) * g._atom) ∧
        rs.map (fun r => r.1.2.2) = nums.map (fun (x : Nat) => (x : Int)) ∧
        nums.sum * g._step = g._end - g._start ∧
        (∀ r ∈ rs, r.1.1 % g._atom = 0 ∧ r.1.2.1 < g._atom ∧ 0 ≤ r.1.2.2 ∧
          (r.1.2.1 : Int) + r.1.2.2 * (g._step : Int) ≤ (g._atom : Int) ∧
          r.2._end = g._end) ∧
        roundDown g._start g._atom + n * g._atom < g._end ∧
        g._end ≤ roundDown g._start g._atom + (n + 1) * g._atom := by
  intro m
  induction m with
  | zero =>
    intro g _ hlt hm
    omega
  | succ m ih =>
    intro g hg hlt hm
    have hA := isPowerOf2_pos hg.1
    obtain ⟨num, hcall, hcover, hfit, hoff, hadv, hwf⟩ := nextReadPacketInfo_spec g hg hlt
    have hal : roundDown g._start g._atom % g._atom = 0 := roundDown_mod _ _
    have hle : roundDown g._start g._atom ≤ g._start := by
      unfold roundDown
      omega
    have hr0 : roundDown g._start g._atom % g._atom = 0 ∧
        g._start - roundDown g._start g._atom < g._atom ∧ (0 : Int) ≤ (num : Int) ∧
        ((g._start - roundDown g._start g._atom : Nat) : Int) + (num : Int) * (g._step : Int) ≤
          (g._atom : Int) ∧ g._end = g._end := by
      refine ⟨hal, hoff, Int.ofNat_nonneg _, ?_, rfl⟩
      exact_mod_cast hfit
    by_cases hfar : roundDown g._start g._atom + g._atom < g._end
    · have hlt1 : ({ g with _start := roundDown g._start g._atom + g._atom } :
          EdgeReadInfoGen)._start < g._end := hfar
      have hm1 : g._end - (roundDown g._start g._atom + g._atom) ≤ m := by omega
      obtain ⟨n, rs, nums, h1, h2, h3, h4, h5, h6, h7, h8⟩ := ih _ hwf hlt1 hm1
      have ha1 : roundDown (roundDown g._start g._atom + g._atom) g._atom =
          roundDown g._start g._atom + g._atom := roundDown_aligned_add _ _ hA hal
      simp only [ha1] at h2 h3 h7 h8
      have emul : ∀ k : Nat, roundDown g._start g._atom + g._atom + k * g._atom =
          roundDown g._start g._atom + (k + 1) * g._atom := by
        intro k
        rw [Nat.succ_mul]
        omega
      refine ⟨n + 1,
        ((roundDown g._start g._atom, g._start - roundDown g._start g._atom, (num : Int)),
          ({ g with _start := roundDown g._start g._atom + g._atom } : EdgeReadInfoGen)) :: rs,
        num :: nums, ?_, ?_, ?_, ?_, ?_, ?_, ?_, ?_⟩
      · rw [nextReadPacketInfos]
        simp only [hcall, bind, Except.bind, h1, pure, Except.pure]
      · rw [List.range_succ_eq_map, List.map_cons, List.map_cons, List.map_map, h2]
        simp only [Nat.zero_mul, Nat.add_zero, List.cons.injEq, true_and]
        apply List.map_congr_left
        intro k _
        exact emul k
      · rw [List.range_succ_eq_map, List.map_cons, List.map_cons, List.map_map, h3]
        simp only [Nat.zero_add, Nat.one_mul, List.cons.injEq, true_and]
        apply List.map_congr_left
        intro k _
        exact emul (k + 1)
      · rw [List.map_cons, List.map_cons, h4]
      · rw [List.sum_cons, Nat.add_mul, h5]
        rw [Nat.min_eq_left (by omega)] at hcover
        show num * g._step + (g._end - (roundDown g._start g._atom + g._atom)) = _
        omega
      · intro r hr
        rcases List.mem_cons.mp hr with hr | hr
        · rw [hr]
          exact hr0
        · exact h6 r hr
      · rw [← emul n]
        exact h7
      · rw [← emul (n + 1)]
        exact h8
    · refine ⟨0,
        [((roundDown g._start g._atom, g._start - roundDown g._start g._atom, (num : Int)),
          ({ g with _start := roundDown g._start g._atom + g._atom } : EdgeReadInfoGen))],
        [num], ?_, ?_, ?_, ?_, ?_, ?_, ?_, ?_⟩
      · rw [nextReadPacketInfos]
        simp only [hcall, bind, Except.bind, nextReadPacketInfos, pure, Except.pure]
      · simp [List.range_succ]
      · simp [List.range_succ]
      · simp
      · rw [Nat.min_eq_right (by omega)] at hcover
        simp only [List.sum_cons, List.sum_nil, Nat.add_zero]
        omega
      · intro r hr
        rw [List.mem_singleton] at hr
        rw [hr]
        exact hr0
      · omega
      · omega

/-- C40 (edge-read generation covers the edge range exactly), amended.  Let the generator
have `_start < _end`, a `_step > 0` that divides `_atom`, and `_start` and `_end` multiples
of `_step`; let moreover `_atom` be a power of two, as `roundDown` requires, let a packet
hold fewer than `2 ^ 31` edges, so that `int num_items` holds the count, and let the range
end at least one packet below `2 ^ 64`, so that `aligned_addr + _atom` does not wrap.
Then calling `nextReadPacketInfo` until `done()` terminates after `n ≥ 1` calls: the
generator is done after the last call and not after an earlier one; call `k` returns
`aligned_addr = roundDown(_start, _atom) + k * _atom`, a multiple of `_atom`, with
`offset < _atom`, `num_items ≥ 0` and `offset + num_items * _step ≤ _atom`, and leaves the
internal `_start` at the next packet, above where it was; and the `num_items` add up to
`(_end - _start) / _step`. -/
theorem edge_reads_cover_range (g : EdgeReadInfoGen) (hpow : isPowerOf2 g._atom = true)
    (hstep : 0 < g._step) (hdiv : g._step ∣ g._atom) (hs : g._step ∣ g._start)
    (he : g._step ∣ g._end) (hint : g._atom / g._step < 2 ^ 31)
    (hwrap : g._end + g._atom ≤ 2 ^ 64) (hlt : g._start < g._end) :
    ∃ (n : Nat) (rs : List ((Nat × Nat × Int) × EdgeReadInfoGen)),
      0 < n ∧ nextReadPacketInfos n g = .ok rs ∧ rs.length = n ∧
      (∀ k r, rs[k]? = some r →
        r.1.1 = roundDown g._start g._atom + k * g._atom ∧ r.1.1 % g._atom = 0 ∧
        r.1.2.1 < g._atom ∧ 0 ≤ r.1.2.2 ∧
        (r.1.2.1 : Int) + r.1.2.2 * (g._step : Int) ≤ (g._atom : Int) ∧
        r.2._start = roundDown g._start g._atom + (k + 1) * g._atom ∧
        (r.2.done = true ↔ k + 1 = n)) ∧
      g._start < roundDown g._start g._atom + g._atom ∧
      (∀ k r r1, rs[k]? = some r → rs[k + 1]? = some r1 →
        r.1.1 < r1.1.1 ∧ r.2._start < r1.2._start) ∧
      (rs.map (fun r => r.1.2.2)).sum = (((g._end - g._start) / g._step : Nat) : Int) := by
  have hg : g.wellFormed := ⟨hpow, hstep, hdiv, hs, he, hint, hwrap⟩
  have hA := isPowerOf2_pos hpow
  obtain ⟨n, rs, nums, h1, h2, h3, h4, h5, h6, h7, h8⟩ :=
    nextReadPacketInfos_spec (g._end - g._start) g hg hlt (Nat.le_refl _)
  have hlen : rs.length = n + 1 := by
    have := congrArg List.length h2
    simpa using this
  have hat : ∀ k r, rs[k]? = some r → k < n + 1 ∧
      r.1.1 = roundDown g._start g._atom + k * g._atom ∧
      r.2._start = roundDown g._start g._atom + (k + 1) * g._atom := by
    intro k r hk
    have hkl : k < n + 1 := by
      rw [← hlen]
      exact (List.getElem?_eq_some_iff.mp hk).1
    have e1 : (rs.map (fun r => r.1.1))[k]? = some r.1.1 := by
      rw [List.getElem?_map, hk]
      rfl
    have e2 : (rs.map (fun r => r.2._start))[k]? = some r.2._start := by
      rw [List.getElem?_map, hk]
      rfl
    rw [h2, List.getElem?_map, List.getElem?_range hkl] at e1
    rw [h3, List.getElem?_map, List.getElem?_range hkl] at e2
    simp only [Option.map_some', Option.some.injEq] at e1 e2
    exact ⟨hkl, e1.symm, e2.symm⟩
  refine ⟨n + 1, rs, Nat.succ_pos _, h1, hlen, ?_, ?_, ?_, ?_⟩
  · intro k r hk
    obtain ⟨hkl, e1, e2⟩ := hat k r hk
    obtain ⟨m1, m2, m3, m4, m5⟩ := h6 r (List.mem_iff_getElem?.mpr ⟨k, hk⟩)
    refine ⟨e1, m1, m2, m3, m4, e2, ?_⟩
    unfold EdgeReadInfoGen.done
    rw [decide_eq_true_iff, m5, e2]
    constructor
    · intro hd
      by_contra hne
      have hkn : k + 1 ≤ n := by omega
      have := Nat.mul_le_mul_right g._atom hkn
      omega
    · intro hk1
      have hkn : k = n := by omega
      rw [hkn]
      exact h8
  · unfold roundDown
    have := Nat.mod_lt g._start hA
    have := Nat.mod_le g._start g._atom
    omega
  · intro k r r1 hk hk1
    obtain ⟨_, e1, e2⟩ := hat k r hk
    obtain ⟨_, f1, f2⟩ := hat (k + 1) r1 hk1
    rw [e1, e2, f1, f2, Nat.succ_mul k, Nat.succ_mul (k + 1), Nat.succ_mul k]
    omega
  · rw [h4, ← Nat.cast_list_sum]
    have : (g._end - g._start) / g._step = nums.sum :=
      Nat.div_eq_of_eq_mul_left hstep h5.symm
    rw [this]

theorem edge_reads_cover_range_witness :
    ∃ (n : Nat) (rs : List ((Nat × Nat × Int) × EdgeReadInfoGen)),
      0 < n ∧ nextReadPacketInfos n genNine = .ok rs ∧ rs.length = n ∧
      (rs.map (fun r => r.1.2.2)).sum = 9 :=
  match edge_reads_cover_range genNine (by decide) (by decide) (by decide) (by decide)
      (by decide) (by decide) (by decide) (by decide) with
  | ⟨n, rs, h0, h1, h2, _, _, _, h6⟩ => ⟨n, rs, h0, h1, h2, h6.trans rfl⟩

/-- C40 as stated fails at the top of the address space.  The generator `genTop` has three
edges in the last packet; its step divides the atom and its range starts and ends on an
edge.  The sum `aligned_addr + _atom` wraps to 0, so the first call returns four edges
and leaves `_start` at 0, below where it was, and the generator is not done; the three
first three calls return twelve edges. -/
theorem last_packet_wraps :
    genTop._start < genTop._end ∧ 0 < genTop._step ∧ genTop._step ∣ genTop._atom ∧
    genTop._step ∣ genTop._start ∧ genTop._step ∣ genTop._end ∧
    genTop._end < 2 ^ 64 ∧ (genTop._end - genTop._start) / genTop._step = 3 ∧
    genTop.nextReadPacketInfo =
      .ok ((2 ^ 64 - 64, 0, 4), { genTop with _start := 0 }) ∧
    ({ genTop with _start := 0 } : EdgeReadInfoGen).done = false ∧
    nextReadPacketInfos 3 genTop =
      .ok [((2 ^ 64 - 64, 0, 4), { genTop with _start := 0 }),
           ((0, 0, 4), { genTop with _start := 64 }),
           ((64, 0, 4), { genTop with _start := 128 })] :=
  ⟨by decide, by decide, by decide, by decide, by decide, by decide, by decide, rfl, rfl,
    rfl⟩

/-! ### The post-push writeback queue and its entries of the memory-function queue -/

theorem State.memoryFunctionQueue_scheduleResponseEvent (s : State) :
    s.scheduleResponseEvent.memoryFunctionQueue = s.memoryFunctionQueue := by
  unfold State.scheduleResponseEvent
  split <;> rfl

theorem State.postPushWBQueue_scheduleResponseEvent (s : State) :
    s.scheduleResponseEvent.postPushWBQueue = s.postPushWBQueue := by
  unfold State.scheduleResponseEvent
  split <;> rfl

/-- C24 (pull selection with no serviceable vertex) on a cold cache.  After `opsActiveZero`
on the freshly constructed cache of `cfgFold`, the active list is `[0]`, no pull read is in
flight and line 0 is neither valid nor pending data: vertex 0 is in memory only, and a pull
read would serve it.  `getOptimalPullAddr` examines the one entry, rotates it and returns
`GARBAGE` with the active list as it was, because the `addr` field of the cold slot is 0,
the address of the line (the test of line 1085).  On the same cold cache with vertex 4
active instead (line address 64, whose slot also holds `addr` 0), the search returns
`(IN_MEMORY, 64, 0)` and removes the entry. -/
theorem garbage_with_vertex_in_memory :
    ∃ s0 blk s4 blk4, CoalesceEngine cfgFold = .ok s0 ∧
      run cfgFold s0 opsActiveZero = .ok stActiveZero ∧
      stActiveZero.activeBits = [0] ∧
      pullFind stActiveZero.pendingVertexPullReads 0 = none ∧
      stActiveZero.block? 0 = some blk ∧ blk.valid = false ∧ blk.pendingData = false ∧
      getBlockAddrFromBitIndex cfgFold 0 = .ok 0 ∧
      getOptimalPullAddr cfgFold stActiveZero = .ok ((.GARBAGE, 0, 0), stActiveZero) ∧
      run cfgFold s0 opsActiveFour = .ok s4 ∧ s4.activeBits = [4] ∧
      pullFind s4.pendingVertexPullReads 64 = none ∧
      s4.block? 1 = some blk4 ∧ blk4.valid = false ∧ blk4.pendingData = false ∧
      getBlockAddrFromBitIndex cfgFold 4 = .ok 64 ∧
      getOptimalPullAddr cfgFold s4 = .ok ((.IN_MEMORY, 64, 0), { s4 with activeBits := [] }) :=
  ⟨_, _, _, _, rfl, rfl, rfl, rfl, rfl, rfl, rfl, rfl, rfl, rfl, rfl, rfl, rfl, rfl, rfl, rfl,
    rfl⟩

end gem5
